import Mathlib

/-!
Explicit free-list allocator (`src/explicit.c`)

A shallow embedding of the allocator of `src/explicit.c` and a verification
development over it.

Machine model.  The C file is written for an LP64 little-endian target: the
boundary tags are `uint32_t` words and the two free-list links of
`struct freelist` are 8-byte pointers (`prev` at offset 0, `next` at offset 8),
which is where `MINIMUM = 24 = OVERHEAD + 2 * 8` comes from.  Memory is a flat
array of bytes indexed by natural-number addresses; a 32-bit load or store
touches 4 consecutive bytes and a pointer load or store touches 8.  Unsigned
32-bit arithmetic is written with an explicit `% 2 ^ 32`.

Memory is total: a load or store at an address outside the backing store is an
ordinary access here, where the C program may fault.  The theorems about
reachable states keep every access inside the arena.

Stateful code is embedded as explicit state passing over `State`, which holds
the memory, the break of the backing store and the two globals `start` and
`firstfree`.  The counters `mallc` and `freec` are written but never read by
the allocator and are left out.
-/

namespace MallocLab

/-! ## Constants -/

/-- Word size in bytes (`#define WSIZE 4`). -/
def WSIZE : Nat := 4

/-- Double-word size in bytes (`#define DSIZE 8`). -/
def DSIZE : Nat := 8

/-- Default growth of the arena in bytes (`#define CHUNKSIZE (1<<12)`). -/
def CHUNKSIZE : Nat := 4096

/-- Bytes of header plus footer (`#define OVERHEAD 8`). -/
def OVERHEAD : Nat := 8

/-- Minimum block size (`#define MINIMUM 24`). -/
def MINIMUM : Nat := 24

/-! ## Memory -/

/-- Byte-addressed memory: the byte stored at every address. -/
abbrev Mem := Nat → Nat

/-- Load of one byte. -/
def load8 (m : Mem) (p : Nat) : Nat := m p % 256

/-- Store of one byte. -/
def store8 (m : Mem) (p v : Nat) : Mem := fun a => if a = p then v % 256 else m a

/-- `GET`: little-endian load of the `uint32_t` at address `p`. -/
def GET (m : Mem) (p : Nat) : Nat :=
  load8 m p + 256 * load8 m (p + 1) + 65536 * load8 m (p + 2) + 16777216 * load8 m (p + 3)

/-- `PUT`: little-endian store of the `uint32_t` value `val` at address `p`. -/
def PUT (m : Mem) (p val : Nat) : Mem := fun a =>
  if a = p then val % 256
  else if a = p + 1 then val / 256 % 256
  else if a = p + 2 then val / 65536 % 256
  else if a = p + 3 then val / 16777216 % 256
  else m a

/-- Load of an 8-byte pointer stored at address `p`, as two little-endian words. -/
def loadPtr (m : Mem) (p : Nat) : Nat := GET m p + 4294967296 * GET m (p + 4)

/-- Store of an 8-byte pointer `v` at address `p`, as two little-endian words. -/
def storePtr (m : Mem) (p v : Nat) : Mem := PUT (PUT m p v) (p + 4) (v / 4294967296)

/-- Reading of a `uint32_t` as a C `int` (two's complement). -/
def toInt32 (x : Nat) : Int :=
  if x % 2 ^ 32 < 2 ^ 31 then ((x % 2 ^ 32 : Nat) : Int) else ((x % 2 ^ 32 : Nat) : Int) - 2 ^ 32

/-- `MAX` on C `int`s. -/
def MAX (x y : Int) : Int := if x > y then x else y

/-- `PACK`: `size | (alloc & 0x1)` on a `uint32_t` size. -/
def PACK (size alloc : Nat) : Nat := (size % 2 ^ 32) ||| (alloc &&& 1)

/-- `GET_SIZE`: the word at `p` with its low three bits cleared. -/
def GET_SIZE (m : Mem) (p : Nat) : Nat := GET m p - GET m p % 8

/-- `GET_ALLOC`: the lowest bit of the word at `p`. -/
def GET_ALLOC (m : Mem) (p : Nat) : Nat := GET m p % 2

/-- `HDRP`: address of the header of the block at `bp`. -/
def HDRP (bp : Nat) : Nat := bp - WSIZE

/-- `FTRP`: address of the footer of the block at `bp`, from the size in its header. -/
def FTRP (m : Mem) (bp : Nat) : Nat := bp + GET_SIZE m (HDRP bp) - DSIZE

/-- `NEXT_BLKP`: the block after `bp`, from the size in the header of `bp`. -/
def NEXT_BLKP (m : Mem) (bp : Nat) : Nat := bp + GET_SIZE m (bp - WSIZE)

/-- `PREV_BLKP`: the block before `bp`, from the size in the footer before `bp`. -/
def PREV_BLKP (m : Mem) (bp : Nat) : Nat := bp - GET_SIZE m (bp - DSIZE)

/-- The field `bp->prev` of `struct freelist` (offset 0). -/
def getPrev (m : Mem) (bp : Nat) : Nat := loadPtr m bp

/-- The field `bp->next` of `struct freelist` (offset 8). -/
def getNext (m : Mem) (bp : Nat) : Nat := loadPtr m (bp + 8)

/-- Assignment `bp->prev = v`. -/
def setPrev (m : Mem) (bp v : Nat) : Mem := storePtr m bp v

/-- Assignment `bp->next = v`. -/
def setNext (m : Mem) (bp v : Nat) : Mem := storePtr m (bp + 8) v

/-! ## State -/

/-- The allocator state: memory, the backing store's break and limit, and the
globals `start` and `firstfree`. -/
structure State where
  /-- The bytes of memory. -/
  mem : Mem
  /-- The current break: first address past the arena. -/
  mem_brk : Nat
  /-- The backing store's limit: the break never passes it. -/
  mem_max_addr : Nat
  /-- The global `start`. -/
  start : Nat
  /-- The global `firstfree`, head of the free list (0 is `NULL`). -/
  firstfree : Nat

/-- Modelled from the spec: the backing-store primitive `grow(bytes)` (`mem_sbrk`
of `memlib`, which is not among the sources).  It hands back the old break and
moves the break up by `incr` bytes, or fails (`none`, the C `(void *)-1`) when
the store cannot supply that many bytes. -/
def mem_sbrk (s : State) (incr : Nat) : Option (State × Nat) :=
  if s.mem_brk + incr ≤ s.mem_max_addr then
    some ({ s with mem_brk := s.mem_brk + incr }, s.mem_brk)
  else none

/-! ## Free list -/

/-- `remove_from_free`. -/
def remove_from_free (s : State) (bp : Nat) : State :=
  if GET_SIZE s.mem (HDRP bp) = 0 then
    { s with mem := PUT s.mem (HDRP bp) (PACK 0 1) }
  else if getNext s.mem bp = 0 ∧ getPrev s.mem bp = 0 then
    { s with firstfree := 0 }
  else if getPrev s.mem bp = 0 ∧ getNext s.mem bp ≠ 0 then
    let ff := getNext s.mem bp
    { s with firstfree := ff, mem := setPrev s.mem ff 0 }
  else if getPrev s.mem bp ≠ 0 ∧ getNext s.mem bp = 0 then
    { s with mem := setNext s.mem (getPrev s.mem bp) 0 }
  else if getPrev s.mem bp ≠ 0 ∧ getNext s.mem bp ≠ 0 then
    let m1 := setNext s.mem (getPrev s.mem bp) (getNext s.mem bp)
    let m2 := setPrev m1 (getNext m1 bp) (getPrev m1 bp)
    let m3 := setPrev m2 bp 0
    let m4 := setNext m3 bp 0
    { s with mem := m4 }
  else s

/-- `insert_to_free`. -/
def insert_to_free (s : State) (bp : Nat) : State :=
  if GET_ALLOC s.mem (HDRP bp) ≠ 0 then s
  else if s.firstfree = 0 then
    let m1 := setNext s.mem bp 0
    let m2 := setPrev m1 bp 0
    { s with firstfree := bp, mem := m2 }
  else
    let m1 := setPrev s.mem bp (getPrev s.mem s.firstfree)
    let m2 := setNext m1 bp s.firstfree
    let m3 := setPrev m2 s.firstfree bp
    { s with firstfree := bp, mem := m3 }

/-! ## Placement engine -/

/-- The loop of `find_fit`, from the list node `bp` on; `fuel` bounds the number
of nodes visited, and `none` means the bound was reached before the loop ended. -/
def find_fit_loop (m : Mem) (asize : Nat) : Nat → Nat → Option Nat
  | 0, _ => none
  | fuel + 1, bp =>
    if bp = 0 then some 0
    else if GET_ALLOC m (HDRP bp) = 0 ∧ GET_SIZE m (HDRP bp) ≥ asize then some bp
    else find_fit_loop m asize fuel (getNext m bp)

/-- `find_fit`: first-fit scan of the free list (0 is `NULL`). -/
def find_fit (fuel : Nat) (s : State) (asize : Nat) : Option Nat :=
  find_fit_loop s.mem asize fuel s.firstfree

/-- `place`. -/
def place (s : State) (bp asize : Nat) : State :=
  let csize := GET_SIZE s.mem (HDRP bp)
  if (csize + 2 ^ 32 - asize) % 2 ^ 32 ≥ MINIMUM then
    let m1 := PUT s.mem (HDRP bp) (PACK asize 1)
    let m2 := PUT m1 (FTRP m1 bp) (PACK asize 1)
    let s1 := remove_from_free { s with mem := m2 } bp
    let bp2 := NEXT_BLKP s1.mem bp
    let m3 := PUT s1.mem (HDRP bp2) (PACK ((csize + 2 ^ 32 - asize) % 2 ^ 32) 0)
    let m4 := PUT m3 (FTRP m3 bp2) (PACK ((csize + 2 ^ 32 - asize) % 2 ^ 32) 0)
    insert_to_free { s1 with mem := m4 } bp2
  else
    let m1 := PUT s.mem (HDRP bp) (PACK csize 1)
    let m2 := PUT m1 (FTRP m1 bp) (PACK csize 1)
    remove_from_free { s with mem := m2 } bp

/-- `coalesce`: returns the new state and the pointer to the coalesced block. -/
def coalesce (s : State) (bp : Nat) : State × Nat :=
  let prev_alloc := GET_ALLOC s.mem (FTRP s.mem (PREV_BLKP s.mem bp))
  let next_alloc := GET_ALLOC s.mem (HDRP (NEXT_BLKP s.mem bp))
  let size := GET_SIZE s.mem (HDRP bp)
  if prev_alloc ≠ 0 ∧ next_alloc ≠ 0 then
    (insert_to_free s bp, bp)
  else if prev_alloc ≠ 0 ∧ next_alloc = 0 then
    let size := size + GET_SIZE s.mem (HDRP (NEXT_BLKP s.mem bp))
    let s1 := remove_from_free s (NEXT_BLKP s.mem bp)
    let m1 := PUT s1.mem (HDRP bp) (PACK size 0)
    let m2 := PUT m1 (FTRP m1 bp) (PACK size 0)
    (insert_to_free { s1 with mem := m2 } bp, bp)
  else if prev_alloc = 0 ∧ next_alloc ≠ 0 then
    let size := size + GET_SIZE s.mem (HDRP (PREV_BLKP s.mem bp))
    let bp := PREV_BLKP s.mem bp
    let m1 := PUT s.mem (HDRP bp) (PACK size 0)
    let m2 := PUT m1 (FTRP m1 bp) (PACK size 0)
    ({ s with mem := m2 }, bp)
  else
    let size := size + GET_SIZE s.mem (HDRP (PREV_BLKP s.mem bp))
      + GET_SIZE s.mem (FTRP s.mem (NEXT_BLKP s.mem bp))
    let s1 := remove_from_free s (NEXT_BLKP s.mem bp)
    let s2 := remove_from_free s1 (PREV_BLKP s1.mem bp)
    let bp := PREV_BLKP s2.mem bp
    let s3 := insert_to_free s2 bp
    let m1 := PUT s3.mem (HDRP bp) (PACK size 0)
    let m2 := PUT m1 (FTRP m1 bp) (PACK size 0)
    ({ s3 with mem := m2 }, bp)

/-! ## Arena manager -/

/-- The number of bytes `extend_heap words` asks the backing store for. -/
def extend_size (words : Nat) : Nat :=
  if words % 2 ≠ 0 then (words + 1) * WSIZE % 2 ^ 32 else words * WSIZE % 2 ^ 32

/-- `extend_heap`: returns the new state and the block pointer (0 is `NULL`). -/
def extend_heap (s : State) (words : Nat) : State × Nat :=
  let size := extend_size words
  match mem_sbrk s size with
  | none => (s, 0)
  | some (s1, bp) =>
    let m1 := PUT s1.mem (HDRP bp) (PACK size 0)
    let m2 := PUT m1 (FTRP m1 bp) (PACK size 0)
    let m3 := PUT m2 (HDRP (NEXT_BLKP m2 bp)) (PACK 0 1)
    coalesce { s1 with mem := m3 } bp

/-- `mm_init`: returns the new state and the C return value (0 or -1). -/
def mm_init (s : State) : State × Int :=
  let s0 := { s with firstfree := 0 }
  match mem_sbrk s0 (4 * WSIZE) with
  | none => ({ s0 with start := 2 ^ 64 - 1 }, -1)
  | some (s1, p) =>
    let m1 := PUT s1.mem p 0
    let m2 := PUT m1 (p + WSIZE) (PACK DSIZE 1)
    let m3 := PUT m2 (p + 2 * WSIZE) (PACK DSIZE 1)
    let m4 := PUT m3 (p + 3 * WSIZE) (PACK 0 1)
    let s2 := { s1 with mem := m4, start := p + 2 * WSIZE }
    let r := extend_heap s2 (CHUNKSIZE / WSIZE)
    if r.2 = 0 then (r.1, -1) else (r.1, 0)

/-! ## Allocation interface -/

/-- The adjusted block size `asize` that `mm_malloc` computes from a request
of `size > 0` bytes, in `uint32_t` arithmetic. -/
def adjust_size (size : Nat) : Nat :=
  let size1 :=
    if size ≤ DSIZE then DSIZE
    else if size % DSIZE ≠ 0 then (size / DSIZE + 1) * DSIZE % 2 ^ 32
    else size
  (size1 + DSIZE) % 2 ^ 32

/-- The number of bytes by which `mm_malloc` extends the arena on a miss:
`MAX(asize, CHUNKSIZE)` on `int`s, stored back into a `uint32_t`. -/
def extendsize (asize : Nat) : Nat :=
  (MAX (toInt32 asize) (CHUNKSIZE : Int)).toNat % 2 ^ 32

/-- `mm_malloc`: returns the new state and the pointer (0 is `NULL`); `none`
when the scan of `find_fit` does not end within `fuel` nodes. -/
def mm_malloc (fuel : Nat) (s : State) (size : Nat) : Option (State × Nat) :=
  if size = 0 then some (s, 0)
  else
    let asize := adjust_size size
    match find_fit fuel s asize with
    | none => none
    | some bp =>
      if bp ≠ 0 then some (place s bp asize, bp)
      else
        let r := extend_heap s (extendsize asize / WSIZE)
        if r.2 = 0 then some (r.1, 0)
        else some (place r.1 r.2 asize, r.2)

/-- `mm_free`. -/
def mm_free (s : State) (bp : Nat) : State :=
  if bp = 0 then s
  else
    let size := GET_SIZE s.mem (HDRP bp)
    let m1 := PUT s.mem (HDRP bp) (PACK size 0)
    let m2 := PUT m1 (FTRP m1 bp) (PACK size 0)
    (coalesce { s with mem := m2 } bp).1

/-- `memcpy(dst, src, n)` for regions that do not overlap. -/
def memcpy (m : Mem) (dst src n : Nat) : Mem := fun a =>
  if dst ≤ a ∧ a < dst + n then m (src + (a - dst)) else m a

/-- The result of `mm_realloc`: either the program was terminated by `exit(1)`
or the call returned a pointer. -/
inductive ReallocResult where
  /-- The internal `mm_malloc` returned `NULL` and the program called `exit(1)`. -/
  | exited (s : State)
  /-- The call returned `p` in state `s`. -/
  | returned (s : State) (p : Nat)

/-- The number of bytes `mm_realloc` copies: the size in the header of the old
block, or `size` if that is smaller. -/
def copySize (m : Mem) (ptr size : Nat) : Nat :=
  if size < GET_SIZE m (HDRP ptr) then size else GET_SIZE m (HDRP ptr)

/-- `mm_realloc`; `none` when the scan of `find_fit` does not end within `fuel` nodes. -/
def mm_realloc (fuel : Nat) (s : State) (ptr size : Nat) : Option ReallocResult :=
  match mm_malloc fuel s size with
  | none => none
  | some (s1, newp) =>
    if newp = 0 then some (ReallocResult.exited s1)
    else
      let m1 := memcpy s1.mem newp ptr (copySize s1.mem ptr size)
      some (ReallocResult.returned (mm_free { s1 with mem := m1 } ptr) newp)

/-! ## Heap description used in the proofs

The block structure that the tags encode is described by a list of blocks in
address order (`Blk`), and the free list by the list of its nodes in list order.
`Heap` relates a state to such a description; `Inv` adds what holds between
calls: membership of the free list, exhaustive coalescing and the live
allocations. -/

/-- What the two tags of a block say: free, allocated, or not yet written
(`raw`, only in the middle of an operation). -/
inductive Kind where
  /-- Allocated flag 0. -/
  | free
  /-- Allocated flag 1. -/
  | used
  /-- The tags of the block are not written yet. -/
  | raw
  deriving DecidableEq

/-- The allocated bit a kind stands for. -/
def Kind.bit : Kind → Nat
  | Kind.used => 1
  | _ => 0

/-- A block: its block pointer (address of the first payload byte), its size in
bytes including header and footer, and its kind. -/
structure Blk where
  /-- The block pointer. -/
  bp : Nat
  /-- The size in bytes, header and footer included. -/
  sz : Nat
  /-- Free, allocated or raw. -/
  kind : Kind

/-- The blocks `bs` lie one after the other from block pointer `a` up to `e`. -/
def Tiling : Nat → List Blk → Nat → Prop
  | a, [], e => a = e
  | a, b :: bs, e => b.bp = a ∧ Tiling (a + b.sz) bs e

/-- Header word and footer word of `b` both hold `PACK(size, alloc)`. -/
def TagOK (m : Mem) (b : Blk) : Prop :=
  b.kind ≠ Kind.raw →
    GET m (b.bp - 4) = b.sz + b.kind.bit ∧ GET m (b.bp + b.sz - 8) = b.sz + b.kind.bit

/-- The geometry of the arena: `start` is 8-byte aligned, the backing store is
smaller than 4 GiB and ends below `2 ^ 64`, and the blocks tile the arena from
the first block pointer `start + 8` to the epilogue at the break, each block
a multiple of 8 bytes and at least 24 bytes long. -/
structure Geo (start brk mx : Nat) (bs : List Blk) : Prop where
  /-- `start` is 8-byte aligned. -/
  start_al : start % 8 = 0
  /-- `start` is 8 bytes past the base of the backing store. -/
  start_ge : 8 ≤ start
  /-- The break is within the limit of the backing store. -/
  brk_le : brk ≤ mx
  /-- The backing store is smaller than `2 ^ 32` bytes. -/
  max_lt : mx < start + 4294967288
  /-- The backing store ends below `2 ^ 64`. -/
  max_64 : mx < 18446744073709551616
  /-- The blocks tile the arena. -/
  tiling : Tiling (start + 8) bs brk
  /-- Every block is a multiple of 8 bytes and at least 24 bytes long. -/
  sizes : ∀ b ∈ bs, b.sz % 8 = 0 ∧ 24 ≤ b.sz

/-- The boundary tags in memory: prologue header and footer `PACK(8, 1)`, the
epilogue header `PACK(0, 1)` in the last word of the arena, and the two tags of
every block. -/
structure Tags (m : Mem) (start brk : Nat) (bs : List Blk) : Prop where
  /-- Prologue header. -/
  prologue_h : GET m (start - 4) = 9
  /-- Prologue footer. -/
  prologue_f : GET m start = 9
  /-- Epilogue header. -/
  epilogue : GET m (brk - 4) = 1
  /-- Header and footer of every block. -/
  tags : ∀ b ∈ bs, TagOK m b

/-- `bp` is the block pointer of one of the blocks. -/
def IsBp (bs : List Blk) (bp : Nat) : Prop := ∃ b ∈ bs, b.bp = bp

/-- The nodes `fl` form a doubly linked list under the link functions `P`
(previous) and `N` (next): the previous link of a node is the node before it and
its next link the node after it, `0` at the two ends. -/
def LinkedF (P N : Nat → Nat) (fl : List Nat) : Prop :=
  ∀ xs x ys, fl = xs ++ x :: ys → P x = xs.getLastD 0 ∧ N x = ys.headD 0

/-- The free list in memory: `firstfree` is the first node of `fl` (or `NULL`),
the nodes are distinct block pointers, and their link fields chain them. -/
structure FreeList (m : Mem) (firstfree : Nat) (bs : List Blk) (fl : List Nat) : Prop where
  /-- No node occurs twice. -/
  nodup : fl.Nodup
  /-- Every node is a block pointer. -/
  mem_blk : ∀ x ∈ fl, IsBp bs x
  /-- `firstfree` is the head. -/
  head : firstfree = fl.headD 0
  /-- The link fields chain the nodes. -/
  linked : LinkedF (getPrev m) (getNext m) fl

/-- The state `s` holds the blocks `bs` and the free list `fl`. -/
structure Heap (s : State) (bs : List Blk) (fl : List Nat) : Prop where
  /-- Geometry of the arena. -/
  geo : Geo s.start s.mem_brk s.mem_max_addr bs
  /-- Boundary tags. -/
  tags : Tags s.mem s.start s.mem_brk bs
  /-- Free list. -/
  flist : FreeList s.mem s.firstfree bs fl

/-- Two neighbouring blocks are not both free. -/
def AdjOK (b1 b2 : Blk) : Prop := ¬ (b1.kind = Kind.free ∧ b2.kind = Kind.free)

/-- No two physically adjacent blocks are both free. -/
def NoAdjFree (bs : List Blk) : Prop := List.Chain' AdjOK bs

/-- The live allocations `L` (pointer and requested size): distinct pointers,
each the block pointer of an allocated block that holds the requested bytes
between its header and its footer. -/
def LiveOK (bs : List Blk) (L : List (Nat × Nat)) : Prop :=
  (L.map Prod.fst).Nodup ∧
    ∀ pn ∈ L, ∃ b ∈ bs, b.bp = pn.1 ∧ b.kind = Kind.used ∧ pn.2 + 8 ≤ b.sz

/-- The invariant between calls, for blocks `bs` and free list `fl`. -/
structure InvWith (s : State) (L : List (Nat × Nat)) (bs : List Blk) (fl : List Nat) : Prop where
  /-- Tags, geometry and list links. -/
  heap : Heap s bs fl
  /-- Every block carries written tags. -/
  no_raw : ∀ b ∈ bs, b.kind ≠ Kind.raw
  /-- A block is free exactly when it is a node of the free list. -/
  members : ∀ b ∈ bs, b.kind = Kind.free ↔ b.bp ∈ fl
  /-- Coalescing is exhaustive. -/
  no_adj : NoAdjFree bs
  /-- The live allocations sit in allocated blocks. -/
  live : LiveOK bs L

/-- The invariant between calls. -/
def Inv (s : State) (L : List (Nat × Nat)) : Prop := ∃ bs fl, InvWith s L bs fl

/-- What `coalesce` is called on: the invariant, except that the block `b`
between `pre` and `post` is marked free without being a list node and may have
free neighbours. -/
structure PreCo (s : State) (L : List (Nat × Nat)) (pre : List Blk) (b : Blk) (post : List Blk)
    (fl : List Nat) : Prop where
  /-- Tags, geometry and list links. -/
  heap : Heap s (pre ++ b :: post) fl
  /-- The other blocks carry written tags. -/
  no_raw : ∀ c ∈ pre ++ post, c.kind ≠ Kind.raw
  /-- The block is marked free. -/
  bfree : b.kind = Kind.free
  /-- The block is not a list node. -/
  bnot : b.bp ∉ fl
  /-- Another block is free exactly when it is a list node. -/
  members : ∀ c ∈ pre ++ post, c.kind = Kind.free ↔ c.bp ∈ fl
  /-- No two adjacent blocks before `b` are both free. -/
  adj_pre : NoAdjFree pre
  /-- No two adjacent blocks after `b` are both free. -/
  adj_post : NoAdjFree post
  /-- The live allocations sit in allocated blocks. -/
  live : LiveOK (pre ++ post) L

/-- What `coalesce` establishes: the invariant again, the returned pointer `r`
being a free block that covers the block `b` it was called on; nothing but the
break-independent fields changed, and the payloads of the allocated blocks are
untouched. -/
def CoResult (s s1 : State) (L : List (Nat × Nat)) (pre : List Blk) (b : Blk) (post : List Blk)
    (r : Nat) : Prop :=
  ∃ bs1 fl1, InvWith s1 L bs1 fl1 ∧
    (∃ rb ∈ bs1, rb.bp = r ∧ rb.kind = Kind.free ∧ rb.bp ≤ b.bp ∧
      b.bp + b.sz ≤ rb.bp + rb.sz) ∧
    s1.start = s.start ∧ s1.mem_brk = s.mem_brk ∧ s1.mem_max_addr = s.mem_max_addr ∧
    (∀ c ∈ pre ++ post, c.kind = Kind.used → c ∈ bs1) ∧
    (∀ c ∈ pre ++ post, c.kind = Kind.used → ∀ a, c.bp ≤ a → a + 8 < c.bp + c.sz →
      s1.mem a = s.mem a)

/-- The pair of stores `PUT(HDRP(bp), PACK(size, alloc)); PUT(FTRP(bp), PACK(size, alloc))`
with which every operation writes the two tags of a block. -/
abbrev put_tags (m : Mem) (bp size alloc : Nat) : Mem :=
  PUT (PUT m (HDRP bp) (PACK size alloc)) (FTRP (PUT m (HDRP bp) (PACK size alloc)) bp)
    (PACK size alloc)

/-- A request size the allocator handles as designed: nothing, or more than 8
bytes (so that the block holds the two list links) and small enough for the
`int` and `uint32_t` arithmetic of `mm_malloc`. -/
def GoodReq (n : Nat) : Prop := n = 0 ∨ (8 < n ∧ n ≤ 2 ^ 31 - 16)

/-- A backing store as `mm_init` expects it: the break at an 8-byte aligned,
non-null base, less than `2 ^ 32` bytes up to the limit, all below `2 ^ 64`. -/
def FreshStore (s : State) : Prop :=
  s.mem_brk % 8 = 0 ∧ 0 < s.mem_brk ∧ s.mem_max_addr < s.mem_brk + 2 ^ 32 ∧
    s.mem_max_addr < 2 ^ 64

/-- `Reach s L`: the state `s` with live allocations `L` is reached from a
successful `mm_init` by a valid call sequence: `mm_malloc` and `mm_realloc` of
good request sizes, `mm_free` of live pointers, and stores of the caller into
the requested bytes of live allocations. -/
inductive Reach : State → List (Nat × Nat) → Prop where
  /-- A successful `mm_init` on a fresh backing store. -/
  | init (s0 : State) : FreshStore s0 → (mm_init s0).2 = 0 → Reach (mm_init s0).1 []
  /-- An `mm_malloc` that returns a pointer. -/
  | malloc (s : State) (L : List (Nat × Nat)) (fuel n : Nat) (s1 : State) (p : Nat) :
      Reach s L → GoodReq n → mm_malloc fuel s n = some (s1, p) → p ≠ 0 →
      Reach s1 ((p, n) :: L)
  /-- An `mm_malloc` that returns `NULL`. -/
  | malloc_null (s : State) (L : List (Nat × Nat)) (fuel n : Nat) (s1 : State) :
      Reach s L → GoodReq n → mm_malloc fuel s n = some (s1, 0) → Reach s1 L
  /-- An `mm_free` of a live pointer. -/
  | free (s : State) (L : List (Nat × Nat)) (p n : Nat) :
      Reach s L → (p, n) ∈ L → Reach (mm_free s p) (L.erase (p, n))
  /-- An `mm_realloc` of a live pointer that returns. -/
  | realloc (s : State) (L : List (Nat × Nat)) (fuel p m n : Nat) (s2 : State) (q : Nat) :
      Reach s L → (p, m) ∈ L → 8 < n → n ≤ 2 ^ 31 - 16 →
      mm_realloc fuel s p n = some (ReallocResult.returned s2 q) →
      Reach s2 ((q, n) :: L.erase (p, m))
  /-- A store of the caller into a requested byte of a live allocation. -/
  | store (s : State) (L : List (Nat × Nat)) (p n i v : Nat) :
      Reach s L → (p, n) ∈ L → i < n →
      Reach { s with mem := store8 s.mem (p + i) v } L

/-- The state in which `mm_init` calls `extend_heap`: the padding word, the
prologue and the epilogue are written at the old break, and `start` points
between the two prologue words. -/
def sentinels (s : State) : State :=
  { mem := PUT (PUT (PUT (PUT s.mem s.mem_brk 0) (s.mem_brk + WSIZE) (PACK DSIZE 1))
      (s.mem_brk + 2 * WSIZE) (PACK DSIZE 1)) (s.mem_brk + 3 * WSIZE) (PACK 0 1)
    mem_brk := s.mem_brk + 4 * WSIZE
    mem_max_addr := s.mem_max_addr
    start := s.mem_brk + 2 * WSIZE
    firstfree := 0 }

/-! ## Reading the heap as a checker does -/

/-- The block pointers from `bp` on, found by adding the size in each header,
up to the header of size 0 (the epilogue); `none` when `fuel` blocks were visited
without reaching it. -/
def blocksFrom (m : Mem) : Nat → Nat → Option (List Nat)
  | 0, _ => none
  | fuel + 1, bp =>
    if GET_SIZE m (HDRP bp) = 0 then some []
    else (blocksFrom m fuel (NEXT_BLKP m bp)).map (fun l => bp :: l)

/-- The blocks of the arena, the prologue block at `start` first. -/
def heapBlocks (fuel : Nat) (s : State) : Option (List Nat) :=
  blocksFrom s.mem fuel s.start

/-- The list nodes from `bp` on, found by following the `next` links up to
`NULL`; `none` when `fuel` nodes were visited without reaching it. -/
def nodesFrom (m : Mem) : Nat → Nat → Option (List Nat)
  | 0, _ => none
  | fuel + 1, bp =>
    if bp = 0 then some []
    else (nodesFrom m fuel (getNext m bp)).map (fun l => bp :: l)

/-- The nodes reachable from `firstfree` by `next` links. -/
def freeNodes (fuel : Nat) (s : State) : Option (List Nat) :=
  nodesFrom s.mem fuel s.firstfree

/-! ## Concrete runs -/

/-- A fresh backing store of 1 MiB at address 4096, all bytes 0. -/
def demoStore : State :=
  { mem := fun _ => 0, mem_brk := 4096, mem_max_addr := 1052672, start := 0, firstfree := 0 }

/-- The state after `mm_init()` on `demoStore`. -/
def demoInit : State := (mm_init demoStore).1

/-- One call `mm_malloc(n)` with fuel for 8 list nodes; the state is left as it
is when the fuel does not suffice. -/
def callMalloc (s : State) (n : Nat) : State × Nat := (mm_malloc 8 s n).getD (s, 0)

/-- One store of the byte `v` at address `a` by the caller. -/
def callStore (s : State) (a v : Nat) : State := { s with mem := store8 s.mem a v }

/-- `p = mm_malloc(100)` after `mm_init()`: state and `p`. -/
def demoA : State × Nat := callMalloc demoInit 100

/-- `q = mm_malloc(200)` after that: state and `q`. -/
def demoB : State × Nat := callMalloc demoA.1 200

/-- A request of `2 ^ 32 - 8` bytes, for which the adjusted size wraps to 0. -/
def hugeReq : Nat := 4294967288

/-- `p = mm_malloc(2 ^ 32 - 8)` after `mm_init()`. -/
def hugeA : State × Nat := callMalloc demoInit hugeReq

/-- `q = mm_malloc(100)` after that. -/
def hugeB : State × Nat := callMalloc hugeA.1 100

/-- `u = mm_malloc(100)` after that. -/
def hugeC : State × Nat := callMalloc hugeB.1 100

/-- After `hugeB`, the caller stores the bytes 53, 16 at `q + 8`, `q + 9` and
160, 15 at `q + 33`, `q + 34` of its live allocation `q`. -/
def hugeStored : State :=
  callStore (callStore (callStore (callStore hugeB.1 4120 53) 4121 16) 4145 160) 4146 15

/-- `mm_malloc(3990)` after those stores. -/
def hugeD : State × Nat := callMalloc hugeStored 3990

/-- Three allocations of 100 bytes after `mm_init()`, the middle one freed. -/
def gapA : State × Nat := callMalloc demoA.1 100

/-- The third of the three allocations. -/
def gapB : State × Nat := callMalloc gapA.1 100

/-- The middle allocation freed. -/
def gapC : State := mm_free gapB.1 4224

/-- `p = mm_malloc(2 ^ 32 - 8)` in that state. -/
def gapD : State × Nat := callMalloc gapC hugeReq

/-- `mm_free(p)` after that. -/
def gapE : State := mm_free gapD.1 4224

/-- `x = mm_malloc(40)` after `mm_init()`. -/
def moveA : State × Nat := callMalloc demoInit 40

/-- `y = mm_malloc(40)` after that. -/
def moveB : State × Nat := callMalloc moveA.1 40

/-- `mm_free(x)` after that. -/
def moveC : State := mm_free moveB.1 4112

/-- `a = mm_malloc(100)` after that. -/
def moveD : State × Nat := callMalloc moveC 100

/-- A fresh backing store of 1 MiB that starts 24 bytes below `2 ^ 32`, all bytes 0. -/
def edgeStore : State :=
  { mem := fun _ => 0, mem_brk := 4294967272, mem_max_addr := 4296015848, start := 0,
    firstfree := 0 }

/-- The state after `mm_init()` on `edgeStore`. -/
def edgeInit : State := (mm_init edgeStore).1

/-- `x = mm_malloc(40)` on `edgeInit`. -/
def tagA : State × Nat := callMalloc edgeInit 40

/-- `y = mm_malloc(200)` after that. -/
def tagB : State × Nat := callMalloc tagA.1 200

/-- `mm_free(x)` after that. -/
def tagC : State := mm_free tagB.1 4294967288

/-- `d = mm_malloc(8)` after that. -/
def tagD : State × Nat := callMalloc tagC 8

/-- `mm_free(y)` after that. -/
def tagE : State := mm_free tagD.1 4294967336

/-- `x = mm_malloc(100)` on `edgeInit`, followed by the store of the byte 200 at
`x + 21` by the caller. -/
def lapA : State := callStore (callMalloc edgeInit 100).1 4294967309 200

/-- `b = mm_malloc(100)` after that. -/
def lapB : State × Nat := callMalloc lapA 100

/-- `c = mm_malloc(100)` after that. -/
def lapC : State × Nat := callMalloc lapB.1 100

/-- `mm_free(b)` after that. -/
def lapD : State := mm_free lapC.1 4294967400

/-- `d = mm_malloc(1)` after that. -/
def lapE : State × Nat := callMalloc lapD 1

/-- `e = mm_malloc(150)` after that. -/
def lapF : State × Nat := callMalloc lapE.1 150

/-- One call `mm_realloc(p, n)` with fuel for 8 list nodes: the state and the
pointer returned, `(s, 0)` when the call does not return. -/
def callRealloc (s : State) (p n : Nat) : State × Nat :=
  match mm_realloc 8 s p n with
  | some (ReallocResult.returned s2 q) => (s2, q)
  | _ => (s, 0)

/-- `mm_realloc(a, 2 ^ 32 - 8)` after `moveD`. -/
def moveE : State × Nat := callRealloc moveD.1 4208 hugeReq

/-- `mm_realloc(p, 150)` of the allocation `p` of `demoA`. -/
def demoR : State × Nat := callRealloc demoA.1 4112 150

/-! ## The block list after an operation -/

/-- The block that the tags at `bp` describe: the size in the header and the
allocated flag in the header. -/
def blockAt (m : Mem) (bp : Nat) : Blk :=
  ⟨bp, GET_SIZE m (HDRP bp), if GET_ALLOC m (HDRP bp) = 0 then Kind.free else Kind.used⟩

/-- The last of the blocks `pre`, when it is free. -/
def prevFree (pre : List Blk) : Option Blk :=
  pre.getLast?.filter (fun q => decide (q.kind = Kind.free))

/-- The first of the blocks `post`, when it is free. -/
def nextFree (post : List Blk) : Option Blk :=
  post.head?.filter (fun n => decide (n.kind = Kind.free))

/-- The blocks after `coalesce` on the block `b` between `pre` and `post`: `b`
absorbs a free block after it and is absorbed by a free block before it. -/
def coBlocks (pre : List Blk) (b : Blk) (post : List Blk) : List Blk :=
  match prevFree pre, nextFree post with
  | none, none => pre ++ ⟨b.bp, b.sz, Kind.free⟩ :: post
  | none, some n => pre ++ ⟨b.bp, b.sz + n.sz, Kind.free⟩ :: post.tail
  | some q, none => pre.dropLast ++ ⟨q.bp, q.sz + b.sz, Kind.free⟩ :: post
  | some q, some n => pre.dropLast ++ ⟨q.bp, q.sz + b.sz + n.sz, Kind.free⟩ :: post.tail

/-- The free list after `coalesce` on the block `b` between `pre` and `post`:
the merged block is pushed at the head, except when only the block before `b` is
free, which then keeps its place. -/
def coList (pre : List Blk) (b : Blk) (post : List Blk) (fl : List Nat) : List Nat :=
  match prevFree pre, nextFree post with
  | none, none => b.bp :: fl
  | none, some n => b.bp :: fl.erase n.bp
  | some _, none => fl
  | some q, some n => q.bp :: (fl.erase n.bp).erase q.bp

/-- The pointer that `coalesce` returns for the block `b` after `pre`. -/
def coPtr (pre : List Blk) (b : Blk) : Nat :=
  match prevFree pre with
  | none => b.bp
  | some q => q.bp

/-- The blocks after `place(X, asize)` on the free block `X` between `pre` and
`post`: split when the rest has at least `MINIMUM` bytes. -/
def placeBlocks (pre : List Blk) (X : Blk) (post : List Blk) (asize : Nat) : List Blk :=
  if asize + MINIMUM ≤ X.sz then
    pre ++ ⟨X.bp, asize, Kind.used⟩ :: ⟨X.bp + asize, X.sz - asize, Kind.free⟩ :: post
  else pre ++ ⟨X.bp, X.sz, Kind.used⟩ :: post

/-- The free list after `place(X, asize)`: `X` leaves it and the rest of a split
is pushed at the head. -/
def placeList (X : Blk) (fl : List Nat) (asize : Nat) : List Nat :=
  if asize + MINIMUM ≤ X.sz then (X.bp + asize) :: fl.erase X.bp else fl.erase X.bp

/-! ## The requests to the backing store -/

/-- The byte counts that `extend_heap(words)` passes to `mem_sbrk`: its one call. -/
def extend_heap_grows (words : Nat) : List Nat := [extend_size words]

/-- The byte counts that `mm_malloc(size)` passes to `mem_sbrk`, in order: none
when the request is 0 or `find_fit` finds a block, else those of its one call of
`extend_heap`. -/
def mm_malloc_grows (fuel : Nat) (s : State) (size : Nat) : Option (List Nat) :=
  if size = 0 then some []
  else
    match find_fit fuel s (adjust_size size) with
    | none => none
    | some bp =>
      if bp ≠ 0 then some []
      else some (extend_heap_grows (extendsize (adjust_size size) / WSIZE))

/-- The blocks in front of the block that `extend_heap` returns. -/
def growPre (bs : List Blk) : List Blk :=
  match prevFree bs with
  | none => bs
  | some _ => bs.dropLast

/-- The free block that `extend_heap` returns after growing the arena by `sz`
bytes at the break `brk`: the new block, merged with a free block that ended the
arena. -/
def growBlk (bs : List Blk) (brk sz : Nat) : Blk :=
  match prevFree bs with
  | none => ⟨brk, sz, Kind.free⟩
  | some q => ⟨q.bp, q.sz + sz, Kind.free⟩

/-- The free list after `extend_heap`. -/
def growList (bs : List Blk) (brk : Nat) (fl : List Nat) : List Nat :=
  match prevFree bs with
  | none => brk :: fl
  | some _ => fl

/-! ## Exhaustive coalescing, read from the tags -/

/-- The walk over the arena of `s` ends and finds the block pointers `W`, and no
block of `W` has allocated flag 0 together with the block that follows it. -/
def Coalesced (s : State) (W : List Nat) : Prop :=
  (∃ N, ∀ fuel, N ≤ fuel → heapBlocks fuel s = some W) ∧
    ∀ bp ∈ W, ¬ (GET_ALLOC s.mem (HDRP bp) = 0 ∧
      GET_ALLOC s.mem (HDRP (NEXT_BLKP s.mem bp)) = 0)

/-! ## Concrete runs for the scenarios after `mm_init` -/

/-- A fresh backing store at address 4096, all bytes 0, with room for what
`mm_init` asks for and nothing more. -/
def tightStore : State :=
  { mem := fun _ => 0, mem_brk := 4096, mem_max_addr := 8208, start := 0, firstfree := 0 }

/-- The state after `mm_init()` on `tightStore`. -/
def tightInit : State := (mm_init tightStore).1

/-- `p = mm_malloc(10)` after `mm_init()` on `demoStore`. -/
def twiceA : State × Nat := callMalloc demoInit 10

/-- `mm_free(p)` after that. -/
def twiceB : State := mm_free twiceA.1 4112

/-- `mm_free(p)` a second time. -/
def twiceC : State := mm_free twiceB 4112

/-- `mm_realloc(p, 200)` of the allocation `p` of `demoA`. -/
def growR : State × Nat := callRealloc demoA.1 4112 200

/-- After `x = mm_malloc(40)` (`moveA`): `a = mm_malloc(100)`. -/
def rowA : State × Nat := callMalloc moveA.1 100

/-- `b = mm_malloc(100)` after that. -/
def rowB : State × Nat := callMalloc rowA.1 100

/-- `c = mm_malloc(100)` after that. -/
def rowC : State × Nat := callMalloc rowB.1 100

/-- `d = mm_malloc(40)` after that. -/
def rowD : State × Nat := callMalloc rowC.1 40

/-- `mm_free(x)` after that. -/
def rowE : State := mm_free rowD.1 4112

/-- `mm_free(b)` after that. -/
def rowF : State := mm_free rowE 4272

/-- `mm_free(a)` after that. -/
def rowG : State := mm_free rowF 4160

/-- `mm_free(c)` after that. -/
def rowH : State := mm_free rowG 4384

/-- After `x = mm_malloc(40)` and `b = mm_malloc(100)` (`rowA`): `c = mm_malloc(40)`. -/
def backA : State × Nat := callMalloc rowA.1 40

/-- `mm_free(x)` after that. -/
def backB : State := mm_free backA.1 4112

/-- `mm_free(b)` after that. -/
def backC : State := mm_free backB 4160

/-- `mm_malloc(100)` after that. -/
def backD : State × Nat := callMalloc backC 100

/-! ## The layout of the arena, read from the tags -/

/-- The block pointers `W` follow one another from `a` up to `e`: the first is
`a`, each one is where `NEXT_BLKP` of the one before it points, further up, and
`NEXT_BLKP` of the last one is `e`. -/
def Contiguous (m : Mem) : Nat → List Nat → Nat → Prop
  | a, [], e => a = e
  | a, bp :: W, e => bp = a ∧ a < NEXT_BLKP m bp ∧ Contiguous m (NEXT_BLKP m bp) W e

/-! ## The neighbours of a block, as `coalesce` reads them -/

/-- The local `prev_alloc` of `coalesce`: the allocated flag in the footer of the
block before `bp`. -/
def prev_alloc (m : Mem) (bp : Nat) : Nat := GET_ALLOC m (FTRP m (PREV_BLKP m bp))

/-- The local `next_alloc` of `coalesce`: the allocated flag in the header of the
block after `bp`. -/
def next_alloc (m : Mem) (bp : Nat) : Nat := GET_ALLOC m (HDRP (NEXT_BLKP m bp))

/-- The lowest address of the span to merge, in the words of the specification:
the block before `bp` if it is free, else `bp`. -/
def mergedPtr (m : Mem) (bp : Nat) : Nat :=
  if prev_alloc m bp = 0 then PREV_BLKP m bp else bp

/-- The size of the span to merge, in the words of the specification: the size of
`bp` plus the sizes of exactly those of its two neighbours that are free. -/
def mergedSize (m : Mem) (bp : Nat) : Nat :=
  GET_SIZE m (HDRP bp)
    + (if prev_alloc m bp = 0 then GET_SIZE m (HDRP (PREV_BLKP m bp)) else 0)
    + (if next_alloc m bp = 0 then GET_SIZE m (HDRP (NEXT_BLKP m bp)) else 0)

/-! ## Concrete runs for the operations on the free list -/

/-- The state in which `mm_free(bp)` calls `coalesce(bp)`: header and footer of
the block are rewritten with its size and allocated flag 0. -/
def markFree (s : State) (bp : Nat) : State :=
  { s with mem := put_tags s.mem bp (GET_SIZE s.mem (HDRP bp)) 0 }

/-- `mm_free(c)` of the allocation `c = 4384` after `rowE`, where the first block
at 4112 is free. -/
def colA : State := mm_free rowE 4384

/-- `mm_free(a)` of the allocation `a = 4160` after that; the block before `a` is
the free block at 4112, the block after `a` is allocated. -/
def colB : State := mm_free colA 4160

/-! ## The scan of the free list, counted -/

/-- The number of list nodes that the loop of `find_fit` examines from the node
`bp` on: every non-null node up to and including the one it returns; `none` when
the loop does not end within `fuel` tests of the loop condition. -/
def find_fit_visits (m : Mem) (asize : Nat) : Nat → Nat → Option Nat
  | 0, _ => none
  | fuel + 1, bp =>
    if bp = 0 then some 0
    else if GET_ALLOC m (HDRP bp) = 0 ∧ GET_SIZE m (HDRP bp) ≥ asize then some 1
    else (find_fit_visits m asize fuel (getNext m bp)).map (fun k => k + 1)

/-- The free blocks among the block pointers `W`: those whose header carries
allocated flag 0. -/
def freeBlocks (m : Mem) (W : List Nat) : List Nat :=
  W.filter (fun bp => decide (GET_ALLOC m (HDRP bp) = 0))

/-! ## The block layout, read from the tags -/

/-- What the tags say about the block at `bp`: its address, the size and the
allocated flag in its header, its header word and its footer word. -/
def blockRow (m : Mem) (bp : Nat) : Nat × Nat × Nat × Nat × Nat :=
  (bp, GET_SIZE m (HDRP bp), GET_ALLOC m (HDRP bp), GET m (HDRP bp), GET m (FTRP m bp))

/-- The block layout of the blocks `W`: the row of each block, in address order. -/
def layout (m : Mem) (W : List Nat) : List (Nat × Nat × Nat × Nat × Nat) :=
  W.map (blockRow m)

/-! ## Concrete runs for the requests to the backing store and the round trip -/

/-- A request of `2 ^ 31` bytes, whose adjusted size `2 ^ 31 + 8` is negative when
read as an `int`. -/
def halfReq : Nat := 2147483648

/-- `mm_free(p)` of the pointer `p = 4112` that `mm_malloc(2 ^ 32 - 8)` returned
right after `mm_init()`. -/
def hugeF : State := mm_free hugeA.1 4112

/-! ## Concrete runs with a request of at most 8 bytes

All of them start from `edgeInit`, the arena on the backing store that starts 24
bytes below `2 ^ 32`; the first block pointer is `2 ^ 32 - 8 = 4294967288`. -/

/-- `x = mm_malloc(100)` on `edgeInit`; `x` is 4294967288. -/
def slipA : State × Nat := callMalloc edgeInit 100

/-- `b = mm_malloc(100)` after that; `b` is 4294967400. -/
def slipB : State × Nat := callMalloc slipA.1 100

/-- `c = mm_malloc(100)` after that; `c` is 4294967512. -/
def slipC : State × Nat := callMalloc slipB.1 100

/-- `mm_free(b)` after that. -/
def slipD : State := mm_free slipC.1 4294967400

/-- `d = mm_malloc(1)` after that; `d` is `b` again, in a block of 16 bytes. -/
def slipE : State × Nat := callMalloc slipD 1

/-- `e = mm_malloc(5000)` after that. -/
def slipF : State × Nat := callMalloc slipE.1 5000

/-- After `slipE`, the caller stores the bytes 120 and 1 at `x + 33` and `x + 37` of
its live allocation `x`. -/
def loopA : State := callStore (callStore slipE.1 4294967321 120) 4294967325 1

/-- After `slipA`, the caller stores the byte 77 at `x + 25` of its live allocation `x`. -/
def padA : State := callStore slipA.1 4294967313 77

/-- `b = mm_malloc(100)` after that. -/
def padB : State × Nat := callMalloc padA 100

/-- `c = mm_malloc(100)` after that. -/
def padC : State × Nat := callMalloc padB.1 100

/-- `mm_free(b)` after that. -/
def padD : State := mm_free padC.1 4294967400

/-- `d = mm_malloc(1)` after that. -/
def padE : State × Nat := callMalloc padD 1

/-- `a = mm_malloc(24)` on `edgeInit`; `a` is 4294967288, in a block of 32 bytes. -/
def sixA : State × Nat := callMalloc edgeInit 24

/-- `b = mm_malloc(24)` after that; `b` is 4294967320. -/
def sixB : State × Nat := callMalloc sixA.1 24

/-- `mm_free(a)` after that. -/
def sixC : State := mm_free sixB.1 4294967288

/-- `c = mm_malloc(100)` after that; `c` is 4294967352. -/
def sixD : State × Nat := callMalloc sixC 100

/-- `e = mm_malloc(100)` after that; `e` is 4294967464. -/
def sixE : State × Nat := callMalloc sixD.1 100

/-- `mm_free(c)` after that. -/
def sixF : State := mm_free sixE.1 4294967352

/-- `d = mm_malloc(1)` after that; `d` is `c` again, in a block of 16 bytes. -/
def sixG : State × Nat := callMalloc sixF 1

set_option linter.all false
set_option maxRecDepth 100000
/-! ## Loads and stores -/

theorem load8_lt (m : Mem) (p : Nat) : load8 m p < 256 := Nat.mod_lt _ (by decide)

theorem GET_lt (m : Mem) (p : Nat) : GET m p < 4294967296 := by
  have h0 := load8_lt m p
  have h1 := load8_lt m (p + 1)
  have h2 := load8_lt m (p + 2)
  have h3 := load8_lt m (p + 3)
  unfold GET
  omega

theorem PUT_outside (m : Mem) (p v a : Nat) (h : a < p ∨ p + 4 ≤ a) : PUT m p v a = m a := by
  unfold PUT
  rw [if_neg (by omega), if_neg (by omega), if_neg (by omega), if_neg (by omega)]

theorem GET_congr (m m' : Mem) (p : Nat) (h : ∀ a, p ≤ a → a < p + 4 → m' a = m a) :
    GET m' p = GET m p := by
  unfold GET load8
  rw [h p (by omega) (by omega), h (p + 1) (by omega) (by omega),
    h (p + 2) (by omega) (by omega), h (p + 3) (by omega) (by omega)]

theorem GET_PUT_same (m : Mem) (p v : Nat) : GET (PUT m p v) p = v % 4294967296 := by
  unfold GET load8 PUT
  rw [if_pos rfl, if_neg (by omega), if_pos rfl, if_neg (by omega), if_neg (by omega), if_pos rfl,
    if_neg (by omega), if_neg (by omega), if_neg (by omega), if_pos rfl]
  omega

theorem GET_PUT_disj (m : Mem) (p v q : Nat) (h : q + 4 ≤ p ∨ p + 4 ≤ q) :
    GET (PUT m p v) q = GET m q :=
  GET_congr _ _ _ (fun a h1 h2 => PUT_outside m p v a (by omega))

theorem storePtr_outside (m : Mem) (p v a : Nat) (h : a < p ∨ p + 8 ≤ a) :
    storePtr m p v a = m a := by
  unfold storePtr
  rw [PUT_outside _ _ _ _ (by omega), PUT_outside _ _ _ _ (by omega)]

theorem loadPtr_congr (m m' : Mem) (p : Nat) (h : ∀ a, p ≤ a → a < p + 8 → m' a = m a) :
    loadPtr m' p = loadPtr m p := by
  unfold loadPtr
  rw [GET_congr m m' p (fun a h1 h2 => h a (by omega) (by omega)),
    GET_congr m m' (p + 4) (fun a h1 h2 => h a (by omega) (by omega))]

theorem loadPtr_storePtr_same (m : Mem) (p v : Nat) (hv : v < 18446744073709551616) :
    loadPtr (storePtr m p v) p = v := by
  unfold loadPtr storePtr
  rw [GET_PUT_disj _ _ _ _ (by omega), GET_PUT_same, GET_PUT_same]
  omega

theorem loadPtr_lt (m : Mem) (p : Nat) : loadPtr m p < 18446744073709551616 := by
  have h0 := GET_lt m p
  have h1 := GET_lt m (p + 4)
  unfold loadPtr
  omega

theorem PACK_eq (size alloc : Nat) (h8 : size % 8 = 0) (hs : size < 4294967296) (ha : alloc ≤ 1) :
    PACK size alloc = size + alloc := by
  unfold PACK
  have h1 : size % 2 ^ 32 = size := Nat.mod_eq_of_lt (by norm_num; exact hs)
  have h2 : alloc &&& 1 = alloc := by
    interval_cases alloc <;> rfl
  rw [h1, h2]
  obtain ⟨k, rfl⟩ : ∃ k, size = 2 ^ 3 * k := ⟨size / 8, by norm_num; omega⟩
  exact (Nat.mul_add_lt_is_or (by omega) k).symm

theorem GET_storePtr_disj (m : Mem) (p v q : Nat) (h : q + 4 ≤ p ∨ p + 8 ≤ q) :
    GET (storePtr m p v) q = GET m q :=
  GET_congr _ _ _ (fun a _ _ => storePtr_outside m p v a (by omega))

theorem loadPtr_storePtr_disj (m : Mem) (p v q : Nat) (h : q + 8 ≤ p ∨ p + 8 ≤ q) :
    loadPtr (storePtr m p v) q = loadPtr m q :=
  loadPtr_congr _ _ _ (fun a _ _ => storePtr_outside m p v a (by omega))

theorem loadPtr_PUT_disj (m : Mem) (p v q : Nat) (h : q + 8 ≤ p ∨ p + 4 ≤ q) :
    loadPtr (PUT m p v) q = loadPtr m q :=
  loadPtr_congr _ _ _ (fun a _ _ => PUT_outside m p v a (by omega))

theorem store8_outside (m : Mem) (p v a : Nat) (h : a ≠ p) : store8 m p v a = m a := by
  unfold store8
  rw [if_neg h]

/-- The size and the allocated bit decoded from a tag word `sz + bit`. -/
theorem decode_tag (m : Mem) (p sz bit : Nat) (h : GET m p = sz + bit) (h8 : sz % 8 = 0)
    (hb : bit ≤ 1) : GET_SIZE m p = sz ∧ GET_ALLOC m p = bit := by
  unfold GET_SIZE GET_ALLOC
  rw [h]
  omega

/-! ## Geometry of the block list -/

theorem tiling_append (xs ys : List Blk) (a e : Nat) :
    Tiling a (xs ++ ys) e ↔ ∃ c, Tiling a xs c ∧ Tiling c ys e := by
  induction xs generalizing a with
  | nil => simp [Tiling]
  | cons x xs ih =>
    show x.bp = a ∧ Tiling (a + x.sz) (xs ++ ys) e ↔
      ∃ c, (x.bp = a ∧ Tiling (a + x.sz) xs c) ∧ Tiling c ys e
    rw [ih]
    constructor
    · rintro ⟨h1, c, h2, h3⟩
      exact ⟨c, ⟨h1, h2⟩, h3⟩
    · rintro ⟨c, ⟨h1, h2⟩, h3⟩
      exact ⟨h1, c, h2, h3⟩

theorem tiling_le (bs : List Blk) (a e : Nat) (h : Tiling a bs e) : a ≤ e := by
  induction bs generalizing a with
  | nil => exact le_of_eq h
  | cons b bs ih =>
    have := ih _ h.2
    omega

theorem tiling_mem (bs : List Blk) (a e : Nat) (h : Tiling a bs e) (b : Blk) (hb : b ∈ bs) :
    a ≤ b.bp ∧ b.bp + b.sz ≤ e := by
  induction bs generalizing a with
  | nil => cases hb
  | cons c bs ih =>
    rcases List.mem_cons.1 hb with rfl | hb
    · have := tiling_le _ _ _ h.2
      have := h.1
      omega
    · have := ih _ h.2 hb
      omega

theorem tiling_split (pre post : List Blk) (b : Blk) (a e : Nat)
    (h : Tiling a (pre ++ b :: post) e) :
    Tiling a pre b.bp ∧ Tiling (b.bp + b.sz) post e := by
  obtain ⟨c, h1, h2, h3⟩ := (tiling_append _ _ _ _).1 h
  rw [← h2] at h1 h3
  exact ⟨h1, h3⟩

theorem tiling_join (pre post : List Blk) (b : Blk) (a e : Nat)
    (h1 : Tiling a pre b.bp) (h2 : Tiling (b.bp + b.sz) post e) :
    Tiling a (pre ++ b :: post) e :=
  (tiling_append _ _ _ _).2 ⟨b.bp, h1, rfl, h2⟩

theorem tiling_al (bs : List Blk) (a e : Nat) (h : Tiling a bs e)
    (hs : ∀ b ∈ bs, b.sz % 8 = 0) (ha : a % 8 = 0) :
    e % 8 = 0 ∧ ∀ b ∈ bs, b.bp % 8 = 0 := by
  induction bs generalizing a with
  | nil =>
    have : a = e := h
    exact ⟨by omega, fun b hb => by cases hb⟩
  | cons c bs ih =>
    have hc := hs c (List.mem_cons_self _ _)
    have := ih (a + c.sz) h.2 (fun b hb => hs b (List.mem_cons_of_mem _ hb)) (by omega)
    refine ⟨this.1, fun b hb => ?_⟩
    rcases List.mem_cons.1 hb with rfl | hb
    · have := h.1
      omega
    · exact this.2 b hb

/-- Everything arithmetic about one block of the arena. -/
theorem Geo.blk {start brk mx : Nat} {bs : List Blk} (g : Geo start brk mx bs) (b : Blk)
    (hb : b ∈ bs) :
    start + 8 ≤ b.bp ∧ b.bp + b.sz ≤ brk ∧ b.sz % 8 = 0 ∧ 24 ≤ b.sz ∧ b.bp % 8 = 0 ∧
      b.sz < 4294967296 ∧ b.bp < 18446744073709551616 := by
  have h1 := tiling_mem _ _ _ g.tiling b hb
  have h2 := g.sizes b hb
  have h3 := (tiling_al _ _ _ g.tiling (fun b hb => (g.sizes b hb).1)
    (by have := g.start_al; omega)).2 b hb
  have := g.brk_le
  have := g.max_lt
  have := g.max_64
  omega

/-- Two blocks of the arena are the same block or do not overlap. -/
theorem Geo.sep {start brk mx : Nat} {bs : List Blk} (g : Geo start brk mx bs) (b c : Blk)
    (hb : b ∈ bs) (hc : c ∈ bs) :
    b = c ∨ b.bp + b.sz ≤ c.bp ∨ c.bp + c.sz ≤ b.bp := by
  obtain ⟨pre, post, rfl⟩ := List.append_of_mem hb
  obtain ⟨t1, t2⟩ := tiling_split _ _ _ _ _ g.tiling
  rcases List.mem_append.1 hc with h | h
  · have := tiling_mem _ _ _ t1 c h
    omega
  · rcases List.mem_cons.1 h with h | h
    · exact Or.inl h.symm
    · have := tiling_mem _ _ _ t2 c h
      omega

/-- A block is determined by its block pointer. -/
theorem Geo.bp_inj {start brk mx : Nat} {bs : List Blk} (g : Geo start brk mx bs) (b c : Blk)
    (hb : b ∈ bs) (hc : c ∈ bs) (h : b.bp = c.bp) : b = c := by
  have h1 := g.blk b hb
  have h2 := g.blk c hc
  rcases g.sep b c hb hc with h3 | h3 | h3
  · exact h3
  · omega
  · omega

theorem Geo.brk_al {start brk mx : Nat} {bs : List Blk} (g : Geo start brk mx bs) :
    brk % 8 = 0 ∧ start + 8 ≤ brk :=
  ⟨(tiling_al _ _ _ g.tiling (fun b hb => (g.sizes b hb).1)
    (by have := g.start_al; omega)).1, tiling_le _ _ _ g.tiling⟩

/-! ## Effect of stores on tags and links -/

/-- Writing header and footer of a block, as every operation does it: the footer
address is read back from the header just written. -/
theorem tag_write (m : Mem) (bp sz bit : Nat) (hbp : 4 ≤ bp) (h8 : sz % 8 = 0) (hs : 8 ≤ sz)
    (hlt : sz < 4294967296) (hb : bit ≤ 1) :
    FTRP (PUT m (HDRP bp) (PACK sz bit)) bp = bp + sz - 8 ∧
    GET (PUT (PUT m (HDRP bp) (PACK sz bit)) (bp + sz - 8) (PACK sz bit)) (bp - 4) = sz + bit ∧
    GET (PUT (PUT m (HDRP bp) (PACK sz bit)) (bp + sz - 8) (PACK sz bit)) (bp + sz - 8)
      = sz + bit ∧
    ∀ a, (a < bp - 4 ∨ bp ≤ a) → (a < bp + sz - 8 ∨ bp + sz - 4 ≤ a) →
      PUT (PUT m (HDRP bp) (PACK sz bit)) (bp + sz - 8) (PACK sz bit) a = m a := by
  have hp : PACK sz bit = sz + bit := PACK_eq sz bit h8 hlt hb
  have hH : HDRP bp = bp - 4 := rfl
  have hmod : (sz + bit) % 4294967296 = sz + bit := Nat.mod_eq_of_lt (by omega)
  rw [hp, hH]
  refine ⟨?_, ?_, ?_, ?_⟩
  · unfold FTRP
    rw [hH, (decode_tag _ (bp - 4) sz bit (by rw [GET_PUT_same, hmod]) h8 hb).1]
    rfl
  · rw [GET_PUT_disj _ _ _ _ (by omega), GET_PUT_same, hmod]
  · rw [GET_PUT_same, hmod]
  · intro a h1 h2
    rw [PUT_outside _ _ _ _ (by omega), PUT_outside _ _ _ _ (by omega)]

theorem Geo.set_kind {start brk mx : Nat} {pre post : List Blk} {b : Blk}
    (g : Geo start brk mx (pre ++ b :: post)) (k : Kind) :
    Geo start brk mx (pre ++ { b with kind := k } :: post) := by
  obtain ⟨t1, t2⟩ := tiling_split _ _ _ _ _ g.tiling
  refine ⟨g.start_al, g.start_ge, g.brk_le, g.max_lt, g.max_64, tiling_join _ _ _ _ _ t1 t2, ?_⟩
  intro c hc
  rcases List.mem_append.1 hc with h | h
  · exact g.sizes c (List.mem_append_left _ h)
  · rcases List.mem_cons.1 h with h | h
    · subst h
      exact g.sizes b (List.mem_append_right _ (List.mem_cons_self _ _))
    · exact g.sizes c (List.mem_append_right _ (List.mem_cons_of_mem _ h))

/-- A change of memory inside the payload area of one block keeps every tag. -/
theorem Tags.of_interior {m m' : Mem} {start brk mx : Nat} {bs : List Blk}
    (g : Geo start brk mx bs) (t : Tags m start brk bs) (y : Blk) (hy : y ∈ bs)
    (h : ∀ a, a < y.bp ∨ y.bp + y.sz - 8 ≤ a → m' a = m a) : Tags m' start brk bs := by
  have gy := g.blk y hy
  refine ⟨?_, ?_, ?_, ?_⟩
  · rw [GET_congr m m' _ (fun a h1 h2 => h a (by omega))]
    exact t.prologue_h
  · rw [GET_congr m m' _ (fun a h1 h2 => h a (by omega))]
    exact t.prologue_f
  · rw [GET_congr m m' _ (fun a h1 h2 => h a (by omega))]
    exact t.epilogue
  · intro c hc hk
    have gc := g.blk c hc
    have hsep := g.sep y c hy hc
    rw [GET_congr m m' (c.bp - 4) (fun a h1 h2 => h a (by
        rcases hsep with h3 | h3 | h3
        · subst h3; omega
        · omega
        · omega)),
      GET_congr m m' (c.bp + c.sz - 8) (fun a h1 h2 => h a (by
        rcases hsep with h3 | h3 | h3
        · subst h3; omega
        · omega
        · omega))]
    exact t.tags c hc hk

/-- A change of memory inside the payload area of one block keeps the link
fields of every other block. -/
theorem links_of_interior {m m' : Mem} {start brk mx : Nat} {bs : List Blk}
    (g : Geo start brk mx bs) (y : Blk) (hy : y ∈ bs)
    (h : ∀ a, a < y.bp ∨ y.bp + y.sz - 8 ≤ a → m' a = m a) (z : Nat) (hz : IsBp bs z)
    (hne : z ≠ y.bp) : getPrev m' z = getPrev m z ∧ getNext m' z = getNext m z := by
  obtain ⟨c, hc, rfl⟩ := hz
  have gy := g.blk y hy
  have gc := g.blk c hc
  have hsep : y.bp + y.sz ≤ c.bp ∨ c.bp + c.sz ≤ y.bp := by
    rcases g.sep y c hy hc with h3 | h3 | h3
    · subst h3; exact absurd rfl hne
    · exact Or.inl h3
    · exact Or.inr h3
  unfold getPrev getNext
  exact ⟨loadPtr_congr m m' _ (fun a h1 h2 => h a (by omega)),
    loadPtr_congr m m' _ (fun a h1 h2 => h a (by omega))⟩

/-- Rewriting the two tags of one block: the tags of the others, the prologue
and the epilogue stay. -/
theorem Tags.of_tagchange {m m' : Mem} {start brk mx : Nat} {pre post : List Blk} {b : Blk}
    (g : Geo start brk mx (pre ++ b :: post)) (t : Tags m start brk (pre ++ b :: post))
    (k : Kind)
    (h : ∀ a, (a < b.bp - 4 ∨ b.bp ≤ a) → (a < b.bp + b.sz - 8 ∨ b.bp + b.sz - 4 ≤ a) →
      m' a = m a)
    (hh : GET m' (b.bp - 4) = b.sz + k.bit) (hf : GET m' (b.bp + b.sz - 8) = b.sz + k.bit) :
    Tags m' start brk (pre ++ { b with kind := k } :: post) := by
  have hb : b ∈ pre ++ b :: post := List.mem_append_right _ (List.mem_cons_self _ _)
  have gb := g.blk b hb
  have key : ∀ c ∈ pre ++ post, TagOK m' c := by
    intro c hc hk
    have hc' : c ∈ pre ++ b :: post := by
      rcases List.mem_append.1 hc with h1 | h1
      · exact List.mem_append_left _ h1
      · exact List.mem_append_right _ (List.mem_cons_of_mem _ h1)
    have gc := g.blk c hc'
    obtain ⟨t1, t2⟩ := tiling_split _ _ _ _ _ g.tiling
    have hsep : c.bp + c.sz ≤ b.bp ∨ b.bp + b.sz ≤ c.bp := by
      rcases List.mem_append.1 hc with h1 | h1
      · exact Or.inl (tiling_mem _ _ _ t1 c h1).2
      · exact Or.inr (tiling_mem _ _ _ t2 c h1).1
    rw [GET_congr m m' (c.bp - 4) (fun a h1 h2 => h a (by omega) (by omega)),
      GET_congr m m' (c.bp + c.sz - 8) (fun a h1 h2 => h a (by omega) (by omega))]
    exact t.tags c hc' hk
  refine ⟨?_, ?_, ?_, ?_⟩
  · rw [GET_congr m m' _ (fun a h1 h2 => h a (by omega) (by omega))]
    exact t.prologue_h
  · rw [GET_congr m m' _ (fun a h1 h2 => h a (by omega) (by omega))]
    exact t.prologue_f
  · rw [GET_congr m m' _ (fun a h1 h2 => h a (by omega) (by omega))]
    exact t.epilogue
  · intro c hc
    rcases List.mem_append.1 hc with h1 | h1
    · exact key c (List.mem_append_left _ h1)
    · rcases List.mem_cons.1 h1 with h1 | h1
      · subst h1
        intro _
        exact ⟨hh, hf⟩
      · exact key c (List.mem_append_right _ h1)

/-- Rewriting the two tags of one block keeps the link fields of every block. -/
theorem links_of_tagchange {m m' : Mem} {start brk mx : Nat} {bs : List Blk}
    (g : Geo start brk mx bs) (b : Blk) (hb : b ∈ bs)
    (h : ∀ a, (a < b.bp - 4 ∨ b.bp ≤ a) → (a < b.bp + b.sz - 8 ∨ b.bp + b.sz - 4 ≤ a) →
      m' a = m a)
    (z : Nat) (hz : IsBp bs z) : getPrev m' z = getPrev m z ∧ getNext m' z = getNext m z := by
  obtain ⟨c, hc, rfl⟩ := hz
  have gb := g.blk b hb
  have gc := g.blk c hc
  have hsep := g.sep b c hb hc
  unfold getPrev getNext
  constructor
  · refine loadPtr_congr m m' _ (fun a h1 h2 => h a ?_ ?_)
    · rcases hsep with h3 | h3 | h3
      · subst h3; omega
      · omega
      · omega
    · rcases hsep with h3 | h3 | h3
      · subst h3; omega
      · omega
      · omega
  · refine loadPtr_congr m m' _ (fun a h1 h2 => h a ?_ ?_)
    · rcases hsep with h3 | h3 | h3
      · subst h3; omega
      · omega
      · omega
    · rcases hsep with h3 | h3 | h3
      · subst h3; omega
      · omega
      · omega

/-! ## Doubly linked lists, as lists -/

theorem getLastD_append_cons (xs ys : List Nat) (y d : Nat) :
    (xs ++ y :: ys).getLastD d = (y :: ys).getLastD d := by
  induction xs with
  | nil => rfl
  | cons x xs ih =>
    cases xs with
    | nil => simp [List.getLastD]
    | cons x2 xs => simp [List.getLastD]

theorem getLastD_mem (xs : List Nat) (d : Nat) (h : xs ≠ []) : xs.getLastD d ∈ xs := by
  cases xs with
  | nil => exact absurd rfl h
  | cons x xs =>
    rw [List.getLastD_cons]
    induction xs generalizing x with
    | nil => simp
    | cons y ys ih =>
      rw [List.getLastD_cons]
      exact List.mem_cons_of_mem _ (ih y (by simp))

theorem headD_mem (xs : List Nat) (d : Nat) (h : xs ≠ []) : xs.headD d ∈ xs := by
  cases xs with
  | nil => exact absurd rfl h
  | cons x xs => simp

theorem LinkedF.congr {P N P' N' : Nat → Nat} {fl : List Nat} (h : LinkedF P N fl)
    (hc : ∀ z ∈ fl, P' z = P z ∧ N' z = N z) : LinkedF P' N' fl := by
  intro xs x ys heq
  have hx : x ∈ fl := by rw [heq]; simp
  rw [(hc x hx).1, (hc x hx).2]
  exact h xs x ys heq

theorem LinkedF.nil (P N : Nat → Nat) : LinkedF P N [] := by
  intro xs x ys heq
  simp at heq

/-- Pushing a node in front of a doubly linked list. -/
theorem LinkedF.cons {P N P' N' : Nat → Nat} {fl : List Nat} {x : Nat} (h : LinkedF P N fl)
    (hnd : (x :: fl).Nodup) (hP : P' x = 0) (hN : N' x = fl.headD 0)
    (hN' : ∀ z ∈ fl, N' z = N z)
    (hP' : ∀ z ∈ fl, P' z = if z = fl.headD 0 then x else P z) :
    LinkedF P' N' (x :: fl) := by
  intro xs z ys heq
  cases xs with
  | nil =>
    simp only [List.nil_append, List.cons.injEq] at heq
    obtain ⟨rfl, rfl⟩ := heq
    exact ⟨hP, hN⟩
  | cons w xs =>
    simp only [List.cons_append, List.cons.injEq] at heq
    obtain ⟨rfl, rfl⟩ := heq
    have hz : z ∈ xs ++ z :: ys := by simp
    have h1 := h xs z ys rfl
    rw [hN' z hz, hP' z hz]
    refine ⟨?_, h1.2⟩
    cases xs with
    | nil => simp [List.getLastD]
    | cons u us =>
      have hne : z ≠ u := by
        intro e
        subst e
        have := (List.nodup_cons.1 hnd).2
        simp at this
      simp only [List.cons_append, List.headD_cons, if_neg hne]
      rw [h1.1]
      simp [List.getLastD]

/-- Unlinking a node from a doubly linked list. -/
theorem LinkedF.erase {P N P' N' : Nat → Nat} {xs ys : List Nat} {x : Nat}
    (h : LinkedF P N (xs ++ x :: ys)) (hnd : (xs ++ x :: ys).Nodup)
    (h0 : ∀ z ∈ xs ++ ys, z ≠ 0)
    (hN' : ∀ z ∈ xs ++ ys, N' z = if z = xs.getLastD 0 then ys.headD 0 else N z)
    (hP' : ∀ z ∈ xs ++ ys, P' z = if z = ys.headD 0 then xs.getLastD 0 else P z) :
    LinkedF P' N' (xs ++ ys) := by
  intro us z vs heq
  have hz : z ∈ xs ++ ys := by rw [heq]; simp
  have hz0 := h0 z hz
  rw [hN' z hz, hP' z hz]
  have hnd' : (xs ++ ys).Nodup := by
    have := List.nodup_append.1 hnd
    exact List.nodup_append.2 ⟨this.1, (List.nodup_cons.1 this.2.1).2,
      fun a ha hb => this.2.2 ha (List.mem_cons_of_mem _ hb)⟩
  have hdis : ∀ a, a ∈ xs → a ∈ ys → False := fun a ha hb => (List.nodup_append.1 hnd').2.2 ha hb
  rcases List.append_eq_append_iff.1 heq with ⟨a', h1, h2⟩ | ⟨c', h1, h2⟩
  · -- z lies in ys
    subst h1
    have hzy : z ∈ ys := by rw [h2]; simp
    have hzx : z ∉ xs := fun hh => hdis z hh hzy
    have hne1 : z ≠ xs.getLastD 0 := by
      intro e
      by_cases hx : xs = []
      · subst hx
        exact hz0 e
      · exact hzx (e ▸ getLastD_mem xs 0 hx)
    rw [if_neg hne1]
    have horig := h (xs ++ x :: a') z vs (by rw [h2]; simp)
    refine ⟨?_, horig.2⟩
    cases a' with
    | nil =>
      simp only [List.nil_append] at h2
      subst h2
      simp
    | cons u us' =>
      have hne2 : z ≠ ys.headD 0 := by
        rw [h2]
        simp only [List.cons_append, List.headD_cons]
        intro e
        subst e
        have hh := (List.nodup_append.1 hnd').2.1
        rw [h2] at hh
        simp at hh
      rw [if_neg hne2, horig.1, getLastD_append_cons xs (u :: us') x 0,
        getLastD_append_cons xs us' u 0]
      simp [List.getLastD]
  · -- z lies in xs
    cases c' with
    | nil =>
      simp only [List.append_nil, List.nil_append] at h1 h2
      subst h1
      subst h2
      have hne1 : z ≠ xs.getLastD 0 := by
        intro e
        by_cases hx : xs = []
        · subst hx
          exact hz0 e
        · exact hdis z (e ▸ getLastD_mem xs 0 hx) (by simp)
      have horig := h (xs ++ [x]) z vs (by simp)
      rw [if_neg hne1]
      simp only [List.headD_cons, if_true]
      exact ⟨trivial, horig.2⟩
    | cons w ws =>
      simp only [List.cons_append, List.cons.injEq] at h2
      obtain ⟨rfl, rfl⟩ := h2
      subst h1
      have hzx : z ∈ us ++ z :: ws := by simp
      have hne2 : z ≠ ys.headD 0 := by
        intro e
        by_cases hy : ys = []
        · subst hy
          exact hz0 e
        · exact hdis z hzx (e ▸ headD_mem ys 0 hy)
      have horig := h us z (ws ++ x :: ys) (by simp)
      rw [if_neg hne2]
      refine ⟨horig.1, ?_⟩
      cases ws with
      | nil =>
        simp [getLastD_append_cons]
      | cons u us' =>
        have hne1 : z ≠ (us ++ z :: u :: us').getLastD 0 := by
          rw [getLastD_append_cons]
          intro e
          have hh := (List.nodup_append.1 hnd').1
          have h3 : (z :: u :: us').Nodup := (List.nodup_append.1 hh).2.1
          have h4 : (z :: u :: us').getLastD 0 ∈ u :: us' := by
            rw [List.getLastD_cons]
            exact getLastD_mem (u :: us') z (by simp)
          rw [← e] at h4
          exact (List.nodup_cons.1 h3).1 h4
        rw [if_neg hne1, horig.2]
        simp

/-! ## Stores into link fields -/

theorem IsBp.pos {start brk mx : Nat} {bs : List Blk} (g : Geo start brk mx bs) {z : Nat}
    (hz : IsBp bs z) : z ≠ 0 ∧ z < 18446744073709551616 := by
  obtain ⟨c, hc, rfl⟩ := hz
  have := g.blk c hc
  omega

/-- The assignment `y->prev = v` for a block pointer `y`. -/
theorem setPrev_spec {m : Mem} {start brk mx : Nat} {bs : List Blk}
    (g : Geo start brk mx bs) {y : Nat} (hy : IsBp bs y) (v : Nat)
    (hv : v < 18446744073709551616) :
    (Tags m start brk bs → Tags (setPrev m y v) start brk bs) ∧
    (∀ z, IsBp bs z → getPrev (setPrev m y v) z = (if z = y then v else getPrev m z) ∧
      getNext (setPrev m y v) z = getNext m z) ∧
    (∀ a, a < y ∨ y + 8 ≤ a → setPrev m y v a = m a) := by
  obtain ⟨b, hb, rfl⟩ := hy
  have gb := g.blk b hb
  have hfr : ∀ a, a < b.bp ∨ b.bp + 8 ≤ a → setPrev m b.bp v a = m a :=
    fun a ha => storePtr_outside m b.bp v a ha
  refine ⟨fun t => Tags.of_interior g t b hb (fun a ha => hfr a (by omega)), ?_, hfr⟩
  intro z hz
  by_cases hzb : z = b.bp
  · subst hzb
    rw [if_pos rfl]
    exact ⟨loadPtr_storePtr_same m b.bp v hv,
      loadPtr_congr _ _ _ (fun a h1 h2 => hfr a (by omega))⟩
  · rw [if_neg hzb]
    exact links_of_interior g b hb (fun a ha => hfr a (by omega)) z hz hzb

/-- The assignment `y->next = v` for a block pointer `y`. -/
theorem setNext_spec {m : Mem} {start brk mx : Nat} {bs : List Blk}
    (g : Geo start brk mx bs) {y : Nat} (hy : IsBp bs y) (v : Nat)
    (hv : v < 18446744073709551616) :
    (Tags m start brk bs → Tags (setNext m y v) start brk bs) ∧
    (∀ z, IsBp bs z → getNext (setNext m y v) z = (if z = y then v else getNext m z) ∧
      getPrev (setNext m y v) z = getPrev m z) ∧
    (∀ a, a < y + 8 ∨ y + 16 ≤ a → setNext m y v a = m a) := by
  obtain ⟨b, hb, rfl⟩ := hy
  have gb := g.blk b hb
  have hfr : ∀ a, a < b.bp + 8 ∨ b.bp + 16 ≤ a → setNext m b.bp v a = m a :=
    fun a ha => storePtr_outside m (b.bp + 8) v a (by omega)
  refine ⟨fun t => Tags.of_interior g t b hb (fun a ha => hfr a (by omega)), ?_, hfr⟩
  intro z hz
  by_cases hzb : z = b.bp
  · subst hzb
    rw [if_pos rfl]
    exact ⟨loadPtr_storePtr_same m (b.bp + 8) v hv,
      loadPtr_congr _ _ _ (fun a h1 h2 => hfr a (by omega))⟩
  · rw [if_neg hzb]
    have := links_of_interior g b hb (fun a ha => hfr a (by omega)) z hz hzb
    exact ⟨this.2, this.1⟩

/-! ## `remove_from_free` and `insert_to_free` -/

theorem erase_mid (xs ys : List Nat) (x : Nat) (hx : x ∉ xs) :
    (xs ++ x :: ys).erase x = xs ++ ys := by
  rw [List.erase_append_right _ hx, List.erase_cons_head]

theorem getLastD_eq_zero (xs : List Nat) (h0 : ∀ z ∈ xs, z ≠ 0) : xs.getLastD 0 = 0 ↔ xs = [] := by
  constructor
  · intro e
    by_contra hne
    exact h0 _ (getLastD_mem xs 0 hne) e
  · rintro rfl
    rfl

theorem headD_eq_zero (xs : List Nat) (h0 : ∀ z ∈ xs, z ≠ 0) : xs.headD 0 = 0 ↔ xs = [] := by
  constructor
  · intro e
    by_contra hne
    exact h0 _ (headD_mem xs 0 hne) e
  · rintro rfl
    rfl

theorem Heap.size_at {s : State} {bs : List Blk} {fl : List Nat} (h : Heap s bs fl) (b : Blk)
    (hb : b ∈ bs) (hk : b.kind ≠ Kind.raw) :
    GET_SIZE s.mem (HDRP b.bp) = b.sz ∧ GET_ALLOC s.mem (HDRP b.bp) = b.kind.bit ∧
    GET_SIZE s.mem (b.bp + b.sz - 8) = b.sz ∧ GET_ALLOC s.mem (b.bp + b.sz - 8) = b.kind.bit := by
  have gb := h.geo.blk b hb
  have t := h.tags.tags b hb hk
  have hbit : b.kind.bit ≤ 1 := by
    cases b.kind <;> simp [Kind.bit]
  have h1 := decode_tag s.mem (b.bp - 4) b.sz b.kind.bit t.1 gb.2.2.1 hbit
  have h2 := decode_tag s.mem (b.bp + b.sz - 8) b.sz b.kind.bit t.2 gb.2.2.1 hbit
  exact ⟨h1.1, h1.2, h2.1, h2.2⟩

/-- `remove_from_free` unlinks a node of the free list and touches nothing but
link fields of list nodes. -/
theorem remove_spec {s : State} {bs : List Blk} {fl : List Nat} (h : Heap s bs fl)
    (b : Blk) (hb : b ∈ bs) (hk : b.kind ≠ Kind.raw) (hx : b.bp ∈ fl) :
    Heap (remove_from_free s b.bp) bs (fl.erase b.bp) ∧
    (remove_from_free s b.bp).start = s.start ∧
    (remove_from_free s b.bp).mem_brk = s.mem_brk ∧
    (remove_from_free s b.bp).mem_max_addr = s.mem_max_addr ∧
    ∀ a, (∀ y ∈ fl, a < y ∨ y + 16 ≤ a) → (remove_from_free s b.bp).mem a = s.mem a := by
  obtain ⟨xs, ys, hfl⟩ := List.append_of_mem hx
  subst hfl
  have g := h.geo
  have hnd := h.flist.nodup
  have hnd2 := List.nodup_append.1 hnd
  have hxs : b.bp ∉ xs := fun hh => hnd2.2.2 hh (List.mem_cons_self _ _)
  have hys : b.bp ∉ ys := (List.nodup_cons.1 hnd2.2.1).1
  rw [erase_mid xs ys b.bp hxs]
  have hl := h.flist.linked xs b.bp ys rfl
  have hsz := (h.size_at b hb hk).1
  have gb := g.blk b hb
  have hne : ¬ GET_SIZE s.mem (HDRP b.bp) = 0 := by omega
  have hbp : ∀ z ∈ xs ++ b.bp :: ys, IsBp bs z := h.flist.mem_blk
  have h0 : ∀ z ∈ xs ++ b.bp :: ys, z ≠ 0 := fun z hz => (IsBp.pos g (hbp z hz)).1
  have h0x : ∀ z ∈ xs, z ≠ 0 := fun z hz => h0 z (List.mem_append_left _ hz)
  have h0y : ∀ z ∈ ys, z ≠ 0 := fun z hz =>
    h0 z (List.mem_append_right _ (List.mem_cons_of_mem _ hz))
  have h0' : ∀ z ∈ xs ++ ys, z ≠ 0 := by
    intro z hz
    rcases List.mem_append.1 hz with h1 | h1
    · exact h0x z h1
    · exact h0y z h1
  have hbp' : ∀ z ∈ xs ++ ys, IsBp bs z := by
    intro z hz
    rcases List.mem_append.1 hz with h1 | h1
    · exact hbp z (List.mem_append_left _ h1)
    · exact hbp z (List.mem_append_right _ (List.mem_cons_of_mem _ h1))
  have hne' : ∀ z ∈ xs ++ ys, z ≠ b.bp := by
    intro z hz e
    subst e
    rcases List.mem_append.1 hz with h1 | h1
    · exact hxs h1
    · exact hys h1
  have hnd' : (xs ++ ys).Nodup :=
    List.nodup_append.2 ⟨hnd2.1, (List.nodup_cons.1 hnd2.2.1).2,
      fun a ha hb => hnd2.2.2 ha (List.mem_cons_of_mem _ hb)⟩
  by_cases hxe : xs = []
  · by_cases hye : ys = []
    · -- sole element
      subst hxe
      subst hye
      have hdef : remove_from_free s b.bp = { s with firstfree := 0 } := by
        unfold remove_from_free
        rw [if_neg hne, if_pos ⟨hl.2, hl.1⟩]
      rw [hdef]
      exact ⟨⟨g, h.tags, ⟨List.nodup_nil, (fun z hz => absurd hz (List.not_mem_nil z)), rfl,
        LinkedF.nil _ _⟩⟩, rfl, rfl, rfl, fun a _ => rfl⟩
    · -- head with a successor
      subst hxe
      have hn0 : getNext s.mem b.bp ≠ 0 := by
        rw [hl.2]
        exact fun e => hye ((headD_eq_zero ys h0y).1 e)
      have hdef : remove_from_free s b.bp =
          { s with firstfree := ys.headD 0, mem := setPrev s.mem (ys.headD 0) 0 } := by
        unfold remove_from_free
        rw [if_neg hne, if_neg (fun hh => hn0 hh.1), if_pos ⟨hl.1, hn0⟩, hl.2]
      rw [hdef]
      have hnb : IsBp bs (ys.headD 0) := hbp' _ (headD_mem ys 0 hye)
      obtain ⟨sp1, sp2, sp3⟩ := setPrev_spec (m := s.mem) g hnb 0 (by norm_num)
      refine ⟨⟨g, sp1 h.tags, ⟨hnd', hbp', rfl, ?_⟩⟩, rfl, rfl, rfl, ?_⟩
      · refine @LinkedF.erase _ _ _ _ [] _ _ h.flist.linked hnd h0' ?_ ?_
        · intro z hz
          rw [(sp2 z (hbp' z hz)).2]
          exact (if_neg (h0' z hz)).symm
        · intro z hz
          rw [(sp2 z (hbp' z hz)).1]
          rfl
      · intro a ha
        have := ha (ys.headD 0) (List.mem_cons_of_mem _ (headD_mem ys 0 hye))
        exact sp3 a (by omega)
  · have hp0 : getPrev s.mem b.bp ≠ 0 := by
      rw [hl.1]
      exact fun e => hxe ((getLastD_eq_zero xs h0x).1 e)
    have hpb : IsBp bs (xs.getLastD 0) :=
      hbp' _ (List.mem_append_left _ (getLastD_mem xs 0 hxe))
    have hpne : b.bp ≠ xs.getLastD 0 := fun e => hxs (e ▸ getLastD_mem xs 0 hxe)
    by_cases hye : ys = []
    · -- tail with a predecessor
      subst hye
      have hdef : remove_from_free s b.bp =
          { s with mem := setNext s.mem (xs.getLastD 0) 0 } := by
        unfold remove_from_free
        rw [if_neg hne, if_neg (fun hh => hp0 hh.2), if_neg (fun hh => hp0 hh.1),
          if_pos ⟨hp0, hl.2⟩, hl.1]
      rw [hdef]
      obtain ⟨sp1, sp2, sp3⟩ := setNext_spec (m := s.mem) g hpb 0 (by norm_num)
      refine ⟨⟨g, sp1 h.tags, ⟨hnd', hbp', ?_, ?_⟩⟩, rfl, rfl, rfl, ?_⟩
      · have := h.flist.head
        rw [this]
        cases xs with
        | nil => exact absurd rfl hxe
        | cons u us => rfl
      · refine LinkedF.erase h.flist.linked hnd h0' ?_ ?_
        · intro z hz
          rw [(sp2 z (hbp' z hz)).1]
          rfl
        · intro z hz
          rw [(sp2 z (hbp' z hz)).2]
          exact (if_neg (h0' z hz)).symm
      · intro a ha
        have := ha (xs.getLastD 0) (List.mem_append_left _ (getLastD_mem xs 0 hxe))
        exact sp3 a (by omega)
    · -- interior
      have hn0 : getNext s.mem b.bp ≠ 0 := by
        rw [hl.2]
        exact fun e => hye ((headD_eq_zero ys h0y).1 e)
      have hnb : IsBp bs (ys.headD 0) :=
        hbp' _ (List.mem_append_right _ (headD_mem ys 0 hye))
      have hnne : b.bp ≠ ys.headD 0 := fun e => hys (e ▸ headD_mem ys 0 hye)
      have hbb : IsBp bs b.bp := ⟨b, hb, rfl⟩
      obtain ⟨a1, a2, a3⟩ := setNext_spec (m := s.mem) g hpb (ys.headD 0) (IsBp.pos g hnb).2
      have e1 : getNext (setNext s.mem (xs.getLastD 0) (ys.headD 0)) b.bp = ys.headD 0 := by
        rw [(a2 b.bp hbb).1, if_neg hpne, hl.2]
      have e2 : getPrev (setNext s.mem (xs.getLastD 0) (ys.headD 0)) b.bp = xs.getLastD 0 := by
        rw [(a2 b.bp hbb).2, hl.1]
      obtain ⟨b1, b2, b3⟩ := setPrev_spec
        (m := setNext s.mem (xs.getLastD 0) (ys.headD 0)) g hnb (xs.getLastD 0) (IsBp.pos g hpb).2
      obtain ⟨c1, c2, c3⟩ := setPrev_spec
        (m := setPrev (setNext s.mem (xs.getLastD 0) (ys.headD 0)) (ys.headD 0) (xs.getLastD 0))
        g hbb 0 (by norm_num)
      obtain ⟨d1, d2, d3⟩ := setNext_spec
        (m := setPrev (setPrev (setNext s.mem (xs.getLastD 0) (ys.headD 0)) (ys.headD 0)
          (xs.getLastD 0)) b.bp 0) g hbb 0 (by norm_num)
      have hdef : remove_from_free s b.bp =
          { s with mem := setNext (setPrev (setPrev (setNext s.mem (xs.getLastD 0) (ys.headD 0))
            (ys.headD 0) (xs.getLastD 0)) b.bp 0) b.bp 0 } := by
        unfold remove_from_free
        rw [if_neg hne, if_neg (fun hh => hn0 hh.1), if_neg (fun hh => hp0 hh.1),
          if_neg (fun hh => hn0 hh.2), if_pos ⟨hp0, hn0⟩]
        simp only [hl.1, hl.2, e1, e2]
      rw [hdef]
      refine ⟨⟨g, d1 (c1 (b1 (a1 h.tags))), ⟨hnd', hbp', ?_, ?_⟩⟩, rfl, rfl, rfl, ?_⟩
      · have := h.flist.head
        rw [this]
        cases xs with
        | nil => exact absurd rfl hxe
        | cons u us => rfl
      · refine LinkedF.erase h.flist.linked hnd h0' ?_ ?_
        · intro z hz
          have hzb := hbp' z hz
          rw [(d2 z hzb).1, if_neg (hne' z hz), (c2 z hzb).2, (b2 z hzb).2, (a2 z hzb).1]
        · intro z hz
          have hzb := hbp' z hz
          rw [(d2 z hzb).2, (c2 z hzb).1, if_neg (hne' z hz), (b2 z hzb).1, (a2 z hzb).2]
      · intro a ha
        have k1 := ha (xs.getLastD 0) (List.mem_append_left _ (getLastD_mem xs 0 hxe))
        have k2 := ha (ys.headD 0)
          (List.mem_append_right _ (List.mem_cons_of_mem _ (headD_mem ys 0 hye)))
        have k3 := ha b.bp (List.mem_append_right _ (List.mem_cons_self _ _))
        show setNext _ _ _ a = s.mem a
        rw [d3 a (by omega), c3 a (by omega), b3 a (by omega), a3 a (by omega)]

/-- `insert_to_free` pushes a free block in front of the free list and touches
nothing but link fields of the block and of the old head. -/
theorem insert_spec {s : State} {bs : List Blk} {fl : List Nat} (h : Heap s bs fl)
    (b : Blk) (hb : b ∈ bs) (hk : b.kind = Kind.free) (hx : b.bp ∉ fl) :
    Heap (insert_to_free s b.bp) bs (b.bp :: fl) ∧
    (insert_to_free s b.bp).start = s.start ∧
    (insert_to_free s b.bp).mem_brk = s.mem_brk ∧
    (insert_to_free s b.bp).mem_max_addr = s.mem_max_addr ∧
    ∀ a, (∀ y ∈ b.bp :: fl, a < y ∨ y + 16 ≤ a) → (insert_to_free s b.bp).mem a = s.mem a := by
  have g := h.geo
  have hal : ¬ GET_ALLOC s.mem (HDRP b.bp) ≠ 0 := by
    have := (h.size_at b hb (by rw [hk]; exact fun e => Kind.noConfusion e)).2.1
    rw [this, hk]
    exact fun e => e rfl
  have hbb : IsBp bs b.bp := ⟨b, hb, rfl⟩
  have hnd : (b.bp :: fl).Nodup := List.nodup_cons.2 ⟨hx, h.flist.nodup⟩
  have hbp : ∀ z ∈ b.bp :: fl, IsBp bs z := by
    intro z hz
    rcases List.mem_cons.1 hz with e | e
    · exact e ▸ hbb
    · exact h.flist.mem_blk z e
  have h0 : ∀ z ∈ fl, z ≠ 0 := fun z hz => (IsBp.pos g (h.flist.mem_blk z hz)).1
  have hne : ∀ z ∈ fl, z ≠ b.bp := fun z hz e => hx (e ▸ hz)
  by_cases hfe : fl = []
  · subst hfe
    have hff : s.firstfree = 0 := h.flist.head
    have hdef : insert_to_free s b.bp =
        { s with firstfree := b.bp, mem := setPrev (setNext s.mem b.bp 0) b.bp 0 } := by
      unfold insert_to_free
      rw [if_neg hal, if_pos hff]
    rw [hdef]
    obtain ⟨a1, a2, a3⟩ := setNext_spec (m := s.mem) g hbb 0 (by norm_num)
    obtain ⟨b1, b2, b3⟩ := setPrev_spec (m := setNext s.mem b.bp 0) g hbb 0 (by norm_num)
    refine ⟨⟨g, b1 (a1 h.tags), ⟨hnd, hbp, rfl, ?_⟩⟩, rfl, rfl, rfl, ?_⟩
    · refine LinkedF.cons h.flist.linked hnd ?_ ?_ ?_ ?_
      · rw [(b2 b.bp hbb).1, if_pos rfl]
      · rw [(b2 b.bp hbb).2, (a2 b.bp hbb).1, if_pos rfl]
        rfl
      · intro z hz
        cases hz
      · intro z hz
        cases hz
    · intro a ha
      have k := ha b.bp (List.mem_cons_self _ _)
      show setPrev _ _ _ a = s.mem a
      rw [b3 a (by omega), a3 a (by omega)]
  · have hff : s.firstfree = fl.headD 0 := h.flist.head
    have hfm : fl.headD 0 ∈ fl := headD_mem fl 0 hfe
    have hf0 : ¬ s.firstfree = 0 := by
      rw [hff]
      exact h0 _ hfm
    have hfb : IsBp bs (fl.headD 0) := h.flist.mem_blk _ hfm
    have hfp : getPrev s.mem (fl.headD 0) = 0 := by
      cases fl with
      | nil => exact absurd rfl hfe
      | cons u us => exact (h.flist.linked [] u us rfl).1
    have hdef : insert_to_free s b.bp =
        { s with firstfree := b.bp,
                 mem := setPrev (setNext (setPrev s.mem b.bp 0) b.bp (fl.headD 0))
                   (fl.headD 0) b.bp } := by
      unfold insert_to_free
      rw [if_neg hal, if_neg hf0]
      simp only [hff, hfp]
    rw [hdef]
    obtain ⟨a1, a2, a3⟩ := setPrev_spec (m := s.mem) g hbb 0 (by norm_num)
    obtain ⟨b1, b2, b3⟩ := setNext_spec (m := setPrev s.mem b.bp 0) g hbb (fl.headD 0)
      (IsBp.pos g hfb).2
    obtain ⟨c1, c2, c3⟩ := setPrev_spec (m := setNext (setPrev s.mem b.bp 0) b.bp (fl.headD 0))
      g hfb b.bp (IsBp.pos g hbb).2
    refine ⟨⟨g, c1 (b1 (a1 h.tags)), ⟨hnd, hbp, rfl, ?_⟩⟩, rfl, rfl, rfl, ?_⟩
    · refine LinkedF.cons h.flist.linked hnd ?_ ?_ ?_ ?_
      · have hbf : ¬ b.bp = fl.headD 0 := fun e => hx (e ▸ hfm)
        rw [(c2 b.bp hbb).1, if_neg hbf, (b2 b.bp hbb).2, (a2 b.bp hbb).1, if_pos rfl]
      · rw [(c2 b.bp hbb).2, (b2 b.bp hbb).1, if_pos rfl]
      · intro z hz
        have hzb := h.flist.mem_blk z hz
        rw [(c2 z hzb).2, (b2 z hzb).1, if_neg (hne z hz), (a2 z hzb).2]
      · intro z hz
        have hzb := h.flist.mem_blk z hz
        rw [(c2 z hzb).1, (b2 z hzb).2, (a2 z hzb).1, if_neg (hne z hz)]
    · intro a ha
      have k1 := ha b.bp (List.mem_cons_self _ _)
      have k2 := ha (fl.headD 0) (List.mem_cons_of_mem _ hfm)
      show setPrev _ _ _ a = s.mem a
      rw [c3 a (by omega), b3 a (by omega), a3 a (by omega)]

/-! ## Retagging, splitting and merging blocks -/

theorem mem_mid {α : Type} (pre post : List α) (b : α) : b ∈ pre ++ b :: post :=
  List.mem_append_right _ (List.mem_cons_self _ _)

theorem mem_mid_iff {α : Type} (pre post : List α) (b c : α) :
    c ∈ pre ++ b :: post ↔ c = b ∨ c ∈ pre ∨ c ∈ post := by
  rw [List.mem_append, List.mem_cons]
  tauto

theorem IsBp.of_set_kind {pre post : List Blk} {b : Blk} (k : Kind) {z : Nat}
    (hz : IsBp (pre ++ b :: post) z) : IsBp (pre ++ { b with kind := k } :: post) z := by
  obtain ⟨c, hc, rfl⟩ := hz
  rcases (mem_mid_iff _ _ _ _).1 hc with h | h | h
  · subst h
    exact ⟨{ c with kind := k }, mem_mid _ _ _, rfl⟩
  · exact ⟨c, (mem_mid_iff _ _ _ _).2 (Or.inr (Or.inl h)), rfl⟩
  · exact ⟨c, (mem_mid_iff _ _ _ _).2 (Or.inr (Or.inr h)), rfl⟩

/-- Writing header and footer of a block with its size and a new allocated bit. -/
theorem retag_spec {s : State} {pre post : List Blk} {b : Blk} {fl : List Nat}
    (h : Heap s (pre ++ b :: post) fl) (k : Kind) :
    Heap { s with mem := put_tags s.mem b.bp b.sz k.bit }
      (pre ++ { b with kind := k } :: post) fl ∧
    ∀ a, (a < b.bp - 4 ∨ b.bp ≤ a) → (a < b.bp + b.sz - 8 ∨ b.bp + b.sz - 4 ≤ a) →
      put_tags s.mem b.bp b.sz k.bit a = s.mem a := by
  have g := h.geo
  have gb := g.blk b (mem_mid _ _ _)
  have hbit : k.bit ≤ 1 := by
    cases k <;> simp [Kind.bit]
  obtain ⟨w1, w2, w3, w4⟩ := tag_write s.mem b.bp b.sz k.bit (by omega) gb.2.2.1 (by omega)
    gb.2.2.2.2.2.1 hbit
  unfold put_tags
  rw [w1]
  refine ⟨⟨g.set_kind k, Tags.of_tagchange g h.tags k w4 w2 w3, ⟨h.flist.nodup, ?_, h.flist.head, ?_⟩⟩,
    w4⟩
  · exact fun z hz => (h.flist.mem_blk z hz).of_set_kind k
  · exact h.flist.linked.congr
      (fun z hz => links_of_tagchange g b (mem_mid _ _ _) w4 z (h.flist.mem_blk z hz))

/-- Forgetting the tags of a block. -/
theorem Heap.forget {s : State} {pre post : List Blk} {b : Blk} {fl : List Nat}
    (h : Heap s (pre ++ b :: post) fl) :
    Heap s (pre ++ { b with kind := Kind.raw } :: post) fl := by
  refine ⟨h.geo.set_kind _, ⟨h.tags.prologue_h, h.tags.prologue_f, h.tags.epilogue, ?_⟩,
    ⟨h.flist.nodup, fun z hz => (h.flist.mem_blk z hz).of_set_kind _, h.flist.head, h.flist.linked⟩⟩
  intro c hc
  rcases (mem_mid_iff _ _ _ _).1 hc with e | e | e
  · subst e
    exact fun hh => absurd rfl hh
  · exact h.tags.tags c ((mem_mid_iff _ _ _ _).2 (Or.inr (Or.inl e)))
  · exact h.tags.tags c ((mem_mid_iff _ _ _ _).2 (Or.inr (Or.inr e)))

/-- Cutting a raw block in two raw blocks. -/
theorem Heap.split {s : State} {pre post : List Blk} {b : Blk} {fl : List Nat}
    (h : Heap s (pre ++ b :: post) fl) (hk : b.kind = Kind.raw) (k : Nat) (hk8 : k % 8 = 0)
    (hk24 : 24 ≤ k) (hrest : k + 24 ≤ b.sz) :
    Heap s (pre ++ ⟨b.bp, k, Kind.raw⟩ :: ⟨b.bp + k, b.sz - k, Kind.raw⟩ :: post) fl := by
  have g := h.geo
  have gb := g.blk b (mem_mid _ _ _)
  obtain ⟨t1, t2⟩ := tiling_split _ _ _ _ _ g.tiling
  have hmem : ∀ c, c ∈ pre ++ ⟨b.bp, k, Kind.raw⟩ :: ⟨b.bp + k, b.sz - k, Kind.raw⟩ :: post →
      c = ⟨b.bp, k, Kind.raw⟩ ∨ c = ⟨b.bp + k, b.sz - k, Kind.raw⟩ ∨ c ∈ pre ++ b :: post := by
    intro c hc
    rcases List.mem_append.1 hc with e | e
    · exact Or.inr (Or.inr (List.mem_append_left _ e))
    · rcases List.mem_cons.1 e with e | e
      · exact Or.inl e
      · rcases List.mem_cons.1 e with e | e
        · exact Or.inr (Or.inl e)
        · exact Or.inr (Or.inr (List.mem_append_right _ (List.mem_cons_of_mem _ e)))
  refine ⟨⟨g.start_al, g.start_ge, g.brk_le, g.max_lt, g.max_64, ?_, ?_⟩,
    ⟨h.tags.prologue_h, h.tags.prologue_f, h.tags.epilogue, ?_⟩,
    ⟨h.flist.nodup, ?_, h.flist.head, h.flist.linked⟩⟩
  · refine (tiling_append _ _ _ _).2 ⟨b.bp, t1, rfl, rfl, ?_⟩
    have e : b.bp + k + (b.sz - k) = b.bp + b.sz := by omega
    show Tiling (b.bp + k + (b.sz - k)) post s.mem_brk
    rw [e]
    exact t2
  · intro c hc
    rcases hmem c hc with e | e | e
    · subst e
      exact ⟨hk8, hk24⟩
    · subst e
      show (b.sz - k) % 8 = 0 ∧ 24 ≤ b.sz - k
      omega
    · exact g.sizes c e
  · intro c hc
    rcases hmem c hc with e | e | e
    · subst e
      exact fun hh => absurd rfl hh
    · subst e
      exact fun hh => absurd rfl hh
    · rcases (mem_mid_iff _ _ _ _).1 e with e | e | e
      · subst e
        exact fun hh => absurd hk hh
      · exact h.tags.tags c ((mem_mid_iff _ _ _ _).2 (Or.inr (Or.inl e)))
      · exact h.tags.tags c ((mem_mid_iff _ _ _ _).2 (Or.inr (Or.inr e)))
  · intro z hz
    obtain ⟨c, hc, rfl⟩ := h.flist.mem_blk z hz
    rcases (mem_mid_iff _ _ _ _).1 hc with e | e | e
    · subst e
      exact ⟨⟨c.bp, k, Kind.raw⟩, mem_mid _ _ _, rfl⟩
    · exact ⟨c, List.mem_append_left _ e, rfl⟩
    · exact ⟨c, List.mem_append_right _ (List.mem_cons_of_mem _ (List.mem_cons_of_mem _ e)), rfl⟩

/-- Joining two adjacent raw blocks, the second of which is not a list node. -/
theorem Heap.merge {s : State} {pre post : List Blk} {b1 b2 : Blk} {fl : List Nat}
    (h : Heap s (pre ++ b1 :: b2 :: post) fl) (hn : b2.bp ∉ fl) :
    Heap s (pre ++ ⟨b1.bp, b1.sz + b2.sz, Kind.raw⟩ :: post) fl := by
  have g := h.geo
  have hb1 : b1 ∈ pre ++ b1 :: b2 :: post := mem_mid _ _ _
  have hb2 : b2 ∈ pre ++ b1 :: b2 :: post :=
    List.mem_append_right _ (List.mem_cons_of_mem _ (List.mem_cons_self _ _))
  have g1 := g.blk b1 hb1
  have g2 := g.blk b2 hb2
  obtain ⟨t1, t2⟩ := tiling_split _ _ _ _ _ g.tiling
  have hmem : ∀ c, c ∈ pre ++ (⟨b1.bp, b1.sz + b2.sz, Kind.raw⟩ : Blk) :: post →
      c = ⟨b1.bp, b1.sz + b2.sz, Kind.raw⟩ ∨
        (c ∈ pre ++ b1 :: b2 :: post ∧ c ≠ b1 ∧ c ≠ b2 ∨ c ∈ pre ++ b1 :: b2 :: post) := by
    intro c hc
    rcases (mem_mid_iff _ _ _ _).1 hc with e | e | e
    · exact Or.inl e
    · exact Or.inr (Or.inr (List.mem_append_left _ e))
    · exact Or.inr (Or.inr (List.mem_append_right _
        (List.mem_cons_of_mem _ (List.mem_cons_of_mem _ e))))
  refine ⟨⟨g.start_al, g.start_ge, g.brk_le, g.max_lt, g.max_64, ?_, ?_⟩,
    ⟨h.tags.prologue_h, h.tags.prologue_f, h.tags.epilogue, ?_⟩,
    ⟨h.flist.nodup, ?_, h.flist.head, h.flist.linked⟩⟩
  · refine (tiling_append _ _ _ _).2 ⟨b1.bp, t1, rfl, ?_⟩
    have e : b1.bp + (b1.sz + b2.sz) = b1.bp + b1.sz + b2.sz := by omega
    show Tiling (b1.bp + (b1.sz + b2.sz)) post s.mem_brk
    rw [e]
    exact t2.2
  · intro c hc
    rcases hmem c hc with e | e | e
    · subst e
      show (b1.sz + b2.sz) % 8 = 0 ∧ 24 ≤ b1.sz + b2.sz
      omega
    · exact g.sizes c e.1
    · exact g.sizes c e
  · intro c hc
    rcases (mem_mid_iff _ _ _ _).1 hc with e | e | e
    · subst e
      exact fun hh => absurd rfl hh
    · exact h.tags.tags c (List.mem_append_left _ e)
    · exact h.tags.tags c (List.mem_append_right _
        (List.mem_cons_of_mem _ (List.mem_cons_of_mem _ e)))
  · intro z hz
    obtain ⟨c, hc, rfl⟩ := h.flist.mem_blk z hz
    rcases List.mem_append.1 hc with e | e
    · exact ⟨c, List.mem_append_left _ e, rfl⟩
    · rcases List.mem_cons.1 e with e | e
      · subst e
        exact ⟨⟨c.bp, c.sz + b2.sz, Kind.raw⟩, mem_mid _ _ _, rfl⟩
      · rcases List.mem_cons.1 e with e | e
        · subst e
          exact absurd hz hn
        · exact ⟨c, List.mem_append_right _ (List.mem_cons_of_mem _ e), rfl⟩

/-! ## `place` -/

/-- An address strictly inside a block is not a block pointer. -/
theorem not_isBp_inside {start brk mx : Nat} {bs : List Blk} (g : Geo start brk mx bs) (b : Blk)
    (hb : b ∈ bs) (z : Nat) (h1 : b.bp < z) (h2 : z < b.bp + b.sz) : ¬ IsBp bs z := by
  rintro ⟨c, hc, rfl⟩
  have gc := g.blk c hc
  rcases g.sep b c hb hc with e | e | e
  · subst e; omega
  · omega
  · omega

/-- `place` on a free-list node large enough to be split: the front becomes an
allocated block of `asize` bytes, the rest a free block at the head of the list. -/
theorem place_split {s : State} {pre post : List Blk} {X : Blk} {fl : List Nat}
    (h : Heap s (pre ++ X :: post) fl) (hXk : X.kind ≠ Kind.raw) (hXfl : X.bp ∈ fl)
    (asize : Nat) (h8 : asize % 8 = 0) (h24 : 24 ≤ asize) (hfit : asize + 24 ≤ X.sz) :
    Heap (place s X.bp asize)
      (pre ++ ⟨X.bp, asize, Kind.used⟩ :: ⟨X.bp + asize, X.sz - asize, Kind.free⟩ :: post)
      ((X.bp + asize) :: fl.erase X.bp) ∧
    (place s X.bp asize).start = s.start ∧
    (place s X.bp asize).mem_brk = s.mem_brk ∧
    (place s X.bp asize).mem_max_addr = s.mem_max_addr ∧
    ∀ a, (a < X.bp - 4 ∨ X.bp + X.sz - 4 ≤ a) → (∀ y ∈ fl, a < y ∨ y + 16 ≤ a) →
      (place s X.bp asize).mem a = s.mem a := by
  have g := h.geo
  have hXm : X ∈ pre ++ X :: post := mem_mid _ _ _
  have gX := g.blk X hXm
  have hcs := (h.size_at X hXm hXk).1
  have hrem : (X.sz + 2 ^ 32 - asize) % 2 ^ 32 = X.sz - asize := by
    norm_num
    omega
  have ar : ∀ a, (a < X.bp - 4 ∨ X.bp + X.sz - 4 ≤ a) →
      (a < X.bp - 4 ∨ X.bp ≤ a) ∧ (a < X.bp + asize - 8 ∨ X.bp + asize - 4 ≤ a) ∧
      (a < X.bp + asize - 4 ∨ X.bp + asize ≤ a) ∧
      (a < X.bp + asize + (X.sz - asize) - 8 ∨ X.bp + asize + (X.sz - asize) - 4 ≤ a) ∧
      (a < X.bp + asize ∨ X.bp + asize + 16 ≤ a) := by
    intro a ha
    omega
  have hin1 : X.bp < X.bp + asize := by omega
  have hin2 : X.bp + asize < X.bp + X.sz := by omega
  have hmin : MINIMUM ≤ X.sz - asize := by unfold MINIMUM; omega
  -- the block is cut in two raw pieces
  have H0 : Heap s (pre ++ ⟨X.bp, asize, Kind.raw⟩ :: ⟨X.bp + asize, X.sz - asize, Kind.raw⟩ ::
      post) fl := (h.forget).split rfl asize h8 h24 hfit
  -- header and footer of the front piece
  have R1 := retag_spec (b := ⟨X.bp, asize, Kind.raw⟩) H0 Kind.used
  have H1 : Heap { s with mem := put_tags s.mem X.bp asize 1 }
      (pre ++ ⟨X.bp, asize, Kind.used⟩ :: ⟨X.bp + asize, X.sz - asize, Kind.raw⟩ :: post) fl :=
    R1.1
  have F1 : ∀ a, (a < X.bp - 4 ∨ X.bp ≤ a) → (a < X.bp + asize - 8 ∨ X.bp + asize - 4 ≤ a) →
      put_tags s.mem X.bp asize 1 a = s.mem a := R1.2
  -- the front piece leaves the list
  have R2 := remove_spec H1 ⟨X.bp, asize, Kind.used⟩ (mem_mid _ _ _)
    (fun e => Kind.noConfusion e) hXfl
  generalize hs1 : remove_from_free { s with mem := put_tags s.mem X.bp asize 1 } X.bp = s1
  have H2 : Heap s1 ((pre ++ [⟨X.bp, asize, Kind.used⟩]) ++
      ⟨X.bp + asize, X.sz - asize, Kind.raw⟩ :: post) (fl.erase X.bp) := by
    rw [List.append_assoc, ← hs1]
    exact R2.1
  have S2a : s1.start = s.start := by rw [← hs1]; exact R2.2.1
  have S2b : s1.mem_brk = s.mem_brk := by rw [← hs1]; exact R2.2.2.1
  have S2c : s1.mem_max_addr = s.mem_max_addr := by rw [← hs1]; exact R2.2.2.2.1
  have F2 : ∀ a, (∀ y ∈ fl, a < y ∨ y + 16 ≤ a) → s1.mem a = put_tags s.mem X.bp asize 1 a := by
    rw [← hs1]
    exact R2.2.2.2.2
  -- header and footer of the rest
  have hnext : GET_SIZE s1.mem (HDRP X.bp) = asize :=
    (H2.size_at ⟨X.bp, asize, Kind.used⟩
      (List.mem_append_left _ (List.mem_append_right _ (List.mem_singleton_self _)))
      (fun e => Kind.noConfusion e)).1
  have R3 := retag_spec (b := ⟨X.bp + asize, X.sz - asize, Kind.raw⟩) H2 Kind.free
  have H3 : Heap { s1 with mem := put_tags s1.mem (X.bp + asize) (X.sz - asize) 0 }
      ((pre ++ [⟨X.bp, asize, Kind.used⟩]) ++ ⟨X.bp + asize, X.sz - asize, Kind.free⟩ :: post)
      (fl.erase X.bp) := R3.1
  have F3 : ∀ a, (a < X.bp + asize - 4 ∨ X.bp + asize ≤ a) →
      (a < X.bp + asize + (X.sz - asize) - 8 ∨ X.bp + asize + (X.sz - asize) - 4 ≤ a) →
      put_tags s1.mem (X.bp + asize) (X.sz - asize) 0 a = s1.mem a := R3.2
  -- the rest enters the list
  have hnot : X.bp + asize ∉ fl.erase X.bp := by
    intro hh
    exact not_isBp_inside g X hXm (X.bp + asize) hin1 hin2
      (h.flist.mem_blk _ (List.mem_of_mem_erase hh))
  have R4 := insert_spec H3 ⟨X.bp + asize, X.sz - asize, Kind.free⟩ (mem_mid _ _ _) rfl hnot
  generalize hs2 : insert_to_free
    { s1 with mem := put_tags s1.mem (X.bp + asize) (X.sz - asize) 0 } (X.bp + asize) = s2
  have H4 : Heap s2
      (pre ++ ⟨X.bp, asize, Kind.used⟩ :: ⟨X.bp + asize, X.sz - asize, Kind.free⟩ :: post)
      ((X.bp + asize) :: fl.erase X.bp) := by
    have := R4.1
    rw [List.append_assoc] at this
    rw [← hs2]
    exact this
  have S4a : s2.start = s1.start := by rw [← hs2]; exact R4.2.1
  have S4b : s2.mem_brk = s1.mem_brk := by rw [← hs2]; exact R4.2.2.1
  have S4c : s2.mem_max_addr = s1.mem_max_addr := by rw [← hs2]; exact R4.2.2.2.1
  have F4 : ∀ a, (∀ y ∈ (X.bp + asize) :: fl.erase X.bp, a < y ∨ y + 16 ≤ a) →
      s2.mem a = put_tags s1.mem (X.bp + asize) (X.sz - asize) 0 a := by
    rw [← hs2]
    exact R4.2.2.2.2
  have hdef : place s X.bp asize = s2 := by
    have e : NEXT_BLKP s1.mem X.bp = X.bp + asize := by
      unfold NEXT_BLKP
      exact congrArg (X.bp + ·) hnext
    subst hs2
    subst hs1
    unfold place
    simp only [hcs, hrem]
    rw [if_pos hmin, e]
  rw [hdef]
  refine ⟨H4, ?_, ?_, ?_, ?_⟩
  · rw [S4a]; exact S2a
  · rw [S4b]; exact S2b
  · rw [S4c]; exact S2c
  · intro a ha hfl
    have hfl' : ∀ y ∈ fl.erase X.bp, a < y ∨ y + 16 ≤ a :=
      fun y hy => hfl y (List.mem_of_mem_erase hy)
    have hfl4 : ∀ y ∈ (X.bp + asize) :: fl.erase X.bp, a < y ∨ y + 16 ≤ a := by
      intro y hy
      rcases List.mem_cons.1 hy with e | e
      · rw [e]
        exact (ar a ha).2.2.2.2
      · exact hfl' y e
    have e4 := F4 a hfl4
    have e3 := F3 a (ar a ha).2.2.1 (ar a ha).2.2.2.1
    have e2 := F2 a hfl
    have e1 := F1 a (ar a ha).1 (ar a ha).2.1
    rw [e4, e3, e2, e1]

/-- `place` on a free-list node too small to be split: the whole block becomes
allocated and leaves the list. -/
theorem place_whole {s : State} {pre post : List Blk} {X : Blk} {fl : List Nat}
    (h : Heap s (pre ++ X :: post) fl) (hXk : X.kind ≠ Kind.raw) (hXfl : X.bp ∈ fl)
    (asize : Nat) (hle : asize ≤ X.sz) (hno : X.sz < asize + 24) :
    Heap (place s X.bp asize) (pre ++ ⟨X.bp, X.sz, Kind.used⟩ :: post) (fl.erase X.bp) ∧
    (place s X.bp asize).start = s.start ∧
    (place s X.bp asize).mem_brk = s.mem_brk ∧
    (place s X.bp asize).mem_max_addr = s.mem_max_addr ∧
    ∀ a, (a < X.bp - 4 ∨ X.bp + X.sz - 4 ≤ a) → (∀ y ∈ fl, a < y ∨ y + 16 ≤ a) →
      (place s X.bp asize).mem a = s.mem a := by
  have g := h.geo
  have hXm : X ∈ pre ++ X :: post := mem_mid _ _ _
  have gX := g.blk X hXm
  have hcs := (h.size_at X hXm hXk).1
  have hrem : (X.sz + 2 ^ 32 - asize) % 2 ^ 32 = X.sz - asize := by
    norm_num
    omega
  have R1 := retag_spec (b := X) h Kind.used
  have H1 : Heap { s with mem := put_tags s.mem X.bp X.sz 1 }
      (pre ++ ⟨X.bp, X.sz, Kind.used⟩ :: post) fl := R1.1
  have F1 : ∀ a, (a < X.bp - 4 ∨ X.bp ≤ a) → (a < X.bp + X.sz - 8 ∨ X.bp + X.sz - 4 ≤ a) →
      put_tags s.mem X.bp X.sz 1 a = s.mem a := R1.2
  have R2 := remove_spec H1 ⟨X.bp, X.sz, Kind.used⟩ (mem_mid _ _ _)
    (fun e => Kind.noConfusion e) hXfl
  have hdef : place s X.bp asize =
      remove_from_free { s with mem := put_tags s.mem X.bp X.sz 1 } X.bp := by
    unfold place
    simp only [hcs, hrem]
    rw [if_neg (by unfold MINIMUM; omega)]
  rw [hdef]
  refine ⟨R2.1, R2.2.1, R2.2.2.1, R2.2.2.2.1, ?_⟩
  intro a ha hfl
  rw [R2.2.2.2.2 a hfl]
  exact F1 a (by omega) (by omega)

/-! ## `coalesce` -/

/-- The block before the first block is the prologue, which reads as allocated. -/
theorem prev_none {s : State} {post : List Blk} {b : Blk} {fl : List Nat}
    (h : Heap s (b :: post) fl) :
    GET_ALLOC s.mem (FTRP s.mem (PREV_BLKP s.mem b.bp)) = 1 := by
  have g := h.geo
  have hb : b.bp = s.start + 8 := g.tiling.1
  have hs := g.start_ge
  have e1 : GET_SIZE s.mem (b.bp - DSIZE) = 8 := by
    have : b.bp - DSIZE = s.start := by unfold DSIZE; omega
    rw [this]
    exact (decode_tag s.mem s.start 8 1 h.tags.prologue_f rfl (le_refl 1)).1
  have e2 : PREV_BLKP s.mem b.bp = s.start := by
    unfold PREV_BLKP
    rw [e1]
    omega
  have e3 : FTRP s.mem s.start = s.start := by
    unfold FTRP HDRP WSIZE DSIZE
    rw [(decode_tag s.mem (s.start - 4) 8 1 h.tags.prologue_h rfl (le_refl 1)).1]
    omega
  rw [e2, e3]
  exact (decode_tag s.mem s.start 8 1 h.tags.prologue_f rfl (le_refl 1)).2

/-- The block before `b`, found through the footer in front of `b`. -/
theorem prev_some {s : State} {pre post : List Blk} {q b : Blk} {fl : List Nat}
    (h : Heap s ((pre ++ [q]) ++ b :: post) fl) (hq : q.kind ≠ Kind.raw) :
    q.bp + q.sz = b.bp ∧ PREV_BLKP s.mem b.bp = q.bp ∧
    GET_ALLOC s.mem (FTRP s.mem (PREV_BLKP s.mem b.bp)) = q.kind.bit ∧
    GET_SIZE s.mem (HDRP (PREV_BLKP s.mem b.bp)) = q.sz := by
  have g := h.geo
  have hqm : q ∈ (pre ++ [q]) ++ b :: post :=
    List.mem_append_left _ (List.mem_append_right _ (List.mem_singleton_self _))
  have gq := g.blk q hqm
  have hadj : q.bp + q.sz = b.bp := by
    have t := g.tiling
    rw [List.append_assoc] at t
    exact ((tiling_split _ _ _ _ _ t).2.1).symm
  have sq := h.size_at q hqm hq
  have e1 : GET_SIZE s.mem (b.bp - DSIZE) = q.sz := by
    have : b.bp - DSIZE = q.bp + q.sz - 8 := by unfold DSIZE; omega
    rw [this]
    exact sq.2.2.1
  have e2 : PREV_BLKP s.mem b.bp = q.bp := by
    unfold PREV_BLKP
    rw [e1]
    omega
  have e3 : FTRP s.mem q.bp = q.bp + q.sz - 8 := by
    unfold FTRP DSIZE
    rw [sq.1]
  rw [e2, e3]
  exact ⟨hadj, rfl, sq.2.2.2, sq.1⟩

/-- The block after the last block is the epilogue, which reads as allocated. -/
theorem next_none {s : State} {pre : List Blk} {b : Blk} {fl : List Nat}
    (h : Heap s (pre ++ [b]) fl) (hb : b.kind ≠ Kind.raw) :
    GET_ALLOC s.mem (HDRP (NEXT_BLKP s.mem b.bp)) = 1 := by
  have g := h.geo
  have hbm : b ∈ pre ++ [b] := mem_mid _ _ _
  have gb := g.blk b hbm
  have hend : b.bp + b.sz = s.mem_brk := (tiling_split _ _ _ _ _ g.tiling).2
  have e1 : NEXT_BLKP s.mem b.bp = s.mem_brk := by
    unfold NEXT_BLKP
    have := (h.size_at b hbm hb).1
    unfold HDRP at this
    rw [this]
    exact hend
  rw [e1]
  exact (decode_tag s.mem (s.mem_brk - 4) 0 1 h.tags.epilogue rfl (le_refl 1)).2

/-- The block after `b`, found through the header of `b`. -/
theorem next_some {s : State} {pre post : List Blk} {b n : Blk} {fl : List Nat}
    (h : Heap s (pre ++ b :: n :: post) fl) (hb : b.kind ≠ Kind.raw) (hn : n.kind ≠ Kind.raw) :
    b.bp + b.sz = n.bp ∧ NEXT_BLKP s.mem b.bp = n.bp ∧
    GET_ALLOC s.mem (HDRP (NEXT_BLKP s.mem b.bp)) = n.kind.bit ∧
    GET_SIZE s.mem (HDRP (NEXT_BLKP s.mem b.bp)) = n.sz ∧
    GET_SIZE s.mem (FTRP s.mem (NEXT_BLKP s.mem b.bp)) = n.sz := by
  have g := h.geo
  have hbm : b ∈ pre ++ b :: n :: post := mem_mid _ _ _
  have hnm : n ∈ pre ++ b :: n :: post :=
    List.mem_append_right _ (List.mem_cons_of_mem _ (List.mem_cons_self _ _))
  have hadj : b.bp + b.sz = n.bp := ((tiling_split _ _ _ _ _ g.tiling).2.1).symm
  have sn := h.size_at n hnm hn
  have e1 : NEXT_BLKP s.mem b.bp = n.bp := by
    unfold NEXT_BLKP
    have := (h.size_at b hbm hb).1
    unfold HDRP at this
    rw [this]
    exact hadj
  have e3 : FTRP s.mem n.bp = n.bp + n.sz - 8 := by
    unfold FTRP DSIZE
    rw [sn.1]
  rw [e1, e3]
  exact ⟨hadj, rfl, sn.2.1, sn.1, sn.2.2.1⟩

/-- `coalesce`, neither neighbour free: the block is pushed on the free list. -/
theorem coalesce_none (s : State) (bp : Nat)
    (hp : GET_ALLOC s.mem (FTRP s.mem (PREV_BLKP s.mem bp)) = 1)
    (hn : GET_ALLOC s.mem (HDRP (NEXT_BLKP s.mem bp)) = 1) :
    coalesce s bp = (insert_to_free s bp, bp) := by
  unfold coalesce
  simp only [hp, hn]
  rw [if_pos ⟨Nat.one_ne_zero, Nat.one_ne_zero⟩]

/-- `coalesce`, only the next block free: the two are merged and the result is
pushed on the free list. -/
theorem coalesce_next {s : State} {pre post : List Blk} {b n : Blk} {fl : List Nat}
    (h : Heap s (pre ++ b :: n :: post) fl) (hb : b.kind = Kind.free) (hn : n.kind = Kind.free)
    (hbfl : b.bp ∉ fl) (hnfl : n.bp ∈ fl)
    (hp : GET_ALLOC s.mem (FTRP s.mem (PREV_BLKP s.mem b.bp)) = 1) :
    Heap (coalesce s b.bp).1 (pre ++ ⟨b.bp, b.sz + n.sz, Kind.free⟩ :: post)
      (b.bp :: fl.erase n.bp) ∧
    (coalesce s b.bp).2 = b.bp ∧
    (coalesce s b.bp).1.start = s.start ∧
    (coalesce s b.bp).1.mem_brk = s.mem_brk ∧
    (coalesce s b.bp).1.mem_max_addr = s.mem_max_addr ∧
    ∀ a, (a < b.bp - 4 ∨ n.bp + n.sz - 4 ≤ a) → (∀ y ∈ fl, a < y ∨ y + 16 ≤ a) →
      (coalesce s b.bp).1.mem a = s.mem a := by
  have g := h.geo
  have hbm : b ∈ pre ++ b :: n :: post := mem_mid _ _ _
  have hnm : n ∈ pre ++ b :: n :: post :=
    List.mem_append_right _ (List.mem_cons_of_mem _ (List.mem_cons_self _ _))
  have gb := g.blk b hbm
  have gn := g.blk n hnm
  have hbr : b.kind ≠ Kind.raw := by rw [hb]; exact fun e => Kind.noConfusion e
  have hnr : n.kind ≠ Kind.raw := by rw [hn]; exact fun e => Kind.noConfusion e
  obtain ⟨hadj, hN, hNa, hNs, _⟩ := next_some h hbr hnr
  have hbs := (h.size_at b hbm hbr).1
  have ar : ∀ a, (a < b.bp - 4 ∨ n.bp + n.sz - 4 ≤ a) →
      (a < b.bp - 4 ∨ b.bp ≤ a) ∧
      (a < b.bp + (b.sz + n.sz) - 8 ∨ b.bp + (b.sz + n.sz) - 4 ≤ a) ∧
      (a < b.bp ∨ b.bp + 16 ≤ a) := by
    intro a ha
    omega
  -- the next block leaves the list
  have R1 := remove_spec h n hnm hnr hnfl
  generalize hs1 : remove_from_free s n.bp = s1
  rw [hs1] at R1
  obtain ⟨H1, S1a, S1b, S1c, F1⟩ := R1
  -- the two blocks become one
  have hnn : n.bp ∉ fl.erase n.bp := fun hh => (List.Nodup.mem_erase_iff h.flist.nodup).1 hh |>.1 rfl
  have H2 : Heap s1 (pre ++ ⟨b.bp, b.sz + n.sz, Kind.raw⟩ :: post) (fl.erase n.bp) := H1.merge hnn
  have R3 := retag_spec (b := ⟨b.bp, b.sz + n.sz, Kind.raw⟩) H2 Kind.free
  have H3 : Heap { s1 with mem := put_tags s1.mem b.bp (b.sz + n.sz) 0 }
      (pre ++ ⟨b.bp, b.sz + n.sz, Kind.free⟩ :: post) (fl.erase n.bp) := R3.1
  have F3 : ∀ a, (a < b.bp - 4 ∨ b.bp ≤ a) →
      (a < b.bp + (b.sz + n.sz) - 8 ∨ b.bp + (b.sz + n.sz) - 4 ≤ a) →
      put_tags s1.mem b.bp (b.sz + n.sz) 0 a = s1.mem a := R3.2
  -- and enter the list
  have hbn : b.bp ∉ fl.erase n.bp := fun hh => hbfl (List.mem_of_mem_erase hh)
  have R4 := insert_spec H3 ⟨b.bp, b.sz + n.sz, Kind.free⟩ (mem_mid _ _ _) rfl hbn
  have hdef : coalesce s b.bp =
      (insert_to_free { s1 with mem := put_tags s1.mem b.bp (b.sz + n.sz) 0 } b.bp, b.bp) := by
    have hNa' : GET_ALLOC s.mem (HDRP n.bp) = 0 := by
      rw [← hN, hNa, hn]
      rfl
    have hNs' : GET_SIZE s.mem (HDRP n.bp) = n.sz := by
      rw [← hN, hNs]
    subst hs1
    unfold coalesce
    simp only [hp, hN, hNa', hNs', hbs]
    rw [if_neg (fun hh => hh.2 rfl), if_pos ⟨Nat.one_ne_zero, trivial⟩]
  have F4 : ∀ a, (∀ y ∈ b.bp :: fl.erase n.bp, a < y ∨ y + 16 ≤ a) →
      (insert_to_free { s1 with mem := put_tags s1.mem b.bp (b.sz + n.sz) 0 } b.bp).mem a =
        put_tags s1.mem b.bp (b.sz + n.sz) 0 a := R4.2.2.2.2
  have H4 : Heap (insert_to_free { s1 with mem := put_tags s1.mem b.bp (b.sz + n.sz) 0 } b.bp)
      (pre ++ ⟨b.bp, b.sz + n.sz, Kind.free⟩ :: post) (b.bp :: fl.erase n.bp) := R4.1
  have S4a : (insert_to_free { s1 with mem := put_tags s1.mem b.bp (b.sz + n.sz) 0 } b.bp).start
      = s.start := by rw [R4.2.1]; exact S1a
  have S4b : (insert_to_free { s1 with mem := put_tags s1.mem b.bp (b.sz + n.sz) 0 } b.bp).mem_brk
      = s.mem_brk := by rw [R4.2.2.1]; exact S1b
  have S4c : (insert_to_free
      { s1 with mem := put_tags s1.mem b.bp (b.sz + n.sz) 0 } b.bp).mem_max_addr
      = s.mem_max_addr := by rw [R4.2.2.2.1]; exact S1c
  rw [hdef]
  refine ⟨H4, rfl, S4a, S4b, S4c, ?_⟩
  · intro a ha hfl
    have hfl4 : ∀ y ∈ b.bp :: fl.erase n.bp, a < y ∨ y + 16 ≤ a := by
      intro y hy
      rcases List.mem_cons.1 hy with e | e
      · rw [e]
        exact (ar a ha).2.2
      · exact hfl y (List.mem_of_mem_erase e)
    have e4 := F4 a hfl4
    have e3 := F3 a (ar a ha).1 (ar a ha).2.1
    have e1 := F1 a hfl
    rw [e4, e3, e1]

/-- `coalesce`, only the previous block free: the block is merged into it, and
the previous block keeps its place in the free list. -/
theorem coalesce_prev {s : State} {pre post : List Blk} {q b : Blk} {fl : List Nat}
    (h : Heap s ((pre ++ [q]) ++ b :: post) fl) (hq : q.kind = Kind.free)
    (hbfl : b.bp ∉ fl)
    (hn : GET_ALLOC s.mem (HDRP (NEXT_BLKP s.mem b.bp)) = 1) (hbr : b.kind ≠ Kind.raw) :
    Heap (coalesce s b.bp).1 (pre ++ ⟨q.bp, q.sz + b.sz, Kind.free⟩ :: post) fl ∧
    (coalesce s b.bp).2 = q.bp ∧
    (coalesce s b.bp).1.start = s.start ∧
    (coalesce s b.bp).1.mem_brk = s.mem_brk ∧
    (coalesce s b.bp).1.mem_max_addr = s.mem_max_addr ∧
    ∀ a, (a < q.bp - 4 ∨ b.bp + b.sz - 4 ≤ a) → (coalesce s b.bp).1.mem a = s.mem a := by
  have g := h.geo
  have hqr : q.kind ≠ Kind.raw := by rw [hq]; exact fun e => Kind.noConfusion e
  obtain ⟨hadj, hP, hPa, hPs⟩ := prev_some h hqr
  have hbm : b ∈ (pre ++ [q]) ++ b :: post := mem_mid _ _ _
  have hqm : q ∈ (pre ++ [q]) ++ b :: post :=
    List.mem_append_left _ (List.mem_append_right _ (List.mem_singleton_self _))
  have gb := g.blk b hbm
  have gq := g.blk q hqm
  have hbs := (h.size_at b hbm hbr).1
  have ar : ∀ a, (a < q.bp - 4 ∨ b.bp + b.sz - 4 ≤ a) →
      (a < q.bp - 4 ∨ q.bp ≤ a) ∧
      (a < q.bp + (q.sz + b.sz) - 8 ∨ q.bp + (q.sz + b.sz) - 4 ≤ a) := by
    intro a ha
    omega
  have h' : Heap s (pre ++ q :: b :: post) fl := by
    have := h
    rw [List.append_assoc] at this
    exact this
  have H2 : Heap s (pre ++ ⟨q.bp, q.sz + b.sz, Kind.raw⟩ :: post) fl := h'.merge hbfl
  have R3 := retag_spec (b := ⟨q.bp, q.sz + b.sz, Kind.raw⟩) H2 Kind.free
  have H3 : Heap { s with mem := put_tags s.mem q.bp (q.sz + b.sz) 0 }
      (pre ++ ⟨q.bp, q.sz + b.sz, Kind.free⟩ :: post) fl := R3.1
  have F3 : ∀ a, (a < q.bp - 4 ∨ q.bp ≤ a) →
      (a < q.bp + (q.sz + b.sz) - 8 ∨ q.bp + (q.sz + b.sz) - 4 ≤ a) →
      put_tags s.mem q.bp (q.sz + b.sz) 0 a = s.mem a := R3.2
  have hdef : coalesce s b.bp =
      ({ s with mem := put_tags s.mem q.bp (q.sz + b.sz) 0 }, q.bp) := by
    have hPa' : GET_ALLOC s.mem (FTRP s.mem q.bp) = 0 := by
      rw [← hP, hPa, hq]
      rfl
    have hPs' : GET_SIZE s.mem (HDRP q.bp) = q.sz := by
      rw [← hP, hPs]
    unfold coalesce
    simp only [hn, hP, hPa', hPs', hbs]
    rw [if_neg (fun hh => hh.1 rfl), if_neg (fun hh => hh.1 rfl),
      if_pos ⟨trivial, Nat.one_ne_zero⟩, Nat.add_comm b.sz q.sz]
  rw [hdef]
  exact ⟨H3, rfl, rfl, rfl, rfl, fun a ha => F3 a (ar a ha).1 (ar a ha).2⟩

/-- Addresses outside a span of three adjacent blocks. -/
theorem span3_arith (a qbp qsz bbp bsz nbp nsz : Nat) (h1 : qbp + qsz = bbp)
    (h2 : bbp + bsz = nbp) (hq : 24 ≤ qsz) (hb : 24 ≤ bsz) (hn : 24 ≤ nsz) (h8 : 8 ≤ qbp)
    (ha : a < qbp - 4 ∨ nbp + nsz - 4 ≤ a) :
    (a < qbp - 4 ∨ qbp ≤ a) ∧
    (a < qbp + (qsz + bsz + nsz) - 8 ∨ qbp + (qsz + bsz + nsz) - 4 ≤ a) ∧
    (a < qbp ∨ qbp + 16 ≤ a) := by
  omega

/-- The fourth branch of `coalesce`, once the reads are known. -/
theorem coalesce_both_eq (s : State) (bp qbp nbp bsz qsz nsz : Nat)
    (hP : PREV_BLKP s.mem bp = qbp) (hN : NEXT_BLKP s.mem bp = nbp)
    (hPa : GET_ALLOC s.mem (FTRP s.mem qbp) = 0) (hPs : GET_SIZE s.mem (HDRP qbp) = qsz)
    (hNa : GET_ALLOC s.mem (HDRP nbp) = 0) (hNf : GET_SIZE s.mem (FTRP s.mem nbp) = nsz)
    (hbs : GET_SIZE s.mem (HDRP bp) = bsz)
    (hP1 : PREV_BLKP (remove_from_free s nbp).mem bp = qbp)
    (hP2 : PREV_BLKP (remove_from_free (remove_from_free s nbp) qbp).mem bp = qbp) :
    coalesce s bp =
      ({ insert_to_free (remove_from_free (remove_from_free s nbp) qbp) qbp with
          mem := put_tags (insert_to_free (remove_from_free (remove_from_free s nbp) qbp) qbp).mem
            qbp (qsz + bsz + nsz) 0 }, qbp) := by
  have e : bsz + qsz + nsz = qsz + bsz + nsz := by omega
  unfold coalesce
  simp only [hP, hN, hPa, hPs, hNa, hNf, hbs, hP1, hP2, e]
  rw [if_neg (fun hh => hh.1 rfl), if_neg (fun hh => hh.1 rfl),
    if_neg (fun hh => hh.2 rfl)]

/-- `coalesce`, both neighbours free: the three blocks are merged, the two
neighbours leave the free list and the merged block is pushed on it. -/
theorem coalesce_both {s : State} {pre post : List Blk} {q b n : Blk} {fl : List Nat}
    (h : Heap s ((pre ++ [q]) ++ b :: n :: post) fl) (hq : q.kind = Kind.free)
    (hn : n.kind = Kind.free) (hbr : b.kind ≠ Kind.raw)
    (hbfl : b.bp ∉ fl) (hqfl : q.bp ∈ fl) (hnfl : n.bp ∈ fl) :
    Heap (coalesce s b.bp).1 (pre ++ ⟨q.bp, q.sz + b.sz + n.sz, Kind.free⟩ :: post)
      (q.bp :: (fl.erase n.bp).erase q.bp) ∧
    (coalesce s b.bp).2 = q.bp ∧
    (coalesce s b.bp).1.start = s.start ∧
    (coalesce s b.bp).1.mem_brk = s.mem_brk ∧
    (coalesce s b.bp).1.mem_max_addr = s.mem_max_addr ∧
    ∀ a, (a < q.bp - 4 ∨ n.bp + n.sz - 4 ≤ a) → (∀ y ∈ fl, a < y ∨ y + 16 ≤ a) →
      (coalesce s b.bp).1.mem a = s.mem a := by
  have g := h.geo
  have hqr : q.kind ≠ Kind.raw := by rw [hq]; exact fun e => Kind.noConfusion e
  have hnr : n.kind ≠ Kind.raw := by rw [hn]; exact fun e => Kind.noConfusion e
  obtain ⟨hadjq, hP, hPa, hPs⟩ := prev_some h hqr
  obtain ⟨hadjn, hN, hNa, hNs, hNf⟩ := next_some h hbr hnr
  have hbm : b ∈ (pre ++ [q]) ++ b :: n :: post := mem_mid _ _ _
  have hqm : q ∈ (pre ++ [q]) ++ b :: n :: post :=
    List.mem_append_left _ (List.mem_append_right _ (List.mem_singleton_self _))
  have hnm : n ∈ (pre ++ [q]) ++ b :: n :: post :=
    List.mem_append_right _ (List.mem_cons_of_mem _ (List.mem_cons_self _ _))
  have gb := g.blk b hbm
  have gq := g.blk q hqm
  have gn := g.blk n hnm
  have hbs := (h.size_at b hbm hbr).1
  have hnd := h.flist.nodup
  have ar : ∀ a, (a < q.bp - 4 ∨ n.bp + n.sz - 4 ≤ a) →
      (a < q.bp - 4 ∨ q.bp ≤ a) ∧
      (a < q.bp + (q.sz + b.sz + n.sz) - 8 ∨ q.bp + (q.sz + b.sz + n.sz) - 4 ≤ a) ∧
      (a < q.bp ∨ q.bp + 16 ≤ a) :=
    fun a ha => span3_arith a q.bp q.sz b.bp b.sz n.bp n.sz hadjq hadjn gq.2.2.2.1 gb.2.2.2.1
      gn.2.2.2.1 (le_trans (Nat.le_add_left 8 s.start) gq.1) ha
  have hqn : q.bp ≠ n.bp := by omega
  have hbq : b.bp ≠ q.bp := by omega
  -- the next block leaves the list
  have R1 := remove_spec h n hnm hnr hnfl
  generalize hs1 : remove_from_free s n.bp = s1
  rw [hs1] at R1
  obtain ⟨H1, S1a, S1b, S1c, F1⟩ := R1
  have hP1 : PREV_BLKP s1.mem b.bp = q.bp := (prev_some H1 hqr).2.1
  -- the previous block leaves the list
  have hq1 : q.bp ∈ fl.erase n.bp :=
    (List.Nodup.mem_erase_iff hnd).2 ⟨hqn, hqfl⟩
  have R2 := remove_spec H1 q hqm hqr hq1
  generalize hs2 : remove_from_free s1 q.bp = s2
  rw [hs2] at R2
  obtain ⟨H2, S2a, S2b, S2c, F2⟩ := R2
  have hP2 : PREV_BLKP s2.mem b.bp = q.bp := (prev_some H2 hqr).2.1
  -- and enters it again
  have hnd1 : (fl.erase n.bp).Nodup := hnd.erase _
  have hq2 : q.bp ∉ (fl.erase n.bp).erase q.bp :=
    fun hh => ((List.Nodup.mem_erase_iff hnd1).1 hh).1 rfl
  have R3 := insert_spec H2 q hqm hq hq2
  generalize hs3 : insert_to_free s2 q.bp = s3
  rw [hs3] at R3
  obtain ⟨H3, S3a, S3b, S3c, F3⟩ := R3
  -- the three blocks become one
  have hb3 : b.bp ∉ q.bp :: (fl.erase n.bp).erase q.bp := by
    intro hh
    rcases List.mem_cons.1 hh with e | e
    · exact hbq e
    · exact hbfl (List.mem_of_mem_erase (List.mem_of_mem_erase e))
  have hn3 : n.bp ∉ q.bp :: (fl.erase n.bp).erase q.bp := by
    intro hh
    rcases List.mem_cons.1 hh with e | e
    · exact hqn e.symm
    · exact ((List.Nodup.mem_erase_iff hnd).1 (List.mem_of_mem_erase e)).1 rfl
  have H3' : Heap s3 (pre ++ q :: b :: n :: post) (q.bp :: (fl.erase n.bp).erase q.bp) := by
    have := H3
    rw [List.append_assoc] at this
    exact this
  have H4 : Heap s3 (pre ++ ⟨q.bp, q.sz + b.sz, Kind.raw⟩ :: n :: post)
      (q.bp :: (fl.erase n.bp).erase q.bp) := H3'.merge hb3
  have H5 : Heap s3 (pre ++ ⟨q.bp, q.sz + b.sz + n.sz, Kind.raw⟩ :: post)
      (q.bp :: (fl.erase n.bp).erase q.bp) := H4.merge hn3
  have R6 := retag_spec (b := ⟨q.bp, q.sz + b.sz + n.sz, Kind.raw⟩) H5 Kind.free
  have H6 : Heap { s3 with mem := put_tags s3.mem q.bp (q.sz + b.sz + n.sz) 0 }
      (pre ++ ⟨q.bp, q.sz + b.sz + n.sz, Kind.free⟩ :: post)
      (q.bp :: (fl.erase n.bp).erase q.bp) := R6.1
  have F6 : ∀ a, (a < q.bp - 4 ∨ q.bp ≤ a) →
      (a < q.bp + (q.sz + b.sz + n.sz) - 8 ∨ q.bp + (q.sz + b.sz + n.sz) - 4 ≤ a) →
      put_tags s3.mem q.bp (q.sz + b.sz + n.sz) 0 a = s3.mem a := R6.2
  have hdef : coalesce s b.bp =
      ({ s3 with mem := put_tags s3.mem q.bp (q.sz + b.sz + n.sz) 0 }, q.bp) := by
    rw [← hs3, ← hs2, ← hs1]
    rw [← hs1] at hP1
    rw [← hs2, ← hs1] at hP2
    exact coalesce_both_eq s b.bp q.bp n.bp b.sz q.sz n.sz hP hN
      (by rw [← hP, hPa, hq]; rfl) (by rw [← hP, hPs]) (by rw [← hN, hNa, hn]; rfl)
      (by rw [← hN, hNf]) hbs hP1 hP2
  have hfr : ∀ a, (a < q.bp - 4 ∨ n.bp + n.sz - 4 ≤ a) → (∀ y ∈ fl, a < y ∨ y + 16 ≤ a) →
      put_tags s3.mem q.bp (q.sz + b.sz + n.sz) 0 a = s.mem a := by
    intro a ha hfl
    have hfl1 : ∀ y ∈ fl.erase n.bp, a < y ∨ y + 16 ≤ a :=
      fun y hy => hfl y (List.mem_of_mem_erase hy)
    have e6 := F6 a (ar a ha).1 (ar a ha).2.1
    have hfl3 : ∀ y ∈ q.bp :: (fl.erase n.bp).erase q.bp, a < y ∨ y + 16 ≤ a := by
      intro y hy
      rcases List.mem_cons.1 hy with e | e
      · rw [e]
        exact (ar a ha).2.2
      · exact hfl1 y (List.mem_of_mem_erase e)
    have e3 := F3 a hfl3
    have e2 := F2 a hfl1
    have e1 := F1 a hfl
    rw [e6, e3, e2, e1]
  have hst : s3.start = s.start := by rw [S3a, S2a, S1a]
  have hbk : s3.mem_brk = s.mem_brk := by rw [S3b, S2b, S1b]
  have hmx : s3.mem_max_addr = s.mem_max_addr := by rw [S3c, S2c, S1c]
  rw [hdef]
  exact ⟨H6, rfl, hst, hbk, hmx, hfr⟩

/-! ## Growing the arena -/

theorem extend_size_even (w : Nat) (h8 : w % 8 = 0) (hlt : w < 4294967296) :
    extend_size (w / WSIZE) = w := by
  unfold extend_size WSIZE
  have h2 : w / 4 % 2 = 0 := by omega
  rw [if_neg (by omega)]
  norm_num
  omega

theorem Tiling.snoc (bs : List Blk) (a e : Nat) (h : Tiling a bs e) (b : Blk) (hb : b.bp = e) :
    Tiling a (bs ++ [b]) (e + b.sz) :=
  (tiling_append _ _ _ _).2 ⟨e, h, hb, rfl⟩

/-- Arithmetic for the stores of `extend_heap`. -/
theorem extend_arith (start brk sz a : Nat) (h1 : start + 8 ≤ brk) (h2 : 24 ≤ sz)
    (ha : a < brk - 4) :
    (a < brk - 4 ∨ brk ≤ a) ∧ (a < brk + sz - 8 ∨ brk + sz - 4 ≤ a) ∧
      (a < brk + sz - 4 ∨ brk + sz - 4 + 4 ≤ a) := by
  omega

/-- The part of `extend_heap` before `coalesce`: the old epilogue header becomes
the header of a new free block that fills the new space, and a new epilogue
header is written in the last word. -/
theorem extend_spec {s : State} {bs : List Blk} {fl : List Nat} (h : Heap s bs fl)
    (sz : Nat) (h8 : sz % 8 = 0) (h24 : 24 ≤ sz) (hfit : s.mem_brk + sz ≤ s.mem_max_addr) :
    Heap { s with mem_brk := s.mem_brk + sz,
                  mem := PUT (put_tags s.mem s.mem_brk sz 0)
                    (HDRP (NEXT_BLKP (put_tags s.mem s.mem_brk sz 0) s.mem_brk)) (PACK 0 1) }
      (bs ++ [⟨s.mem_brk, sz, Kind.free⟩]) fl ∧
    ∀ a, a < s.mem_brk - 4 →
      PUT (put_tags s.mem s.mem_brk sz 0)
        (HDRP (NEXT_BLKP (put_tags s.mem s.mem_brk sz 0) s.mem_brk)) (PACK 0 1) a = s.mem a := by
  have g := h.geo
  have gbrk := g.brk_al
  have hmx := g.max_lt
  have hst := g.start_ge
  have hlt : sz < 4294967296 := by omega
  obtain ⟨w1, w2, w3, w4⟩ := tag_write s.mem s.mem_brk sz 0 (by omega) h8 (by omega) hlt
    (Nat.zero_le 1)
  have hm2 : put_tags s.mem s.mem_brk sz 0 =
      PUT (PUT s.mem (HDRP s.mem_brk) (PACK sz 0)) (s.mem_brk + sz - 8) (PACK sz 0) := by
    unfold put_tags
    rw [w1]
  have hnx : HDRP (NEXT_BLKP (put_tags s.mem s.mem_brk sz 0) s.mem_brk) = s.mem_brk + sz - 4 := by
    unfold NEXT_BLKP
    have : GET_SIZE (put_tags s.mem s.mem_brk sz 0) (s.mem_brk - WSIZE) = sz := by
      rw [hm2]
      exact (decode_tag _ (s.mem_brk - 4) sz 0 w2 h8 (Nat.zero_le 1)).1
    rw [this]
    rfl
  rw [hnx]
  have hfr : ∀ a, a < s.mem_brk - 4 →
      PUT (put_tags s.mem s.mem_brk sz 0) (s.mem_brk + sz - 4) (PACK 0 1) a = s.mem a := by
    intro a ha
    have k := extend_arith s.start s.mem_brk sz a gbrk.2 h24 ha
    rw [PUT_outside _ _ _ _ (by omega), hm2]
    exact w4 a k.1 k.2.1
  have hnew : ∀ a, s.mem_brk ≤ a → a < s.mem_brk + sz - 8 →
      PUT (put_tags s.mem s.mem_brk sz 0) (s.mem_brk + sz - 4) (PACK 0 1) a = s.mem a := by
    intro a h1 h2
    rw [PUT_outside _ _ _ _ (by omega), hm2]
    exact w4 a (by omega) (by omega)
  have hp01 : PACK 0 1 = 1 := by decide
  refine ⟨⟨⟨g.start_al, g.start_ge, hfit, g.max_lt, g.max_64, ?_, ?_⟩, ⟨?_, ?_, ?_, ?_⟩,
    ⟨h.flist.nodup, ?_, h.flist.head, ?_⟩⟩, hfr⟩
  · exact Tiling.snoc _ _ _ g.tiling ⟨s.mem_brk, sz, Kind.free⟩ rfl
  · intro c hc
    rcases List.mem_append.1 hc with e | e
    · exact g.sizes c e
    · rw [List.mem_singleton.1 e]
      exact ⟨h8, h24⟩
  · show GET _ (s.start - 4) = 9
    rw [GET_congr s.mem _ _ (fun a h1 h2 => hfr a (by omega))]
    exact h.tags.prologue_h
  · show GET _ s.start = 9
    rw [GET_congr s.mem _ _ (fun a h1 h2 => hfr a (by omega))]
    exact h.tags.prologue_f
  · show GET (PUT _ (s.mem_brk + sz - 4) (PACK 0 1)) (s.mem_brk + sz - 4) = 1
    rw [GET_PUT_same, hp01]
  · intro c hc hk
    rcases List.mem_append.1 hc with e | e
    · have gc := g.blk c e
      show GET _ (c.bp - 4) = _ ∧ GET _ (c.bp + c.sz - 8) = _
      rw [GET_congr s.mem _ (c.bp - 4) (fun a h1 h2 => hfr a (by omega)),
        GET_congr s.mem _ (c.bp + c.sz - 8) (fun a h1 h2 => hfr a (by omega))]
      exact h.tags.tags c e hk
    · rw [List.mem_singleton.1 e]
      show GET _ (s.mem_brk - 4) = sz + 0 ∧ GET _ (s.mem_brk + sz - 8) = sz + 0
      constructor
      · rw [GET_PUT_disj _ _ _ _ (by omega), hm2]
        exact w2
      · rw [GET_PUT_disj _ _ _ _ (by omega), hm2]
        exact w3
  · intro z hz
    obtain ⟨c, hc, hcz⟩ := h.flist.mem_blk z hz
    exact ⟨c, List.mem_append_left _ hc, hcz⟩
  · refine h.flist.linked.congr ?_
    intro z hz
    obtain ⟨c, hc, rfl⟩ := h.flist.mem_blk z hz
    have gc := g.blk c hc
    unfold getPrev getNext
    exact ⟨loadPtr_congr _ _ _ (fun a h1 h2 => hfr a (by omega)),
      loadPtr_congr _ _ _ (fun a h1 h2 => hfr a (by omega))⟩

/-! ## The invariant: adjacency, membership, live allocations -/

theorem noAdj_mid_iff (pre post : List Blk) (a : Blk) :
    NoAdjFree (pre ++ a :: post) ↔
      NoAdjFree pre ∧ NoAdjFree post ∧ (∀ x ∈ pre.getLast?, AdjOK x a) ∧
        (∀ y ∈ post.head?, AdjOK a y) := by
  unfold NoAdjFree
  rw [List.chain'_append, List.chain'_cons']
  constructor
  · rintro ⟨h1, ⟨h2, h3⟩, h4⟩
    exact ⟨h1, h3, fun x hx => h4 x hx a rfl, h2⟩
  · rintro ⟨h1, h3, h4, h2⟩
    refine ⟨h1, ⟨h2, h3⟩, fun x hx y hy => ?_⟩
    have : y = a := by
      simp only [List.head?_cons, Option.mem_def, Option.some.injEq] at hy
      exact hy.symm
    rw [this]
    exact h4 x hx

theorem adjOK_used_left (k : Kind) (hk : k ≠ Kind.free) (bp sz : Nat) (y : Blk) :
    AdjOK ⟨bp, sz, k⟩ y := fun hh => hk hh.1

theorem adjOK_used_right (k : Kind) (hk : k ≠ Kind.free) (bp sz : Nat) (x : Blk) :
    AdjOK x ⟨bp, sz, k⟩ := fun hh => hk hh.2

theorem used_ne_free : Kind.used ≠ Kind.free := fun e => Kind.noConfusion e

theorem free_ne_raw : Kind.free ≠ Kind.raw := fun e => Kind.noConfusion e

theorem used_ne_raw : Kind.used ≠ Kind.raw := fun e => Kind.noConfusion e

theorem kind_cases (k : Kind) (h : k ≠ Kind.raw) : k = Kind.free ∨ k = Kind.used := by
  cases k
  · exact Or.inl rfl
  · exact Or.inr rfl
  · exact absurd rfl h

/-- The previous block reads as allocated unless it is a free block. -/
theorem prev_alloc_used {s : State} {pre post : List Blk} {b : Blk} {fl : List Nat}
    (h : Heap s (pre ++ b :: post) fl) (hraw : ∀ c ∈ pre, c.kind ≠ Kind.raw)
    (hnf : ∀ q ∈ pre.getLast?, q.kind ≠ Kind.free) :
    GET_ALLOC s.mem (FTRP s.mem (PREV_BLKP s.mem b.bp)) = 1 := by
  rcases List.eq_nil_or_concat pre with rfl | ⟨pre', q, rfl⟩
  · exact prev_none h
  · rw [List.concat_eq_append] at h hraw hnf
    have hq : q.kind ≠ Kind.raw := hraw q (List.mem_append_right _ (List.mem_singleton_self _))
    have hqf : q.kind ≠ Kind.free := hnf q (List.getLast?_concat pre')
    rw [(prev_some h hq).2.2.1]
    rcases kind_cases q.kind hq with e | e
    · exact absurd e hqf
    · rw [e]
      rfl

/-- The next block reads as allocated unless it is a free block. -/
theorem next_alloc_used {s : State} {pre post : List Blk} {b : Blk} {fl : List Nat}
    (h : Heap s (pre ++ b :: post) fl) (hb : b.kind ≠ Kind.raw)
    (hraw : ∀ c ∈ post, c.kind ≠ Kind.raw)
    (hnf : ∀ n ∈ post.head?, n.kind ≠ Kind.free) :
    GET_ALLOC s.mem (HDRP (NEXT_BLKP s.mem b.bp)) = 1 := by
  cases post with
  | nil => exact next_none h hb
  | cons n post' =>
    have hn : n.kind ≠ Kind.raw := hraw n (List.mem_cons_self _ _)
    have hnf' : n.kind ≠ Kind.free := hnf n rfl
    rw [(next_some h hb hn).2.2.1]
    rcases kind_cases n.kind hn with e | e
    · exact absurd e hnf'
    · rw [e]
      rfl

/-- Arithmetic: a payload address of one block lies outside the link fields of
another block. -/
theorem avoid_links (a cbp csz dbp dsz : Nat) (hsep : cbp + csz ≤ dbp ∨ dbp + dsz ≤ cbp)
    (hd : 24 ≤ dsz) (h1 : cbp ≤ a) (h2 : a + 8 < cbp + csz) : a < dbp ∨ dbp + 16 ≤ a := by
  omega

/-- A payload address of an allocated block lies outside the link fields of
every node of a list whose nodes are not allocated blocks. -/
theorem used_avoids_fl {start brk mx : Nat} {bs : List Blk} (g : Geo start brk mx bs)
    (fl : List Nat) (hfl : ∀ y ∈ fl, ∃ d ∈ bs, d.bp = y ∧ d.kind ≠ Kind.used)
    (c : Blk) (hc : c ∈ bs) (hk : c.kind = Kind.used) (a : Nat) (h1 : c.bp ≤ a)
    (h2 : a + 8 < c.bp + c.sz) : ∀ y ∈ fl, a < y ∨ y + 16 ≤ a := by
  intro y hy
  obtain ⟨d, hd, rfl, hdk⟩ := hfl y hy
  have gd := g.blk d hd
  rcases g.sep c d hc hd with e | e | e
  · subst e
    exact absurd hk hdk
  · exact avoid_links a c.bp c.sz d.bp d.sz (Or.inl e) gd.2.2.2.1 h1 h2
  · exact avoid_links a c.bp c.sz d.bp d.sz (Or.inr e) gd.2.2.2.1 h1 h2

/-- `mm_malloc` of a zero request returns `NULL` in the same state. -/
theorem mm_malloc_zero_eq (fuel : Nat) (s : State) : mm_malloc fuel s 0 = some (s, 0) := by
  simp [mm_malloc]

/-! ## `coalesce` re-establishes the invariant -/

/-- The blocks around a block of the arena lie before, or after it. -/
theorem mid_order {start brk mx : Nat} {pre post : List Blk} {b : Blk}
    (g : Geo start brk mx (pre ++ b :: post)) :
    (∀ c ∈ pre, c.bp + c.sz ≤ b.bp ∧ 24 ≤ c.sz) ∧ (∀ c ∈ post, b.bp + b.sz ≤ c.bp) ∧
      24 ≤ b.sz := by
  obtain ⟨t1, t2⟩ := tiling_split _ _ _ _ _ g.tiling
  exact ⟨fun c hc => ⟨(tiling_mem _ _ _ t1 c hc).2, (g.sizes c (List.mem_append_left _ hc)).2⟩,
    fun c hc => (tiling_mem _ _ _ t2 c hc).1, (g.sizes b (mem_mid _ _ _)).2⟩

theorem mem_around {α : Type} (pre post : List α) (b c : α) (h : c ∈ pre ++ post) :
    c ∈ pre ++ b :: post := by
  rcases List.mem_append.1 h with e | e
  · exact List.mem_append_left _ e
  · exact List.mem_append_right _ (List.mem_cons_of_mem _ e)

theorem LiveOK.mono {bs bs1 : List Blk} {L : List (Nat × Nat)} (h : LiveOK bs L)
    (hsub : ∀ c ∈ bs, c.kind = Kind.used → c ∈ bs1) : LiveOK bs1 L := by
  refine ⟨h.1, fun pn hpn => ?_⟩
  obtain ⟨c, hc, h1, h2, h3⟩ := h.2 pn hpn
  exact ⟨c, hsub c hc h2, h1, h2, h3⟩

/-- A payload address of an allocated block lies outside the span of any other block. -/
theorem avoid_span (a cbp csz lo hi : Nat) (hsep : cbp + csz ≤ lo ∨ hi ≤ cbp) (h4 : 4 ≤ lo)
    (h1 : cbp ≤ a) (h2 : a + 8 < cbp + csz) : a < lo - 4 ∨ hi - 4 ≤ a := by
  omega

/-- The list nodes of a `PreCo` state are not allocated blocks. -/
theorem PreCo.nodes_not_used {s : State} {L : List (Nat × Nat)} {pre post : List Blk} {b : Blk}
    {fl : List Nat} (h : PreCo s L pre b post fl) :
    ∀ y ∈ fl, ∃ d ∈ pre ++ b :: post, d.bp = y ∧ d.kind ≠ Kind.used := by
  intro y hy
  obtain ⟨d, hd, rfl⟩ := h.heap.flist.mem_blk y hy
  refine ⟨d, hd, rfl, ?_⟩
  rcases (mem_mid_iff _ _ _ _).1 hd with e | e | e
  · subst e
    rw [h.bfree]
    exact fun e => Kind.noConfusion e
  · rw [(h.members d (List.mem_append_left _ e)).2 hy]
    exact fun e => Kind.noConfusion e
  · rw [(h.members d (List.mem_append_right _ e)).2 hy]
    exact fun e => Kind.noConfusion e

/-- `coalesce` when neither neighbour is free. -/
theorem coalesce_inv_none {s : State} {L : List (Nat × Nat)} {pre post : List Blk} {b : Blk}
    {fl : List Nat} (h : PreCo s L pre b post fl)
    (hp : ∀ q ∈ pre.getLast?, q.kind ≠ Kind.free)
    (hn : ∀ n ∈ post.head?, n.kind ≠ Kind.free) :
    CoResult s (coalesce s b.bp).1 L pre b post (coalesce s b.bp).2 := by
  have g := h.heap.geo
  have hbr : b.kind ≠ Kind.raw := by rw [h.bfree]; exact free_ne_raw
  have e1 := prev_alloc_used h.heap (fun c hc => h.no_raw c (List.mem_append_left _ hc)) hp
  have e2 := next_alloc_used h.heap hbr
    (fun c hc => h.no_raw c (List.mem_append_right _ hc)) hn
  have hdef := coalesce_none s b.bp e1 e2
  obtain ⟨H, Sa, Sb, Sc, F⟩ := insert_spec h.heap b (mem_mid _ _ _) h.bfree h.bnot
  obtain ⟨o1, o2, o3⟩ := mid_order g
  rw [hdef]
  refine ⟨pre ++ b :: post, b.bp :: fl, ⟨H, ?_, ?_, ?_, ?_⟩, ⟨b, mem_mid _ _ _, rfl, h.bfree,
    le_refl _, le_refl _⟩, Sa, Sb, Sc, fun c hc _ => mem_around _ _ _ _ hc, ?_⟩
  · intro c hc
    rcases (mem_mid_iff _ _ _ _).1 hc with e | e | e
    · rw [e]; exact hbr
    · exact h.no_raw c (List.mem_append_left _ e)
    · exact h.no_raw c (List.mem_append_right _ e)
  · intro c hc
    rcases (mem_mid_iff _ _ _ _).1 hc with e | e | e
    · rw [e]
      exact ⟨fun _ => List.mem_cons_self _ _, fun _ => h.bfree⟩
    · have := o1 c e
      rw [h.members c (List.mem_append_left _ e), List.mem_cons]
      exact ⟨Or.inr, fun hh => hh.resolve_left (by omega)⟩
    · have := o2 c e
      rw [h.members c (List.mem_append_right _ e), List.mem_cons]
      exact ⟨Or.inr, fun hh => hh.resolve_left (by omega)⟩
  · exact (noAdj_mid_iff _ _ _).2 ⟨h.adj_pre, h.adj_post, fun x hx hh => hp x hx hh.1,
      fun y hy hh => hn y hy hh.2⟩
  · exact h.live.mono (fun c hc _ => mem_around _ _ _ _ hc)
  · intro c hc hk a h1 h2
    have hcm := mem_around pre post b c hc
    refine F a ?_
    intro y hy
    rcases List.mem_cons.1 hy with e | e
    · rw [e]
      rcases List.mem_append.1 hc with e' | e'
      · have := o1 c e'
        omega
      · have := o2 c e'
        omega
    · exact used_avoids_fl g fl h.nodes_not_used c hcm hk a h1 h2 y e

theorem noAdj_tail {n : Blk} {post : List Blk} (h : NoAdjFree (n :: post)) (hn : n.kind = Kind.free) :
    NoAdjFree post ∧ ∀ y ∈ post.head?, y.kind ≠ Kind.free := by
  have := List.chain'_cons'.1 h
  exact ⟨this.2, fun y hy hh => this.1 y hy ⟨hn, hh⟩⟩

theorem noAdj_init {q : Blk} {pre : List Blk} (h : NoAdjFree (pre ++ [q])) (hq : q.kind = Kind.free) :
    NoAdjFree pre ∧ ∀ x ∈ pre.getLast?, x.kind ≠ Kind.free := by
  have := List.chain'_append.1 h
  exact ⟨this.1, fun x hx hh => this.2.2 x hx q rfl ⟨hh, hq⟩⟩

/-- `coalesce` when only the next block is free. -/
theorem coalesce_inv_next {s : State} {L : List (Nat × Nat)} {pre post : List Blk} {b n : Blk}
    {fl : List Nat} (h : PreCo s L pre b (n :: post) fl)
    (hp : ∀ q ∈ pre.getLast?, q.kind ≠ Kind.free) (hn : n.kind = Kind.free) :
    CoResult s (coalesce s b.bp).1 L pre b (n :: post) (coalesce s b.bp).2 := by
  have g := h.heap.geo
  have hbr : b.kind ≠ Kind.raw := by rw [h.bfree]; exact free_ne_raw
  have e1 := prev_alloc_used h.heap (fun c hc => h.no_raw c (List.mem_append_left _ hc)) hp
  have hnm : n ∈ pre ++ n :: post := mem_mid _ _ _
  have hnfl : n.bp ∈ fl := (h.members n hnm).1 hn
  obtain ⟨H, R, Sa, Sb, Sc, F⟩ := coalesce_next h.heap h.bfree hn h.bnot hnfl e1
  obtain ⟨o1, o2, o3⟩ := mid_order g
  have g2 : Geo s.start s.mem_brk s.mem_max_addr ((pre ++ [b]) ++ n :: post) := by
    rw [List.append_assoc]
    exact g
  obtain ⟨p1, p2, p3⟩ := mid_order g2
  have hon := o2 n (List.mem_cons_self _ _)
  obtain ⟨a1, a2⟩ := noAdj_tail h.adj_post hn
  rw [R]
  refine ⟨pre ++ ⟨b.bp, b.sz + n.sz, Kind.free⟩ :: post, b.bp :: fl.erase n.bp,
    ⟨H, ?_, ?_, ?_, ?_⟩, ⟨⟨b.bp, b.sz + n.sz, Kind.free⟩, mem_mid _ _ _, rfl, rfl,
    le_refl _, by show b.bp + b.sz ≤ b.bp + (b.sz + n.sz); omega⟩, Sa, Sb, Sc, ?_, ?_⟩
  · intro c hc
    rcases (mem_mid_iff _ _ _ _).1 hc with e | e | e
    · rw [e]; exact free_ne_raw
    · exact h.no_raw c (List.mem_append_left _ e)
    · exact h.no_raw c (List.mem_append_right _ (List.mem_cons_of_mem _ e))
  · intro c hc
    rcases (mem_mid_iff _ _ _ _).1 hc with e | e | e
    · rw [e]
      exact ⟨fun _ => List.mem_cons_self _ _, fun _ => rfl⟩
    · have := o1 c e
      rw [h.members c (List.mem_append_left _ e), List.mem_cons,
        List.Nodup.mem_erase_iff h.heap.flist.nodup]
      exact ⟨fun hh => Or.inr ⟨by omega, hh⟩, fun hh => (hh.resolve_left (by omega)).2⟩
    · have := p2 c e
      rw [h.members c (List.mem_append_right _ (List.mem_cons_of_mem _ e)), List.mem_cons,
        List.Nodup.mem_erase_iff h.heap.flist.nodup]
      exact ⟨fun hh => Or.inr ⟨by omega, hh⟩, fun hh => (hh.resolve_left (by omega)).2⟩
  · exact (noAdj_mid_iff _ _ _).2 ⟨h.adj_pre, a1, fun x hx hh => hp x hx hh.1,
      fun y hy hh => a2 y hy hh.2⟩
  · refine h.live.mono (fun c hc hk => ?_)
    rcases List.mem_append.1 hc with e | e
    · exact List.mem_append_left _ e
    · rcases List.mem_cons.1 e with e | e
      · rw [e, hn] at hk
        exact absurd hk (fun e => Kind.noConfusion e)
      · exact List.mem_append_right _ (List.mem_cons_of_mem _ e)
  · intro c hc hk
    rcases List.mem_append.1 hc with e | e
    · exact List.mem_append_left _ e
    · rcases List.mem_cons.1 e with e | e
      · rw [e, hn] at hk
        exact absurd hk (fun e => Kind.noConfusion e)
      · exact List.mem_append_right _ (List.mem_cons_of_mem _ e)
  · intro c hc hk a h1 h2
    have hcm := mem_around pre (n :: post) b c hc
    have gb := g.blk b (mem_mid _ _ _)
    refine F a ?_ (used_avoids_fl g fl h.nodes_not_used c hcm hk a h1 h2)
    rcases List.mem_append.1 hc with e | e
    · exact avoid_span a c.bp c.sz b.bp (n.bp + n.sz) (Or.inl (o1 c e).1) (by omega) h1 h2
    · rcases List.mem_cons.1 e with e | e
      · rw [e, hn] at hk
        exact absurd hk (fun e => Kind.noConfusion e)
      · exact avoid_span a c.bp c.sz b.bp (n.bp + n.sz) (Or.inr (p2 c e)) (by omega) h1 h2

/-- `coalesce` when only the previous block is free. -/
theorem coalesce_inv_prev {s : State} {L : List (Nat × Nat)} {pre post : List Blk} {q b : Blk}
    {fl : List Nat} (h : PreCo s L (pre ++ [q]) b post fl)
    (hq : q.kind = Kind.free) (hn : ∀ n ∈ post.head?, n.kind ≠ Kind.free) :
    CoResult s (coalesce s b.bp).1 L (pre ++ [q]) b post (coalesce s b.bp).2 := by
  have g := h.heap.geo
  have hbr : b.kind ≠ Kind.raw := by rw [h.bfree]; exact free_ne_raw
  have e2 := next_alloc_used h.heap hbr
    (fun c hc => h.no_raw c (List.mem_append_right _ hc)) hn
  have hqm : q ∈ (pre ++ [q]) ++ post :=
    List.mem_append_left _ (List.mem_append_right _ (List.mem_singleton_self _))
  have hqfl : q.bp ∈ fl := (h.members q hqm).1 hq
  obtain ⟨H, R, Sa, Sb, Sc, F⟩ := coalesce_prev h.heap hq h.bnot e2 hbr
  obtain ⟨o1, o2, o3⟩ := mid_order g
  have g2 : Geo s.start s.mem_brk s.mem_max_addr (pre ++ q :: b :: post) := by
    have := g
    rw [List.append_assoc] at this
    exact this
  obtain ⟨p1, p2, p3⟩ := mid_order g2
  have hoq := o1 q (List.mem_append_right _ (List.mem_singleton_self _))
  have gq := g2.blk q (mem_mid _ _ _)
  have hadj : q.bp + q.sz = b.bp := ((tiling_split _ _ _ _ _ g2.tiling).2.1).symm
  obtain ⟨a1, a2⟩ := noAdj_init h.adj_pre hq
  rw [R]
  refine ⟨pre ++ ⟨q.bp, q.sz + b.sz, Kind.free⟩ :: post, fl,
    ⟨H, ?_, ?_, ?_, ?_⟩, ⟨⟨q.bp, q.sz + b.sz, Kind.free⟩, mem_mid _ _ _, rfl, rfl,
    by show q.bp ≤ b.bp; omega, by show b.bp + b.sz ≤ q.bp + (q.sz + b.sz); omega⟩,
    Sa, Sb, Sc, ?_, ?_⟩
  · intro c hc
    rcases (mem_mid_iff _ _ _ _).1 hc with e | e | e
    · rw [e]; exact free_ne_raw
    · exact h.no_raw c (List.mem_append_left _ (List.mem_append_left _ e))
    · exact h.no_raw c (List.mem_append_right _ e)
  · intro c hc
    rcases (mem_mid_iff _ _ _ _).1 hc with e | e | e
    · rw [e]
      exact ⟨fun _ => hqfl, fun _ => rfl⟩
    · exact h.members c (List.mem_append_left _ (List.mem_append_left _ e))
    · exact h.members c (List.mem_append_right _ e)
  · exact (noAdj_mid_iff _ _ _).2 ⟨a1, h.adj_post, fun x hx hh => a2 x hx hh.1,
      fun y hy hh => hn y hy hh.2⟩
  · refine h.live.mono (fun c hc hk => ?_)
    rcases List.mem_append.1 hc with e | e
    · rcases List.mem_append.1 e with e | e
      · exact List.mem_append_left _ e
      · rw [List.mem_singleton.1 e, hq] at hk
        exact absurd hk (fun e => Kind.noConfusion e)
    · exact List.mem_append_right _ (List.mem_cons_of_mem _ e)
  · intro c hc hk
    rcases List.mem_append.1 hc with e | e
    · rcases List.mem_append.1 e with e | e
      · exact List.mem_append_left _ e
      · rw [List.mem_singleton.1 e, hq] at hk
        exact absurd hk (fun e => Kind.noConfusion e)
    · exact List.mem_append_right _ (List.mem_cons_of_mem _ e)
  · intro c hc hk a h1 h2
    refine F a ?_
    rcases List.mem_append.1 hc with e | e
    · rcases List.mem_append.1 e with e | e
      · exact avoid_span a c.bp c.sz q.bp (b.bp + b.sz) (Or.inl (p1 c e).1) (by omega) h1 h2
      · rw [List.mem_singleton.1 e, hq] at hk
        exact absurd hk (fun e => Kind.noConfusion e)
    · exact avoid_span a c.bp c.sz q.bp (b.bp + b.sz) (Or.inr (o2 c e)) (by omega) h1 h2

/-- `coalesce` when both neighbours are free. -/
theorem coalesce_inv_both {s : State} {L : List (Nat × Nat)} {pre post : List Blk} {q b n : Blk}
    {fl : List Nat} (h : PreCo s L (pre ++ [q]) b (n :: post) fl)
    (hq : q.kind = Kind.free) (hn : n.kind = Kind.free) :
    CoResult s (coalesce s b.bp).1 L (pre ++ [q]) b (n :: post) (coalesce s b.bp).2 := by
  have g := h.heap.geo
  have hbr : b.kind ≠ Kind.raw := by rw [h.bfree]; exact free_ne_raw
  have hqm : q ∈ (pre ++ [q]) ++ n :: post :=
    List.mem_append_left _ (List.mem_append_right _ (List.mem_singleton_self _))
  have hnm : n ∈ (pre ++ [q]) ++ n :: post := mem_mid _ _ _
  have hqfl : q.bp ∈ fl := (h.members q hqm).1 hq
  have hnfl : n.bp ∈ fl := (h.members n hnm).1 hn
  obtain ⟨H, R, Sa, Sb, Sc, F⟩ := coalesce_both h.heap hq hn hbr h.bnot hqfl hnfl
  obtain ⟨o1, o2, o3⟩ := mid_order g
  have g2 : Geo s.start s.mem_brk s.mem_max_addr (pre ++ q :: b :: n :: post) := by
    have := g
    rw [List.append_assoc] at this
    exact this
  obtain ⟨p1, p2, p3⟩ := mid_order g2
  have g3 : Geo s.start s.mem_brk s.mem_max_addr (((pre ++ [q]) ++ [b]) ++ n :: post) := by
    rw [List.append_assoc]
    exact g
  obtain ⟨r1, r2, r3⟩ := mid_order g3
  have hoq := o1 q (List.mem_append_right _ (List.mem_singleton_self _))
  have hon := o2 n (List.mem_cons_self _ _)
  have gq := g2.blk q (mem_mid _ _ _)
  have hadj : q.bp + q.sz = b.bp := ((tiling_split _ _ _ _ _ g2.tiling).2.1).symm
  obtain ⟨a1, a2⟩ := noAdj_init h.adj_pre hq
  obtain ⟨b1, b2⟩ := noAdj_tail h.adj_post hn
  have hnd := h.heap.flist.nodup
  rw [R]
  refine ⟨pre ++ ⟨q.bp, q.sz + b.sz + n.sz, Kind.free⟩ :: post,
    q.bp :: (fl.erase n.bp).erase q.bp,
    ⟨H, ?_, ?_, ?_, ?_⟩, ⟨⟨q.bp, q.sz + b.sz + n.sz, Kind.free⟩, mem_mid _ _ _, rfl, rfl,
    by show q.bp ≤ b.bp; omega, by show b.bp + b.sz ≤ q.bp + (q.sz + b.sz + n.sz); omega⟩,
    Sa, Sb, Sc, ?_, ?_⟩
  · intro c hc
    rcases (mem_mid_iff _ _ _ _).1 hc with e | e | e
    · rw [e]; exact free_ne_raw
    · exact h.no_raw c (List.mem_append_left _ (List.mem_append_left _ e))
    · exact h.no_raw c (List.mem_append_right _ (List.mem_cons_of_mem _ e))
  · intro c hc
    rcases (mem_mid_iff _ _ _ _).1 hc with e | e | e
    · rw [e]
      exact ⟨fun _ => List.mem_cons_self _ _, fun _ => rfl⟩
    · have := p1 c e
      rw [h.members c (List.mem_append_left _ (List.mem_append_left _ e)), List.mem_cons,
        List.Nodup.mem_erase_iff (hnd.erase _), List.Nodup.mem_erase_iff hnd]
      exact ⟨fun hh => Or.inr ⟨by omega, by omega, hh⟩,
        fun hh => (hh.resolve_left (by omega)).2.2⟩
    · have := r2 c e
      rw [h.members c (List.mem_append_right _ (List.mem_cons_of_mem _ e)), List.mem_cons,
        List.Nodup.mem_erase_iff (hnd.erase _), List.Nodup.mem_erase_iff hnd]
      exact ⟨fun hh => Or.inr ⟨by omega, by omega, hh⟩,
        fun hh => (hh.resolve_left (by omega)).2.2⟩
  · exact (noAdj_mid_iff _ _ _).2 ⟨a1, b1, fun x hx hh => a2 x hx hh.1,
      fun y hy hh => b2 y hy hh.2⟩
  · refine h.live.mono (fun c hc hk => ?_)
    rcases List.mem_append.1 hc with e | e
    · rcases List.mem_append.1 e with e | e
      · exact List.mem_append_left _ e
      · rw [List.mem_singleton.1 e, hq] at hk
        exact absurd hk (fun e => Kind.noConfusion e)
    · rcases List.mem_cons.1 e with e | e
      · rw [e, hn] at hk
        exact absurd hk (fun e => Kind.noConfusion e)
      · exact List.mem_append_right _ (List.mem_cons_of_mem _ e)
  · intro c hc hk
    rcases List.mem_append.1 hc with e | e
    · rcases List.mem_append.1 e with e | e
      · exact List.mem_append_left _ e
      · rw [List.mem_singleton.1 e, hq] at hk
        exact absurd hk (fun e => Kind.noConfusion e)
    · rcases List.mem_cons.1 e with e | e
      · rw [e, hn] at hk
        exact absurd hk (fun e => Kind.noConfusion e)
      · exact List.mem_append_right _ (List.mem_cons_of_mem _ e)
  · intro c hc hk a h1 h2
    have hcm := mem_around (pre ++ [q]) (n :: post) b c hc
    refine F a ?_ (used_avoids_fl g fl h.nodes_not_used c hcm hk a h1 h2)
    rcases List.mem_append.1 hc with e | e
    · rcases List.mem_append.1 e with e | e
      · exact avoid_span a c.bp c.sz q.bp (n.bp + n.sz) (Or.inl (p1 c e).1) (by omega) h1 h2
      · rw [List.mem_singleton.1 e, hq] at hk
        exact absurd hk (fun e => Kind.noConfusion e)
    · rcases List.mem_cons.1 e with e | e
      · rw [e, hn] at hk
        exact absurd hk (fun e => Kind.noConfusion e)
      · exact avoid_span a c.bp c.sz q.bp (n.bp + n.sz) (Or.inr (r2 c e)) (by omega) h1 h2

theorem getLast?_concat_mem {α : Type} (pre : List α) (q x : α)
    (h : x ∈ (pre ++ [q]).getLast?) : x = q := by
  rw [List.getLast?_concat] at h
  exact (Option.mem_some_iff.1 h).symm

/-- `coalesce` on a `PreCo` state re-establishes the invariant. -/
theorem coalesce_inv {s : State} {L : List (Nat × Nat)} {pre post : List Blk} {b : Blk}
    {fl : List Nat} (h : PreCo s L pre b post fl) :
    CoResult s (coalesce s b.bp).1 L pre b post (coalesce s b.bp).2 := by
  rcases List.eq_nil_or_concat pre with hpre | ⟨pre1, q, hpre⟩
  · subst hpre
    cases post with
    | nil => exact coalesce_inv_none h (fun q hq => by cases hq) (fun n hn => by cases hn)
    | cons n post1 =>
      by_cases hn : n.kind = Kind.free
      · exact coalesce_inv_next h (fun q hq => by cases hq) hn
      · refine coalesce_inv_none h (fun q hq => by cases hq) (fun x hx => ?_)
        rw [List.head?_cons, Option.mem_some_iff] at hx
        rw [← hx]
        exact hn
  · rw [List.concat_eq_append] at hpre
    subst hpre
    by_cases hq : q.kind = Kind.free
    · cases post with
      | nil => exact coalesce_inv_prev h hq (fun n hn => Option.noConfusion hn)
      | cons n post1 =>
        by_cases hn : n.kind = Kind.free
        · exact coalesce_inv_both h hq hn
        · refine coalesce_inv_prev h hq (fun x hx => ?_)
          rw [List.head?_cons, Option.mem_some_iff] at hx
          rw [← hx]
          exact hn
    · have hp : ∀ x ∈ (pre1 ++ [q]).getLast?, x.kind ≠ Kind.free := by
        intro x hx
        rw [getLast?_concat_mem pre1 q x hx]
        exact hq
      cases post with
      | nil => exact coalesce_inv_none h hp (fun n hn => by cases hn)
      | cons n post1 =>
        by_cases hn : n.kind = Kind.free
        · exact coalesce_inv_next h hp hn
        · refine coalesce_inv_none h hp (fun x hx => ?_)
          rw [List.head?_cons, Option.mem_some_iff] at hx
          rw [← hx]
          exact hn

/-! ## `mm_free` preserves the invariant -/

theorem NoAdjFree.parts {pre post : List Blk} {b : Blk} (h : NoAdjFree (pre ++ b :: post)) :
    NoAdjFree pre ∧ NoAdjFree post :=
  ⟨((noAdj_mid_iff _ _ _).1 h).1, ((noAdj_mid_iff _ _ _).1 h).2.1⟩

/-- The live allocations other than the one in block `b`. -/
theorem LiveOK.erase_live {pre post : List Blk} {b : Blk} {L : List (Nat × Nat)} {start brk mx : Nat}
    (g : Geo start brk mx (pre ++ b :: post)) (h : LiveOK (pre ++ b :: post) L) (n : Nat)
    (hp : (b.bp, n) ∈ L) : LiveOK (pre ++ post) (L.erase (b.bp, n)) := by
  have hnd : L.Nodup := List.Nodup.of_map _ h.1
  refine ⟨(h.1.sublist ((List.erase_sublist _ _).map _)), fun pn hpn => ?_⟩
  have hpn1 := (List.Nodup.mem_erase_iff hnd).1 hpn
  obtain ⟨c, hc, h1, h2, h3⟩ := h.2 pn hpn1.2
  refine ⟨c, ?_, h1, h2, h3⟩
  rcases (mem_mid_iff _ _ _ _).1 hc with e | e | e
  · exfalso
    have hfst : pn.1 = (b.bp, n).1 := by rw [← h1, e]
    exact hpn1.1 (List.inj_on_of_nodup_map h.1 hpn1.2 hp hfst)
  · exact List.mem_append_left _ e
  · exact List.mem_append_right _ e

/-- `mm_free` of a live pointer: the invariant holds again without that
allocation, and the payloads of the other allocated blocks are untouched. -/
theorem free_inv {s : State} {L : List (Nat × Nat)} {bs : List Blk} {fl : List Nat}
    (h : InvWith s L bs fl) (p n : Nat) (hp : (p, n) ∈ L) :
    ∃ bs1 fl1, InvWith (mm_free s p) (L.erase (p, n)) bs1 fl1 ∧
      (mm_free s p).start = s.start ∧ (mm_free s p).mem_brk = s.mem_brk ∧
      (mm_free s p).mem_max_addr = s.mem_max_addr ∧
      ∀ c ∈ bs, c.kind = Kind.used → c.bp ≠ p → ∀ a, c.bp ≤ a → a + 8 < c.bp + c.sz →
        (mm_free s p).mem a = s.mem a := by
  obtain ⟨b, hb, hbp, hbk, hsz⟩ := h.live.2 (p, n) hp
  obtain ⟨pre, post, rfl⟩ := List.append_of_mem hb
  have hbp : b.bp = p := hbp
  subst hbp
  have g := h.heap.geo
  have gb := g.blk b hb
  have hbr : b.kind ≠ Kind.raw := h.no_raw b hb
  have hsize := (h.heap.size_at b hb hbr).1
  obtain ⟨H1, F1⟩ := retag_spec h.heap Kind.free
  have hdef : mm_free s b.bp
      = (coalesce { s with mem := put_tags s.mem b.bp b.sz 0 } b.bp).1 := by
    unfold mm_free
    rw [if_neg (by omega)]
    simp only [hsize]
  have hbnot : b.bp ∉ fl := fun hx => by
    have := (h.members b hb).2 hx
    rw [hbk] at this
    exact used_ne_free this
  have hpc : PreCo { s with mem := put_tags s.mem b.bp b.sz 0 } (L.erase (b.bp, n)) pre
      { b with kind := Kind.free } post fl :=
    { heap := H1
      no_raw := fun c hc => h.no_raw c (mem_around pre post b c hc)
      bfree := rfl
      bnot := hbnot
      members := fun c hc => h.members c (mem_around pre post b c hc)
      adj_pre := h.no_adj.parts.1
      adj_post := h.no_adj.parts.2
      live := h.live.erase_live g n hp }
  obtain ⟨bs1, fl1, I1, -, Sa, Sb, Sc, -, F2⟩ := coalesce_inv hpc
  rw [hdef]
  refine ⟨bs1, fl1, I1, Sa, Sb, Sc, fun c hc hk hne a h1 h2 => ?_⟩
  have hc2 : c ∈ pre ++ post := by
    rcases (mem_mid_iff _ _ _ _).1 hc with e | e | e
    · exact absurd (by rw [e]) hne
    · exact List.mem_append_left _ e
    · exact List.mem_append_right _ e
  rw [F2 c hc2 hk a h1 h2]
  have gc := g.blk c hc
  rcases g.sep c b hc hb with e | e | e
  · exact absurd (by rw [e]) hne
  · exact F1 a (Or.inl (by omega)) (Or.inl (by omega))
  · exact F1 a (Or.inr (by omega)) (Or.inr (by omega))

/-! ## `place` on a free block of the invariant -/

/-- The list nodes of a state in the invariant are not allocated blocks. -/
theorem InvWith.fl_not_used {s : State} {L : List (Nat × Nat)} {bs : List Blk} {fl : List Nat}
    (h : InvWith s L bs fl) : ∀ y ∈ fl, ∃ d ∈ bs, d.bp = y ∧ d.kind ≠ Kind.used := by
  intro y hy
  obtain ⟨d, hd, rfl⟩ := h.heap.flist.mem_blk y hy
  refine ⟨d, hd, rfl, ?_⟩
  rw [(h.members d hd).2 hy]
  exact fun e => Kind.noConfusion e

/-- The payload of an allocated block is outside everything that an operation
on another block `X` and on the list links may write. -/
theorem InvWith.frame_addr {s : State} {L : List (Nat × Nat)} {bs : List Blk} {fl : List Nat}
    (h : InvWith s L bs fl) (X : Blk) (hX : X ∈ bs) (hXk : X.kind ≠ Kind.used) (c : Blk)
    (hc : c ∈ bs) (hk : c.kind = Kind.used) (a : Nat) (h1 : c.bp ≤ a)
    (h2 : a + 8 < c.bp + c.sz) :
    (a < X.bp - 4 ∨ X.bp + X.sz - 4 ≤ a) ∧ ∀ y ∈ fl, a < y ∨ y + 16 ≤ a := by
  have g := h.heap.geo
  have gX := g.blk X hX
  refine ⟨?_, used_avoids_fl g fl h.fl_not_used c hc hk a h1 h2⟩
  rcases g.sep c X hc hX with e | e | e
  · subst e
    exact absurd hk hXk
  · exact avoid_span a c.bp c.sz X.bp (X.bp + X.sz) (Or.inl e) (by omega) h1 h2
  · exact avoid_span a c.bp c.sz X.bp (X.bp + X.sz) (Or.inr e) (by omega) h1 h2

/-- A new allocation in a block that was free joins the live allocations. -/
theorem LiveOK.add {pre post : List Blk} {X : Blk} {L : List (Nat × Nat)} {start brk mx : Nat}
    (g : Geo start brk mx (pre ++ X :: post)) (h : LiveOK (pre ++ X :: post) L)
    (hXk : X.kind ≠ Kind.used) (bs1 : List Blk) (U : Blk) (hsub : ∀ c ∈ pre ++ post, c ∈ bs1)
    (hU : U ∈ bs1) (hUb : U.bp = X.bp) (hUk : U.kind = Kind.used) (n : Nat)
    (hn : n + 8 ≤ U.sz) : LiveOK bs1 ((X.bp, n) :: L) := by
  have hold : ∀ pn ∈ L, ∃ c ∈ pre ++ post, c.bp = pn.1 ∧ c.kind = Kind.used ∧ pn.2 + 8 ≤ c.sz := by
    intro pn hpn
    obtain ⟨c, hc, h1, h2, h3⟩ := h.2 pn hpn
    refine ⟨c, ?_, h1, h2, h3⟩
    rcases (mem_mid_iff _ _ _ _).1 hc with e | e | e
    · rw [e] at h2
      exact absurd h2 hXk
    · exact List.mem_append_left _ e
    · exact List.mem_append_right _ e
  refine ⟨?_, fun pn hpn => ?_⟩
  · rw [List.map_cons, List.nodup_cons]
    refine ⟨fun hm => ?_, h.1⟩
    obtain ⟨pn, hpn, hfst⟩ := List.mem_map.1 hm
    obtain ⟨c, hc, h1, h2, h3⟩ := h.2 pn hpn
    have : c = X := g.bp_inj c X hc (mem_mid _ _ _) (by rw [h1, hfst])
    rw [this] at h2
    exact hXk h2
  · rcases List.mem_cons.1 hpn with e | e
    · subst e
      exact ⟨U, hU, hUb, hUk, hn⟩
    · obtain ⟨c, hc, h1, h2, h3⟩ := hold pn e
      exact ⟨c, hsub c hc, h1, h2, h3⟩

/-- What an allocating step establishes, on top of the invariant with the new
allocation: the break-independent globals, the new block, and the untouched
payloads of the blocks allocated before. -/
theorem place_inv {s : State} {L : List (Nat × Nat)} {bs : List Blk} {fl : List Nat}
    (h : InvWith s L bs fl) (X : Blk) (hX : X ∈ bs) (hXk : X.kind = Kind.free)
    (asize n : Nat) (h8 : asize % 8 = 0) (h24 : 24 ≤ asize) (hle : asize ≤ X.sz)
    (hn : n + 8 ≤ asize) :
    ∃ bs1 fl1, InvWith (place s X.bp asize) ((X.bp, n) :: L) bs1 fl1 ∧
      (place s X.bp asize).start = s.start ∧ (place s X.bp asize).mem_brk = s.mem_brk ∧
      (place s X.bp asize).mem_max_addr = s.mem_max_addr ∧
      (∃ U ∈ bs1, U.bp = X.bp ∧ U.kind = Kind.used ∧ asize ≤ U.sz) ∧
      ∀ c ∈ bs, c.kind = Kind.used → ∀ a, c.bp ≤ a → a + 8 < c.bp + c.sz →
        (place s X.bp asize).mem a = s.mem a := by
  obtain ⟨pre, post, rfl⟩ := List.append_of_mem hX
  have g := h.heap.geo
  have gX := g.blk X hX
  have hXr : X.kind ≠ Kind.raw := by rw [hXk]; exact free_ne_raw
  have hXu : X.kind ≠ Kind.used := by rw [hXk]; exact fun e => Kind.noConfusion e
  have hXfl : X.bp ∈ fl := (h.members X hX).1 hXk
  have hnd := h.heap.flist.nodup
  obtain ⟨o1, o2, o3⟩ := mid_order g
  obtain ⟨a1, a2, a3, a4⟩ := (noAdj_mid_iff _ _ _).1 h.no_adj
  have hfr : ∀ c ∈ pre ++ X :: post, c.kind = Kind.used → ∀ a, c.bp ≤ a →
      a + 8 < c.bp + c.sz →
      (a < X.bp - 4 ∨ X.bp + X.sz - 4 ≤ a) ∧ ∀ y ∈ fl, a < y ∨ y + 16 ≤ a :=
    fun c hc hk a h1 h2 => h.frame_addr X hX hXu c hc hk a h1 h2
  by_cases hsp : asize + 24 ≤ X.sz
  · obtain ⟨H, Sa, Sb, Sc, F⟩ := place_split h.heap hXr hXfl asize h8 h24 hsp
    refine ⟨_, _, ⟨H, ?_, ?_, ?_, ?_⟩, Sa, Sb, Sc,
      ⟨⟨X.bp, asize, Kind.used⟩, mem_mid _ _ _, rfl, rfl, le_refl _⟩,
      fun c hc hk a h1 h2 => F a (hfr c hc hk a h1 h2).1 (hfr c hc hk a h1 h2).2⟩
    · intro c hc
      rcases (mem_mid_iff _ _ _ _).1 hc with e | e | e
      · rw [e]; exact used_ne_raw
      · exact h.no_raw c (List.mem_append_left _ e)
      · rcases List.mem_cons.1 e with e | e
        · rw [e]; exact free_ne_raw
        · exact h.no_raw c (List.mem_append_right _ (List.mem_cons_of_mem _ e))
    · intro c hc
      rw [List.mem_cons, List.Nodup.mem_erase_iff hnd]
      rcases (mem_mid_iff _ _ _ _).1 hc with e | e | e
      · rw [e]
        exact ⟨fun hh => absurd hh used_ne_free,
          fun hh => by
            rcases hh with hh | hh
            · exact absurd hh (by show ¬ X.bp = X.bp + asize; omega)
            · exact absurd rfl hh.1⟩
      · have := o1 c e
        rw [h.members c (List.mem_append_left _ e)]
        exact ⟨fun hh => Or.inr ⟨by omega, hh⟩, fun hh => (hh.resolve_left (by omega)).2⟩
      · rcases List.mem_cons.1 e with e | e
        · rw [e]
          exact ⟨fun _ => Or.inl rfl, fun _ => rfl⟩
        · have := o2 c e
          rw [h.members c (List.mem_append_right _ (List.mem_cons_of_mem _ e))]
          exact ⟨fun hh => Or.inr ⟨by omega, hh⟩, fun hh => (hh.resolve_left (by omega)).2⟩
    · refine (noAdj_mid_iff _ _ _).2 ⟨a1, List.chain'_cons'.2 ⟨fun y hy hh => ?_, a2⟩,
        fun x hx hh => used_ne_free hh.2, fun y hy hh => used_ne_free hh.1⟩
      exact a4 y hy ⟨hXk, hh.2⟩
    · exact h.live.add g hXu _ ⟨X.bp, asize, Kind.used⟩ (fun c hc => by
        rcases List.mem_append.1 hc with e | e
        · exact List.mem_append_left _ e
        · exact List.mem_append_right _ (List.mem_cons_of_mem _ (List.mem_cons_of_mem _ e)))
        (mem_mid _ _ _) rfl rfl n hn
  · obtain ⟨H, Sa, Sb, Sc, F⟩ := place_whole h.heap hXr hXfl asize hle (by omega)
    refine ⟨_, _, ⟨H, ?_, ?_, ?_, ?_⟩, Sa, Sb, Sc,
      ⟨⟨X.bp, X.sz, Kind.used⟩, mem_mid _ _ _, rfl, rfl, hle⟩,
      fun c hc hk a h1 h2 => F a (hfr c hc hk a h1 h2).1 (hfr c hc hk a h1 h2).2⟩
    · intro c hc
      rcases (mem_mid_iff _ _ _ _).1 hc with e | e | e
      · rw [e]; exact used_ne_raw
      · exact h.no_raw c (List.mem_append_left _ e)
      · exact h.no_raw c (List.mem_append_right _ (List.mem_cons_of_mem _ e))
    · intro c hc
      rw [List.Nodup.mem_erase_iff hnd]
      rcases (mem_mid_iff _ _ _ _).1 hc with e | e | e
      · rw [e]
        exact ⟨fun hh => absurd hh used_ne_free, fun hh => absurd rfl hh.1⟩
      · have := o1 c e
        rw [h.members c (List.mem_append_left _ e)]
        exact ⟨fun hh => ⟨by omega, hh⟩, fun hh => hh.2⟩
      · have := o2 c e
        rw [h.members c (List.mem_append_right _ (List.mem_cons_of_mem _ e))]
        exact ⟨fun hh => ⟨by omega, hh⟩, fun hh => hh.2⟩
    · exact (noAdj_mid_iff _ _ _).2 ⟨a1, a2,
        fun x hx hh => used_ne_free hh.2, fun y hy hh => used_ne_free hh.1⟩
    · exact h.live.add g hXu _ ⟨X.bp, X.sz, Kind.used⟩ (fun c hc => mem_around pre post _ c hc)
        (mem_mid _ _ _) rfl rfl n (by show n + 8 ≤ X.sz; omega)

/-! ## `extend_heap` preserves the invariant -/

/-- `extend_heap` when the backing store cannot grow. -/
theorem extend_heap_fail (s : State) (words : Nat)
    (hno : s.mem_max_addr < s.mem_brk + extend_size words) : extend_heap s words = (s, 0) := by
  simp only [extend_heap, mem_sbrk]
  rw [if_neg (by omega)]

/-- `extend_heap` when the backing store grows. -/
theorem extend_heap_ok (s : State) (words : Nat)
    (hfit : s.mem_brk + extend_size words ≤ s.mem_max_addr) :
    extend_heap s words =
      coalesce { s with mem_brk := s.mem_brk + extend_size words,
                        mem := PUT (put_tags s.mem s.mem_brk (extend_size words) 0)
                          (HDRP (NEXT_BLKP (put_tags s.mem s.mem_brk (extend_size words) 0)
                            s.mem_brk)) (PACK 0 1) } s.mem_brk := by
  simp only [extend_heap, mem_sbrk]
  rw [if_pos hfit]

/-- `extend_heap` in the invariant: the arena grows by a free block, merged with
a free block that ended the arena; the payloads of the allocated blocks are
untouched. -/
theorem extend_inv {s : State} {L : List (Nat × Nat)} {bs : List Blk} {fl : List Nat}
    (h : InvWith s L bs fl) (words : Nat) (h8 : extend_size words % 8 = 0)
    (h24 : 24 ≤ extend_size words)
    (hfit : s.mem_brk + extend_size words ≤ s.mem_max_addr) :
    ∃ bs1 fl1, InvWith (extend_heap s words).1 L bs1 fl1 ∧
      (∃ rb ∈ bs1, rb.bp = (extend_heap s words).2 ∧ rb.kind = Kind.free ∧
        extend_size words ≤ rb.sz) ∧
      (extend_heap s words).1.start = s.start ∧
      (extend_heap s words).1.mem_max_addr = s.mem_max_addr ∧
      (∀ c ∈ bs, c.kind = Kind.used → c ∈ bs1) ∧
      ∀ c ∈ bs, c.kind = Kind.used → ∀ a, c.bp ≤ a → a + 8 < c.bp + c.sz →
        (extend_heap s words).1.mem a = s.mem a := by
  have g := h.heap.geo
  obtain ⟨H, F⟩ := extend_spec h.heap (extend_size words) h8 h24 hfit
  have hbnot : s.mem_brk ∉ fl := fun hx => by
    obtain ⟨d, hd, hdb⟩ := h.heap.flist.mem_blk _ hx
    have := g.blk d hd
    omega
  have hlive : LiveOK (bs ++ []) L := by
    rw [List.append_nil]
    exact h.live
  have hpc : PreCo _ L bs ⟨s.mem_brk, extend_size words, Kind.free⟩ [] fl :=
    PreCo.mk H (fun c hc => h.no_raw c (by simpa using hc)) rfl hbnot
      (fun c hc => h.members c (by simpa using hc)) h.no_adj List.chain'_nil hlive
  have hb : (⟨s.mem_brk, extend_size words, Kind.free⟩ : Blk).bp = s.mem_brk := rfl
  have hco := coalesce_inv hpc
  rw [hb] at hco
  rw [extend_heap_ok s words hfit]
  generalize coalesce _ s.mem_brk = r at hco ⊢
  obtain ⟨bs1, fl1, I1, ⟨rb, hrb, r1, r2, r3, r4⟩, Sa, Sb, Sc, P2, F2⟩ := hco
  have sb : r.1.mem_brk = s.mem_brk + extend_size words := Sb
  refine ⟨bs1, fl1, I1, ⟨rb, hrb, r1, r2, ?_⟩, Sa, Sc,
    fun c hc hk => P2 c (by simpa using hc) hk, fun c hc hk a h1 h2 => ?_⟩
  · have r3 : rb.bp ≤ s.mem_brk := r3
    have r4 : s.mem_brk + extend_size words ≤ rb.bp + rb.sz := r4
    have := I1.heap.geo.blk rb hrb
    omega
  · rw [F2 c (by simpa using hc) hk a h1 h2]
    have := g.blk c hc
    exact F a (by omega)

/-! ## `mm_init` establishes the invariant -/

/-- `mm_init` when the backing store supplies the first 16 bytes. -/
theorem mm_init_eq (s : State) (hfit : s.mem_brk + 16 ≤ s.mem_max_addr) :
    mm_init s = if (extend_heap (sentinels s) (CHUNKSIZE / WSIZE)).2 = 0
      then ((extend_heap (sentinels s) (CHUNKSIZE / WSIZE)).1, -1)
      else ((extend_heap (sentinels s) (CHUNKSIZE / WSIZE)).1, 0) := by
  simp only [mm_init, mem_sbrk, WSIZE]
  rw [if_pos hfit]
  rfl

/-- `mm_init` fails when the backing store cannot supply the first 16 bytes. -/
theorem mm_init_fail (s : State) (hno : s.mem_max_addr < s.mem_brk + 16) :
    (mm_init s).2 = -1 := by
  simp only [mm_init, mem_sbrk, WSIZE]
  rw [if_neg (by omega)]

/-- The sentinels alone: an arena without blocks and an empty free list. -/
theorem sentinels_inv (s : State) (h : FreshStore s) (hfit : s.mem_brk + 16 ≤ s.mem_max_addr) :
    InvWith (sentinels s) [] [] [] := by
  obtain ⟨f1, f2, f3, f4⟩ := h
  have p1 : PACK DSIZE 1 = 9 := by decide
  have p0 : PACK 0 1 = 1 := by decide
  refine ⟨⟨⟨?_, ?_, ?_, ?_, ?_, ?_, ?_⟩, ⟨?_, ?_, ?_, ?_⟩, ⟨List.nodup_nil, ?_, rfl, LinkedF.nil _ _⟩⟩,
    ?_, ?_, List.chain'_nil, ⟨List.nodup_nil, ?_⟩⟩
  · show (s.mem_brk + 2 * WSIZE) % 8 = 0
    unfold WSIZE; omega
  · show 8 ≤ s.mem_brk + 2 * WSIZE
    unfold WSIZE; omega
  · show s.mem_brk + 4 * WSIZE ≤ s.mem_max_addr
    unfold WSIZE; omega
  · show s.mem_max_addr < s.mem_brk + 2 * WSIZE + 4294967288
    unfold WSIZE; omega
  · exact f4
  · show s.mem_brk + 2 * WSIZE + 8 = s.mem_brk + 4 * WSIZE
    unfold WSIZE; omega
  · intro b hb; cases hb
  · show GET (sentinels s).mem (s.mem_brk + 2 * WSIZE - 4) = 9
    unfold sentinels WSIZE
    rw [p1, p0]
    have e : s.mem_brk + 2 * 4 - 4 = s.mem_brk + 4 := by omega
    rw [e, GET_PUT_disj _ _ _ _ (by omega), GET_PUT_disj _ _ _ _ (by omega),
      GET_PUT_same]
  · show GET (sentinels s).mem (s.mem_brk + 2 * WSIZE) = 9
    unfold sentinels WSIZE
    rw [p1, p0]
    rw [GET_PUT_disj _ _ _ _ (by omega), GET_PUT_same]
  · show GET (sentinels s).mem (s.mem_brk + 4 * WSIZE - 4) = 1
    unfold sentinels WSIZE
    rw [p1, p0]
    have e : s.mem_brk + 4 * 4 - 4 = s.mem_brk + 3 * 4 := by omega
    show GET (PUT _ (s.mem_brk + 3 * 4) 1) (s.mem_brk + 4 * 4 - 4) = 1
    rw [e, GET_PUT_same]
  · intro b hb; cases hb
  · intro x hx; cases hx
  · intro b hb; cases hb
  · intro b hb; cases hb
  · intro pn hpn; cases hpn

theorem extend_size_chunk : extend_size (CHUNKSIZE / WSIZE) = 4096 := by decide

/-- A successful `mm_init` on a fresh backing store establishes the invariant
with no live allocation. -/
theorem init_inv (s : State) (h : FreshStore s) (hok : (mm_init s).2 = 0) :
    ∃ bs fl, InvWith (mm_init s).1 [] bs fl := by
  by_cases hfit : s.mem_brk + 16 ≤ s.mem_max_addr
  · have I0 := sentinels_inv s h hfit
    rw [mm_init_eq s hfit] at hok ⊢
    by_cases hfit2 : (sentinels s).mem_brk + extend_size (CHUNKSIZE / WSIZE)
        ≤ (sentinels s).mem_max_addr
    · obtain ⟨bs1, fl1, I1, ⟨rb, hrb, r1, r2, r3⟩, -⟩ :=
        extend_inv I0 (CHUNKSIZE / WSIZE) (by rw [extend_size_chunk]) (by rw [extend_size_chunk]; omega) hfit2
      have := I1.heap.geo.blk rb hrb
      rw [if_neg (by omega)]
      exact ⟨bs1, fl1, I1⟩
    · rw [extend_heap_fail _ _ (by omega)] at hok
      rw [if_pos rfl] at hok
      exact absurd hok (show ¬ ((-1 : Int) = 0) by decide)
  · rw [mm_init_fail s (by omega)] at hok
    exact absurd hok (by decide)

/-! ## `mm_malloc` preserves the invariant -/

/-- The adjusted size of a request of more than 8 and at most `2 ^ 31 - 16` bytes. -/
theorem adjust_size_good (n : Nat) (h1 : 8 < n) (h2 : n ≤ 2 ^ 31 - 16) :
    adjust_size n % 8 = 0 ∧ n + 8 ≤ adjust_size n ∧ adjust_size n ≤ n + 15 ∧
      24 ≤ adjust_size n ∧ adjust_size n < 2 ^ 31 := by
  simp only [adjust_size, DSIZE]
  rw [if_neg (by omega)]
  norm_num at h2 ⊢
  split_ifs with h <;> omega

/-- The extension size for an adjusted size below `2 ^ 31`. -/
theorem extendsize_good (a : Nat) (h : a < 2 ^ 31) :
    extendsize a = if 4096 < a then a else 4096 := by
  have hm : a % 2 ^ 32 = a := Nat.mod_eq_of_lt (by omega)
  have e1 : toInt32 a = (a : Int) := by
    unfold toInt32
    rw [hm, if_pos h]
  unfold extendsize MAX CHUNKSIZE
  rw [e1]
  by_cases h3 : 4096 < a
  · rw [if_pos h3, if_pos (by exact_mod_cast h3), Int.toNat_natCast]
    exact hm
  · rw [if_neg h3, if_neg (by exact_mod_cast h3), Int.toNat_natCast]
    exact Nat.mod_eq_of_lt (by norm_num)

/-- The scan of `find_fit` from a node of the free list ends within as many
steps as nodes remain, with `NULL` or with a node that is large enough. -/
theorem find_fit_loop_spec {s : State} {bs : List Blk} {fl : List Nat} (h : Heap s bs fl)
    (asize : Nat) (ys : List Nat) :
    ∀ (xs : List Nat) (fuel : Nat), fl = xs ++ ys →
      (ys.length < fuel → ∃ r, find_fit_loop s.mem asize fuel (ys.headD 0) = some r) ∧
      ∀ r, find_fit_loop s.mem asize fuel (ys.headD 0) = some r →
        r = 0 ∨ (r ∈ fl ∧ asize ≤ GET_SIZE s.mem (HDRP r)) := by
  induction ys with
  | nil =>
    intro xs fuel hfl
    cases fuel with
    | zero => exact ⟨fun hlt => absurd hlt (by simp), fun r hr => by simp [find_fit_loop] at hr⟩
    | succ k =>
      refine ⟨fun _ => ⟨0, by simp [find_fit_loop]⟩, fun r hr => ?_⟩
      simp [find_fit_loop] at hr
      exact Or.inl hr.symm
  | cons y ys ih =>
    intro xs fuel hfl
    have hy : y ∈ fl := by rw [hfl]; exact mem_mid _ _ _
    have hy0 : y ≠ 0 := by
      obtain ⟨d, hd, hdb⟩ := h.flist.mem_blk y hy
      have := h.geo.blk d hd
      omega
    have hnext : getNext s.mem y = ys.headD 0 := (h.flist.linked xs y ys hfl).2
    have hfl2 : fl = (xs ++ [y]) ++ ys := by rw [hfl, List.append_assoc]; rfl
    cases fuel with
    | zero => exact ⟨fun hlt => absurd hlt (by simp), fun r hr => by simp [find_fit_loop] at hr⟩
    | succ k =>
      have hstep : find_fit_loop s.mem asize (k + 1) ((y :: ys).headD 0) =
          if GET_ALLOC s.mem (HDRP y) = 0 ∧ GET_SIZE s.mem (HDRP y) ≥ asize then some y
          else find_fit_loop s.mem asize k (ys.headD 0) := by
        show find_fit_loop s.mem asize (k + 1) y = _
        rw [find_fit_loop, if_neg hy0, hnext]
      rw [hstep]
      by_cases hc : GET_ALLOC s.mem (HDRP y) = 0 ∧ GET_SIZE s.mem (HDRP y) ≥ asize
      · rw [if_pos hc]
        refine ⟨fun _ => ⟨y, rfl⟩, fun r hr => ?_⟩
        have : y = r := Option.some.inj hr
        subst this
        exact Or.inr ⟨hy, hc.2⟩
      · rw [if_neg hc]
        exact ⟨fun hlt => (ih (xs ++ [y]) k hfl2).1 (by simp at hlt; omega),
          (ih (xs ++ [y]) k hfl2).2⟩

/-- `find_fit` in the invariant: with more fuel than list nodes it returns, and
what it returns is `NULL` or a free block of at least `asize` bytes. -/
theorem find_fit_spec {s : State} {L : List (Nat × Nat)} {bs : List Blk} {fl : List Nat}
    (h : InvWith s L bs fl) (asize fuel : Nat) :
    (fl.length < fuel → ∃ r, find_fit fuel s asize = some r) ∧
    ∀ r, find_fit fuel s asize = some r →
      r = 0 ∨ ∃ X ∈ bs, X.bp = r ∧ X.kind = Kind.free ∧ asize ≤ X.sz := by
  have hsp := find_fit_loop_spec h.heap asize fl [] fuel rfl
  unfold find_fit
  rw [h.heap.flist.head]
  refine ⟨hsp.1, fun r hr => ?_⟩
  rcases hsp.2 r hr with e | ⟨e1, e2⟩
  · exact Or.inl e
  · obtain ⟨X, hX, rfl⟩ := h.heap.flist.mem_blk r e1
    have hk := (h.members X hX).2 e1
    rw [(h.heap.size_at X hX (h.no_raw X hX)).1] at e2
    exact Or.inr ⟨X, hX, rfl, hk, e2⟩

/-- The number of bytes by which `mm_malloc` extends the arena on a miss. -/
theorem extend_bytes (n : Nat) (h1 : 8 < n) (h2 : n ≤ 2 ^ 31 - 16) :
    extend_size (extendsize (adjust_size n) / WSIZE) % 8 = 0 ∧
      24 ≤ extend_size (extendsize (adjust_size n) / WSIZE) ∧
      adjust_size n ≤ extend_size (extendsize (adjust_size n) / WSIZE) := by
  obtain ⟨a1, a2, a3, a4, a5⟩ := adjust_size_good n h1 h2
  rw [extendsize_good _ a5]
  norm_num at a5
  by_cases h3 : 4096 < adjust_size n
  · rw [if_pos h3, extend_size_even _ a1 (by omega)]
    omega
  · rw [if_neg h3, extend_size_even _ (by norm_num) (by norm_num)]
    omega

/-- `mm_malloc` of a non-zero request when the scan of `find_fit` ends with `r`. -/
theorem mm_malloc_some (fuel : Nat) (s : State) (n r : Nat) (hn0 : n ≠ 0)
    (hff : find_fit fuel s (adjust_size n) = some r) :
    mm_malloc fuel s n =
      if r ≠ 0 then some (place s r (adjust_size n), r)
      else if (extend_heap s (extendsize (adjust_size n) / WSIZE)).2 = 0 then
        some ((extend_heap s (extendsize (adjust_size n) / WSIZE)).1, 0)
      else some (place (extend_heap s (extendsize (adjust_size n) / WSIZE)).1
        (extend_heap s (extendsize (adjust_size n) / WSIZE)).2 (adjust_size n),
        (extend_heap s (extendsize (adjust_size n) / WSIZE)).2) := by
  simp only [mm_malloc]
  rw [if_neg hn0, hff]

/-- `mm_malloc` of a non-zero request when the scan of `find_fit` runs out of fuel. -/
theorem mm_malloc_none (fuel : Nat) (s : State) (n : Nat) (hn0 : n ≠ 0)
    (hff : find_fit fuel s (adjust_size n) = none) : mm_malloc fuel s n = none := by
  simp only [mm_malloc]
  rw [if_neg hn0, hff]

/-- `mm_malloc` of a request of more than 8 and at most `2 ^ 31 - 16` bytes in
the invariant: it returns when given more fuel than the free list has nodes;
a non-null result is a new live allocation in an allocated block of at least
the adjusted size, a null result leaves the state as it is; the payloads of the
blocks allocated before are untouched. -/
theorem malloc_inv {s : State} {L : List (Nat × Nat)} {bs : List Blk} {fl : List Nat}
    (h : InvWith s L bs fl) (n : Nat) (h1 : 8 < n) (h2 : n ≤ 2 ^ 31 - 16) (fuel : Nat) :
    (fl.length < fuel → ∃ r, mm_malloc fuel s n = some r) ∧
    ∀ s1 p, mm_malloc fuel s n = some (s1, p) →
      (p = 0 → s1 = s) ∧
      (p ≠ 0 → ∃ bs1 fl1, InvWith s1 ((p, n) :: L) bs1 fl1 ∧
        (∃ U ∈ bs1, U.bp = p ∧ U.kind = Kind.used ∧ adjust_size n ≤ U.sz) ∧
        s1.start = s.start ∧ s1.mem_max_addr = s.mem_max_addr ∧
        ∀ c ∈ bs, c.kind = Kind.used → ∀ a, c.bp ≤ a → a + 8 < c.bp + c.sz →
          s1.mem a = s.mem a) := by
  obtain ⟨a1, a2, a3, a4, a5⟩ := adjust_size_good n h1 h2
  obtain ⟨e1, e2, e3⟩ := extend_bytes n h1 h2
  obtain ⟨ft, fs⟩ := find_fit_spec h (adjust_size n) fuel
  have hn0 : n ≠ 0 := by omega
  constructor
  · intro hlt
    obtain ⟨r, hr⟩ := ft hlt
    rw [mm_malloc_some fuel s n r hn0 hr]
    by_cases hr0 : r ≠ 0
    · rw [if_pos hr0]
      exact ⟨_, rfl⟩
    · rw [if_neg hr0]
      by_cases hx : (extend_heap s (extendsize (adjust_size n) / WSIZE)).2 = 0
      · rw [if_pos hx]
        exact ⟨_, rfl⟩
      · rw [if_neg hx]
        exact ⟨_, rfl⟩
  · intro s1 p hres
    cases hff : find_fit fuel s (adjust_size n) with
    | none =>
      rw [mm_malloc_none fuel s n hn0 hff] at hres
      exact Option.noConfusion hres
    | some r =>
      rw [mm_malloc_some fuel s n r hn0 hff] at hres
      by_cases hr0 : r ≠ 0
      · rw [if_pos hr0] at hres
        obtain ⟨rfl, rfl⟩ := Prod.mk.inj (Option.some.inj hres)
        refine ⟨fun e => absurd e hr0, fun _ => ?_⟩
        rcases fs r hff with e | ⟨X, hX, rfl, hXk, hXs⟩
        · exact absurd e hr0
        · obtain ⟨bs1, fl1, I1, Sa, Sb, Sc, hU, F⟩ :=
            place_inv h X hX hXk (adjust_size n) n a1 a4 hXs a2
          exact ⟨bs1, fl1, I1, hU, Sa, Sc, F⟩
      · rw [if_neg hr0] at hres
        by_cases hfit : s.mem_brk + extend_size (extendsize (adjust_size n) / WSIZE)
            ≤ s.mem_max_addr
        · obtain ⟨bs1, fl1, I1, ⟨rb, hrb, r1, r2, r3⟩, Sa, Sc, P, F⟩ :=
            extend_inv h (extendsize (adjust_size n) / WSIZE) e1 e2 hfit
          generalize extend_heap s (extendsize (adjust_size n) / WSIZE) = eh at *
          have hrb0 := I1.heap.geo.blk rb hrb
          have hx : ¬ eh.2 = 0 := by omega
          rw [if_neg hx] at hres
          obtain ⟨rfl, rfl⟩ := Prod.mk.inj (Option.some.inj hres)
          refine ⟨fun e => absurd e hx, fun _ => ?_⟩
          rw [← r1]
          obtain ⟨bs2, fl2, I2, Ta, Tb, Tc, hU, G⟩ :=
            place_inv I1 rb hrb r2 (adjust_size n) n a1 a4 (by omega) a2
          refine ⟨bs2, fl2, I2, hU, Ta.trans Sa, Tc.trans Sc, fun c hc hk a h3 h4 => ?_⟩
          rw [G c (P c hc hk) hk a h3 h4]
          exact F c hc hk a h3 h4
        · rw [extend_heap_fail s _ (by omega), if_pos rfl] at hres
          obtain ⟨rfl, rfl⟩ := Prod.mk.inj (Option.some.inj hres)
          exact ⟨fun _ => rfl, fun e => absurd rfl e⟩

/-! ## Stores of the caller, `mm_realloc`, and the invariant of every reachable state -/

/-- A change of memory inside the payload of an allocated block keeps the invariant. -/
theorem interior_inv {s : State} {L : List (Nat × Nat)} {bs : List Blk} {fl : List Nat}
    (h : InvWith s L bs fl) (y : Blk) (hy : y ∈ bs) (hk : y.kind = Kind.used) (m1 : Mem)
    (hm : ∀ a, a < y.bp ∨ y.bp + y.sz - 8 ≤ a → m1 a = s.mem a) :
    InvWith { s with mem := m1 } L bs fl := by
  have g := h.heap.geo
  refine ⟨⟨g, Tags.of_interior g h.heap.tags y hy hm,
    ⟨h.heap.flist.nodup, h.heap.flist.mem_blk, h.heap.flist.head, ?_⟩⟩,
    h.no_raw, h.members, h.no_adj, h.live⟩
  refine h.heap.flist.linked.congr (fun z hz => ?_)
  refine links_of_interior g y hy hm z (h.heap.flist.mem_blk z hz) (fun e => ?_)
  obtain ⟨d, hd, hdb⟩ := h.heap.flist.mem_blk z hz
  have hdy : d = y := g.bp_inj d y hd hy (by rw [hdb, e])
  have hfree := (h.members d hd).2 (by rw [hdb]; exact hz)
  rw [hdy, hk] at hfree
  exact used_ne_free hfree

/-- A store of the caller into a requested byte of a live allocation keeps the invariant. -/
theorem store_inv {s : State} {L : List (Nat × Nat)} {bs : List Blk} {fl : List Nat}
    (h : InvWith s L bs fl) (p n i v : Nat) (hp : (p, n) ∈ L) (hi : i < n) :
    InvWith { s with mem := store8 s.mem (p + i) v } L bs fl := by
  obtain ⟨b, hb, hbp, hbk, hsz⟩ := h.live.2 (p, n) hp
  have hbp : b.bp = p := hbp
  have hsz : n + 8 ≤ b.sz := hsz
  refine interior_inv h b hb hbk _ (fun a ha => store8_outside _ _ _ _ (by omega))

theorem memcpy_outside (m : Mem) (dst src n a : Nat) (h : a < dst ∨ dst + n ≤ a) :
    memcpy m dst src n a = m a := by
  unfold memcpy
  rw [if_neg (by omega)]

theorem memcpy_inside (m : Mem) (dst src n i : Nat) (h : i < n) :
    memcpy m dst src n (dst + i) = m (src + i) := by
  unfold memcpy
  rw [if_pos (by omega), Nat.add_sub_cancel_left]

/-- `mm_realloc` when the internal `mm_malloc` returns `(s1, q)`. -/
theorem mm_realloc_some (fuel : Nat) (s : State) (p n : Nat) (s1 : State) (q : Nat)
    (hm : mm_malloc fuel s n = some (s1, q)) :
    mm_realloc fuel s p n =
      if q = 0 then some (ReallocResult.exited s1)
      else some (ReallocResult.returned
        (mm_free { s1 with mem := memcpy s1.mem q p (copySize s1.mem p n) } p) q) := by
  simp only [mm_realloc]
  rw [hm]

theorem mm_realloc_none (fuel : Nat) (s : State) (p n : Nat)
    (hm : mm_malloc fuel s n = none) : mm_realloc fuel s p n = none := by
  simp only [mm_realloc]
  rw [hm]

/-- `mm_realloc` of a live pointer, for a request of more than 8 and at most
`2 ^ 31 - 16` bytes, in the invariant: when it returns `q`, the new allocation
replaces the old one among the live allocations, its first `min m n` bytes are
those of the old allocation before the call, and the requested bytes of the
other live allocations are untouched. -/
theorem realloc_inv {s : State} {L : List (Nat × Nat)} {bs : List Blk} {fl : List Nat}
    (h : InvWith s L bs fl) (p m n : Nat) (hp : (p, m) ∈ L) (h1 : 8 < n)
    (h2 : n ≤ 2 ^ 31 - 16) (fuel : Nat) (s2 : State) (q : Nat)
    (hres : mm_realloc fuel s p n = some (ReallocResult.returned s2 q)) :
    (∃ bs2 fl2, InvWith s2 ((q, n) :: L.erase (p, m)) bs2 fl2) ∧
      (∀ i, i < m → i < n → s2.mem (q + i) = s.mem (p + i)) ∧
      ∀ r k, (r, k) ∈ L → r ≠ p → ∀ i, i < k → s2.mem (r + i) = s.mem (r + i) := by
  cases hmm : mm_malloc fuel s n with
  | none =>
    rw [mm_realloc_none fuel s p n hmm] at hres
    exact Option.noConfusion hres
  | some r =>
    obtain ⟨s1, q1⟩ := r
    rw [mm_realloc_some fuel s p n s1 q1 hmm] at hres
    by_cases hq : q1 = 0
    · rw [if_pos hq] at hres
      exact ReallocResult.noConfusion (Option.some.inj hres)
    · rw [if_neg hq] at hres
      have hinj := Option.some.inj hres
      have hq1 : q1 = q := by injection hinj
      have hs2 : mm_free { s1 with mem := memcpy s1.mem q1 p (copySize s1.mem p n) } p = s2 := by
        injection hinj
      subst hq1
      obtain ⟨bs1, fl1, I1, ⟨U, hU, hUb, hUk, hUs⟩, -, -, F1⟩ :=
        ((malloc_inv h n h1 h2 fuel).2 s1 q1 hmm).2 hq
      obtain ⟨a1, a2, a3, a4, a5⟩ := adjust_size_good n h1 h2
      have g1 := I1.heap.geo
      have hp1 : (p, m) ∈ (q1, n) :: L := List.mem_cons_of_mem _ hp
      obtain ⟨b1, hb1, hb1p, hb1k, hb1s⟩ := I1.live.2 (p, m) hp1
      have hb1p : b1.bp = p := hb1p
      have hb1s : m + 8 ≤ b1.sz := hb1s
      have hqp : q1 ≠ p := by
        intro e
        have hnd := I1.live.1
        rw [List.map_cons, List.nodup_cons] at hnd
        exact hnd.1 (List.mem_map.2 ⟨(p, m), hp, e.symm⟩)
      have hcs : copySize s1.mem p n = if n < b1.sz then n else b1.sz := by
        unfold copySize
        rw [← hb1p, (I1.heap.size_at b1 hb1 (I1.no_raw b1 hb1)).1]
      have hcs1 : copySize s1.mem p n ≤ n := by
        rw [hcs]
        split_ifs <;> omega
      have hcs2 : ∀ i, i < m → i < n → i < copySize s1.mem p n := by
        intro i hi1 hi2
        rw [hcs]
        split_ifs <;> omega
      have IM := interior_inv I1 U hU hUk (memcpy s1.mem q1 p (copySize s1.mem p n))
        (fun a ha => memcpy_outside _ _ _ _ _ (by omega))
      obtain ⟨bs2, fl2, I2, -, -, -, F2⟩ := free_inv IM p m hp1
      rw [hs2] at I2 F2
      have herase : ((q1, n) :: L).erase (p, m) = (q1, n) :: L.erase (p, m) := by
        refine List.erase_cons_tail ?_
        simp only [beq_iff_eq, Prod.mk.injEq, not_and]
        exact fun e => absurd e hqp
      rw [herase] at I2
      refine ⟨⟨bs2, fl2, I2⟩, fun i hi1 hi2 => ?_, fun r k hr hrp i hi => ?_⟩
      · have e1 := F2 U hU hUk (by rw [hUb]; exact hqp) (q1 + i) (by omega) (by omega)
        have e1 : s2.mem (q1 + i) = memcpy s1.mem q1 p (copySize s1.mem p n) (q1 + i) := e1
        rw [e1, memcpy_inside _ _ _ _ _ (hcs2 i hi1 hi2)]
        obtain ⟨b, hb, hbp, hbk, hbs⟩ := h.live.2 (p, m) hp
        have hbp : b.bp = p := hbp
        have hbs : m + 8 ≤ b.sz := hbs
        exact F1 b hb hbk (p + i) (by omega) (by omega)
      · obtain ⟨c, hc, hcp, hck, hcs⟩ := h.live.2 (r, k) hr
        have hcp : c.bp = r := hcp
        have hcs : k + 8 ≤ c.sz := hcs
        obtain ⟨c1, hc1, hc1p, hc1k, hc1s⟩ := I1.live.2 (r, k) (List.mem_cons_of_mem _ hr)
        have hc1p : c1.bp = r := hc1p
        have hc1s : k + 8 ≤ c1.sz := hc1s
        have e1 := F2 c1 hc1 hc1k (by rw [hc1p]; exact hrp) (r + i) (by omega) (by omega)
        have e1 : s2.mem (r + i) = memcpy s1.mem q1 p (copySize s1.mem p n) (r + i) := e1
        have hne : c1 ≠ U := fun e => by
          have hnd := I1.live.1
          rw [List.map_cons, List.nodup_cons] at hnd
          refine hnd.1 (List.mem_map.2 ⟨(r, k), hr, ?_⟩)
          show r = q1
          rw [← hc1p, e, hUb]
        have gU := g1.blk U hU
        have gc1 := g1.blk c1 hc1
        rw [e1, memcpy_outside _ _ _ _ _ (by
          rcases g1.sep c1 U hc1 hU with e | e | e
          · exact absurd e hne
          · omega
          · omega)]
        exact F1 c hc hck (r + i) (by omega) (by omega)

/-- Every reachable state satisfies the invariant. -/
theorem reach_inv {s : State} {L : List (Nat × Nat)} (h : Reach s L) : Inv s L := by
  induction h with
  | init s0 hf hok => exact init_inv s0 hf hok
  | malloc s L fuel n s1 p _ hg hm hp ih =>
    obtain ⟨bs, fl, I⟩ := ih
    rcases hg with e | ⟨e1, e2⟩
    · subst e
      rw [mm_malloc_zero_eq] at hm
      exact absurd (Prod.mk.inj (Option.some.inj hm)).2.symm hp
    · obtain ⟨bs1, fl1, I1, -⟩ := ((malloc_inv I n e1 e2 fuel).2 s1 p hm).2 hp
      exact ⟨bs1, fl1, I1⟩
  | malloc_null s L fuel n s1 _ hg hm ih =>
    obtain ⟨bs, fl, I⟩ := ih
    rcases hg with e | ⟨e1, e2⟩
    · subst e
      rw [mm_malloc_zero_eq] at hm
      rw [← (Prod.mk.inj (Option.some.inj hm)).1]
      exact ⟨bs, fl, I⟩
    · rw [((malloc_inv I n e1 e2 fuel).2 s1 0 hm).1 rfl]
      exact ⟨bs, fl, I⟩
  | free s L p n _ hp ih =>
    obtain ⟨bs, fl, I⟩ := ih
    obtain ⟨bs1, fl1, I1, -⟩ := free_inv I p n hp
    exact ⟨bs1, fl1, I1⟩
  | realloc s L fuel p m n s2 q _ hp h1 h2 hres ih =>
    obtain ⟨bs, fl, I⟩ := ih
    exact (realloc_inv I p m n hp h1 h2 fuel s2 q hres).1
  | store s L p n i v _ hp hi ih =>
    obtain ⟨bs, fl, I⟩ := ih
    exact ⟨bs, fl, store_inv I p n i v hp hi⟩

/-! ## What a heap checker sees in a state of the invariant -/

theorem blocksFrom_spec {m : Mem} {start brk mx : Nat} {bs : List Blk}
    (g : Geo start brk mx bs) (t : Tags m start brk bs) (hr : ∀ b ∈ bs, b.kind ≠ Kind.raw)
    (post : List Blk) :
    ∀ (pre : List Blk) (a : Nat), bs = pre ++ post → Tiling a post brk → ∀ k,
      blocksFrom m (post.length + 1 + k) a = some (post.map Blk.bp) := by
  induction post with
  | nil =>
    intro pre a hbs ht k
    have ha : a = brk := ht
    have hz : GET_SIZE m (HDRP a) = 0 := by
      rw [ha]
      exact (decode_tag m (brk - 4) 0 1 t.epilogue rfl (le_refl 1)).1
    show blocksFrom m (0 + 1 + k) a = some []
    rw [show 0 + 1 + k = k + 1 by omega, blocksFrom, if_pos hz]
  | cons b post ih =>
    intro pre a hbs ht k
    have hb : b ∈ bs := by rw [hbs]; exact mem_mid _ _ _
    have gb := g.blk b hb
    have hba : b.bp = a := ht.1
    have tb := t.tags b hb (hr b hb)
    have hbit : b.kind.bit ≤ 1 := by cases b.kind <;> simp [Kind.bit]
    have hsz : GET_SIZE m (HDRP a) = b.sz := by
      rw [← hba]
      exact (decode_tag m (b.bp - 4) b.sz b.kind.bit tb.1 gb.2.2.1 hbit).1
    have hnx : NEXT_BLKP m a = a + b.sz := by
      unfold NEXT_BLKP
      have : GET_SIZE m (a - WSIZE) = b.sz := hsz
      rw [this]
    have hrec := ih (pre ++ [b]) (a + b.sz) (by rw [hbs, List.append_assoc]; rfl) ht.2 k
    show blocksFrom m ((post.length + 1) + 1 + k) a = some (b.bp :: post.map Blk.bp)
    rw [show (post.length + 1) + 1 + k = (post.length + 1 + k) + 1 by omega, blocksFrom,
      if_neg (by rw [hsz]; omega), hnx, hrec, hba]
    rfl

theorem nodesFrom_spec {m : Mem} {firstfree : Nat} {bs : List Blk} {fl : List Nat}
    {start brk mx : Nat} (g : Geo start brk mx bs) (f : FreeList m firstfree bs fl)
    (ys : List Nat) :
    ∀ (xs : List Nat), fl = xs ++ ys → ∀ k,
      nodesFrom m (ys.length + 1 + k) (ys.headD 0) = some ys := by
  induction ys with
  | nil =>
    intro xs hfl k
    show nodesFrom m (0 + 1 + k) 0 = some []
    rw [show 0 + 1 + k = k + 1 by omega, nodesFrom, if_pos rfl]
  | cons y ys ih =>
    intro xs hfl k
    have hy : y ∈ fl := by rw [hfl]; exact mem_mid _ _ _
    have hy0 : y ≠ 0 := by
      obtain ⟨d, hd, hdb⟩ := f.mem_blk y hy
      have := g.blk d hd
      omega
    have hnext : getNext m y = ys.headD 0 := (f.linked xs y ys hfl).2
    have hrec := ih (xs ++ [y]) (by rw [hfl, List.append_assoc]; rfl) k
    show nodesFrom m ((ys.length + 1) + 1 + k) y = some (y :: ys)
    rw [show (ys.length + 1) + 1 + k = (ys.length + 1 + k) + 1 by omega, nodesFrom,
      if_neg hy0, hnext, hrec]
    rfl

/-- In a state of the invariant the walk over the arena finds the prologue and
then the blocks, and the walk over the free list finds its nodes. -/
theorem InvWith.observe {s : State} {L : List (Nat × Nat)} {bs : List Blk} {fl : List Nat}
    (h : InvWith s L bs fl) :
    (∀ k, heapBlocks (bs.length + 2 + k) s = some (s.start :: bs.map Blk.bp)) ∧
      ∀ k, freeNodes (fl.length + 1 + k) s = some fl := by
  have g := h.heap.geo
  have t := h.heap.tags
  constructor
  · intro k
    have hsz : GET_SIZE s.mem (HDRP s.start) = 8 :=
      (decode_tag s.mem (s.start - 4) 8 1 t.prologue_h rfl (le_refl 1)).1
    have hnx : NEXT_BLKP s.mem s.start = s.start + 8 := by
      unfold NEXT_BLKP
      have : GET_SIZE s.mem (s.start - WSIZE) = 8 := hsz
      rw [this]
    have hrec := blocksFrom_spec g t h.no_raw bs [] (s.start + 8) rfl g.tiling k
    show blocksFrom s.mem (bs.length + 2 + k) s.start = _
    rw [show bs.length + 2 + k = (bs.length + 1 + k) + 1 by omega, blocksFrom,
      if_neg (by rw [hsz]; omega), hnx, hrec]
    rfl
  · intro k
    have := nodesFrom_spec g h.heap.flist fl [] rfl k
    rw [← h.heap.flist.head] at this
    exact this

/-- The tags of the prologue and of a block, as the checker reads them. -/
theorem InvWith.read {s : State} {L : List (Nat × Nat)} {bs : List Blk} {fl : List Nat}
    (h : InvWith s L bs fl) :
    (GET s.mem (HDRP s.start) = 9 ∧ GET s.mem (FTRP s.mem s.start) = 9 ∧
      NEXT_BLKP s.mem s.start = s.start + 8 ∧ s.start ∉ fl) ∧
    ∀ b ∈ bs, GET s.mem (HDRP b.bp) = b.sz + b.kind.bit ∧
      GET s.mem (FTRP s.mem b.bp) = b.sz + b.kind.bit ∧
      NEXT_BLKP s.mem b.bp = b.bp + b.sz ∧ GET_SIZE s.mem (HDRP b.bp) = b.sz ∧
      GET_ALLOC s.mem (HDRP b.bp) = b.kind.bit := by
  have g := h.heap.geo
  have t := h.heap.tags
  have hsz : GET_SIZE s.mem (HDRP s.start) = 8 :=
    (decode_tag s.mem (s.start - 4) 8 1 t.prologue_h rfl (le_refl 1)).1
  refine ⟨⟨t.prologue_h, ?_, ?_, ?_⟩, fun b hb => ?_⟩
  · unfold FTRP DSIZE
    rw [hsz, Nat.add_sub_cancel]
    exact t.prologue_f
  · unfold NEXT_BLKP
    have : GET_SIZE s.mem (s.start - WSIZE) = 8 := hsz
    rw [this]
  · intro hx
    obtain ⟨d, hd, hdb⟩ := h.heap.flist.mem_blk _ hx
    have := g.blk d hd
    omega
  · have tb := t.tags b hb (h.no_raw b hb)
    obtain ⟨z1, z2, z3, z4⟩ := h.heap.size_at b hb (h.no_raw b hb)
    refine ⟨tb.1, ?_, ?_, z1, z2⟩
    · unfold FTRP DSIZE
      rw [z1]
      exact tb.2
    · unfold NEXT_BLKP
      have : GET_SIZE s.mem (b.bp - WSIZE) = b.sz := z1
      rw [this]

/-! ## The contract on valid call sequences with well-sized requests

`Reach s L` collects the states reached from a successful `mm_init` by
`mm_malloc`, `mm_realloc` and `mm_free` calls and by stores of the caller into
its live allocations, every request being 0 or more than 8 and at most
`2 ^ 31 - 16` bytes.  On these states the allocator keeps its contract. -/

/-- The bookkeeping of a live allocation in a reachable state. -/
theorem Reach.live_block {s : State} {L : List (Nat × Nat)} (h : Reach s L) :
    ∃ bs fl, InvWith s L bs fl ∧
      ∀ p n, (p, n) ∈ L → ∃ b ∈ bs, b.bp = p ∧ b.kind = Kind.used ∧ n + 8 ≤ b.sz := by
  obtain ⟨bs, fl, I⟩ := reach_inv h
  exact ⟨bs, fl, I, fun p n hp => I.live.2 (p, n) hp⟩

/-- In a reachable state, `mm_malloc` of a well-sized request returns when given
more fuel than the free list has nodes. -/
theorem malloc_total {s : State} {L : List (Nat × Nat)} (h : Reach s L) (n : Nat)
    (hn : GoodReq n) : ∃ N, ∀ fuel, N ≤ fuel → ∃ r, mm_malloc fuel s n = some r := by
  obtain ⟨bs, fl, I⟩ := reach_inv h
  rcases hn with e | ⟨e1, e2⟩
  · subst e
    exact ⟨0, fun fuel _ => ⟨_, mm_malloc_zero_eq fuel s⟩⟩
  · exact ⟨fl.length + 1, fun fuel hf => (malloc_inv I n e1 e2 fuel).1 (by omega)⟩

/-- Extra X6 (on claim C1).  Alignment: in a state reached by a valid call sequence with well-sized requests, a
non-null result of `mm_malloc` of a well-sized request is a multiple of 8. -/
theorem malloc_aligned {s : State} {L : List (Nat × Nat)} (h : Reach s L) (fuel n : Nat)
    (hn : GoodReq n) (s1 : State) (p : Nat) (hm : mm_malloc fuel s n = some (s1, p))
    (hp : p ≠ 0) : p % 8 = 0 := by
  obtain ⟨bs, fl, I⟩ := reach_inv h
  rcases hn with e | ⟨e1, e2⟩
  · subst e
    rw [mm_malloc_zero_eq] at hm
    exact absurd (Prod.mk.inj (Option.some.inj hm)).2.symm hp
  · obtain ⟨bs1, fl1, I1, ⟨U, hU, hUb, -⟩, -⟩ := ((malloc_inv I n e1 e2 fuel).2 s1 p hm).2 hp
    rw [← hUb]
    exact (I1.heap.geo.blk U hU).2.2.2.2.1

/-- Extra X1 (on claim C2).  Disjointness: in a state reached by a valid call sequence with well-sized requests, the
requested byte ranges of two live allocations do not intersect. -/
theorem live_payloads_disjoint {s : State} {L : List (Nat × Nat)} (h : Reach s L)
    (p n q m : Nat) (hp : (p, n) ∈ L) (hq : (q, m) ∈ L) (hne : (p, n) ≠ (q, m)) :
    p + n ≤ q ∨ q + m ≤ p := by
  obtain ⟨bs, fl, I⟩ := reach_inv h
  obtain ⟨b, hb, hbp, -, hbs⟩ := I.live.2 (p, n) hp
  obtain ⟨c, hc, hcp, -, hcs⟩ := I.live.2 (q, m) hq
  have hbp : b.bp = p := hbp
  have hcp : c.bp = q := hcp
  have hbs : n + 8 ≤ b.sz := hbs
  have hcs : m + 8 ≤ c.sz := hcs
  rcases I.heap.geo.sep b c hb hc with e | e | e
  · exfalso
    refine hne (List.inj_on_of_nodup_map I.live.1 hp hq ?_)
    show p = q
    rw [← hbp, ← hcp, e]
  · omega
  · omega

/-- Extra X7 (on claim C3).  Frame: in a state reached by a valid call sequence with well-sized requests, no byte
of a live allocation is changed by `mm_malloc` of a well-sized request or by `mm_free` of
another live pointer. -/
theorem live_payload_untouched {s : State} {L : List (Nat × Nat)} (h : Reach s L)
    (p n i : Nat) (hp : (p, n) ∈ L) (hi : i < n) :
    (∀ fuel k s1 q, GoodReq k → mm_malloc fuel s k = some (s1, q) →
      s1.mem (p + i) = s.mem (p + i)) ∧
    ∀ q k, (q, k) ∈ L → q ≠ p → (mm_free s q).mem (p + i) = s.mem (p + i) := by
  obtain ⟨bs, fl, I⟩ := reach_inv h
  obtain ⟨b, hb, hbp, hbk, hbs⟩ := I.live.2 (p, n) hp
  have hbp : b.bp = p := hbp
  have hbs : n + 8 ≤ b.sz := hbs
  constructor
  · intro fuel k s1 q hk hm
    rcases hk with e | ⟨e1, e2⟩
    · subst e
      rw [mm_malloc_zero_eq] at hm
      rw [(Prod.mk.inj (Option.some.inj hm)).1]
    · by_cases hq : q = 0
      · rw [((malloc_inv I k e1 e2 fuel).2 s1 q hm).1 hq]
      · obtain ⟨bs1, fl1, -, -, -, -, F⟩ := ((malloc_inv I k e1 e2 fuel).2 s1 q hm).2 hq
        exact F b hb hbk (p + i) (by omega) (by omega)
  · intro q k hq hqp
    obtain ⟨bs1, fl1, -, -, -, -, F⟩ := free_inv I q k hq
    exact F b hb hbk (by rw [hbp]; exact fun e => hqp e.symm) (p + i) (by omega) (by omega)

/-- Extra X2 (on claim C4).  Boundary tags: in a state reached by a valid call sequence with well-sized requests,
the walk over the arena ends at the epilogue and every block it finds, the prologue
included, has a header word equal to its footer word. -/
theorem header_eq_footer {s : State} {L : List (Nat × Nat)} (h : Reach s L) :
    ∃ W, (∃ N, ∀ fuel, N ≤ fuel → heapBlocks fuel s = some W) ∧
      ∀ bp ∈ W, GET s.mem (HDRP bp) = GET s.mem (FTRP s.mem bp) := by
  obtain ⟨bs, fl, I⟩ := reach_inv h
  obtain ⟨⟨r1, r2, -, -⟩, rb⟩ := I.read
  refine ⟨s.start :: bs.map Blk.bp, ⟨bs.length + 2, fun fuel hf => ?_⟩, fun bp hbp => ?_⟩
  · have := I.observe.1 (fuel - (bs.length + 2))
    rw [show bs.length + 2 + (fuel - (bs.length + 2)) = fuel by omega] at this
    exact this
  · rcases List.mem_cons.1 hbp with e | e
    · rw [e, r1, r2]
    · obtain ⟨b, hb, rfl⟩ := List.mem_map.1 e
      rw [(rb b hb).1, (rb b hb).2.1]

/-- Extra X8 (on claim C5).  Free list membership: in a state reached by a valid call sequence with well-sized
requests, the walks over the arena and over the free list end, and a block of the arena
has allocated flag 0 exactly when it is reached from `firstfree` by `next` links. -/
theorem free_iff_listed {s : State} {L : List (Nat × Nat)} (h : Reach s L) :
    ∃ W F, (∃ N, ∀ fuel, N ≤ fuel →
        heapBlocks fuel s = some W ∧ freeNodes fuel s = some F) ∧
      ∀ bp ∈ W, (GET_ALLOC s.mem (HDRP bp) = 0 ↔ bp ∈ F) := by
  obtain ⟨bs, fl, I⟩ := reach_inv h
  obtain ⟨⟨r1, -, -, r4⟩, rb⟩ := I.read
  refine ⟨s.start :: bs.map Blk.bp, fl, ⟨bs.length + 2 + (fl.length + 1),
    fun fuel hf => ⟨?_, ?_⟩⟩, fun bp hbp => ?_⟩
  · have := I.observe.1 (fuel - (bs.length + 2))
    rw [show bs.length + 2 + (fuel - (bs.length + 2)) = fuel by omega] at this
    exact this
  · have := I.observe.2 (fuel - (fl.length + 1))
    rw [show fl.length + 1 + (fuel - (fl.length + 1)) = fuel by omega] at this
    exact this
  · rcases List.mem_cons.1 hbp with e | e
    · rw [e]
      have : GET_ALLOC s.mem (HDRP s.start) = 1 :=
        (decode_tag s.mem (HDRP s.start) 8 1 r1 rfl (le_refl 1)).2
      rw [this]
      exact ⟨fun hh => absurd hh (by decide), fun hh => absurd hh r4⟩
    · obtain ⟨b, hb, rfl⟩ := List.mem_map.1 e
      rw [(rb b hb).2.2.2.2, ← I.members b hb]
      rcases kind_cases b.kind (I.no_raw b hb) with hk | hk
      · rw [hk]
        exact ⟨fun _ => rfl, fun _ => rfl⟩
      · rw [hk]
        exact ⟨fun hh => absurd hh (by decide), fun hh => absurd hh used_ne_free⟩

theorem bit_zero_free (k : Kind) (hr : k ≠ Kind.raw) (h : k.bit = 0) : k = Kind.free := by
  cases k with
  | free => rfl
  | used => exact absurd h (by decide)
  | raw => exact absurd rfl hr

/-- Extra X9 (on claim C6).  Exhaustive coalescing: in a state reached by a valid call sequence with well-sized
requests, the walk over the arena ends and no block it finds has allocated flag 0
together with the block that follows it. -/
theorem no_adjacent_free {s : State} {L : List (Nat × Nat)} (h : Reach s L) :
    ∃ W, (∃ N, ∀ fuel, N ≤ fuel → heapBlocks fuel s = some W) ∧
      ∀ bp ∈ W, ¬ (GET_ALLOC s.mem (HDRP bp) = 0 ∧
        GET_ALLOC s.mem (HDRP (NEXT_BLKP s.mem bp)) = 0) := by
  obtain ⟨bs, fl, I⟩ := reach_inv h
  obtain ⟨⟨r1, -, -, -⟩, rb⟩ := I.read
  refine ⟨s.start :: bs.map Blk.bp, ⟨bs.length + 2, fun fuel hf => ?_⟩, fun bp hbp => ?_⟩
  · have := I.observe.1 (fuel - (bs.length + 2))
    rw [show bs.length + 2 + (fuel - (bs.length + 2)) = fuel by omega] at this
    exact this
  · rcases List.mem_cons.1 hbp with e | e
    · rw [e]
      have : GET_ALLOC s.mem (HDRP s.start) = 1 :=
        (decode_tag s.mem (HDRP s.start) 8 1 r1 rfl (le_refl 1)).2
      rw [this]
      exact fun hh => absurd hh.1 (by decide)
    · obtain ⟨b, hb, rfl⟩ := List.mem_map.1 e
      obtain ⟨pre, post, hbs⟩ := List.append_of_mem hb
      rintro ⟨h1, h2⟩
      rw [(rb b hb).2.2.2.2] at h1
      rw [(rb b hb).2.2.1] at h2
      have hbf := bit_zero_free b.kind (I.no_raw b hb) h1
      cases post with
      | nil =>
        have g := I.heap.geo
        rw [hbs] at g
        have ht := (tiling_split _ _ _ _ _ g.tiling).2
        have ht : b.bp + b.sz = s.mem_brk := ht
        have he : GET_ALLOC s.mem (HDRP (b.bp + b.sz)) = 1 := by
          rw [ht]
          exact (decode_tag s.mem (s.mem_brk - 4) 0 1 I.heap.tags.epilogue rfl (le_refl 1)).2
        rw [he] at h2
        exact absurd h2 (by decide)
      | cons c post1 =>
        have hc : c ∈ bs := by
          rw [hbs]
          exact List.mem_append_right _ (List.mem_cons_of_mem _ (List.mem_cons_self _ _))
        have g := I.heap.geo
        rw [hbs] at g
        have ht := (tiling_split _ _ _ _ _ g.tiling).2
        have hcb : c.bp = b.bp + b.sz := ht.1
        rw [← hcb, (rb c hc).2.2.2.2] at h2
        have hcf := bit_zero_free c.kind (I.no_raw c hc) h2
        have hadj := I.no_adj
        rw [hbs] at hadj
        exact ((noAdj_mid_iff _ _ _).1 hadj).2.2.2 c rfl ⟨hbf, hcf⟩

/-- Extra X10 (on claim C7).  Reallocation: in a state reached by a valid call sequence with well-sized requests,
`mm_realloc` of a live pointer `p` of requested size `m`, for a request of more than 8 and
at most `2 ^ 31 - 16` bytes, returns or exits when given enough fuel, and when it returns
`q` the first `min m n` bytes at `q` after the call, the old block being freed, are the
first `min m n` bytes at `p` before the call. -/
theorem realloc_keeps_prefix {s : State} {L : List (Nat × Nat)} (h : Reach s L)
    (p m n : Nat) (hp : (p, m) ∈ L) (h1 : 8 < n) (h2 : n ≤ 2 ^ 31 - 16) :
    (∃ N, ∀ fuel, N ≤ fuel → ∃ r, mm_realloc fuel s p n = some r) ∧
    ∀ fuel s2 q, mm_realloc fuel s p n = some (ReallocResult.returned s2 q) →
      ∀ i, i < min m n → s2.mem (q + i) = s.mem (p + i) := by
  obtain ⟨bs, fl, I⟩ := reach_inv h
  constructor
  · refine ⟨fl.length + 1, fun fuel hf => ?_⟩
    obtain ⟨r, hr⟩ := (malloc_inv I n h1 h2 fuel).1 (by omega)
    obtain ⟨s1, q⟩ := r
    rw [mm_realloc_some fuel s p n s1 q hr]
    by_cases hq : q = 0
    · rw [if_pos hq]
      exact ⟨_, rfl⟩
    · rw [if_neg hq]
      exact ⟨_, rfl⟩
  · intro fuel s2 q hres i hi
    exact (realloc_inv I p m n hp h1 h2 fuel s2 q hres).2.1 i
      (lt_of_lt_of_le hi (min_le_left _ _)) (lt_of_lt_of_le hi (min_le_right _ _))

/-- Extra X11 (on claim C8).  Capacity: in a state reached by a valid call sequence with well-sized requests,
`mm_malloc` of a request of more than 8 and at most `2 ^ 31 - 16` bytes returns when given
enough fuel, and a non-null result points to a block marked allocated, whose size less
the 8 bytes of its tags is at least the request, and which lies between the prologue and
the break. -/
theorem malloc_block_fits {s : State} {L : List (Nat × Nat)} (h : Reach s L) (n : Nat)
    (h1 : 8 < n) (h2 : n ≤ 2 ^ 31 - 16) :
    (∃ N, ∀ fuel, N ≤ fuel → ∃ r, mm_malloc fuel s n = some r) ∧
    ∀ fuel s1 p, mm_malloc fuel s n = some (s1, p) → p ≠ 0 →
      GET_ALLOC s1.mem (HDRP p) = 1 ∧ n ≤ GET_SIZE s1.mem (HDRP p) - 8 ∧
      s1.start + 8 ≤ p ∧ p + GET_SIZE s1.mem (HDRP p) ≤ s1.mem_brk := by
  obtain ⟨bs, fl, I⟩ := reach_inv h
  constructor
  · exact ⟨fl.length + 1, fun fuel hf => (malloc_inv I n h1 h2 fuel).1 (by omega)⟩
  · intro fuel s1 p hm hp
    obtain ⟨bs1, fl1, I1, ⟨U, hU, hUb, hUk, hUs⟩, -⟩ :=
      ((malloc_inv I n h1 h2 fuel).2 s1 p hm).2 hp
    obtain ⟨a1, a2, -⟩ := adjust_size_good n h1 h2
    obtain ⟨z1, z2, -, -⟩ := I1.heap.size_at U hU (I1.no_raw U hU)
    have gU := I1.heap.geo.blk U hU
    rw [← hUb, z1, z2, hUk]
    exact ⟨rfl, by omega, gU.1, gU.2.1⟩

/-- Extra X3 (on claim C9).  Rounding: for a request of more than 8 bytes, without 32-bit overflow, the adjusted
size is the smallest multiple of 8 that is at least the request plus 8 and at least
`MINIMUM`. -/
theorem adjust_size_least (n : Nat) (h1 : 8 < n) (h2 : n ≤ 2 ^ 32 - 16) :
    adjust_size n % 8 = 0 ∧ n + 8 ≤ adjust_size n ∧ MINIMUM ≤ adjust_size n ∧
      ∀ k, k % 8 = 0 → n + 8 ≤ k → MINIMUM ≤ k → adjust_size n ≤ k := by
  simp only [adjust_size, DSIZE, MINIMUM]
  rw [if_neg (by omega)]
  norm_num at h2 ⊢
  split_ifs with h
  · refine ⟨by omega, by omega, by omega, fun k hk1 hk2 _ => ?_⟩
    omega
  · refine ⟨by omega, by omega, by omega, fun k hk1 hk2 _ => ?_⟩
    omega

/-! ## Concrete runs: valid call sequences and failing call sequences -/

theorem getD_run (o : Option (State × Nat)) (d : State × Nat) (p : Nat)
    (h1 : o.isSome = true) (h2 : (o.getD d).2 = p) : o = some ((o.getD d).1, p) := by
  cases o with
  | none => exact absurd h1 (by decide)
  | some x =>
    subst h2
    rfl

/-- A call that `callMalloc` records with a pointer `p` is the call `mm_malloc`
returning `p`. -/
theorem callMalloc_eq (s : State) (n p : Nat) (h1 : (mm_malloc 8 s n).isSome = true)
    (h2 : (callMalloc s n).2 = p) : mm_malloc 8 s n = some ((callMalloc s n).1, p) :=
  getD_run _ _ p h1 h2

/-- A call that `callRealloc` records with a non-null pointer is the call
`mm_realloc` returning it. -/
theorem callRealloc_eq (s : State) (p n q : Nat) (h1 : (callRealloc s p n).2 = q)
    (h2 : q ≠ 0) :
    mm_realloc 8 s p n = some (ReallocResult.returned (callRealloc s p n).1 q) := by
  unfold callRealloc at h1 ⊢
  cases hr : mm_realloc 8 s p n with
  | none =>
    rw [hr] at h1
    exact absurd h1.symm h2
  | some r =>
    cases r with
    | exited s1 =>
      rw [hr] at h1
      exact absurd h1.symm h2
    | returned s2 q2 =>
      rw [hr] at h1
      have : q2 = q := h1
      subst this
      rfl

theorem fresh_demoStore : FreshStore demoStore := by
  unfold FreshStore
  decide

theorem reach_demoInit : Reach demoInit [] :=
  Reach.init demoStore fresh_demoStore (by decide)

theorem good_100 : GoodReq 100 := Or.inr (by decide)

theorem good_200 : GoodReq 200 := Or.inr (by decide)

theorem demoA_call : mm_malloc 8 demoInit 100 = some (demoA.1, 4112) :=
  callMalloc_eq demoInit 100 4112 (by decide) (by decide)

theorem demoB_call : mm_malloc 8 demoA.1 200 = some (demoB.1, 4224) :=
  callMalloc_eq demoA.1 200 4224 (by decide) (by decide)

theorem reach_demoA : Reach demoA.1 [(4112, 100)] :=
  Reach.malloc demoInit [] 8 100 demoA.1 4112 reach_demoInit good_100 demoA_call (by decide)

theorem reach_demoB : Reach demoB.1 [(4224, 200), (4112, 100)] :=
  Reach.malloc demoA.1 [(4112, 100)] 8 200 demoB.1 4224 reach_demoA good_200 demoB_call
    (by decide)

/-! ### Runs in which every request is well-sized -/

/-- Witness of `malloc_aligned`: `mm_malloc(100)` right after `mm_init()` returns 4112. -/
theorem malloc_aligned_witness :
    Reach demoInit [] ∧ GoodReq 100 ∧ mm_malloc 8 demoInit 100 = some (demoA.1, 4112) ∧
      4112 ≠ 0 ∧ 4112 % 8 = 0 :=
  ⟨reach_demoInit, good_100, demoA_call, by decide,
    malloc_aligned reach_demoInit 8 100 good_100 demoA.1 4112 demoA_call (by decide)⟩

/-- Witness of `live_payloads_disjoint`: the allocations of 100 and 200 bytes after `mm_init()`. -/
theorem live_payloads_disjoint_witness :
    Reach demoB.1 [(4224, 200), (4112, 100)] ∧ (4224 + 200 ≤ 4112 ∨ 4112 + 100 ≤ 4224) :=
  ⟨reach_demoB, live_payloads_disjoint reach_demoB 4224 200 4112 100 (by simp) (by simp)
    (by simp)⟩

/-- Witness of `live_payload_untouched`: byte 5 of the allocation of 100 bytes at 4112,
in the state with a second live allocation, of 200 bytes at 4224, that `mm_free` can be
called on. -/
theorem live_payload_untouched_witness :
    Reach demoB.1 [(4224, 200), (4112, 100)] ∧ (4112, 100) ∈ [(4224, 200), (4112, 100)] ∧
      5 < 100 ∧ (4224, 200) ∈ [(4224, 200), (4112, 100)] ∧ 4224 ≠ 4112 ∧
      ((∀ fuel k s1 q, GoodReq k → mm_malloc fuel demoB.1 k = some (s1, q) →
        s1.mem (4112 + 5) = demoB.1.mem (4112 + 5)) ∧
      ∀ q k, (q, k) ∈ [(4224, 200), (4112, 100)] → q ≠ 4112 →
        (mm_free demoB.1 q).mem (4112 + 5) = demoB.1.mem (4112 + 5)) :=
  ⟨reach_demoB, by simp, by decide, by simp, by decide,
    live_payload_untouched reach_demoB 4112 100 5 (by simp) (by decide)⟩

/-- Witness of `header_eq_footer`: the state after `mm_init()` and two allocations. -/
theorem header_eq_footer_witness :
    Reach demoB.1 [(4224, 200), (4112, 100)] ∧
      ∃ W, (∃ N, ∀ fuel, N ≤ fuel → heapBlocks fuel demoB.1 = some W) ∧
        ∀ bp ∈ W, GET demoB.1.mem (HDRP bp) = GET demoB.1.mem (FTRP demoB.1.mem bp) :=
  ⟨reach_demoB, header_eq_footer reach_demoB⟩

/-- Witness of `free_iff_listed`: the state after `mm_init()` and two allocations. -/
theorem free_iff_listed_witness :
    Reach demoB.1 [(4224, 200), (4112, 100)] ∧
      ∃ W F, (∃ N, ∀ fuel, N ≤ fuel →
          heapBlocks fuel demoB.1 = some W ∧ freeNodes fuel demoB.1 = some F) ∧
        ∀ bp ∈ W, (GET_ALLOC demoB.1.mem (HDRP bp) = 0 ↔ bp ∈ F) :=
  ⟨reach_demoB, free_iff_listed reach_demoB⟩

/-- Witness of `no_adjacent_free`: the state after `mm_init()` and two allocations. -/
theorem no_adjacent_free_witness :
    Reach demoB.1 [(4224, 200), (4112, 100)] ∧
      ∃ W, (∃ N, ∀ fuel, N ≤ fuel → heapBlocks fuel demoB.1 = some W) ∧
        ∀ bp ∈ W, ¬ (GET_ALLOC demoB.1.mem (HDRP bp) = 0 ∧
          GET_ALLOC demoB.1.mem (HDRP (NEXT_BLKP demoB.1.mem bp)) = 0) :=
  ⟨reach_demoB, no_adjacent_free reach_demoB⟩

/-- Witness of `realloc_keeps_prefix`: `mm_realloc(p, 150)` of the allocation of 100 bytes after `mm_init()`. -/
theorem realloc_keeps_prefix_witness :
    Reach demoA.1 [(4112, 100)] ∧ (4112, 100) ∈ [(4112, 100)] ∧ 8 < 150 ∧
      150 ≤ 2 ^ 31 - 16 ∧
      ((∃ N, ∀ fuel, N ≤ fuel → ∃ r, mm_realloc fuel demoA.1 4112 150 = some r) ∧
      ∀ fuel s2 q, mm_realloc fuel demoA.1 4112 150 = some (ReallocResult.returned s2 q) →
        ∀ i, i < min 100 150 → s2.mem (q + i) = demoA.1.mem (4112 + i)) :=
  ⟨reach_demoA, by simp, by decide, by decide,
    realloc_keeps_prefix reach_demoA 4112 100 150 (by simp) (by decide) (by decide)⟩

/-- Witness of `malloc_block_fits`: `mm_malloc(100)` right after `mm_init()`. -/
theorem malloc_block_fits_witness :
    Reach demoInit [] ∧ 8 < 100 ∧ 100 ≤ 2 ^ 31 - 16 ∧
      ((∃ N, ∀ fuel, N ≤ fuel → ∃ r, mm_malloc fuel demoInit 100 = some r) ∧
      ∀ fuel s1 p, mm_malloc fuel demoInit 100 = some (s1, p) → p ≠ 0 →
        GET_ALLOC s1.mem (HDRP p) = 1 ∧ 100 ≤ GET_SIZE s1.mem (HDRP p) - 8 ∧
        s1.start + 8 ≤ p ∧ p + GET_SIZE s1.mem (HDRP p) ≤ s1.mem_brk) :=
  ⟨reach_demoInit, by decide, by decide,
    malloc_block_fits reach_demoInit 100 (by decide) (by decide)⟩

/-- Witness of `adjust_size_least`: a request of 13 bytes. -/
theorem adjust_size_least_witness :
    8 < 13 ∧ 13 ≤ 2 ^ 32 - 16 ∧ (adjust_size 13 % 8 = 0 ∧ 13 + 8 ≤ adjust_size 13 ∧
      MINIMUM ≤ adjust_size 13 ∧
      ∀ k, k % 8 = 0 → 13 + 8 ≤ k → MINIMUM ≤ k → adjust_size 13 ≤ k) :=
  ⟨by decide, by decide, adjust_size_least 13 (by decide) (by decide)⟩

/-! ### Runs with a request of `2 ^ 32 - 8` bytes, whose adjusted size wraps to 0 -/

/-- The call `mm_malloc(2 ^ 32 - 8)` after `mm_init()` returns 4112. -/
theorem hugeA_call : mm_malloc 8 demoInit hugeReq = some (hugeA.1, 4112) :=
  callMalloc_eq demoInit hugeReq 4112 (by decide) (by decide)

/-- The call `mm_malloc(100)` after that returns 4112 again. -/
theorem hugeB_call : mm_malloc 8 hugeA.1 100 = some (hugeB.1, 4112) :=
  callMalloc_eq hugeA.1 100 4112 (by decide) (by decide)

/-- Claim C1 on a failing input: after `mm_init()`, `p = mm_malloc(2 ^ 32 - 8)` and
`q = mm_malloc(100)` both return 4112; the block stays a node of the free list, and once the
caller has stored two bytes of a pointer at `q + 8` and two bytes of a size at `q + 33`,
inside its 100 bytes, `mm_malloc(3990)` follows that link and returns 4149, which is not a
multiple of 8. -/
theorem huge_request_misaligned :
    (mm_init demoStore).2 = 0 ∧ mm_malloc 8 demoInit hugeReq = some (hugeA.1, 4112) ∧
      mm_malloc 8 hugeA.1 100 = some (hugeB.1, 4112) ∧
      mm_malloc 8 hugeStored 3990 = some (hugeD.1, 4149) ∧ 4149 % 8 = 5 :=
  ⟨by decide, hugeA_call, hugeB_call,
    callMalloc_eq hugeStored 3990 4149 (by decide) (by decide), by decide⟩

/-- A request whose adjusted size wraps to 0: after `mm_init()`, `mm_malloc(2 ^ 32 - 8)` and
`q = mm_malloc(100)`, the next `mm_malloc(100)` changes the first byte of the live
allocation `q` from 128 to 240. -/
theorem huge_request_payload_written :
    (mm_init demoStore).2 = 0 ∧ mm_malloc 8 demoInit hugeReq = some (hugeA.1, 4112) ∧
      mm_malloc 8 hugeA.1 100 = some (hugeB.1, 4112) ∧
      mm_malloc 8 hugeB.1 100 = some (hugeC.1, 4224) ∧
      hugeB.1.mem 4112 = 128 ∧ hugeC.1.mem 4112 = 240 :=
  ⟨by decide, hugeA_call, hugeB_call,
    callMalloc_eq hugeB.1 100 4224 (by decide) (by decide), by decide, by decide⟩

/-- A request whose adjusted size wraps to 0: after `mm_init()`, `mm_malloc(2 ^ 32 - 8)` and
`mm_malloc(100)`, the block at 4112 has allocated flag 1 and is reached from `firstfree`. -/
theorem huge_request_allocated_listed :
    (mm_init demoStore).2 = 0 ∧ mm_malloc 8 demoInit hugeReq = some (hugeA.1, 4112) ∧
      mm_malloc 8 hugeA.1 100 = some (hugeB.1, 4112) ∧
      heapBlocks 8 hugeB.1 = some [4104, 4112, 4224] ∧
      freeNodes 8 hugeB.1 = some [4224, 4112] ∧ GET_ALLOC hugeB.1.mem (HDRP 4112) = 1 :=
  ⟨by decide, hugeA_call, hugeB_call, by decide, by decide, by decide⟩

/-- A request whose adjusted size wraps to 0: after `mm_init()`, three allocations of 100 bytes,
`mm_free` of the middle one, `p = mm_malloc(2 ^ 32 - 8)` and `mm_free(p)`, the block at
4224 and the block at 4448 that follows it both have allocated flag 0. -/
theorem huge_request_adjacent_free :
    (mm_init demoStore).2 = 0 ∧ mm_malloc 8 demoInit 100 = some (demoA.1, 4112) ∧
      mm_malloc 8 demoA.1 100 = some (gapA.1, 4224) ∧
      mm_malloc 8 gapA.1 100 = some (gapB.1, 4336) ∧ gapC = mm_free gapB.1 4224 ∧
      mm_malloc 8 gapC hugeReq = some (gapD.1, 4224) ∧ gapE = mm_free gapD.1 4224 ∧
      heapBlocks 8 gapE = some [4104, 4112, 4224, 4448] ∧
      GET_ALLOC gapE.mem (HDRP 4224) = 0 ∧ NEXT_BLKP gapE.mem 4224 = 4448 ∧
      GET_ALLOC gapE.mem (HDRP 4448) = 0 :=
  ⟨by decide, demoA_call, callMalloc_eq demoA.1 100 4224 (by decide) (by decide),
    callMalloc_eq gapA.1 100 4336 (by decide) (by decide), rfl,
    callMalloc_eq gapC hugeReq 4224 (by decide) (by decide), rfl,
    by decide, by decide, by decide, by decide⟩

/-- Claim C7 on a failing input: after `mm_init()`, `x = mm_malloc(40)`, `mm_malloc(40)`,
`mm_free(x)` and `a = mm_malloc(100)`, the byte at `a` is 16; `mm_realloc(a, 2 ^ 32 - 8)`
returns 4320 and the byte there is 112. -/
theorem huge_realloc_changes_prefix :
    (mm_init demoStore).2 = 0 ∧ mm_malloc 8 demoInit 40 = some (moveA.1, 4112) ∧
      mm_malloc 8 moveA.1 40 = some (moveB.1, 4160) ∧ moveC = mm_free moveB.1 4112 ∧
      mm_malloc 8 moveC 100 = some (moveD.1, 4208) ∧
      mm_realloc 8 moveD.1 4208 hugeReq = some (ReallocResult.returned moveE.1 4320) ∧
      moveD.1.mem 4208 = 16 ∧ moveE.1.mem 4320 = 112 :=
  ⟨by decide, callMalloc_eq demoInit 40 4112 (by decide) (by decide),
    callMalloc_eq moveA.1 40 4160 (by decide) (by decide), rfl,
    callMalloc_eq moveC 100 4208 (by decide) (by decide),
    callRealloc_eq moveD.1 4208 hugeReq 4320 (by decide) (by decide), by decide, by decide⟩

/-- Claim C8 on a failing input: after `mm_init()`, `mm_malloc(2 ^ 32 - 8)`, whose
adjusted size wraps to 0, returns the non-null pointer 4112 without moving the break; the
block there has allocated flag 0 and a size of 4096 bytes, which leaves room for 4088
bytes, fewer than the request. -/
theorem huge_request_block_free :
    (mm_init demoStore).2 = 0 ∧ 0 < hugeReq ∧ hugeReq < 2 ^ 32 ∧ adjust_size hugeReq = 0 ∧
      mm_malloc 8 demoInit hugeReq = some (hugeA.1, 4112) ∧ 4112 ≠ 0 ∧
      hugeA.1.mem_brk = demoInit.mem_brk ∧
      GET_ALLOC hugeA.1.mem (HDRP 4112) = 0 ∧
      GET_SIZE hugeA.1.mem (HDRP 4112) = 4096 ∧
      GET_SIZE hugeA.1.mem (HDRP 4112) - 8 = 4088 ∧ 4088 < hugeReq :=
  ⟨by decide, by decide, by decide, by decide, hugeA_call, by decide, by decide, by decide,
    by decide, by decide, by decide⟩

/-! ### Runs with a request of at most 8 bytes, whose block has 16 bytes -/

/-- The backing store `edgeStore` is fresh. -/
theorem fresh_edgeStore : FreshStore edgeStore := by
  unfold FreshStore
  decide

/-- Claim C2 on a failing input: on a backing store that starts 24 bytes below `2 ^ 32`,
after `x = mm_malloc(100)`, the store of one byte by the caller at `x + 21`, two more
allocations of 100 bytes and `mm_free` of the first of them, `mm_malloc(1)` makes a block
of 16 bytes whose footer overwrites its `next` link, and `mm_malloc(150)` then returns
`x + 25`, inside the live allocation `x`. -/
theorem small_request_overlap :
    (mm_init edgeStore).2 = 0 ∧
      mm_malloc 8 edgeInit 100 = some ((callMalloc edgeInit 100).1, 4294967288) ∧
      lapA = callStore (callMalloc edgeInit 100).1 (4294967288 + 21) 200 ∧
      mm_malloc 8 lapA 100 = some (lapB.1, 4294967400) ∧
      mm_malloc 8 lapB.1 100 = some (lapC.1, 4294967512) ∧
      lapD = mm_free lapC.1 4294967400 ∧
      mm_malloc 8 lapD 1 = some (lapE.1, 4294967400) ∧
      mm_malloc 8 lapE.1 150 = some (lapF.1, 4294967313) ∧
      4294967313 % 8 = 1 ∧
      ¬ (4294967288 + 100 ≤ 4294967313 ∨ 4294967313 + 150 ≤ 4294967288) :=
  ⟨by decide, callMalloc_eq edgeInit 100 4294967288 (by decide) (by decide), rfl,
    callMalloc_eq lapA 100 4294967400 (by decide) (by decide),
    callMalloc_eq lapB.1 100 4294967512 (by decide) (by decide), rfl,
    callMalloc_eq lapD 1 4294967400 (by decide) (by decide),
    callMalloc_eq lapE.1 150 4294967313 (by decide) (by decide), by decide, by decide⟩

/-- Claim C4 on a failing input: on a backing store that starts 24 bytes below `2 ^ 32`,
after `x = mm_malloc(40)`, `y = mm_malloc(200)`, `mm_free(x)`, `mm_malloc(8)` (which
returns `x` in a block of 16 bytes) and `mm_free(y)`, the block at `x` has header 17 and
footer 0. -/
theorem small_request_footer_lost :
    (mm_init edgeStore).2 = 0 ∧ mm_malloc 8 edgeInit 40 = some (tagA.1, 4294967288) ∧
      mm_malloc 8 tagA.1 200 = some (tagB.1, 4294967336) ∧
      tagC = mm_free tagB.1 4294967288 ∧
      mm_malloc 8 tagC 8 = some (tagD.1, 4294967288) ∧
      tagE = mm_free tagD.1 4294967336 ∧
      GET tagE.mem (HDRP 4294967288) = 17 ∧
      GET tagE.mem (FTRP tagE.mem 4294967288) = 0 :=
  ⟨by decide, callMalloc_eq edgeInit 40 4294967288 (by decide) (by decide),
    callMalloc_eq tagA.1 200 4294967336 (by decide) (by decide), rfl,
    callMalloc_eq tagC 8 4294967288 (by decide) (by decide), rfl, by decide, by decide⟩

/-! ## Request rounding and the empty request -/

/-- Claim C10.  `mm_malloc(0)` returns `NULL` and the state it returns is the state it was
called in: memory (every boundary tag and list link), the break of the backing store,
`start` and `firstfree` are unchanged. -/
theorem mm_malloc_zero (fuel : Nat) (s : State) : mm_malloc fuel s 0 = some (s, 0) := by
  simp [mm_malloc]

/-- Claim C9 on its failing inputs: for every request of 1 to 8 bytes the adjusted size
that `mm_malloc` passes to `find_fit` and `place` is 16, below `MINIMUM = 24`. -/
theorem adjust_size_small :
    adjust_size 1 = 16 ∧ adjust_size 1 < MINIMUM ∧
      ∀ n, 0 < n → n ≤ 8 → adjust_size n = 16 := by
  refine ⟨by decide, by decide, ?_⟩
  intro n h0 h8
  simp only [adjust_size, DSIZE]
  rw [if_pos h8]
  decide

/-! ## The block list and the free list are determined by the state -/

/-- A block with written tags is the block that its tags describe. -/
theorem blockAt_eq {s : State} {bs : List Blk} {fl : List Nat} (h : Heap s bs fl) (b : Blk)
    (hb : b ∈ bs) (hr : b.kind ≠ Kind.raw) : blockAt s.mem b.bp = b := by
  obtain ⟨z1, z2, -, -⟩ := h.size_at b hb hr
  unfold blockAt
  rw [z1, z2]
  rcases kind_cases b.kind hr with e | e
  · have : b = ⟨b.bp, b.sz, Kind.free⟩ := by rw [← e]
    rw [e]
    exact this.symm
  · have : b = ⟨b.bp, b.sz, Kind.used⟩ := by rw [← e]
    rw [e]
    exact this.symm

/-- The walk over the arena and the walk along the free list, for a heap without raw blocks. -/
theorem Heap.walks {s : State} {bs : List Blk} {fl : List Nat} (h : Heap s bs fl)
    (hr : ∀ b ∈ bs, b.kind ≠ Kind.raw) :
    (∀ k, heapBlocks (bs.length + 2 + k) s = some (s.start :: bs.map Blk.bp)) ∧
      ∀ k, freeNodes (fl.length + 1 + k) s = some fl := by
  have g := h.geo
  have t := h.tags
  constructor
  · intro k
    have hsz : GET_SIZE s.mem (HDRP s.start) = 8 :=
      (decode_tag s.mem (s.start - 4) 8 1 t.prologue_h rfl (le_refl 1)).1
    have hnx : NEXT_BLKP s.mem s.start = s.start + 8 := by
      unfold NEXT_BLKP
      have : GET_SIZE s.mem (s.start - WSIZE) = 8 := hsz
      rw [this]
    have hrec := blocksFrom_spec g t hr bs [] (s.start + 8) rfl g.tiling k
    show blocksFrom s.mem (bs.length + 2 + k) s.start = _
    rw [show bs.length + 2 + k = (bs.length + 1 + k) + 1 by omega, blocksFrom,
      if_neg (by rw [hsz]; omega), hnx, hrec]
    rfl
  · intro k
    have := nodesFrom_spec g h.flist fl [] rfl k
    rw [← h.flist.head] at this
    exact this

/-- Two descriptions of the same state without raw blocks are the same. -/
theorem Heap.unique {s : State} {bs bs1 : List Blk} {fl fl1 : List Nat} (h : Heap s bs fl)
    (hr : ∀ b ∈ bs, b.kind ≠ Kind.raw) (h1 : Heap s bs1 fl1)
    (hr1 : ∀ b ∈ bs1, b.kind ≠ Kind.raw) : bs = bs1 ∧ fl = fl1 := by
  have o := h.walks hr
  have o1 := h1.walks hr1
  constructor
  · have e := o.1 bs1.length
    have e1 := o1.1 bs.length
    rw [show bs1.length + 2 + bs.length = bs.length + 2 + bs1.length by omega, e] at e1
    have hmap : bs.map Blk.bp = bs1.map Blk.bp := (List.cons.inj (Option.some.inj e1)).2
    have d : bs = (bs.map Blk.bp).map (blockAt s.mem) := by
      rw [List.map_map]
      conv_lhs => rw [← List.map_id bs]
      exact List.map_congr_left (fun b hb => (blockAt_eq h b hb (hr b hb)).symm)
    have d1 : bs1 = (bs1.map Blk.bp).map (blockAt s.mem) := by
      rw [List.map_map]
      conv_lhs => rw [← List.map_id bs1]
      exact List.map_congr_left (fun b hb => (blockAt_eq h1 b hb (hr1 b hb)).symm)
    rw [d, d1, hmap]
  · have e := o.2 fl1.length
    have e1 := o1.2 fl.length
    rw [show fl1.length + 1 + fl.length = fl.length + 1 + fl1.length by omega, e] at e1
    exact Option.some.inj e1

/-- The invariant carries over to another description of the same state. -/
theorem InvWith.of_heap {s : State} {L : List (Nat × Nat)} {bs bs1 : List Blk}
    {fl fl1 : List Nat} (h : InvWith s L bs fl) (h1 : Heap s bs1 fl1)
    (hr1 : ∀ b ∈ bs1, b.kind ≠ Kind.raw) : InvWith s L bs1 fl1 := by
  obtain ⟨e1, e2⟩ := h.heap.unique h.no_raw h1 hr1
  rw [← e1, ← e2]
  exact h

/-! ## The exact result of `coalesce`, `mm_free` and `place` -/

theorem prevFree_none {pre : List Blk} (h : ∀ q ∈ pre.getLast?, q.kind ≠ Kind.free) :
    prevFree pre = none := by
  unfold prevFree
  cases hq : pre.getLast? with
  | none => rfl
  | some q =>
    have := h q hq
    simp [Option.filter, this]

theorem prevFree_some {pre : List Blk} {q : Blk} (hq : q.kind = Kind.free) :
    prevFree (pre ++ [q]) = some q := by
  unfold prevFree
  rw [List.getLast?_concat]
  simp [Option.filter, hq]

theorem nextFree_none {post : List Blk} (h : ∀ n ∈ post.head?, n.kind ≠ Kind.free) :
    nextFree post = none := by
  unfold nextFree
  cases hn : post.head? with
  | none => rfl
  | some n =>
    have := h n hn
    simp [Option.filter, this]

theorem nextFree_some {post : List Blk} {n : Blk} (hn : n.kind = Kind.free) :
    nextFree (n :: post) = some n := by
  unfold nextFree
  simp [Option.filter, hn]

theorem blk_eta (b : Blk) (k : Kind) (h : b.kind = k) : (⟨b.bp, b.sz, k⟩ : Blk) = b := by
  rw [← h]

theorem noraw_mid {pre post : List Blk} {m : Blk} (hm : m.kind ≠ Kind.raw)
    (h1 : ∀ c ∈ pre, c.kind ≠ Kind.raw) (h2 : ∀ c ∈ post, c.kind ≠ Kind.raw) :
    ∀ c ∈ pre ++ m :: post, c.kind ≠ Kind.raw := by
  intro c hc
  rcases (mem_mid_iff _ _ _ _).1 hc with e | e | e
  · rw [e]; exact hm
  · exact h1 c e
  · exact h2 c e

/-- The exact result of `coalesce`: the blocks `coBlocks`, the free list `coList`
and the pointer `coPtr`. -/
theorem coalesce_exact {s : State} {L : List (Nat × Nat)} {pre post : List Blk} {b : Blk}
    {fl : List Nat} (h : PreCo s L pre b post fl) :
    InvWith (coalesce s b.bp).1 L (coBlocks pre b post) (coList pre b post fl) ∧
      (coalesce s b.bp).2 = coPtr pre b := by
  obtain ⟨bs1, fl1, I1, -⟩ := coalesce_inv h
  have hbr : b.kind ≠ Kind.raw := by rw [h.bfree]; exact free_ne_raw
  have rpre : ∀ c ∈ pre, c.kind ≠ Kind.raw := fun c hc => h.no_raw c (List.mem_append_left _ hc)
  have rpost : ∀ c ∈ post, c.kind ≠ Kind.raw :=
    fun c hc => h.no_raw c (List.mem_append_right _ hc)
  by_cases hp : ∀ q ∈ pre.getLast?, q.kind ≠ Kind.free
  · have e1 := prev_alloc_used h.heap rpre hp
    by_cases hn : ∀ n ∈ post.head?, n.kind ≠ Kind.free
    · have e2 := next_alloc_used h.heap hbr rpost hn
      have hdef := coalesce_none s b.bp e1 e2
      obtain ⟨H, -⟩ := insert_spec h.heap b (mem_mid _ _ _) h.bfree h.bnot
      have H : Heap (coalesce s b.bp).1 (pre ++ b :: post) (b.bp :: fl) := by
        rw [hdef]
        exact H
      have hB : coBlocks pre b post = pre ++ b :: post := by
        unfold coBlocks
        rw [prevFree_none hp, nextFree_none hn, blk_eta b _ h.bfree]
      have hL : coList pre b post fl = b.bp :: fl := by
        unfold coList
        rw [prevFree_none hp, nextFree_none hn]
      have hP : coPtr pre b = b.bp := by
        unfold coPtr
        rw [prevFree_none hp]
      rw [hB, hL, hP]
      exact ⟨I1.of_heap H (noraw_mid hbr rpre rpost), by rw [hdef]⟩
    · cases post with
      | nil => exact absurd (fun n hn1 => Option.noConfusion hn1) hn
      | cons n post1 =>
        have hnf : n.kind = Kind.free := by
          by_contra hc
          exact hn (fun x hx => by
            rw [List.head?_cons, Option.mem_some_iff] at hx
            rw [← hx]
            exact hc)
        have hnfl : n.bp ∈ fl := (h.members n (mem_mid _ _ _)).1 hnf
        obtain ⟨H, R, -⟩ := coalesce_next h.heap h.bfree hnf h.bnot hnfl e1
        have hB : coBlocks pre b (n :: post1)
            = pre ++ ⟨b.bp, b.sz + n.sz, Kind.free⟩ :: post1 := by
          unfold coBlocks
          rw [prevFree_none hp, nextFree_some hnf]
          rfl
        have hL : coList pre b (n :: post1) fl = b.bp :: fl.erase n.bp := by
          unfold coList
          rw [prevFree_none hp, nextFree_some hnf]
        have hP : coPtr pre b = b.bp := by
          unfold coPtr
          rw [prevFree_none hp]
        rw [hB, hL, hP]
        exact ⟨I1.of_heap H (noraw_mid free_ne_raw rpre
          (fun c hc => rpost c (List.mem_cons_of_mem _ hc))), R⟩
  · rcases List.eq_nil_or_concat pre with hpre | ⟨pre1, q, hpre⟩
    · subst hpre
      exact absurd (fun q hq1 => Option.noConfusion hq1) hp
    · rw [List.concat_eq_append] at hpre
      subst hpre
      have hqf : q.kind = Kind.free := by
        by_contra hc
        exact hp (fun x hx => by
          rw [getLast?_concat_mem pre1 q x hx]
          exact hc)
      have hqfl : q.bp ∈ fl :=
        (h.members q (List.mem_append_left _ (List.mem_append_right _
          (List.mem_singleton_self _)))).1 hqf
      have rpre1 : ∀ c ∈ pre1, c.kind ≠ Kind.raw :=
        fun c hc => rpre c (List.mem_append_left _ hc)
      by_cases hn : ∀ n ∈ post.head?, n.kind ≠ Kind.free
      · have e2 := next_alloc_used h.heap hbr rpost hn
        obtain ⟨H, R, -⟩ := coalesce_prev h.heap hqf h.bnot e2 hbr
        have hB : coBlocks (pre1 ++ [q]) b post
            = pre1 ++ ⟨q.bp, q.sz + b.sz, Kind.free⟩ :: post := by
          unfold coBlocks
          rw [prevFree_some hqf, nextFree_none hn, List.dropLast_concat]
        have hL : coList (pre1 ++ [q]) b post fl = fl := by
          unfold coList
          rw [prevFree_some hqf, nextFree_none hn]
        have hP : coPtr (pre1 ++ [q]) b = q.bp := by
          unfold coPtr
          rw [prevFree_some hqf]
        rw [hB, hL, hP]
        exact ⟨I1.of_heap H (noraw_mid free_ne_raw rpre1 rpost), R⟩
      · cases post with
        | nil => exact absurd (fun n hn1 => Option.noConfusion hn1) hn
        | cons n post1 =>
          have hnf : n.kind = Kind.free := by
            by_contra hc
            exact hn (fun x hx => by
              rw [List.head?_cons, Option.mem_some_iff] at hx
              rw [← hx]
              exact hc)
          have hnfl : n.bp ∈ fl := (h.members n (mem_mid _ _ _)).1 hnf
          obtain ⟨H, R, -⟩ := coalesce_both h.heap hqf hnf hbr h.bnot hqfl hnfl
          have hB : coBlocks (pre1 ++ [q]) b (n :: post1)
              = pre1 ++ ⟨q.bp, q.sz + b.sz + n.sz, Kind.free⟩ :: post1 := by
            unfold coBlocks
            rw [prevFree_some hqf, nextFree_some hnf, List.dropLast_concat]
            rfl
          have hL : coList (pre1 ++ [q]) b (n :: post1) fl
              = q.bp :: (fl.erase n.bp).erase q.bp := by
            unfold coList
            rw [prevFree_some hqf, nextFree_some hnf]
          have hP : coPtr (pre1 ++ [q]) b = q.bp := by
            unfold coPtr
            rw [prevFree_some hqf]
          rw [hB, hL, hP]
          exact ⟨I1.of_heap H (noraw_mid free_ne_raw rpre1
            (fun c hc => rpost c (List.mem_cons_of_mem _ hc))), R⟩

/-- `mm_free` of a non-null pointer whose header holds the size `sz`. -/
theorem mm_free_eq (s : State) (p sz : Nat) (hp : p ≠ 0)
    (hsz : GET_SIZE s.mem (HDRP p) = sz) :
    mm_free s p = (coalesce { s with mem := put_tags s.mem p sz 0 } p).1 := by
  unfold mm_free
  rw [if_neg hp]
  simp only [hsz]

/-- The exact result of `mm_free` of the live pointer of the block `b` between
`pre` and `post`. -/
theorem free_exact {s : State} {L : List (Nat × Nat)} {pre post : List Blk} {b : Blk}
    {fl : List Nat} (h : InvWith s L (pre ++ b :: post) fl) (n : Nat)
    (hp : (b.bp, n) ∈ L) :
    InvWith (mm_free s b.bp) (L.erase (b.bp, n)) (coBlocks pre b post)
      (coList pre b post fl) ∧
    (mm_free s b.bp).start = s.start ∧ (mm_free s b.bp).mem_brk = s.mem_brk ∧
    (mm_free s b.bp).mem_max_addr = s.mem_max_addr := by
  have hb : b ∈ pre ++ b :: post := mem_mid _ _ _
  have g := h.heap.geo
  have gb := g.blk b hb
  have hbk : b.kind = Kind.used := by
    obtain ⟨c, hc, hcp, hck, -⟩ := h.live.2 (b.bp, n) hp
    rw [← g.bp_inj c b hc hb hcp]
    exact hck
  have hbr : b.kind ≠ Kind.raw := h.no_raw b hb
  have hsize := (h.heap.size_at b hb hbr).1
  obtain ⟨H1, -⟩ := retag_spec h.heap Kind.free
  have hdef := mm_free_eq s b.bp b.sz (by omega) hsize
  have hbnot : b.bp ∉ fl := fun hx => by
    have := (h.members b hb).2 hx
    rw [hbk] at this
    exact used_ne_free this
  have hpc : PreCo { s with mem := put_tags s.mem b.bp b.sz 0 } (L.erase (b.bp, n)) pre
      { b with kind := Kind.free } post fl :=
    PreCo.mk H1 (fun c hc => h.no_raw c (mem_around pre post b c hc)) rfl hbnot
      (fun c hc => h.members c (mem_around pre post b c hc)) h.no_adj.parts.1
      h.no_adj.parts.2 (h.live.erase_live g n hp)
  obtain ⟨-, -, -, -, Sa, Sb, Sc, -⟩ := coalesce_inv hpc
  have E := (coalesce_exact hpc).1
  have E : InvWith (coalesce { s with mem := put_tags s.mem b.bp b.sz 0 } b.bp).1
      (L.erase (b.bp, n)) (coBlocks pre b post) (coList pre b post fl) := E
  rw [hdef]
  exact ⟨E, Sa, Sb, Sc⟩

/-- The exact result of `place` on a free block of the invariant. -/
theorem place_exact {s : State} {L : List (Nat × Nat)} {pre post : List Blk} {X : Blk}
    {fl : List Nat} (h : InvWith s L (pre ++ X :: post) fl) (hXk : X.kind = Kind.free)
    (asize n : Nat) (h8 : asize % 8 = 0) (h24 : 24 ≤ asize) (hle : asize ≤ X.sz)
    (hn : n + 8 ≤ asize) :
    InvWith (place s X.bp asize) ((X.bp, n) :: L) (placeBlocks pre X post asize)
      (placeList X fl asize) ∧
    (place s X.bp asize).start = s.start ∧ (place s X.bp asize).mem_brk = s.mem_brk ∧
    (place s X.bp asize).mem_max_addr = s.mem_max_addr := by
  have hX : X ∈ pre ++ X :: post := mem_mid _ _ _
  obtain ⟨bs1, fl1, I1, Sa, Sb, Sc, -⟩ := place_inv h X hX hXk asize n h8 h24 hle hn
  have hXr : X.kind ≠ Kind.raw := by rw [hXk]; exact free_ne_raw
  have hXfl : X.bp ∈ fl := (h.members X hX).1 hXk
  have rpre : ∀ c ∈ pre, c.kind ≠ Kind.raw :=
    fun c hc => h.no_raw c (List.mem_append_left _ hc)
  have rpost : ∀ c ∈ post, c.kind ≠ Kind.raw :=
    fun c hc => h.no_raw c (List.mem_append_right _ (List.mem_cons_of_mem _ hc))
  refine ⟨?_, Sa, Sb, Sc⟩
  unfold placeBlocks placeList MINIMUM
  by_cases hsp : asize + 24 ≤ X.sz
  · rw [if_pos hsp, if_pos hsp]
    obtain ⟨H, -⟩ := place_split h.heap hXr hXfl asize h8 h24 hsp
    refine I1.of_heap H (noraw_mid used_ne_raw rpre (fun c hc => ?_))
    rcases List.mem_cons.1 hc with e | e
    · rw [e]; exact free_ne_raw
    · exact rpost c e
  · rw [if_neg hsp, if_neg hsp]
    obtain ⟨H, -⟩ := place_whole h.heap hXr hXfl asize hle (by omega)
    exact I1.of_heap H (noraw_mid used_ne_raw rpre rpost)

/-- The exact result of `extend_heap` when the backing store grows. -/
theorem extend_exact {s : State} {L : List (Nat × Nat)} {bs : List Blk} {fl : List Nat}
    (h : InvWith s L bs fl) (words : Nat) (h8 : extend_size words % 8 = 0)
    (h24 : 24 ≤ extend_size words)
    (hfit : s.mem_brk + extend_size words ≤ s.mem_max_addr) :
    InvWith (extend_heap s words).1 L
      (coBlocks bs ⟨s.mem_brk, extend_size words, Kind.free⟩ [])
      (coList bs ⟨s.mem_brk, extend_size words, Kind.free⟩ [] fl) ∧
    (extend_heap s words).2 = coPtr bs ⟨s.mem_brk, extend_size words, Kind.free⟩ ∧
    (extend_heap s words).1.start = s.start ∧
    (extend_heap s words).1.mem_brk = s.mem_brk + extend_size words ∧
    (extend_heap s words).1.mem_max_addr = s.mem_max_addr := by
  have g := h.heap.geo
  obtain ⟨H, -⟩ := extend_spec h.heap (extend_size words) h8 h24 hfit
  have hbnot : s.mem_brk ∉ fl := fun hx => by
    obtain ⟨d, hd, hdb⟩ := h.heap.flist.mem_blk _ hx
    have := g.blk d hd
    omega
  have hlive : LiveOK (bs ++ []) L := by
    rw [List.append_nil]
    exact h.live
  have hpc : PreCo _ L bs ⟨s.mem_brk, extend_size words, Kind.free⟩ [] fl :=
    PreCo.mk H (fun c hc => h.no_raw c (by simpa using hc)) rfl hbnot
      (fun c hc => h.members c (by simpa using hc)) h.no_adj List.chain'_nil hlive
  have hb : (⟨s.mem_brk, extend_size words, Kind.free⟩ : Blk).bp = s.mem_brk := rfl
  have hco := coalesce_inv hpc
  have hex := coalesce_exact hpc
  rw [hb] at hco hex
  rw [extend_heap_ok s words hfit]
  generalize coalesce _ s.mem_brk = r at hco hex ⊢
  obtain ⟨-, -, -, -, Sa, Sb, Sc, -⟩ := hco
  exact ⟨hex.1, hex.2, Sa, Sb, Sc⟩

/-- The scan of `find_fit` passes the list nodes that are too small. -/
theorem find_fit_loop_skip {s : State} {bs : List Blk} {fl : List Nat} (h : Heap s bs fl)
    (asize : Nat) (xs : List Nat) :
    ∀ (pre tl : List Nat) (fuel : Nat), fl = pre ++ (xs ++ tl) →
      (∀ x ∈ xs, GET_SIZE s.mem (HDRP x) < asize) →
      find_fit_loop s.mem asize (xs.length + fuel) ((xs ++ tl).headD 0) =
        find_fit_loop s.mem asize fuel (tl.headD 0) := by
  induction xs with
  | nil =>
    intro pre tl fuel _ _
    simp
  | cons x xs ih =>
    intro pre tl fuel hfl hsm
    have hx : x ∈ fl := by rw [hfl]; exact mem_mid _ _ _
    have hx0 : x ≠ 0 := by
      obtain ⟨d, hd, hdb⟩ := h.flist.mem_blk x hx
      have := h.geo.blk d hd
      omega
    have hnext : getNext s.mem x = (xs ++ tl).headD 0 := (h.flist.linked pre x (xs ++ tl) hfl).2
    have hsz := hsm x (List.mem_cons_self _ _)
    show find_fit_loop s.mem asize ((xs.length + 1) + fuel) x = _
    rw [show (xs.length + 1) + fuel = (xs.length + fuel) + 1 by omega, find_fit_loop,
      if_neg hx0, if_neg (by omega), hnext]
    exact ih (pre ++ [x]) tl fuel (by rw [hfl, List.append_assoc]; rfl)
      (fun y hy => hsm y (List.mem_cons_of_mem _ hy))

/-- First fit: `find_fit` returns the first list node whose block has at least
`asize` bytes. -/
theorem find_fit_first {s : State} {L : List (Nat × Nat)} {bs : List Blk} {fl : List Nat}
    (h : InvWith s L bs fl) (asize : Nat) (xs ys : List Nat) (y : Nat)
    (hfl : fl = xs ++ y :: ys) (hsm : ∀ x ∈ xs, GET_SIZE s.mem (HDRP x) < asize)
    (hy : asize ≤ GET_SIZE s.mem (HDRP y)) (fuel : Nat) (hf : xs.length < fuel) :
    find_fit fuel s asize = some y := by
  have hyfl : y ∈ fl := by rw [hfl]; exact mem_mid _ _ _
  obtain ⟨Y, hY, hYb⟩ := h.heap.flist.mem_blk y hyfl
  have hy0 : y ≠ 0 := by
    have := h.heap.geo.blk Y hY
    omega
  have hfree : GET_ALLOC s.mem (HDRP y) = 0 := by
    rw [← hYb, (h.heap.size_at Y hY (h.no_raw Y hY)).2.1,
      (h.members Y hY).2 (by rw [hYb]; exact hyfl)]
    rfl
  unfold find_fit
  rw [h.heap.flist.head, hfl]
  obtain ⟨k, rfl⟩ : ∃ k, fuel = xs.length + (k + 1) := ⟨fuel - xs.length - 1, by omega⟩
  rw [find_fit_loop_skip h.heap asize xs [] (y :: ys) (k + 1) (by rw [hfl]; rfl) hsm]
  show find_fit_loop s.mem asize (k + 1) y = some y
  rw [find_fit_loop, if_neg hy0, if_pos ⟨hfree, hy⟩]

/-- No fit: `find_fit` returns `NULL` when every list node is too small. -/
theorem find_fit_nofit {s : State} {L : List (Nat × Nat)} {bs : List Blk} {fl : List Nat}
    (h : InvWith s L bs fl) (asize : Nat)
    (hsm : ∀ x ∈ fl, GET_SIZE s.mem (HDRP x) < asize) (fuel : Nat) (hf : fl.length < fuel) :
    find_fit fuel s asize = some 0 := by
  unfold find_fit
  rw [h.heap.flist.head]
  obtain ⟨k, rfl⟩ : ∃ k, fuel = fl.length + (k + 1) := ⟨fuel - fl.length - 1, by omega⟩
  have := find_fit_loop_skip h.heap asize fl [] [] (k + 1) (by simp) hsm
  rw [List.append_nil] at this
  rw [this]
  show find_fit_loop s.mem asize (k + 1) 0 = some 0
  rw [find_fit_loop, if_pos rfl]

/-- `mm_malloc` when `find_fit` finds the block `X`: the block is placed. -/
theorem malloc_hit {s : State} {L : List (Nat × Nat)} {pre post : List Blk} {X : Blk}
    {fl : List Nat} (h : InvWith s L (pre ++ X :: post) fl) (n : Nat) (h1 : 8 < n)
    (h2 : n ≤ 2 ^ 31 - 16) (fuel : Nat)
    (hff : find_fit fuel s (adjust_size n) = some X.bp) :
    mm_malloc fuel s n = some (place s X.bp (adjust_size n), X.bp) ∧
    mm_malloc_grows fuel s n = some [] ∧
    InvWith (place s X.bp (adjust_size n)) ((X.bp, n) :: L)
      (placeBlocks pre X post (adjust_size n)) (placeList X fl (adjust_size n)) ∧
    (place s X.bp (adjust_size n)).start = s.start ∧
    (place s X.bp (adjust_size n)).mem_brk = s.mem_brk ∧
    (place s X.bp (adjust_size n)).mem_max_addr = s.mem_max_addr := by
  obtain ⟨a1, a2, a3, a4, a5⟩ := adjust_size_good n h1 h2
  have hX : X ∈ pre ++ X :: post := mem_mid _ _ _
  have gX := h.heap.geo.blk X hX
  have hX0 : X.bp ≠ 0 := by omega
  have hn0 : n ≠ 0 := by omega
  obtain ⟨Y, hY, hYb, hYk, hYs⟩ :=
    ((find_fit_spec h (adjust_size n) fuel).2 X.bp hff).resolve_left hX0
  have hYX : Y = X := h.heap.geo.bp_inj Y X hY hX hYb
  rw [hYX] at hYk hYs
  have hg : mm_malloc_grows fuel s n = some [] := by
    simp only [mm_malloc_grows]
    rw [if_neg hn0, hff]
    simp only [if_pos hX0]
  rw [mm_malloc_some fuel s n X.bp hn0 hff, if_pos hX0]
  exact ⟨rfl, hg, place_exact h hYk (adjust_size n) n a1 a4 hYs a2⟩

theorem coBlocks_grow (bs : List Blk) (brk sz : Nat) (fl : List Nat) :
    coBlocks bs ⟨brk, sz, Kind.free⟩ [] = growPre bs ++ [growBlk bs brk sz] ∧
    coList bs ⟨brk, sz, Kind.free⟩ [] fl = growList bs brk fl ∧
    coPtr bs ⟨brk, sz, Kind.free⟩ = (growBlk bs brk sz).bp := by
  unfold coBlocks coList coPtr growPre growBlk growList
  have hn : nextFree [] = none := rfl
  rw [hn]
  cases prevFree bs with
  | none => exact ⟨rfl, rfl, rfl⟩
  | some q => exact ⟨rfl, rfl, rfl⟩

theorem growBlk_size (bs : List Blk) (brk sz : Nat) :
    (growBlk bs brk sz).kind = Kind.free ∧ sz ≤ (growBlk bs brk sz).sz := by
  unfold growBlk
  cases prevFree bs with
  | none => exact ⟨rfl, le_refl _⟩
  | some q => exact ⟨rfl, Nat.le_add_left _ _⟩

/-- `mm_malloc` when `find_fit` finds no block and the backing store cannot grow:
`NULL`, after one request to the backing store, in the state of the call. -/
theorem malloc_miss_fail (fuel : Nat) (s : State) (n : Nat) (hn0 : n ≠ 0)
    (hff : find_fit fuel s (adjust_size n) = some 0)
    (hno : mem_sbrk s (extend_size (extendsize (adjust_size n) / WSIZE)) = none) :
    mm_malloc fuel s n = some (s, 0) ∧
    mm_malloc_grows fuel s n = some [extend_size (extendsize (adjust_size n) / WSIZE)] := by
  have hlt : s.mem_max_addr < s.mem_brk + extend_size (extendsize (adjust_size n) / WSIZE) := by
    unfold mem_sbrk at hno
    by_contra hc
    rw [if_pos (by omega)] at hno
    exact Option.noConfusion hno
  constructor
  · rw [mm_malloc_some fuel s n 0 hn0 hff, if_neg (fun e => e rfl),
      extend_heap_fail s _ hlt, if_pos rfl]
  · simp only [mm_malloc_grows]
    rw [if_neg hn0, hff]
    simp [extend_heap_grows]

/-- `mm_malloc` when `find_fit` finds no block and the backing store grows: one
request to the backing store, and the block is placed in the block that
`extend_heap` returns. -/
theorem malloc_miss_ok {s : State} {L : List (Nat × Nat)} {bs : List Blk} {fl : List Nat}
    (h : InvWith s L bs fl) (n : Nat) (h1 : 8 < n) (h2 : n ≤ 2 ^ 31 - 16) (fuel : Nat)
    (hff : find_fit fuel s (adjust_size n) = some 0)
    (hfit : s.mem_brk + extend_size (extendsize (adjust_size n) / WSIZE) ≤ s.mem_max_addr) :
    ∃ s1, mm_malloc fuel s n = some (s1,
        (growBlk bs s.mem_brk (extend_size (extendsize (adjust_size n) / WSIZE))).bp) ∧
      mm_malloc_grows fuel s n = some [extend_size (extendsize (adjust_size n) / WSIZE)] ∧
      InvWith s1
        (((growBlk bs s.mem_brk (extend_size (extendsize (adjust_size n) / WSIZE))).bp, n) :: L)
        (placeBlocks (growPre bs)
          (growBlk bs s.mem_brk (extend_size (extendsize (adjust_size n) / WSIZE))) []
          (adjust_size n))
        (placeList (growBlk bs s.mem_brk (extend_size (extendsize (adjust_size n) / WSIZE)))
          (growList bs s.mem_brk fl) (adjust_size n)) ∧
      s1.start = s.start ∧
      s1.mem_brk = s.mem_brk + extend_size (extendsize (adjust_size n) / WSIZE) ∧
      s1.mem_max_addr = s.mem_max_addr := by
  obtain ⟨a1, a2, a3, a4, a5⟩ := adjust_size_good n h1 h2
  obtain ⟨e1, e2, e3⟩ := extend_bytes n h1 h2
  have hn0 : n ≠ 0 := by omega
  obtain ⟨I1, P1, Sa, Sb, Sc⟩ := extend_exact h (extendsize (adjust_size n) / WSIZE) e1 e2 hfit
  obtain ⟨c1, c2, c3⟩ := coBlocks_grow bs s.mem_brk
    (extend_size (extendsize (adjust_size n) / WSIZE)) fl
  rw [c1, c2] at I1
  rw [c3] at P1
  obtain ⟨g1, g2⟩ := growBlk_size bs s.mem_brk (extend_size (extendsize (adjust_size n) / WSIZE))
  generalize growBlk bs s.mem_brk (extend_size (extendsize (adjust_size n) / WSIZE)) = G at *
  have hG : G ∈ growPre bs ++ [G] := mem_mid _ _ _
  have gG := I1.heap.geo.blk G hG
  have hx : ¬ (extend_heap s (extendsize (adjust_size n) / WSIZE)).2 = 0 := by
    rw [P1]
    omega
  obtain ⟨I2, Ta, Tb, Tc⟩ := place_exact I1 g1 (adjust_size n) n a1 a4 (by omega) a2
  refine ⟨place (extend_heap s (extendsize (adjust_size n) / WSIZE)).1 G.bp (adjust_size n),
    ?_, ?_, I2, Ta.trans Sa, Tb.trans Sb, Tc.trans Sc⟩
  · rw [mm_malloc_some fuel s n 0 hn0 hff, if_neg (fun e => e rfl), if_neg hx, P1]
  · simp only [mm_malloc_grows]
    rw [if_neg hn0, hff]
    simp [extend_heap_grows]

/-! ## The exact result of `mm_init` -/

/-- `mm_init` fails when the backing store cannot supply 16 and then 4096 bytes. -/
theorem init_fails (s : State) (hno : s.mem_max_addr < s.mem_brk + 16 + 4096) :
    (mm_init s).2 = -1 := by
  by_cases hfit : s.mem_brk + 16 ≤ s.mem_max_addr
  · rw [mm_init_eq s hfit]
    have h2 : (sentinels s).mem_max_addr
        < (sentinels s).mem_brk + extend_size (CHUNKSIZE / WSIZE) := by
      rw [extend_size_chunk]
      show s.mem_max_addr < s.mem_brk + 4 * WSIZE + 4096
      unfold WSIZE
      omega
    rw [extend_heap_fail _ _ h2, if_pos rfl]
  · exact mm_init_fail s (by omega)

/-- The padding word that `mm_init` writes at the old break. -/
theorem sentinels_pad (s : State) : GET (sentinels s).mem s.mem_brk = 0 := by
  have p1 : PACK DSIZE 1 = 9 := by decide
  have p0 : PACK 0 1 = 1 := by decide
  unfold sentinels WSIZE
  rw [p1, p0]
  show GET (PUT (PUT (PUT (PUT s.mem s.mem_brk 0) (s.mem_brk + 4) 9) (s.mem_brk + 2 * 4) 9)
    (s.mem_brk + 3 * 4) 1) s.mem_brk = 0
  rw [GET_PUT_disj _ _ _ _ (by omega), GET_PUT_disj _ _ _ _ (by omega),
    GET_PUT_disj _ _ _ _ (by omega), GET_PUT_same]

/-- `coalesce` on the only block of the arena writes nothing in front of it. -/
theorem coalesce_single_frame {G : State} {b : Blk} (H : Heap G [b] []) (hb : b.kind = Kind.free)
    (a : Nat) (ha : a < b.bp) : (coalesce G b.bp).1.mem a = G.mem a := by
  have hbr : b.kind ≠ Kind.raw := by rw [hb]; exact free_ne_raw
  have e1 := @prev_alloc_used G [] [] b [] H (fun c hc => by cases hc)
    (fun q hq => Option.noConfusion hq)
  have e2 := @next_alloc_used G [] [] b [] H hbr (fun c hc => by cases hc)
    (fun q hq => Option.noConfusion hq)
  obtain ⟨-, -, -, -, F⟩ := insert_spec H b (List.mem_singleton_self _) hb (fun hx => by cases hx)
  rw [coalesce_none G b.bp e1 e2]
  refine F a (fun y hy => ?_)
  rw [List.mem_singleton] at hy
  left
  rw [hy]
  exact ha

/-- A successful `mm_init` on a fresh backing store: one free block of 4096 bytes
behind the prologue, alone on the free list, and the padding word in front. -/
theorem init_exact (s : State) (h : FreshStore s)
    (hfit : s.mem_brk + 16 + 4096 ≤ s.mem_max_addr) :
    (mm_init s).2 = 0 ∧
    InvWith (mm_init s).1 [] [⟨s.mem_brk + 16, 4096, Kind.free⟩] [s.mem_brk + 16] ∧
    (mm_init s).1.start = s.mem_brk + 8 ∧ (mm_init s).1.mem_brk = s.mem_brk + 16 + 4096 ∧
    (mm_init s).1.mem_max_addr = s.mem_max_addr ∧ GET (mm_init s).1.mem s.mem_brk = 0 := by
  have hfit1 : s.mem_brk + 16 ≤ s.mem_max_addr := by omega
  have I0 := sentinels_inv s h hfit1
  have hb : (sentinels s).mem_brk = s.mem_brk + 16 := rfl
  have hfit2 : (sentinels s).mem_brk + extend_size (CHUNKSIZE / WSIZE)
      ≤ (sentinels s).mem_max_addr := by
    rw [extend_size_chunk, hb]
    exact hfit
  obtain ⟨I1, P1, Sa, Sb, Sc⟩ := extend_exact I0 (CHUNKSIZE / WSIZE)
    (by rw [extend_size_chunk]) (by rw [extend_size_chunk]; omega) hfit2
  rw [extend_size_chunk, hb] at I1 P1 Sb
  have I1 : InvWith (extend_heap (sentinels s) (CHUNKSIZE / WSIZE)).1 []
      [⟨s.mem_brk + 16, 4096, Kind.free⟩] [s.mem_brk + 16] := I1
  have P1 : (extend_heap (sentinels s) (CHUNKSIZE / WSIZE)).2 = s.mem_brk + 16 := P1
  obtain ⟨H, F⟩ := extend_spec I0.heap (extend_size (CHUNKSIZE / WSIZE))
    (by rw [extend_size_chunk]) (by rw [extend_size_chunk]; omega) hfit2
  have K := coalesce_single_frame H rfl
  dsimp only at K
  have hpad : GET (extend_heap (sentinels s) (CHUNKSIZE / WSIZE)).1.mem s.mem_brk = 0 := by
    rw [extend_heap_ok _ _ hfit2]
    refine Eq.trans (GET_congr _ _ _ (fun a h1 h2 => ?_)) (sentinels_pad s)
    exact (K a (by rw [hb]; omega)).trans (F a (by rw [hb]; omega))
  have hne : ¬ (extend_heap (sentinels s) (CHUNKSIZE / WSIZE)).2 = 0 := by
    rw [P1]
    omega
  rw [mm_init_eq s hfit1, if_neg hne]
  exact ⟨rfl, I1, Sa, Sb, Sc, hpad⟩

/-! ## Failure of the backing store, `mm_realloc` at its corner cases, `mm_init` -/

theorem mem_sbrk_none (s : State) (k : Nat) (h : s.mem_max_addr < s.mem_brk + k) :
    mem_sbrk s k = none := by
  unfold mem_sbrk
  rw [if_neg (by omega)]

theorem mem_sbrk_none_iff (s : State) (k : Nat) :
    mem_sbrk s k = none ↔ s.mem_max_addr < s.mem_brk + k := by
  constructor
  · intro h
    by_contra hc
    unfold mem_sbrk at h
    rw [if_pos (by omega)] at h
    exact Option.noConfusion h
  · exact mem_sbrk_none s k

/-- Claim C11.  When `find_fit` finds no block for the adjusted size and the request to
the backing store fails, `mm_malloc` returns `NULL` after exactly one request to the
backing store, and the state it returns is the state it was called in: memory (the
arena bytes, every boundary tag and list link), the break and `firstfree` are unchanged. -/
theorem malloc_grow_failure (fuel : Nat) (s : State) (n : Nat) (hn0 : n ≠ 0)
    (hff : find_fit fuel s (adjust_size n) = some 0)
    (hno : mem_sbrk s (extend_size (extendsize (adjust_size n) / WSIZE)) = none) :
    mm_malloc fuel s n = some (s, 0) ∧
      ∃ k, mm_malloc_grows fuel s n = some [k] := by
  obtain ⟨e1, e2⟩ := malloc_miss_fail fuel s n hn0 hff hno
  exact ⟨e1, _, e2⟩

/-- Claim C14 on its failing inputs: `mm_realloc(p, 0)` never returns; for every pointer
`p` and in every state the internal `mm_malloc(0)` returns `NULL` and the program is
terminated by `exit(1)`, the block at `p` not being freed. -/
theorem realloc_zero_exits (fuel : Nat) (s : State) (p : Nat) :
    mm_realloc fuel s p 0 = some (ReallocResult.exited s) := by
  rw [mm_realloc_some fuel s p 0 s 0 (mm_malloc_zero_eq fuel s), if_pos rfl]

/-- Claim C13 on its failing inputs: whenever `mm_malloc(n)` returns `NULL`,
`mm_realloc(NULL, n)` does not return `NULL` but terminates the program by `exit(1)`. -/
theorem realloc_null_exits (fuel : Nat) (s : State) (n : Nat) (s1 : State)
    (h : mm_malloc fuel s n = some (s1, 0)) :
    mm_realloc fuel s 0 n = some (ReallocResult.exited s1) := by
  rw [mm_realloc_some fuel s 0 n s1 0 h, if_pos rfl]

/-- Claim C16.  On a fresh backing store, `mm_init` returns -1 exactly when one of its
two requests to the backing store (16 bytes, then 4096 bytes) fails; otherwise it returns
0 and the arena holds the padding word, the prologue header and footer `PACK(8, 1)`, one
free block of 4096 bytes with header and footer `PACK(4096, 0)` that is the only node of
the free list, and the epilogue header `PACK(0, 1)` in the last word before the break. -/
theorem mm_init_layout (s : State) (h : FreshStore s) :
    ((mm_init s).2 = -1 ↔
      (mem_sbrk { s with firstfree := 0 } (4 * WSIZE) = none ∨
        mem_sbrk (sentinels s) (extend_size (CHUNKSIZE / WSIZE)) = none)) ∧
    ((mm_init s).2 ≠ -1 →
      (mm_init s).2 = 0 ∧
      (mm_init s).1.start = s.mem_brk + 8 ∧
      (mm_init s).1.mem_brk = s.mem_brk + 16 + 4096 ∧
      GET (mm_init s).1.mem s.mem_brk = 0 ∧
      GET (mm_init s).1.mem (s.mem_brk + 4) = PACK 8 1 ∧
      GET (mm_init s).1.mem (s.mem_brk + 8) = PACK 8 1 ∧
      GET (mm_init s).1.mem (HDRP (s.mem_brk + 16)) = PACK 4096 0 ∧
      GET (mm_init s).1.mem (FTRP (mm_init s).1.mem (s.mem_brk + 16)) = PACK 4096 0 ∧
      GET (mm_init s).1.mem (HDRP (s.mem_brk + 16 + 4096)) = PACK 0 1 ∧
      (mm_init s).1.firstfree = s.mem_brk + 16 ∧
      getNext (mm_init s).1.mem (s.mem_brk + 16) = 0 ∧
      getPrev (mm_init s).1.mem (s.mem_brk + 16) = 0 ∧
      (∀ fuel, 3 ≤ fuel →
        heapBlocks fuel (mm_init s).1 = some [s.mem_brk + 8, s.mem_brk + 16] ∧
        freeNodes fuel (mm_init s).1 = some [s.mem_brk + 16])) := by
  have e4 : extend_size (CHUNKSIZE / WSIZE) = 4096 := extend_size_chunk
  have hiff : (mem_sbrk { s with firstfree := 0 } (4 * WSIZE) = none ∨
      mem_sbrk (sentinels s) (extend_size (CHUNKSIZE / WSIZE)) = none) ↔
      s.mem_max_addr < s.mem_brk + 16 + 4096 := by
    rw [mem_sbrk_none_iff, mem_sbrk_none_iff, e4]
    show (s.mem_max_addr < s.mem_brk + 4 * WSIZE ∨
      s.mem_max_addr < s.mem_brk + 4 * WSIZE + 4096) ↔ _
    unfold WSIZE
    omega
  by_cases hfit : s.mem_brk + 16 + 4096 ≤ s.mem_max_addr
  · obtain ⟨r0, I, Sa, Sb, Sc, pad⟩ := init_exact s h hfit
    have hb : (⟨s.mem_brk + 16, 4096, Kind.free⟩ : Blk) ∈
        [(⟨s.mem_brk + 16, 4096, Kind.free⟩ : Blk)] := List.mem_singleton_self _
    obtain ⟨⟨q1, -, -, -⟩, rb⟩ := I.read
    obtain ⟨t1, t2, -, -, -⟩ := rb _ hb
    have lk := I.heap.flist.linked [] (s.mem_brk + 16) [] rfl
    have ep := I.heap.tags.epilogue
    have pf := I.heap.tags.prologue_f
    rw [Sa] at q1 pf
    rw [Sb] at ep
    have p81 : PACK 8 1 = 9 := by decide
    have p40 : PACK 4096 0 = 4096 := by decide
    have p01 : PACK 0 1 = 1 := by decide
    constructor
    · rw [hiff, r0]
      exact ⟨fun e => absurd e (by decide), fun e => absurd hfit (by omega)⟩
    · intro _
      refine ⟨r0, Sa, Sb, pad, ?_, ?_, ?_, ?_, ?_, I.heap.flist.head, lk.2, lk.1, ?_⟩
      · rw [p81, ← q1]
        show _ = GET _ (s.mem_brk + 8 - WSIZE)
        unfold WSIZE
        rw [show s.mem_brk + 8 - 4 = s.mem_brk + 4 by omega]
      · rw [p81]
        exact pf
      · rw [p40]
        exact t1
      · rw [p40]
        exact t2
      · rw [p01, ← ep]
        rfl
      · intro fuel hf
        obtain ⟨o1, o2⟩ := I.observe
        have a1 := o1 (fuel - 3)
        have a2 := o2 (fuel - 2)
        rw [Sa] at a1
        simp only [List.length_singleton, List.map_cons, List.map_nil] at a1 a2
        rw [show 1 + 2 + (fuel - 3) = fuel by omega] at a1
        rw [show 1 + 1 + (fuel - 2) = fuel by omega] at a2
        exact ⟨a1, a2⟩
  · have r1 := init_fails s (by omega)
    constructor
    · rw [hiff, r1]
      exact ⟨fun _ => by omega, fun _ => rfl⟩
    · intro hne
      exact absurd r1 hne

/-! ## Scenarios after `mm_init` -/

theorem placeBlocks_split (pre post : List Blk) (X : Blk) (asize : Nat)
    (h : asize + 24 ≤ X.sz) :
    placeBlocks pre X post asize =
      pre ++ ⟨X.bp, asize, Kind.used⟩ :: ⟨X.bp + asize, X.sz - asize, Kind.free⟩ :: post := by
  unfold placeBlocks MINIMUM
  rw [if_pos h]

theorem placeList_split (X : Blk) (fl : List Nat) (asize : Nat) (h : asize + 24 ≤ X.sz) :
    placeList X fl asize = (X.bp + asize) :: fl.erase X.bp := by
  unfold placeList MINIMUM
  rw [if_pos h]

theorem placeBlocks_whole (pre post : List Blk) (X : Blk) (asize : Nat)
    (h : X.sz < asize + 24) :
    placeBlocks pre X post asize = pre ++ ⟨X.bp, X.sz, Kind.used⟩ :: post := by
  unfold placeBlocks MINIMUM
  rw [if_neg (by omega)]

theorem placeList_whole (X : Blk) (fl : List Nat) (asize : Nat) (h : X.sz < asize + 24) :
    placeList X fl asize = fl.erase X.bp := by
  unfold placeList MINIMUM
  rw [if_neg (by omega)]

/-- The room that a successful `mm_init` found in the backing store. -/
theorem init_room (s : State) (hok : (mm_init s).2 = 0) :
    s.mem_brk + 16 + 4096 ≤ s.mem_max_addr := by
  by_contra hc
  rw [init_fails s (by omega)] at hok
  exact absurd hok (by decide)

/-- The first `mm_malloc(100)` after `mm_init`: the free block of 4096 bytes is split. -/
theorem first_malloc_100 (s0 : State) (h : FreshStore s0) (hok : (mm_init s0).2 = 0)
    (fuel : Nat) (hf : 1 ≤ fuel) :
    ∃ s1, mm_malloc fuel (mm_init s0).1 100 = some (s1, s0.mem_brk + 16) ∧
      InvWith s1 [(s0.mem_brk + 16, 100)]
        [⟨s0.mem_brk + 16, 112, Kind.used⟩, ⟨s0.mem_brk + 16 + 112, 3984, Kind.free⟩]
        [s0.mem_brk + 16 + 112] ∧
      s1.mem_brk = (mm_init s0).1.mem_brk ∧ s1.mem_max_addr = (mm_init s0).1.mem_max_addr := by
  obtain ⟨-, I0, -, -, -, -⟩ := init_exact s0 h (init_room s0 hok)
  have a100 : adjust_size 100 = 112 := by decide
  have I0 : InvWith (mm_init s0).1 [] ([] ++ (⟨s0.mem_brk + 16, 4096, Kind.free⟩ : Blk) :: [])
      [s0.mem_brk + 16] := I0
  have hsz := (I0.heap.size_at ⟨s0.mem_brk + 16, 4096, Kind.free⟩ (mem_mid _ _ _) free_ne_raw).1
  have hsz : GET_SIZE (mm_init s0).1.mem (HDRP (s0.mem_brk + 16)) = 4096 := hsz
  have ff := find_fit_first I0 112 [] [] (s0.mem_brk + 16) rfl (fun x hx => by cases hx)
    (by rw [hsz]; decide) fuel (by simpa using hf)
  rw [← a100] at ff
  obtain ⟨m1, -, I1, -, Sb, Sc⟩ := malloc_hit I0 100 (by decide) (by decide) fuel ff
  rw [a100] at m1 I1 Sb Sc
  rw [placeBlocks_split _ _ _ _ (by show 112 + 24 ≤ 4096; decide),
    placeList_split _ _ _ (by show 112 + 24 ≤ 4096; decide), List.erase_cons_head] at I1
  dsimp only at m1 I1 Sb Sc
  exact ⟨_, m1, I1, Sb, Sc⟩

/-- Claim C17.  After a successful `mm_init` on a fresh backing store, in the sequence
`p1 = mm_malloc(100)`, `p2 = mm_malloc(200)`, `mm_free(p1)`, `p3 = mm_malloc(100)`, the
pointer `p1` is non-null and a multiple of 8 and `p3` is `p1`: the freed block is found
by the first-fit scan, no request goes to the backing store and the break stays. -/
theorem reuse_after_free (s0 : State) (h : FreshStore s0) (hok : (mm_init s0).2 = 0)
    (fuel : Nat) (hf : 1 ≤ fuel) :
    ∃ s1 s2 s4 p1 p2, mm_malloc fuel (mm_init s0).1 100 = some (s1, p1) ∧ p1 ≠ 0 ∧
      p1 % 8 = 0 ∧ mm_malloc fuel s1 200 = some (s2, p2) ∧ p2 ≠ 0 ∧
      mm_malloc fuel (mm_free s2 p1) 100 = some (s4, p1) ∧
      mm_malloc_grows fuel (mm_free s2 p1) 100 = some [] ∧
      s4.mem_brk = (mm_init s0).1.mem_brk := by
  obtain ⟨s1, m1, I1, B1, -⟩ := first_malloc_100 s0 h hok fuel hf
  have a100 : adjust_size 100 = 112 := by decide
  have a200 : adjust_size 200 = 208 := by decide
  have g1 := I1.heap.geo.blk ⟨s0.mem_brk + 16, 112, Kind.used⟩ (List.mem_cons_self _ _)
  have g1 : s1.start + 8 ≤ s0.mem_brk + 16 ∧ _ ∧ _ ∧ _ ∧ (s0.mem_brk + 16) % 8 = 0 ∧ _ := g1
  -- the second allocation
  have I1 : InvWith s1 [(s0.mem_brk + 16, 100)]
      ([(⟨s0.mem_brk + 16, 112, Kind.used⟩ : Blk)] ++
        (⟨s0.mem_brk + 16 + 112, 3984, Kind.free⟩ : Blk) :: []) [s0.mem_brk + 16 + 112] := I1
  have hsz1 := (I1.heap.size_at ⟨s0.mem_brk + 16 + 112, 3984, Kind.free⟩ (mem_mid _ _ _)
    free_ne_raw).1
  have hsz1 : GET_SIZE s1.mem (HDRP (s0.mem_brk + 16 + 112)) = 3984 := hsz1
  have ff1 := find_fit_first I1 208 [] [] (s0.mem_brk + 16 + 112) rfl
    (fun x hx => by cases hx) (by rw [hsz1]; decide) fuel (by simpa using hf)
  rw [← a200] at ff1
  obtain ⟨m2, -, I2, -, B2, -⟩ := malloc_hit I1 200 (by decide) (by decide) fuel ff1
  rw [a200] at m2 I2 B2
  rw [placeBlocks_split _ _ _ _ (by show 208 + 24 ≤ 3984; decide),
    placeList_split _ _ _ (by show 208 + 24 ≤ 3984; decide), List.erase_cons_head] at I2
  dsimp only at m2 I2 B2
  generalize place s1 (s0.mem_brk + 16 + 112) 208 = s2 at m2 I2 B2
  -- the free
  have I2 : InvWith s2 [(s0.mem_brk + 16 + 112, 200), (s0.mem_brk + 16, 100)]
      ([] ++ (⟨s0.mem_brk + 16, 112, Kind.used⟩ : Blk) ::
        [⟨s0.mem_brk + 16 + 112, 208, Kind.used⟩,
          ⟨s0.mem_brk + 16 + 112 + 208, 3984 - 208, Kind.free⟩])
      [s0.mem_brk + 16 + 112 + 208] := I2
  obtain ⟨I3, -, B3, -⟩ := free_exact I2 100
    (List.mem_cons_of_mem _ (List.mem_cons_self _ _))
  dsimp only at I3 B3
  have I3 : InvWith (mm_free s2 (s0.mem_brk + 16))
      ([(s0.mem_brk + 16 + 112, 200), (s0.mem_brk + 16, 100)].erase (s0.mem_brk + 16, 100))
      ([] ++ (⟨s0.mem_brk + 16, 112, Kind.free⟩ : Blk) ::
        [⟨s0.mem_brk + 16 + 112, 208, Kind.used⟩,
          ⟨s0.mem_brk + 16 + 112 + 208, 3984 - 208, Kind.free⟩])
      [s0.mem_brk + 16, s0.mem_brk + 16 + 112 + 208] := I3
  obtain ⟨s3, hs3⟩ : ∃ s3, s3 = mm_free s2 (s0.mem_brk + 16) := ⟨_, rfl⟩
  rw [← hs3] at I3 B3
  -- the third allocation
  have hsz3 := (I3.heap.size_at ⟨s0.mem_brk + 16, 112, Kind.free⟩ (mem_mid _ _ _)
    free_ne_raw).1
  have hsz3 : GET_SIZE s3.mem (HDRP (s0.mem_brk + 16)) = 112 := hsz3
  have ff3 := find_fit_first I3 112 [] [s0.mem_brk + 16 + 112 + 208] (s0.mem_brk + 16) rfl
    (fun x hx => by cases hx) (by rw [hsz3]) fuel (by simpa using hf)
  rw [← a100] at ff3
  obtain ⟨m4, g4, -, -, B4, -⟩ := malloc_hit I3 100 (by decide) (by decide) fuel ff3
  dsimp only at m4 B4
  refine ⟨s1, s2, place s3 (s0.mem_brk + 16) (adjust_size 100), s0.mem_brk + 16,
    s0.mem_brk + 16 + 112, m1, by omega, g1.2.2.2.2.1, m2, by omega, ?_, ?_, ?_⟩
  · rw [← hs3]
    exact m4
  · rw [← hs3]
    exact g4
  · rw [B4, B3, B2, B1]

/-- Claim C18, amended.  Right after a successful `mm_init` on a fresh backing store,
with 4096 bytes free, `find_fit` misses for `mm_malloc(4096)` and the call makes exactly
one request to the backing store, of 4104 bytes, which is at least the adjusted size less
the 4096 free bytes.  When the backing store supplies them, the call succeeds: it returns
the first block of the arena, now allocated with a size of 4104 bytes, which holds the
4096 requested bytes, and the break has moved by exactly 4104 bytes; when the backing
store refuses, the call returns `NULL` in the state it was called in. -/
theorem grow_once_after_init (s0 : State) (h : FreshStore s0) (hok : (mm_init s0).2 = 0)
    (fuel : Nat) (hf : 2 ≤ fuel) :
    find_fit fuel (mm_init s0).1 (adjust_size 4096) = some 0 ∧
    mm_malloc_grows fuel (mm_init s0).1 4096 = some [4104] ∧
    adjust_size 4096 - 4096 ≤ 4104 ∧
    ((mm_init s0).1.mem_brk + 4104 ≤ (mm_init s0).1.mem_max_addr →
      ∃ s1, mm_malloc fuel (mm_init s0).1 4096 = some (s1, s0.mem_brk + 16) ∧
        s0.mem_brk + 16 ≠ 0 ∧ s1.mem_brk = (mm_init s0).1.mem_brk + 4104 ∧
        GET_ALLOC s1.mem (HDRP (s0.mem_brk + 16)) = 1 ∧
        GET_SIZE s1.mem (HDRP (s0.mem_brk + 16)) = 4104 ∧
        4096 ≤ GET_SIZE s1.mem (HDRP (s0.mem_brk + 16)) - 8) ∧
    ((mm_init s0).1.mem_max_addr < (mm_init s0).1.mem_brk + 4104 →
      mm_malloc fuel (mm_init s0).1 4096 = some ((mm_init s0).1, 0)) := by
  obtain ⟨-, I0, -, -, -, -⟩ := init_exact s0 h (init_room s0 hok)
  have a : adjust_size 4096 = 4104 := by decide
  have e : extend_size (extendsize (adjust_size 4096) / WSIZE) = 4104 := by decide
  have hsz := (I0.heap.size_at ⟨s0.mem_brk + 16, 4096, Kind.free⟩ (List.mem_singleton_self _)
    free_ne_raw).1
  have hsz : GET_SIZE (mm_init s0).1.mem (HDRP (s0.mem_brk + 16)) = 4096 := hsz
  have ff := find_fit_nofit I0 4104 (fun x hx => by
    rw [List.mem_singleton.1 hx, hsz]
    decide) fuel (by simpa using hf)
  rw [← a] at ff
  have hg : mm_malloc_grows fuel (mm_init s0).1 4096 = some [4104] := by
    simp only [mm_malloc_grows]
    rw [if_neg (by decide), ff]
    simp only [extend_heap_grows, e]
    rfl
  refine ⟨ff, hg, by decide, fun hfit => ?_, fun hno => ?_⟩
  · obtain ⟨s1, m1, -, I1, -, Sb, -⟩ := malloc_miss_ok I0 4096 (by decide) (by decide) fuel ff
      (by rw [e]; exact hfit)
    rw [e] at m1 Sb I1
    rw [a] at I1
    have hpre : growPre [(⟨s0.mem_brk + 16, 4096, Kind.free⟩ : Blk)] = [] := rfl
    have hblk : growBlk [(⟨s0.mem_brk + 16, 4096, Kind.free⟩ : Blk)] (mm_init s0).1.mem_brk 4104
        = ⟨s0.mem_brk + 16, 4096 + 4104, Kind.free⟩ := rfl
    rw [hpre, hblk, placeBlocks_split _ _ _ _ (by show 4104 + 24 ≤ 4096 + 4104; decide)] at I1
    have hU := I1.heap.size_at ⟨s0.mem_brk + 16, 4104, Kind.used⟩ (List.mem_cons_self _ _)
      used_ne_raw
    have hU1 : GET_SIZE s1.mem (HDRP (s0.mem_brk + 16)) = 4104 := hU.1
    have hU2 : GET_ALLOC s1.mem (HDRP (s0.mem_brk + 16)) = 1 := hU.2.1
    exact ⟨s1, m1, by omega, Sb, hU2, hU1, by rw [hU1]⟩
  · exact (malloc_miss_fail fuel (mm_init s0).1 4096 (by decide) ff
      (mem_sbrk_none _ _ (by rw [e]; exact hno))).1

/-! ## Neighbours of a block -/

/-- A live allocation sits in an allocated block of the description. -/
theorem InvWith.live_split {s : State} {L : List (Nat × Nat)} {bs : List Blk} {fl : List Nat}
    (h : InvWith s L bs fl) {p m : Nat} (hp : (p, m) ∈ L) :
    ∃ pre b post, bs = pre ++ b :: post ∧ b.bp = p ∧ b.kind = Kind.used ∧ m + 8 ≤ b.sz := by
  obtain ⟨b, hb, e1, e2, e3⟩ := h.live.2 (p, m) hp
  obtain ⟨pre, post, e⟩ := List.append_of_mem hb
  exact ⟨pre, b, post, e, e1, e2, e3⟩

/-- The block that starts where `A` ends is the block after `A`. -/
theorem Geo.next_split {start brk mx : Nat} {pre rest : List Blk} {A B : Blk}
    (g : Geo start brk mx (pre ++ A :: rest)) (hB : B ∈ pre ++ A :: rest)
    (hadj : B.bp = A.bp + A.sz) : ∃ post, rest = B :: post := by
  have t := (tiling_split _ _ _ _ _ g.tiling).2
  have gB := g.blk B hB
  cases rest with
  | nil =>
    have t : A.bp + A.sz = brk := t
    omega
  | cons Y post =>
    have t : Y.bp = A.bp + A.sz ∧ _ := t
    have hY : Y ∈ pre ++ A :: Y :: post :=
      List.mem_append_right _ (List.mem_cons_of_mem _ (List.mem_cons_self _ _))
    have := g.bp_inj Y B hY hB (by omega)
    exact ⟨post, by rw [this]⟩

/-- When the footer in front of `b` carries the allocated flag, the block before
`b` is not free. -/
theorem prevFree_of_alloc {s : State} {pre post : List Blk} {b : Blk} {fl : List Nat}
    (h : Heap s (pre ++ b :: post) fl) (hraw : ∀ c ∈ pre, c.kind ≠ Kind.raw)
    (ha : GET_ALLOC s.mem (FTRP s.mem (PREV_BLKP s.mem b.bp)) = 1) : prevFree pre = none := by
  refine prevFree_none (fun q hq hqf => ?_)
  rcases List.eq_nil_or_concat pre with e | ⟨pre1, q1, e⟩
  · rw [e] at hq
    cases hq
  · rw [List.concat_eq_append] at e
    rw [e, List.getLast?_concat] at hq
    have hq : q1 = q := Option.some.inj hq
    rw [e, hq] at h hraw
    have hqr : q.kind ≠ Kind.raw := hraw q (List.mem_append_right _ (List.mem_singleton_self _))
    have := (prev_some h hqr).2.2.1
    rw [ha, hqf] at this
    exact absurd this (by decide)

/-- When the header after `b` carries the allocated flag, the block after `b` is
not free. -/
theorem nextFree_of_alloc {s : State} {pre post : List Blk} {b : Blk} {fl : List Nat}
    (h : Heap s (pre ++ b :: post) fl) (hb : b.kind ≠ Kind.raw)
    (hraw : ∀ c ∈ post, c.kind ≠ Kind.raw)
    (ha : GET_ALLOC s.mem (HDRP (NEXT_BLKP s.mem b.bp)) = 1) : nextFree post = none := by
  refine nextFree_none (fun n hn hnf => ?_)
  cases post with
  | nil => cases hn
  | cons n1 post1 =>
    have hn : n1 = n := Option.some.inj hn
    rw [hn] at h hraw
    have := (next_some h hb (hraw n (List.mem_cons_self _ _))).2.2.1
    rw [ha, hnf] at this
    exact absurd this (by decide)

/-- In the invariant, the walk over the arena finds the prologue and the blocks,
and no block it finds is free together with the block after it. -/
theorem InvWith.coalesced {s : State} {L : List (Nat × Nat)} {bs : List Blk} {fl : List Nat}
    (I : InvWith s L bs fl) :
    (∀ fuel, bs.length + 2 ≤ fuel → heapBlocks fuel s = some (s.start :: bs.map Blk.bp)) ∧
      ∀ bp ∈ s.start :: bs.map Blk.bp, ¬ (GET_ALLOC s.mem (HDRP bp) = 0 ∧
        GET_ALLOC s.mem (HDRP (NEXT_BLKP s.mem bp)) = 0) := by
  obtain ⟨⟨r1, -, -, -⟩, rb⟩ := I.read
  refine ⟨fun fuel hf => ?_, fun bp hbp => ?_⟩
  · have := I.observe.1 (fuel - (bs.length + 2))
    rw [show bs.length + 2 + (fuel - (bs.length + 2)) = fuel by omega] at this
    exact this
  · rcases List.mem_cons.1 hbp with e | e
    · rw [e]
      have : GET_ALLOC s.mem (HDRP s.start) = 1 :=
        (decode_tag s.mem (HDRP s.start) 8 1 r1 rfl (le_refl 1)).2
      rw [this]
      exact fun hh => absurd hh.1 (by decide)
    · obtain ⟨b, hb, rfl⟩ := List.mem_map.1 e
      obtain ⟨pre, post, hbs⟩ := List.append_of_mem hb
      rintro ⟨h1, h2⟩
      have hbr : b.kind ≠ Kind.raw := I.no_raw b hb
      have H := I.heap
      rw [hbs] at H
      have rpost : ∀ c ∈ post, c.kind ≠ Kind.raw := fun c hc =>
        I.no_raw c (by rw [hbs]; exact List.mem_append_right _ (List.mem_cons_of_mem _ hc))
      rw [(I.heap.size_at b hb hbr).2.1] at h1
      have hbf := bit_zero_free b.kind hbr h1
      cases post with
      | nil =>
        rw [next_none H hbr] at h2
        exact absurd h2 (by decide)
      | cons c post1 =>
        have hcr := rpost c (List.mem_cons_self _ _)
        rw [(next_some H hbr hcr).2.2.1] at h2
        have hcf := bit_zero_free c.kind hcr h2
        have na := I.no_adj
        rw [hbs] at na
        have := ((noAdj_mid_iff pre (c :: post1) b).1 na).2.2.2
        exact this c rfl ⟨hbf, hcf⟩

/-! ## Reuse of a freed block -/

theorem nextFree_eq_some {post : List Blk} {n : Blk} (h : nextFree post = some n) :
    post = n :: post.tail ∧ n.kind = Kind.free := by
  cases post with
  | nil => cases h
  | cons c t =>
    unfold nextFree at h
    by_cases hc : c.kind = Kind.free
    · simp [Option.filter, hc] at h
      subst h
      exact ⟨rfl, hc⟩
    · simp [Option.filter, hc] at h

/-- After `mm_free` of a block whose predecessor is allocated, the freed block
(merged with a free block after it) is the head of the free list. -/
theorem free_at_head {s : State} {L : List (Nat × Nat)} {pre post : List Blk} {b : Blk}
    {fl : List Nat} (I : InvWith s L (pre ++ b :: post) fl) (m : Nat) (hp : (b.bp, m) ∈ L)
    (hprev : GET_ALLOC s.mem (FTRP s.mem (PREV_BLKP s.mem b.bp)) = 1) :
    ∃ X post1 fl1, InvWith (mm_free s b.bp) (L.erase (b.bp, m)) (pre ++ X :: post1)
        (b.bp :: fl1) ∧
      X.bp = b.bp ∧ X.kind = Kind.free ∧
      ((X.sz = b.sz ∧ nextFree post = none ∧ post1 = post) ∨
        (∃ n, nextFree post = some n ∧ X.sz = b.sz + n.sz ∧ b.sz + 24 ≤ X.sz ∧
          post1 = post.tail)) ∧
      (mm_free s b.bp).mem_brk = s.mem_brk := by
  obtain ⟨E, -, Sb, -⟩ := free_exact I m hp
  have rpre : ∀ c ∈ pre, c.kind ≠ Kind.raw :=
    fun c hc => I.no_raw c (List.mem_append_left _ hc)
  have hpf := prevFree_of_alloc I.heap rpre hprev
  unfold coBlocks coList at E
  rw [hpf] at E
  cases hn : nextFree post with
  | none =>
    rw [hn] at E
    exact ⟨_, _, _, E, rfl, rfl, Or.inl ⟨rfl, rfl, rfl⟩, Sb⟩
  | some n =>
    rw [hn] at E
    have hnp : n ∈ pre ++ b :: post := by
      have := (nextFree_eq_some hn).1
      rw [this]
      exact List.mem_append_right _ (List.mem_cons_of_mem _ (List.mem_cons_self _ _))
    have gn := I.heap.geo.blk n hnp
    refine ⟨_, _, _, E, rfl, rfl, Or.inr ⟨n, rfl, rfl, ?_, rfl⟩, Sb⟩
    show b.sz + 24 ≤ b.sz + n.sz
    omega

/-- Claim C20, amended.  In a reachable state, for a live block `p` of size `S` whose
physically preceding block is allocated, and a request `n` of more than 8 and at most
`2 ^ 31 - 16` bytes whose adjusted size is at most `S`: after `mm_free(p)` the freed block
is the head of the free list, and the next `mm_malloc(n)` finds it by first fit, asks the
backing store for nothing and returns `p` itself; the break stays and the block at `p` is
allocated with a size of at most `S`, so it lies within the span of the freed block. -/
theorem freed_block_reused {s : State} {L : List (Nat × Nat)} (h : Reach s L) (p m : Nat)
    (hp : (p, m) ∈ L) (n : Nat) (h1 : 8 < n) (h2 : n ≤ 2 ^ 31 - 16)
    (hfit : adjust_size n ≤ GET_SIZE s.mem (HDRP p))
    (hprev : GET_ALLOC s.mem (FTRP s.mem (PREV_BLKP s.mem p)) = 1)
    (fuel : Nat) (hf : 1 ≤ fuel) :
    (mm_free s p).firstfree = p ∧
    find_fit fuel (mm_free s p) (adjust_size n) = some p ∧
    mm_malloc_grows fuel (mm_free s p) n = some [] ∧
    ∃ s2, mm_malloc fuel (mm_free s p) n = some (s2, p) ∧
      s2.mem_brk = s.mem_brk ∧ GET_ALLOC s2.mem (HDRP p) = 1 ∧
      GET_SIZE s2.mem (HDRP p) ≤ GET_SIZE s.mem (HDRP p) ∧
      p + GET_SIZE s2.mem (HDRP p) ≤ p + GET_SIZE s.mem (HDRP p) := by
  have hn0 : n ≠ 0 := by omega
  obtain ⟨bs, fl, I⟩ := reach_inv h
  obtain ⟨pre, b, post, hbs, hbp, hbk, -⟩ := I.live_split hp
  rw [hbs] at I
  subst hbp
  have hS := (I.heap.size_at b (mem_mid _ _ _) (by rw [hbk]; exact used_ne_raw)).1
  rw [hS] at hfit
  rw [hS]
  obtain ⟨X, post1, fl1, I3, hXb, hXk, hXs, B3⟩ := free_at_head I m hp hprev
  obtain ⟨s3, hs3⟩ : ∃ s3, s3 = mm_free s b.bp := ⟨_, rfl⟩
  rw [← hs3] at I3 B3 ⊢
  have hXm : X ∈ pre ++ X :: post1 := mem_mid _ _ _
  have gX := I3.heap.geo.blk X hXm
  have hX0 : b.bp ≠ 0 := by omega
  have hsz3 := I3.heap.size_at X hXm (by rw [hXk]; exact free_ne_raw)
  rw [hXb] at hsz3
  have hle : b.sz ≤ X.sz := by
    rcases hXs with ⟨e, -⟩ | ⟨n1, -, e, -⟩ <;> omega
  have ff : find_fit fuel s3 (adjust_size n) = some b.bp :=
    find_fit_first I3 (adjust_size n) [] fl1 b.bp rfl (fun x hx => by cases hx)
      (by rw [hsz3.1]; omega) fuel (by simpa using hf)
  have hg : mm_malloc_grows fuel s3 n = some [] := by
    simp only [mm_malloc_grows]
    rw [if_neg hn0, ff]
    simp only [if_pos hX0]
  have hm : mm_malloc fuel s3 n = some (place s3 b.bp (adjust_size n), b.bp) := by
    rw [mm_malloc_some fuel s3 n b.bp hn0 ff, if_pos hX0]
  have hhd : s3.firstfree = b.bp := I3.heap.flist.head
  refine ⟨hhd, ff, hg, _, hm, ?_⟩
  obtain ⟨a1, a2, a3, a4, a5⟩ := adjust_size_good n h1 h2
  have ffX : find_fit fuel s3 (adjust_size n) = some X.bp := by rw [hXb]; exact ff
  obtain ⟨-, -, I4, -, B4, -⟩ := malloc_hit I3 n h1 h2 fuel ffX
  rw [hXb] at I4 B4
  refine ⟨by rw [B4, B3], ?_⟩
  by_cases hsp : adjust_size n + 24 ≤ X.sz
  · rw [placeBlocks_split _ _ _ _ hsp, hXb] at I4
    have := I4.heap.size_at ⟨b.bp, adjust_size n, Kind.used⟩ (mem_mid _ _ _) used_ne_raw
    refine ⟨this.2.1, by rw [this.1]; exact hfit, ?_⟩
    rw [this.1]
    exact Nat.add_le_add_left hfit _
  · rw [placeBlocks_whole _ _ _ _ (by omega), hXb] at I4
    have := I4.heap.size_at ⟨b.bp, X.sz, Kind.used⟩ (mem_mid _ _ _) used_ne_raw
    have hXb2 : X.sz ≤ b.sz := by
      rcases hXs with ⟨e, -⟩ | ⟨n1, -, -, e, -⟩ <;> omega
    refine ⟨this.2.1, ?_, ?_⟩
    · rw [this.1]
      exact hXb2
    · rw [this.1]
      exact Nat.add_le_add_left hXb2 _

/-! ## Freeing three adjacent blocks -/

theorem prevFree_used {pre : List Blk} {q : Blk} (hq : q.kind = Kind.used) :
    prevFree (pre ++ [q]) = none := by
  refine prevFree_none (fun x hx => ?_)
  rw [List.getLast?_concat] at hx
  have : q = x := Option.some.inj hx
  rw [← this, hq]
  exact used_ne_free

theorem nextFree_used {post : List Blk} {n : Blk} (hn : n.kind = Kind.used) :
    nextFree (n :: post) = none := by
  refine nextFree_none (fun x hx => ?_)
  have : n = x := Option.some.inj hx
  rw [← this, hn]
  exact used_ne_free

theorem coBlocks_nn {pre post : List Blk} (b : Blk) (hp : prevFree pre = none)
    (hn : nextFree post = none) :
    coBlocks pre b post = pre ++ ⟨b.bp, b.sz, Kind.free⟩ :: post := by
  unfold coBlocks
  rw [hp, hn]

theorem coBlocks_ns {pre post : List Blk} (b : Blk) {n : Blk} (hp : prevFree pre = none)
    (hn : nextFree post = some n) :
    coBlocks pre b post = pre ++ ⟨b.bp, b.sz + n.sz, Kind.free⟩ :: post.tail := by
  unfold coBlocks
  rw [hp, hn]

theorem coBlocks_sn {pre post : List Blk} (b : Blk) {q : Blk} (hp : prevFree pre = some q)
    (hn : nextFree post = none) :
    coBlocks pre b post = pre.dropLast ++ ⟨q.bp, q.sz + b.sz, Kind.free⟩ :: post := by
  unfold coBlocks
  rw [hp, hn]

theorem coBlocks_ss {pre post : List Blk} (b : Blk) {q n : Blk} (hp : prevFree pre = some q)
    (hn : nextFree post = some n) :
    coBlocks pre b post =
      pre.dropLast ++ ⟨q.bp, q.sz + b.sz + n.sz, Kind.free⟩ :: post.tail := by
  unfold coBlocks
  rw [hp, hn]

/-- The walk over the arena in the invariant, as `Coalesced`. -/
theorem InvWith.walk {s : State} {L : List (Nat × Nat)} {bs : List Blk} {fl : List Nat}
    (I : InvWith s L bs fl) : Coalesced s (s.start :: bs.map Blk.bp) :=
  ⟨⟨bs.length + 2, I.coalesced.1⟩, I.coalesced.2⟩

/-- A block pointer strictly inside a block of the description is not found by
the walk over the arena. -/
theorem inside_not_walked {s : State} {L : List (Nat × Nat)} {pre post : List Blk} {Z : Blk}
    {fl : List Nat} (I : InvWith s L (pre ++ Z :: post) fl) (x : Nat) (h1 : Z.bp < x)
    (h2 : x < Z.bp + Z.sz) : x ∉ s.start :: (pre ++ Z :: post).map Blk.bp := by
  have hZ : Z ∈ pre ++ Z :: post := mem_mid _ _ _
  have gZ := I.heap.geo.blk Z hZ
  intro hx
  rcases List.mem_cons.1 hx with e | e
  · omega
  · obtain ⟨Y, hY, hYx⟩ := List.mem_map.1 e
    have gY := I.heap.geo.blk Y hY
    rcases I.heap.geo.sep Y Z hY hZ with e1 | e1 | e1
    · rw [e1] at hYx
      omega
    · omega
    · omega

/-- Claim C19, amended.  In a reachable state, for three live blocks `a`, `b`,
`c` that follow one another in the arena, the block before `a` being allocated,
and the frees `mm_free(b)`, `mm_free(a)`, `mm_free(c)`: after each of the three
the walk over the arena finds no block that is free together with the block
after it; after the last the walk finds a block at `a` and none at `b` or `c`,
the block at `a` is free and has at least the three sizes together, and exactly
that when the block after `c` was allocated. -/
theorem free_three_adjacent {s : State} {L : List (Nat × Nat)} (h : Reach s L)
    (a b c ma mb mc : Nat) (ha : (a, ma) ∈ L) (hb : (b, mb) ∈ L) (hc : (c, mc) ∈ L)
    (hab : NEXT_BLKP s.mem a = b) (hbc : NEXT_BLKP s.mem b = c)
    (hprev : GET_ALLOC s.mem (FTRP s.mem (PREV_BLKP s.mem a)) = 1) :
    (∃ W, Coalesced (mm_free s b) W) ∧
    (∃ W, Coalesced (mm_free (mm_free s b) a) W) ∧
    ∃ W, Coalesced (mm_free (mm_free (mm_free s b) a) c) W ∧ a ∈ W ∧ b ∉ W ∧ c ∉ W ∧
      GET_ALLOC (mm_free (mm_free (mm_free s b) a) c).mem (HDRP a) = 0 ∧
      GET_SIZE s.mem (HDRP a) + GET_SIZE s.mem (HDRP b) + GET_SIZE s.mem (HDRP c) ≤
        GET_SIZE (mm_free (mm_free (mm_free s b) a) c).mem (HDRP a) ∧
      (GET_ALLOC s.mem (HDRP (NEXT_BLKP s.mem c)) = 1 →
        GET_SIZE (mm_free (mm_free (mm_free s b) a) c).mem (HDRP a) =
          GET_SIZE s.mem (HDRP a) + GET_SIZE s.mem (HDRP b) + GET_SIZE s.mem (HDRP c)) := by
  obtain ⟨bs, fl, I⟩ := reach_inv h
  obtain ⟨pre, A, r1, hbs, hAp, hAk, -⟩ := I.live_split ha
  obtain ⟨B, hB, hBp, hBk, -⟩ := I.live.2 (b, mb) hb
  obtain ⟨C, hC, hCp, hCk, -⟩ := I.live.2 (c, mc) hc
  have hBp : B.bp = b := hBp
  have hCp : C.bp = c := hCp
  subst hAp hBp hCp
  have hA : A ∈ bs := by rw [hbs]; exact mem_mid _ _ _
  have sA := (I.heap.size_at A hA (I.no_raw A hA)).1
  have sB := (I.heap.size_at B hB (I.no_raw B hB)).1
  have sC := (I.heap.size_at C hC (I.no_raw C hC)).1
  have gA := I.heap.geo.blk A hA
  have gB := I.heap.geo.blk B hB
  have gC := I.heap.geo.blk C hC
  have hab : A.bp + A.sz = B.bp := by
    unfold NEXT_BLKP at hab
    rw [← sA]
    exact hab
  have hbc : B.bp + B.sz = C.bp := by
    unfold NEXT_BLKP at hbc
    rw [← sB]
    exact hbc
  rw [sA, sB, sC]
  rw [hbs] at I hB hC
  obtain ⟨r2, hr1⟩ := I.heap.geo.next_split hB hab.symm
  subst hr1
  have I0 : InvWith s L ((pre ++ [A]) ++ B :: r2) fl := by
    rw [List.append_assoc]
    exact I
  have hC0 : C ∈ (pre ++ [A]) ++ B :: r2 := by
    rw [List.append_assoc]
    exact hC
  obtain ⟨post, hr2⟩ := I0.heap.geo.next_split hC0 hbc.symm
  subst hr2
  have rpre : ∀ x ∈ pre, x.kind ≠ Kind.raw :=
    fun x hx => I.no_raw x (List.mem_append_left _ hx)
  have hpf : prevFree pre = none := prevFree_of_alloc I.heap rpre hprev
  -- what the tags say about the block after `c`
  have I00 : InvWith s L ((pre ++ [A, B]) ++ C :: post) fl := by
    rw [List.append_assoc]
    exact I
  have rpost : ∀ x ∈ post, x.kind ≠ Kind.raw := fun x hx =>
    I00.no_raw x (List.mem_append_right _ (List.mem_cons_of_mem _ hx))
  have hnext : GET_ALLOC s.mem (HDRP (NEXT_BLKP s.mem C.bp)) = 1 → nextFree post = none :=
    fun e => nextFree_of_alloc I00.heap (by rw [hCk]; exact used_ne_raw) rpost e
  have hne1 : (A.bp, ma) ≠ (B.bp, mb) := fun e => by
    have := congrArg Prod.fst e
    have : A.bp = B.bp := this
    omega
  have hne2 : (C.bp, mc) ≠ (B.bp, mb) := fun e => by
    have := congrArg Prod.fst e
    have : C.bp = B.bp := this
    omega
  have hne3 : (C.bp, mc) ≠ (A.bp, ma) := fun e => by
    have := congrArg Prod.fst e
    have : C.bp = A.bp := this
    omega
  -- `mm_free(b)`
  obtain ⟨I1, -⟩ := free_exact I0 mb hb
  rw [coBlocks_nn B (prevFree_used hAk) (nextFree_used hCk), List.append_assoc] at I1
  obtain ⟨s1, hs1⟩ : ∃ s1, s1 = mm_free s B.bp := ⟨_, rfl⟩
  rw [← hs1] at I1 ⊢
  have I1 : InvWith s1 (L.erase (B.bp, mb))
      (pre ++ A :: ((⟨B.bp, B.sz, Kind.free⟩ : Blk) :: C :: post))
      (coList (pre ++ [A]) B (C :: post) fl) := I1
  have ha1 : (A.bp, ma) ∈ L.erase (B.bp, mb) := (List.mem_erase_of_ne hne1).2 ha
  have hc1 : (C.bp, mc) ∈ L.erase (B.bp, mb) := (List.mem_erase_of_ne hne2).2 hc
  -- `mm_free(a)`
  obtain ⟨I2, -⟩ := free_exact I1 ma ha1
  rw [coBlocks_ns A hpf (nextFree_some rfl)] at I2
  obtain ⟨s2, hs2⟩ : ∃ s2, s2 = mm_free s1 A.bp := ⟨_, rfl⟩
  rw [← hs2] at I2 ⊢
  have I2 : InvWith s2 ((L.erase (B.bp, mb)).erase (A.bp, ma))
      ((pre ++ [(⟨A.bp, A.sz + B.sz, Kind.free⟩ : Blk)]) ++ C :: post)
      (coList pre A ((⟨B.bp, B.sz, Kind.free⟩ : Blk) :: C :: post)
        (coList (pre ++ [A]) B (C :: post) fl)) := by
    rw [List.append_assoc]
    exact I2
  have hc2 : (C.bp, mc) ∈ (L.erase (B.bp, mb)).erase (A.bp, ma) :=
    (List.mem_erase_of_ne hne3).2 hc1
  -- `mm_free(c)`
  obtain ⟨I3, -⟩ := free_exact I2 mc hc2
  obtain ⟨s3, hs3⟩ : ∃ s3, s3 = mm_free s2 C.bp := ⟨_, rfl⟩
  rw [← hs3] at I3 ⊢
  have hq : prevFree (pre ++ [(⟨A.bp, A.sz + B.sz, Kind.free⟩ : Blk)]) =
      some ⟨A.bp, A.sz + B.sz, Kind.free⟩ := prevFree_some rfl
  have key : ∃ Z post3 fl3, InvWith s3 (((L.erase (B.bp, mb)).erase (A.bp, ma)).erase (C.bp, mc))
      (pre ++ Z :: post3) fl3 ∧ Z.bp = A.bp ∧ Z.kind = Kind.free ∧
      A.sz + B.sz + C.sz ≤ Z.sz ∧ (nextFree post = none → Z.sz = A.sz + B.sz + C.sz) := by
    cases hn : nextFree post with
    | none =>
      rw [coBlocks_sn C hq hn, List.dropLast_concat] at I3
      exact ⟨_, _, _, I3, rfl, rfl, le_refl _, fun _ => rfl⟩
    | some n =>
      rw [coBlocks_ss C hq hn, List.dropLast_concat] at I3
      exact ⟨_, _, _, I3, rfl, rfl, Nat.le_add_right _ _, fun e => Option.noConfusion e⟩
  obtain ⟨Z, post3, fl3, J3, hZb, hZk, hZs, hZe⟩ := key
  have hZ : Z ∈ pre ++ Z :: post3 := mem_mid _ _ _
  have sZ := J3.heap.size_at Z hZ (by rw [hZk]; exact free_ne_raw)
  rw [hZb, hZk] at sZ
  refine ⟨⟨_, I1.walk⟩, ⟨_, I2.walk⟩, _, J3.walk, ?_, ?_, ?_, sZ.2.1, ?_, ?_⟩
  · exact List.mem_cons_of_mem _ (List.mem_map.2 ⟨Z, hZ, hZb⟩)
  · exact inside_not_walked J3 B.bp (by omega) (by omega)
  · exact inside_not_walked J3 C.bp (by omega) (by omega)
  · rw [sZ.1]
    exact hZs
  · intro e
    rw [sZ.1]
    exact hZe (hnext e)

/-! ## What `mm_realloc` copies -/

theorem prevFree_eq_some {pre : List Blk} {q : Blk} (h : prevFree pre = some q) :
    pre = pre.dropLast ++ [q] ∧ q.kind = Kind.free := by
  rcases List.eq_nil_or_concat pre with e | ⟨pre1, q1, e⟩
  · rw [e] at h
    cases h
  · rw [List.concat_eq_append] at e
    subst e
    unfold prevFree at h
    rw [List.getLast?_concat] at h
    by_cases hc : q1.kind = Kind.free
    · simp [Option.filter, hc] at h
      subst h
      exact ⟨by rw [List.dropLast_concat], hc⟩
    · simp [Option.filter, hc] at h

theorem growPre_used (bs : List Blk) (c : Blk) (hc : c ∈ bs) (hk : c.kind = Kind.used) :
    c ∈ growPre bs := by
  unfold growPre
  cases hq : prevFree bs with
  | none => exact hc
  | some q =>
    obtain ⟨e1, e2⟩ := prevFree_eq_some hq
    rw [e1] at hc
    rcases List.mem_append.1 hc with e | e
    · exact e
    · have : c = q := List.mem_singleton.1 e
      rw [this, e2] at hk
      exact absurd hk (fun e => Kind.noConfusion e)

theorem placeBlocks_keeps (pre post : List Blk) (X : Blk) (asize : Nat) (c : Blk)
    (hc : c ∈ pre ∨ c ∈ post) : c ∈ placeBlocks pre X post asize := by
  unfold placeBlocks
  by_cases hsp : asize + MINIMUM ≤ X.sz
  · rw [if_pos hsp]
    rcases hc with e | e
    · exact List.mem_append_left _ e
    · exact List.mem_append_right _ (List.mem_cons_of_mem _ (List.mem_cons_of_mem _ e))
  · rw [if_neg hsp]
    rcases hc with e | e
    · exact List.mem_append_left _ e
    · exact List.mem_append_right _ (List.mem_cons_of_mem _ e)

/-- A successful `mm_malloc` keeps the allocated blocks as they are. -/
theorem malloc_keeps_used {s : State} {L : List (Nat × Nat)} {bs : List Blk} {fl : List Nat}
    (I : InvWith s L bs fl) (n : Nat) (h1 : 8 < n) (h2 : n ≤ 2 ^ 31 - 16) (fuel : Nat)
    (s1 : State) (q : Nat) (hm : mm_malloc fuel s n = some (s1, q)) (hq : q ≠ 0) :
    ∃ bs1 fl1, InvWith s1 ((q, n) :: L) bs1 fl1 ∧ ∀ c ∈ bs, c.kind = Kind.used → c ∈ bs1 := by
  have hn0 : n ≠ 0 := by omega
  cases hff : find_fit fuel s (adjust_size n) with
  | none =>
    rw [mm_malloc_none fuel s n hn0 hff] at hm
    cases hm
  | some r =>
    by_cases hr : r = 0
    · subst hr
      by_cases hfit : s.mem_brk + extend_size (extendsize (adjust_size n) / WSIZE)
          ≤ s.mem_max_addr
      · obtain ⟨s1a, m1, -, I1, -⟩ := malloc_miss_ok I n h1 h2 fuel hff hfit
        rw [m1] at hm
        obtain ⟨e1, e2⟩ := Prod.mk.inj (Option.some.inj hm)
        rw [e1, e2] at I1
        exact ⟨_, _, I1, fun c hc hk => placeBlocks_keeps _ _ _ _ c
          (Or.inl (growPre_used bs c hc hk))⟩
      · have := (malloc_miss_fail fuel s n hn0 hff (mem_sbrk_none _ _ (by omega))).1
        rw [this] at hm
        obtain ⟨-, e2⟩ := Prod.mk.inj (Option.some.inj hm)
        exact absurd e2.symm hq
    · obtain ⟨X, hX, hXb, hXk, -⟩ := ((find_fit_spec I _ fuel).2 r hff).resolve_left hr
      obtain ⟨pre, post, e⟩ := List.append_of_mem hX
      subst e
      subst hXb
      obtain ⟨m1, -, I1, -⟩ := malloc_hit I n h1 h2 fuel hff
      rw [m1] at hm
      obtain ⟨e1, e2⟩ := Prod.mk.inj (Option.some.inj hm)
      rw [e1, e2] at I1
      refine ⟨_, _, I1, fun c hc hk => placeBlocks_keeps _ _ _ _ c ?_⟩
      rcases (mem_mid_iff _ _ _ _).1 hc with e | e | e
      · rw [e, hXk] at hk
        exact absurd hk (fun e => Kind.noConfusion e)
      · exact Or.inl e
      · exact Or.inr e

theorem memcpy_read (m : Mem) (dst src k i : Nat) (hi : i < k) :
    memcpy m dst src k (dst + i) = m (src + i) := by
  unfold memcpy
  rw [if_pos ⟨Nat.le_add_right _ _, by omega⟩, Nat.add_sub_cancel_left]

/-- Claim C15, amended.  In a reachable state, for a live allocation `p` of `m`
requested bytes and a request `n` of more than 8 and at most `2 ^ 31 - 16` bytes
for which the internal `mm_malloc` returns a pointer, the number of bytes
`mm_realloc(p, n)` copies from the old block to the new one is the smaller of `n`
and the size of the old block, header and footer included, which is at least
`m + 8`; these bytes of the new block are those that followed `p`. -/
theorem realloc_copies_block {s : State} {L : List (Nat × Nat)} (h : Reach s L) (p m : Nat)
    (hp : (p, m) ∈ L) (n : Nat) (h1 : 8 < n) (h2 : n ≤ 2 ^ 31 - 16) (fuel : Nat)
    (s1 : State) (q : Nat) (hm : mm_malloc fuel s n = some (s1, q)) (hq : q ≠ 0) :
    copySize s1.mem p n = min n (GET_SIZE s.mem (HDRP p)) ∧
    m + 8 ≤ GET_SIZE s.mem (HDRP p) ∧
    mm_realloc fuel s p n = some (ReallocResult.returned
      (mm_free { s1 with mem := memcpy s1.mem q p (min n (GET_SIZE s.mem (HDRP p))) } p) q) ∧
    ∀ i, i < min n (GET_SIZE s.mem (HDRP p)) →
      memcpy s1.mem q p (min n (GET_SIZE s.mem (HDRP p))) (q + i) = s1.mem (p + i) := by
  obtain ⟨bs, fl, I⟩ := reach_inv h
  obtain ⟨b, hb, hbp, hbk, hbs⟩ := I.live.2 (p, m) hp
  have hbp : b.bp = p := hbp
  have hbs : m + 8 ≤ b.sz := hbs
  subst hbp
  obtain ⟨bs1, fl1, I1, keep⟩ := malloc_keeps_used I n h1 h2 fuel s1 q hm hq
  have hbr : b.kind ≠ Kind.raw := by rw [hbk]; exact used_ne_raw
  have e0 := (I.heap.size_at b hb hbr).1
  have e1 := (I1.heap.size_at b (keep b hb hbk) hbr).1
  have hcs : copySize s1.mem b.bp n = min n (GET_SIZE s.mem (HDRP b.bp)) := by
    unfold copySize
    rw [e1, e0]
    by_cases hlt : n < b.sz
    · rw [if_pos hlt, Nat.min_eq_left (le_of_lt hlt)]
    · rw [if_neg hlt, Nat.min_eq_right (by omega)]
  refine ⟨hcs, by rw [e0]; exact hbs, ?_, fun i hi => memcpy_read _ _ _ _ _ hi⟩
  rw [mm_realloc_some fuel s b.bp n s1 q hm, if_neg hq, hcs]

/-! ## A second `mm_free` of the same pointer -/

theorem coList_ns {pre post : List Blk} (b : Blk) {n : Blk} (fl : List Nat)
    (hp : prevFree pre = none) (hn : nextFree post = some n) :
    coList pre b post fl = b.bp :: fl.erase n.bp := by
  unfold coList
  rw [hp, hn]

/-- A walk along the `next` links from a node that is its own successor never
reaches `NULL`. -/
theorem nodesFrom_loop (m : Mem) (p : Nat) (hp0 : p ≠ 0) (h : getNext m p = p) :
    ∀ fuel, nodesFrom m fuel p = none := by
  intro fuel
  induction fuel with
  | zero => rfl
  | succ k ih =>
    show (if p = 0 then some [] else (nodesFrom m k (getNext m p)).map (fun l => p :: l)) = none
    rw [if_neg hp0, h, ih]
    rfl

/-- `insert_to_free` of the block that already is the head of the list: both
links of the block are set to the block itself, and no word outside the two link
fields changes. -/
theorem insert_head_again (G : State) (p : Nat) (hal : GET_ALLOC G.mem (HDRP p) = 0)
    (hff : G.firstfree = p) (hp0 : p ≠ 0) (hlt : p < 18446744073709551616) :
    (insert_to_free G p).firstfree = p ∧ getNext (insert_to_free G p).mem p = p ∧
    getPrev (insert_to_free G p).mem p = p ∧
    (insert_to_free G p).start = G.start ∧ (insert_to_free G p).mem_brk = G.mem_brk ∧
    ∀ x, x + 4 ≤ p ∨ p + 16 ≤ x → GET (insert_to_free G p).mem x = GET G.mem x := by
  simp only [insert_to_free]
  rw [if_neg (by rw [hal]; exact fun e => e rfl), if_neg (by rw [hff]; exact hp0)]
  simp only [hff]
  refine ⟨trivial, ?_, ?_, trivial, trivial, fun x hx => ?_⟩
  · show loadPtr (storePtr (storePtr (storePtr G.mem p (getPrev G.mem p)) (p + 8) p) p p)
      (p + 8) = p
    rw [loadPtr_storePtr_disj _ _ _ _ (Or.inr (le_refl _)), loadPtr_storePtr_same _ _ _ hlt]
  · show loadPtr (storePtr (storePtr (storePtr G.mem p (getPrev G.mem p)) (p + 8) p) p p)
      p = p
    exact loadPtr_storePtr_same _ _ _ hlt
  · show GET (storePtr (storePtr (storePtr G.mem p (getPrev G.mem p)) (p + 8) p) p p) x
      = GET G.mem x
    rw [GET_storePtr_disj _ _ _ _ (by omega), GET_storePtr_disj _ _ _ _ (by omega),
      GET_storePtr_disj _ _ _ _ (by omega)]

/-- `mm_free` of a block that is free already and heads the free list: the tags
and the head of the list stay, and both links of the block are set to the block
itself. -/
theorem free_of_free_head {s : State} {L : List (Nat × Nat)} {pre post : List Blk} {b : Blk}
    {ys : List Nat} (I : InvWith s L (pre ++ b :: post) (b.bp :: ys))
    (hbk : b.kind = Kind.free) :
    (mm_free s b.bp).firstfree = b.bp ∧ getNext (mm_free s b.bp).mem b.bp = b.bp ∧
    getPrev (mm_free s b.bp).mem b.bp = b.bp ∧
    (mm_free s b.bp).start = s.start ∧ (mm_free s b.bp).mem_brk = s.mem_brk ∧
    ∀ x, x % 4 = 0 → x + 4 ≤ b.bp ∨ b.bp + 16 ≤ x →
      GET (mm_free s b.bp).mem x = GET s.mem x := by
  have hb : b ∈ pre ++ b :: post := mem_mid _ _ _
  have hbr : b.kind ≠ Kind.raw := by rw [hbk]; exact free_ne_raw
  have gb := I.heap.geo.blk b hb
  have hp0 : b.bp ≠ 0 := by omega
  have hS := (I.heap.size_at b hb hbr).1
  have rpre : ∀ c ∈ pre, c.kind ≠ Kind.raw :=
    fun c hc => I.no_raw c (List.mem_append_left _ hc)
  have rpost : ∀ c ∈ post, c.kind ≠ Kind.raw :=
    fun c hc => I.no_raw c (List.mem_append_right _ (List.mem_cons_of_mem _ hc))
  obtain ⟨H, F⟩ := retag_spec I.heap Kind.free
  rw [blk_eta b Kind.free hbk] at H
  have F : ∀ a, (a < b.bp - 4 ∨ b.bp ≤ a) → (a < b.bp + b.sz - 8 ∨ b.bp + b.sz - 4 ≤ a) →
      put_tags s.mem b.bp b.sz 0 a = s.mem a := F
  obtain ⟨G, hG⟩ : ∃ G : State, G = { s with mem := put_tags s.mem b.bp b.sz 0 } := ⟨_, rfl⟩
  have H : Heap G (pre ++ b :: post) (b.bp :: ys) := by
    rw [hG]
    exact H
  have na := (noAdj_mid_iff pre post b).1 I.no_adj
  have e1 := prev_alloc_used H rpre (fun q hq hqf => na.2.2.1 q hq ⟨hqf, hbk⟩)
  have e2 := next_alloc_used H hbr rpost (fun n hn hnf => na.2.2.2 n hn ⟨hbk, hnf⟩)
  have hfree : mm_free s b.bp = insert_to_free G b.bp := by
    rw [mm_free_eq s b.bp b.sz hp0 hS, ← hG, coalesce_none G b.bp e1 e2]
  have hal : GET_ALLOC G.mem (HDRP b.bp) = 0 := by
    rw [(H.size_at b hb hbr).2.1, hbk]
    rfl
  have hff : G.firstfree = b.bp := H.flist.head
  obtain ⟨r1, r2, r3, r5, r6, r4⟩ := insert_head_again G b.bp hal hff hp0 gb.2.2.2.2.2.2
  have hGm : G.mem = put_tags s.mem b.bp b.sz 0 := by rw [hG]
  have hGs : G.start = s.start := by rw [hG]
  have hGb : G.mem_brk = s.mem_brk := by rw [hG]
  rw [hfree]
  refine ⟨r1, r2, r3, by rw [r5]; exact hGs, by rw [r6]; exact hGb, fun x hx4 hx => ?_⟩
  rw [r4 x hx]
  have tH := H.tags.tags b hb hbr
  have tI := I.heap.tags.tags b hb hbr
  by_cases hx1 : x = b.bp - 4
  · rw [hx1, tH.1, tI.1]
  · by_cases hx2 : x = b.bp + b.sz - 8
    · rw [hx2, tH.2, tI.2]
    · refine GET_congr _ _ _ (fun a ha1 ha2 => ?_)
      rw [hGm]
      exact F a (by omega) (by omega)

/-- The state after `mm_init`, `p = mm_malloc(10)` and `mm_free(p)`: one free
block of 4096 bytes again, alone in the free list. -/
theorem malloc_10_freed (s0 : State) (h : FreshStore s0) (hok : (mm_init s0).2 = 0)
    (fuel : Nat) (hf : 1 ≤ fuel) :
    ∃ s1, mm_malloc fuel (mm_init s0).1 10 = some (s1, s0.mem_brk + 16) ∧
      InvWith (mm_free s1 (s0.mem_brk + 16)) []
        ([] ++ (⟨s0.mem_brk + 16, 4096, Kind.free⟩ : Blk) :: []) [s0.mem_brk + 16] := by
  obtain ⟨-, I0, -, -, -, -⟩ := init_exact s0 h (init_room s0 hok)
  have a10 : adjust_size 10 = 24 := by decide
  have I0 : InvWith (mm_init s0).1 [] ([] ++ (⟨s0.mem_brk + 16, 4096, Kind.free⟩ : Blk) :: [])
      [s0.mem_brk + 16] := I0
  have hsz := (I0.heap.size_at ⟨s0.mem_brk + 16, 4096, Kind.free⟩ (mem_mid _ _ _) free_ne_raw).1
  have hsz : GET_SIZE (mm_init s0).1.mem (HDRP (s0.mem_brk + 16)) = 4096 := hsz
  have ff := find_fit_first I0 24 [] [] (s0.mem_brk + 16) rfl (fun x hx => by cases hx)
    (by rw [hsz]; decide) fuel (by simpa using hf)
  rw [← a10] at ff
  obtain ⟨m1, -, I1, -⟩ := malloc_hit I0 10 (by decide) (by decide) fuel ff
  rw [a10] at m1 I1
  rw [placeBlocks_split _ _ _ _ (by show 24 + 24 ≤ 4096; decide),
    placeList_split _ _ _ (by show 24 + 24 ≤ 4096; decide), List.erase_cons_head] at I1
  dsimp only at m1 I1
  obtain ⟨s1, hs1⟩ : ∃ s1, s1 = place (mm_init s0).1 (s0.mem_brk + 16) 24 := ⟨_, rfl⟩
  rw [← hs1] at m1 I1
  have I1 : InvWith s1 [(s0.mem_brk + 16, 10)]
      ([] ++ (⟨s0.mem_brk + 16, 24, Kind.used⟩ : Blk) ::
        [(⟨s0.mem_brk + 16 + 24, 4096 - 24, Kind.free⟩ : Blk)]) [s0.mem_brk + 16 + 24] := I1
  obtain ⟨I2, -⟩ := free_exact I1 10 (List.mem_cons_self _ _)
  have hpn : prevFree ([] : List Blk) = none := rfl
  rw [coBlocks_ns _ hpn (nextFree_some rfl), coList_ns _ _ hpn (nextFree_some rfl),
    List.erase_cons_head] at I2
  dsimp only at I2
  rw [List.erase_cons_head] at I2
  exact ⟨s1, m1, I2⟩

/-- Claim C12, amended.  After a successful `mm_init` on a fresh backing store,
`p = mm_malloc(10)` and `mm_free(p)`, the block at `p` is the only node of the
free list, with both links `NULL`.  A second `mm_free(p)` is not detected: it
leaves every boundary tag and the head of the list as they were, but sets the
`next` and the `prev` link of the block to the block itself, so that a walk along
the `next` links never reaches `NULL` again. -/
theorem double_free_relinks (s0 : State) (h : FreshStore s0) (hok : (mm_init s0).2 = 0)
    (fuel : Nat) (hf : 1 ≤ fuel) :
    ∃ s1, mm_malloc fuel (mm_init s0).1 10 = some (s1, s0.mem_brk + 16) ∧
      (mm_free s1 (s0.mem_brk + 16)).firstfree = s0.mem_brk + 16 ∧
      getNext (mm_free s1 (s0.mem_brk + 16)).mem (s0.mem_brk + 16) = 0 ∧
      getPrev (mm_free s1 (s0.mem_brk + 16)).mem (s0.mem_brk + 16) = 0 ∧
      freeNodes 2 (mm_free s1 (s0.mem_brk + 16)) = some [s0.mem_brk + 16] ∧
      (mm_free (mm_free s1 (s0.mem_brk + 16)) (s0.mem_brk + 16)).firstfree = s0.mem_brk + 16 ∧
      getNext (mm_free (mm_free s1 (s0.mem_brk + 16)) (s0.mem_brk + 16)).mem (s0.mem_brk + 16)
        = s0.mem_brk + 16 ∧
      getPrev (mm_free (mm_free s1 (s0.mem_brk + 16)) (s0.mem_brk + 16)).mem (s0.mem_brk + 16)
        = s0.mem_brk + 16 ∧
      (∀ k, freeNodes k (mm_free (mm_free s1 (s0.mem_brk + 16)) (s0.mem_brk + 16)) = none) ∧
      ∀ x, x % 4 = 0 → x + 4 ≤ s0.mem_brk + 16 ∨ s0.mem_brk + 16 + 16 ≤ x →
        GET (mm_free (mm_free s1 (s0.mem_brk + 16)) (s0.mem_brk + 16)).mem x =
          GET (mm_free s1 (s0.mem_brk + 16)).mem x := by
  obtain ⟨s1, m1, I2⟩ := malloc_10_freed s0 h hok fuel hf
  obtain ⟨s2, hs2⟩ : ∃ s2, s2 = mm_free s1 (s0.mem_brk + 16) := ⟨_, rfl⟩
  rw [← hs2] at I2
  have hp0 : s0.mem_brk + 16 ≠ 0 := by omega
  have lk := I2.heap.flist.linked [] (s0.mem_brk + 16) [] rfl
  have lk : getPrev s2.mem (s0.mem_brk + 16) = 0 ∧ getNext s2.mem (s0.mem_brk + 16) = 0 := lk
  have hd : s2.firstfree = s0.mem_brk + 16 := I2.heap.flist.head
  have hw : freeNodes 2 s2 = some [s0.mem_brk + 16] := by
    show nodesFrom s2.mem 2 s2.firstfree = _
    rw [hd]
    show (if s0.mem_brk + 16 = 0 then some [] else
      (nodesFrom s2.mem 1 (getNext s2.mem (s0.mem_brk + 16))).map
        (fun l => (s0.mem_brk + 16) :: l)) = _
    rw [if_neg hp0, lk.2]
    rfl
  obtain ⟨r1, r2, r3, -, -, r4⟩ := free_of_free_head I2 rfl
  have r1 : (mm_free s2 (s0.mem_brk + 16)).firstfree = s0.mem_brk + 16 := r1
  have r2 : getNext (mm_free s2 (s0.mem_brk + 16)).mem (s0.mem_brk + 16) = s0.mem_brk + 16 := r2
  have r3 : getPrev (mm_free s2 (s0.mem_brk + 16)).mem (s0.mem_brk + 16) = s0.mem_brk + 16 := r3
  have r4 : ∀ x, x % 4 = 0 → x + 4 ≤ s0.mem_brk + 16 ∨ s0.mem_brk + 16 + 16 ≤ x →
      GET (mm_free s2 (s0.mem_brk + 16)).mem x = GET s2.mem x := r4
  refine ⟨s1, m1, ?_⟩
  rw [← hs2]
  refine ⟨hd, lk.2, lk.1, hw, r1, r2, r3, fun k => ?_, r4⟩
  show nodesFrom (mm_free s2 (s0.mem_brk + 16)).mem k (mm_free s2 (s0.mem_brk + 16)).firstfree
    = none
  rw [r1]
  exact nodesFrom_loop _ _ hp0 r2 k

/-! ## Concrete runs of the scenarios -/

theorem fresh_tightStore : FreshStore tightStore := by
  unfold FreshStore
  decide

theorem good_40 : GoodReq 40 := Or.inr (by decide)

theorem gapA_call : mm_malloc 8 demoA.1 100 = some (gapA.1, 4224) :=
  callMalloc_eq demoA.1 100 4224 (by decide) (by decide)

theorem gapB_call : mm_malloc 8 gapA.1 100 = some (gapB.1, 4336) :=
  callMalloc_eq gapA.1 100 4336 (by decide) (by decide)

theorem reach_gapB : Reach gapB.1 [(4336, 100), (4224, 100), (4112, 100)] :=
  Reach.malloc gapA.1 [(4224, 100), (4112, 100)] 8 100 gapB.1 4336
    (Reach.malloc demoA.1 [(4112, 100)] 8 100 gapA.1 4224 reach_demoA good_100 gapA_call
      (by decide))
    good_100 gapB_call (by decide)

theorem moveA_call : mm_malloc 8 demoInit 40 = some (moveA.1, 4112) :=
  callMalloc_eq demoInit 40 4112 (by decide) (by decide)

theorem rowA_call : mm_malloc 8 moveA.1 100 = some (rowA.1, 4160) :=
  callMalloc_eq moveA.1 100 4160 (by decide) (by decide)

theorem reach_rowA : Reach rowA.1 [(4160, 100), (4112, 40)] :=
  Reach.malloc moveA.1 [(4112, 40)] 8 100 rowA.1 4160
    (Reach.malloc demoInit [] 8 40 moveA.1 4112 reach_demoInit good_40 moveA_call (by decide))
    good_100 rowA_call (by decide)

theorem rowB_call : mm_malloc 8 rowA.1 100 = some (rowB.1, 4272) :=
  callMalloc_eq rowA.1 100 4272 (by decide) (by decide)

theorem rowC_call : mm_malloc 8 rowB.1 100 = some (rowC.1, 4384) :=
  callMalloc_eq rowB.1 100 4384 (by decide) (by decide)

theorem rowD_call : mm_malloc 8 rowC.1 40 = some (rowD.1, 4496) :=
  callMalloc_eq rowC.1 40 4496 (by decide) (by decide)

theorem reach_rowD :
    Reach rowD.1 [(4496, 40), (4384, 100), (4272, 100), (4160, 100), (4112, 40)] :=
  Reach.malloc rowC.1 _ 8 40 rowD.1 4496
    (Reach.malloc rowB.1 _ 8 100 rowC.1 4384
      (Reach.malloc rowA.1 _ 8 100 rowB.1 4272 reach_rowA good_100 rowB_call (by decide))
      good_100 rowC_call (by decide))
    good_40 rowD_call (by decide)

theorem reach_rowE : Reach rowE [(4496, 40), (4384, 100), (4272, 100), (4160, 100)] :=
  Reach.free rowD.1 _ 4112 40 reach_rowD (by decide)

theorem backA_call : mm_malloc 8 rowA.1 40 = some (backA.1, 4272) :=
  callMalloc_eq rowA.1 40 4272 (by decide) (by decide)

theorem reach_backB : Reach backB [(4272, 40), (4160, 100)] :=
  Reach.free backA.1 _ 4112 40
    (Reach.malloc rowA.1 _ 8 40 backA.1 4272 reach_rowA good_40 backA_call (by decide))
    (by decide)

/-- Witness of `malloc_grow_failure`: `mm_malloc(5000)` right after `mm_init()` on a
backing store that has no room beyond the first 4096 bytes. -/
theorem malloc_grow_failure_witness :
    find_fit 8 tightInit (adjust_size 5000) = some 0 ∧
    mem_sbrk tightInit (extend_size (extendsize (adjust_size 5000) / WSIZE)) = none ∧
    (mm_malloc 8 tightInit 5000 = some (tightInit, 0) ∧
      ∃ k, mm_malloc_grows 8 tightInit 5000 = some [k]) :=
  ⟨by decide, mem_sbrk_none _ _ (by decide),
    malloc_grow_failure 8 tightInit 5000 (by decide) (by decide)
      (mem_sbrk_none _ _ (by decide))⟩

/-- Witness of `double_free_relinks`: the run on the backing store at 4096, where
`p = 4112`. -/
theorem double_free_relinks_witness :
    FreshStore demoStore ∧ (mm_init demoStore).2 = 0 ∧
    ∃ s1, mm_malloc 8 (mm_init demoStore).1 10 = some (s1, demoStore.mem_brk + 16) ∧
      (mm_free s1 (demoStore.mem_brk + 16)).firstfree = demoStore.mem_brk + 16 ∧
      getNext (mm_free s1 (demoStore.mem_brk + 16)).mem (demoStore.mem_brk + 16) = 0 ∧
      getPrev (mm_free s1 (demoStore.mem_brk + 16)).mem (demoStore.mem_brk + 16) = 0 ∧
      freeNodes 2 (mm_free s1 (demoStore.mem_brk + 16)) = some [demoStore.mem_brk + 16] ∧
      (mm_free (mm_free s1 (demoStore.mem_brk + 16)) (demoStore.mem_brk + 16)).firstfree
        = demoStore.mem_brk + 16 ∧
      getNext (mm_free (mm_free s1 (demoStore.mem_brk + 16)) (demoStore.mem_brk + 16)).mem
        (demoStore.mem_brk + 16) = demoStore.mem_brk + 16 ∧
      getPrev (mm_free (mm_free s1 (demoStore.mem_brk + 16)) (demoStore.mem_brk + 16)).mem
        (demoStore.mem_brk + 16) = demoStore.mem_brk + 16 ∧
      (∀ k, freeNodes k (mm_free (mm_free s1 (demoStore.mem_brk + 16))
        (demoStore.mem_brk + 16)) = none) ∧
      ∀ x, x % 4 = 0 → x + 4 ≤ demoStore.mem_brk + 16 ∨ demoStore.mem_brk + 16 + 16 ≤ x →
        GET (mm_free (mm_free s1 (demoStore.mem_brk + 16)) (demoStore.mem_brk + 16)).mem x =
          GET (mm_free s1 (demoStore.mem_brk + 16)).mem x :=
  ⟨fresh_demoStore, by decide,
    double_free_relinks demoStore fresh_demoStore (by decide) 8 (by decide)⟩

/-- The second `mm_free(p)` after `mm_init()`, `p = mm_malloc(10)` and `mm_free(p)`
on the backing store at 4096 is not rejected: the links of the block at `p = 4112`,
both `NULL` after the first `mm_free`, both hold 4112 after the second. -/
theorem double_free_changes_links :
    (mm_init demoStore).2 = 0 ∧ mm_malloc 8 demoInit 10 = some (twiceA.1, 4112) ∧
    twiceB = mm_free twiceA.1 4112 ∧ twiceC = mm_free twiceB 4112 ∧
    twiceB.firstfree = 4112 ∧ getNext twiceB.mem 4112 = 0 ∧ getPrev twiceB.mem 4112 = 0 ∧
    twiceC.firstfree = 4112 ∧ getNext twiceC.mem 4112 = 4112 ∧
    getPrev twiceC.mem 4112 = 4112 ∧
    freeNodes 8 twiceB = some [4112] ∧ freeNodes 8 twiceC = none :=
  ⟨by decide, callMalloc_eq demoInit 10 4112 (by decide) (by decide), rfl, rfl, by decide,
    by decide, by decide, by decide, by decide, by decide, by decide, by decide⟩

/-- Witness of `realloc_null_exits`: `mm_realloc(NULL, 0)` right after `mm_init()`. -/
theorem realloc_null_exits_witness :
    mm_malloc 8 demoInit 0 = some (demoInit, 0) ∧
    mm_realloc 8 demoInit 0 0 = some (ReallocResult.exited demoInit) :=
  ⟨mm_malloc_zero_eq 8 demoInit,
    realloc_null_exits 8 demoInit 0 demoInit (mm_malloc_zero_eq 8 demoInit)⟩

/-- Witness of `realloc_copies_block`: `mm_realloc(p, 200)` of the allocation of 100
bytes after `mm_init()`. -/
theorem realloc_copies_block_witness :
    Reach demoA.1 [(4112, 100)] ∧ mm_malloc 8 demoA.1 200 = some (demoB.1, 4224) ∧
    (copySize demoB.1.mem 4112 200 = min 200 (GET_SIZE demoA.1.mem (HDRP 4112)) ∧
    100 + 8 ≤ GET_SIZE demoA.1.mem (HDRP 4112) ∧
    mm_realloc 8 demoA.1 4112 200 = some (ReallocResult.returned
      (mm_free { demoB.1 with mem := memcpy demoB.1.mem 4224 4112 (min 200 (GET_SIZE demoA.1.mem (HDRP 4112))) } 4112) 4224) ∧
    ∀ i, i < min 200 (GET_SIZE demoA.1.mem (HDRP 4112)) →
      memcpy demoB.1.mem 4224 4112 (min 200 (GET_SIZE demoA.1.mem (HDRP 4112))) (4224 + i)
        = demoB.1.mem (4112 + i)) :=
  ⟨reach_demoA, demoB_call,
    realloc_copies_block reach_demoA 4112 100 (by decide) 200 (by decide) (by decide) 8
      demoB.1 4224 demoB_call (by decide)⟩

/-- The call `mm_realloc(p, 200)` of the allocation `p = 4112` of 100 bytes after
`mm_init()`: the old block has 112 bytes, its payload 104, and the call copies 112
bytes, not 104: byte 104 of the new block at 4224 holds the low byte of the old
footer. -/
theorem realloc_copies_footer :
    Reach demoA.1 [(4112, 100)] ∧ mm_malloc 8 demoA.1 200 = some (demoB.1, 4224) ∧
    mm_realloc 8 demoA.1 4112 200 = some (ReallocResult.returned growR.1 4224) ∧
    GET_SIZE demoA.1.mem (HDRP 4112) - 8 = 104 ∧
    copySize demoB.1.mem 4112 200 = 112 ∧
    copySize demoB.1.mem 4112 200 ≠ min 200 (GET_SIZE demoA.1.mem (HDRP 4112) - 8) ∧
    demoA.1.mem (4112 + 104) = 113 ∧ demoB.1.mem (4224 + 104) = 0 ∧
    growR.1.mem (4224 + 104) = 113 :=
  ⟨reach_demoA, demoB_call, callRealloc_eq demoA.1 4112 200 4224 (by decide) (by decide),
    by decide, by decide, by decide, by decide, by decide, by decide⟩

/-- Witness of `mm_init_layout`: the backing store of 1 MiB at 4096. -/
theorem mm_init_layout_witness :
    FreshStore demoStore ∧
    (((mm_init demoStore).2 = -1 ↔
      (mem_sbrk { demoStore with firstfree := 0 } (4 * WSIZE) = none ∨
        mem_sbrk (sentinels demoStore) (extend_size (CHUNKSIZE / WSIZE)) = none)) ∧
    ((mm_init demoStore).2 ≠ -1 →
      (mm_init demoStore).2 = 0 ∧
      (mm_init demoStore).1.start = demoStore.mem_brk + 8 ∧
      (mm_init demoStore).1.mem_brk = demoStore.mem_brk + 16 + 4096 ∧
      GET (mm_init demoStore).1.mem demoStore.mem_brk = 0 ∧
      GET (mm_init demoStore).1.mem (demoStore.mem_brk + 4) = PACK 8 1 ∧
      GET (mm_init demoStore).1.mem (demoStore.mem_brk + 8) = PACK 8 1 ∧
      GET (mm_init demoStore).1.mem (HDRP (demoStore.mem_brk + 16)) = PACK 4096 0 ∧
      GET (mm_init demoStore).1.mem
        (FTRP (mm_init demoStore).1.mem (demoStore.mem_brk + 16)) = PACK 4096 0 ∧
      GET (mm_init demoStore).1.mem (HDRP (demoStore.mem_brk + 16 + 4096)) = PACK 0 1 ∧
      (mm_init demoStore).1.firstfree = demoStore.mem_brk + 16 ∧
      getNext (mm_init demoStore).1.mem (demoStore.mem_brk + 16) = 0 ∧
      getPrev (mm_init demoStore).1.mem (demoStore.mem_brk + 16) = 0 ∧
      (∀ fuel, 3 ≤ fuel →
        heapBlocks fuel (mm_init demoStore).1
          = some [demoStore.mem_brk + 8, demoStore.mem_brk + 16] ∧
        freeNodes fuel (mm_init demoStore).1 = some [demoStore.mem_brk + 16]))) :=
  ⟨fresh_demoStore, mm_init_layout demoStore fresh_demoStore⟩

/-- Witness of `reuse_after_free`: the run on the backing store of 1 MiB at 4096. -/
theorem reuse_after_free_witness :
    FreshStore demoStore ∧ (mm_init demoStore).2 = 0 ∧
    ∃ s1 s2 s4 p1 p2, mm_malloc 8 (mm_init demoStore).1 100 = some (s1, p1) ∧ p1 ≠ 0 ∧
      p1 % 8 = 0 ∧ mm_malloc 8 s1 200 = some (s2, p2) ∧ p2 ≠ 0 ∧
      mm_malloc 8 (mm_free s2 p1) 100 = some (s4, p1) ∧
      mm_malloc_grows 8 (mm_free s2 p1) 100 = some [] ∧
      s4.mem_brk = (mm_init demoStore).1.mem_brk :=
  ⟨fresh_demoStore, by decide,
    reuse_after_free demoStore fresh_demoStore (by decide) 8 (by decide)⟩

/-- Witness of `grow_once_after_init`: the run on the backing store of 1 MiB at 4096. -/
theorem grow_once_after_init_witness :
    FreshStore demoStore ∧ (mm_init demoStore).2 = 0 ∧
    (find_fit 8 (mm_init demoStore).1 (adjust_size 4096) = some 0 ∧
    mm_malloc_grows 8 (mm_init demoStore).1 4096 = some [4104] ∧
    adjust_size 4096 - 4096 ≤ 4104 ∧
    ((mm_init demoStore).1.mem_brk + 4104 ≤ (mm_init demoStore).1.mem_max_addr →
      ∃ s1, mm_malloc 8 (mm_init demoStore).1 4096 = some (s1, demoStore.mem_brk + 16) ∧
        demoStore.mem_brk + 16 ≠ 0 ∧ s1.mem_brk = (mm_init demoStore).1.mem_brk + 4104 ∧
        GET_ALLOC s1.mem (HDRP (demoStore.mem_brk + 16)) = 1 ∧
        GET_SIZE s1.mem (HDRP (demoStore.mem_brk + 16)) = 4104 ∧
        4096 ≤ GET_SIZE s1.mem (HDRP (demoStore.mem_brk + 16)) - 8) ∧
    ((mm_init demoStore).1.mem_max_addr < (mm_init demoStore).1.mem_brk + 4104 →
      mm_malloc 8 (mm_init demoStore).1 4096 = some ((mm_init demoStore).1, 0))) :=
  ⟨fresh_demoStore, by decide,
    grow_once_after_init demoStore fresh_demoStore (by decide) 8 (by decide)⟩

/-- After `mm_init()` on a backing store that has room for what `mm_init` asks for and
nothing more, exactly 4096 bytes are free; `mm_malloc(4096)` finds no fit, asks the
backing store for 4104 bytes, is refused, and returns `NULL` with the break where it
was: the call does not succeed. -/
theorem grow_refused_after_init :
    FreshStore tightStore ∧ (mm_init tightStore).2 = 0 ∧
    heapBlocks 8 tightInit = some [4104, 4112] ∧
    GET tightInit.mem (HDRP 4112) = PACK 4096 0 ∧
    find_fit 8 tightInit (adjust_size 4096) = some 0 ∧
    mm_malloc_grows 8 tightInit 4096 = some [4104] ∧
    tightInit.mem_max_addr < tightInit.mem_brk + 4104 ∧
    (mm_malloc 8 tightInit 4096).map Prod.snd = some 0 ∧
    (mm_malloc 8 tightInit 4096).map (fun r => r.1.mem_brk) = some tightInit.mem_brk :=
  ⟨fresh_tightStore, by decide, by decide, by decide, by decide, by decide, by decide,
    by decide, by decide⟩

/-- Witness of `free_three_adjacent`: the three allocations of 100 bytes after
`mm_init()`, at 4112, 4224 and 4336; the block before the first is the prologue. -/
theorem free_three_adjacent_witness :
    Reach gapB.1 [(4336, 100), (4224, 100), (4112, 100)] ∧
    NEXT_BLKP gapB.1.mem 4112 = 4224 ∧ NEXT_BLKP gapB.1.mem 4224 = 4336 ∧
    GET_ALLOC gapB.1.mem (FTRP gapB.1.mem (PREV_BLKP gapB.1.mem 4112)) = 1 ∧
    ((∃ W, Coalesced (mm_free gapB.1 4224) W) ∧
    (∃ W, Coalesced (mm_free (mm_free gapB.1 4224) 4112) W) ∧
    ∃ W, Coalesced (mm_free (mm_free (mm_free gapB.1 4224) 4112) 4336) W ∧ 4112 ∈ W ∧
      4224 ∉ W ∧ 4336 ∉ W ∧
      GET_ALLOC (mm_free (mm_free (mm_free gapB.1 4224) 4112) 4336).mem (HDRP 4112) = 0 ∧
      GET_SIZE gapB.1.mem (HDRP 4112) + GET_SIZE gapB.1.mem (HDRP 4224)
          + GET_SIZE gapB.1.mem (HDRP 4336) ≤
        GET_SIZE (mm_free (mm_free (mm_free gapB.1 4224) 4112) 4336).mem (HDRP 4112) ∧
      (GET_ALLOC gapB.1.mem (HDRP (NEXT_BLKP gapB.1.mem 4336)) = 1 →
        GET_SIZE (mm_free (mm_free (mm_free gapB.1 4224) 4112) 4336).mem (HDRP 4112) =
          GET_SIZE gapB.1.mem (HDRP 4112) + GET_SIZE gapB.1.mem (HDRP 4224)
            + GET_SIZE gapB.1.mem (HDRP 4336))) :=
  ⟨reach_gapB, by decide, by decide, by decide,
    free_three_adjacent reach_gapB 4112 4224 4336 100 100 100 (by decide) (by decide)
      (by decide) (by decide) (by decide) (by decide)⟩

/-- Three adjacent allocated blocks `a = 4160`, `b = 4272`, `c = 4384` behind a free
block at 4112: after `mm_free(b)`, `mm_free(a)`, `mm_free(c)` the walk over the arena
finds no block at `a`; the free block that holds the three starts at 4112 and has 384
bytes, 48 more than the three blocks together. -/
theorem free_three_merges_back :
    Reach rowE [(4496, 40), (4384, 100), (4272, 100), (4160, 100)] ∧
    NEXT_BLKP rowE.mem 4160 = 4272 ∧ NEXT_BLKP rowE.mem 4272 = 4384 ∧
    GET_ALLOC rowE.mem (HDRP 4160) = 1 ∧ GET_ALLOC rowE.mem (HDRP 4272) = 1 ∧
    GET_ALLOC rowE.mem (HDRP 4384) = 1 ∧
    GET_ALLOC rowE.mem (HDRP (NEXT_BLKP rowE.mem 4384)) = 1 ∧
    GET_SIZE rowE.mem (HDRP 4160) + GET_SIZE rowE.mem (HDRP 4272)
      + GET_SIZE rowE.mem (HDRP 4384) = 336 ∧
    rowH = mm_free (mm_free (mm_free rowE 4272) 4160) 4384 ∧
    heapBlocks 8 rowH = some [4104, 4112, 4496, 4544] ∧
    GET_ALLOC rowH.mem (HDRP 4112) = 0 ∧ GET_SIZE rowH.mem (HDRP 4112) = 384 :=
  ⟨reach_rowE, by decide, by decide, by decide, by decide, by decide, by decide, by decide,
    rfl, by decide, by decide, by decide⟩

/-- Witness of `freed_block_reused`: the allocation of 200 bytes at 4224 behind the
allocation of 100 bytes, freed and requested again. -/
theorem freed_block_reused_witness :
    Reach demoB.1 [(4224, 200), (4112, 100)] ∧ 8 < 200 ∧ 200 ≤ 2 ^ 31 - 16 ∧
    adjust_size 200 ≤ GET_SIZE demoB.1.mem (HDRP 4224) ∧
    GET_ALLOC demoB.1.mem (FTRP demoB.1.mem (PREV_BLKP demoB.1.mem 4224)) = 1 ∧
    ((mm_free demoB.1 4224).firstfree = 4224 ∧
    find_fit 8 (mm_free demoB.1 4224) (adjust_size 200) = some 4224 ∧
    mm_malloc_grows 8 (mm_free demoB.1 4224) 200 = some [] ∧
    ∃ s2, mm_malloc 8 (mm_free demoB.1 4224) 200 = some (s2, 4224) ∧
      s2.mem_brk = demoB.1.mem_brk ∧ GET_ALLOC s2.mem (HDRP 4224) = 1 ∧
      GET_SIZE s2.mem (HDRP 4224) ≤ GET_SIZE demoB.1.mem (HDRP 4224) ∧
      4224 + GET_SIZE s2.mem (HDRP 4224) ≤ 4224 + GET_SIZE demoB.1.mem (HDRP 4224)) :=
  ⟨reach_demoB, by decide, by decide, by decide, by decide,
    freed_block_reused reach_demoB 4224 200 (by decide) 200 (by decide) (by decide)
      (by decide) (by decide) 8 (by decide)⟩

/-- The live block `b = 4160` of 112 bytes behind a free block at 4112: after
`mm_free(b)` the merged block is the head of the free list, and `mm_malloc(100)`,
whose adjusted size is 112, returns 4112, a block that starts below `b`. -/
theorem freed_block_merged_back :
    Reach backB [(4272, 40), (4160, 100)] ∧ GET_SIZE backB.mem (HDRP 4160) = 112 ∧
    adjust_size 100 ≤ GET_SIZE backB.mem (HDRP 4160) ∧
    backC = mm_free backB 4160 ∧ freeNodes 8 backC = some [4112, 4320] ∧
    heapBlocks 8 backC = some [4104, 4112, 4272, 4320] ∧
    mm_malloc_grows 8 backC 100 = some [] ∧
    mm_malloc 8 backC 100 = some (backD.1, 4112) ∧ 4112 < 4160 ∧
    GET_SIZE backD.1.mem (HDRP 4112) = 112 :=
  ⟨reach_backB, by decide, by decide, rfl, by decide, by decide, by decide,
    callMalloc_eq backC 100 4112 (by decide) (by decide), by decide, by decide⟩

/-! ## The global `start` never moves -/

theorem insert_start (s : State) (bp : Nat) : (insert_to_free s bp).start = s.start := by
  unfold insert_to_free
  split_ifs <;> rfl

theorem remove_start (s : State) (bp : Nat) : (remove_from_free s bp).start = s.start := by
  unfold remove_from_free
  split_ifs <;> rfl

theorem coalesce_start (s : State) (bp : Nat) : (coalesce s bp).1.start = s.start := by
  unfold coalesce
  dsimp only
  split_ifs
  · exact insert_start _ _
  · rw [insert_start]
    exact remove_start _ _
  · rfl
  · show (insert_to_free _ _).start = _
    rw [insert_start, remove_start, remove_start]

theorem mm_free_start (s : State) (p : Nat) : (mm_free s p).start = s.start := by
  unfold mm_free
  split_ifs
  · rfl
  · exact coalesce_start _ _

/-- The walk along the free list of a heap finds its nodes. -/
theorem Heap.list_walk {s : State} {bs : List Blk} {fl : List Nat} (h : Heap s bs fl) :
    ∀ k, freeNodes (fl.length + 1 + k) s = some fl := by
  intro k
  have := nodesFrom_spec h.geo h.flist fl [] rfl k
  rw [← h.flist.head] at this
  exact this

/-- In a reachable state, `start` is 8 bytes above the break that `mm_init`
found: the padding word and the prologue header lie between the two. -/
theorem reach_base {s : State} {L : List (Nat × Nat)} (h : Reach s L) :
    ∃ s0, FreshStore s0 ∧ (mm_init s0).2 = 0 ∧ s.start = s0.mem_brk + 8 := by
  induction h with
  | init s0 hf hok =>
    exact ⟨s0, hf, hok, (init_exact s0 hf (init_room s0 hok)).2.2.1⟩
  | malloc s L fuel n s1 p hr hg hm hp ih =>
    obtain ⟨s0, hf, hok, e⟩ := ih
    obtain ⟨bs, fl, I⟩ := reach_inv hr
    rcases hg with e0 | ⟨e1, e2⟩
    · subst e0
      rw [mm_malloc_zero_eq] at hm
      exact absurd (Prod.mk.inj (Option.some.inj hm)).2.symm hp
    · obtain ⟨bs1, fl1, -, -, S, -⟩ := ((malloc_inv I n e1 e2 fuel).2 s1 p hm).2 hp
      exact ⟨s0, hf, hok, by rw [S, e]⟩
  | malloc_null s L fuel n s1 hr hg hm ih =>
    obtain ⟨s0, hf, hok, e⟩ := ih
    obtain ⟨bs, fl, I⟩ := reach_inv hr
    rcases hg with e0 | ⟨e1, e2⟩
    · subst e0
      rw [mm_malloc_zero_eq] at hm
      rw [← (Prod.mk.inj (Option.some.inj hm)).1]
      exact ⟨s0, hf, hok, e⟩
    · rw [((malloc_inv I n e1 e2 fuel).2 s1 0 hm).1 rfl]
      exact ⟨s0, hf, hok, e⟩
  | free s L p n hr hp ih =>
    obtain ⟨s0, hf, hok, e⟩ := ih
    exact ⟨s0, hf, hok, by rw [mm_free_start, e]⟩
  | realloc s L fuel p m n s2 q hr hp h1 h2 hres ih =>
    obtain ⟨s0, hf, hok, e⟩ := ih
    obtain ⟨bs, fl, I⟩ := reach_inv hr
    cases hmm : mm_malloc fuel s n with
    | none =>
      rw [mm_realloc_none fuel s p n hmm] at hres
      exact Option.noConfusion hres
    | some r =>
      obtain ⟨s1, q1⟩ := r
      rw [mm_realloc_some fuel s p n s1 q1 hmm] at hres
      by_cases hq : q1 = 0
      · rw [if_pos hq] at hres
        exact ReallocResult.noConfusion (Option.some.inj hres)
      · rw [if_neg hq] at hres
        have hinj := Option.some.inj hres
        have hs2 : mm_free { s1 with mem := memcpy s1.mem q1 p (copySize s1.mem p n) } p = s2 := by
          injection hinj
        obtain ⟨bs1, fl1, -, -, S, -⟩ := ((malloc_inv I n h1 h2 fuel).2 s1 q1 hmm).2 hq
        refine ⟨s0, hf, hok, ?_⟩
        rw [← hs2, mm_free_start]
        show s1.start = _
        rw [S, e]
  | store s L p n i v hr hp hi ih =>
    obtain ⟨s0, hf, hok, e⟩ := ih
    exact ⟨s0, hf, hok, e⟩

/-! ## The layout of the arena in a reachable state -/

theorem contiguous_of_tiling {s : State} {L : List (Nat × Nat)} {bs : List Blk} {fl : List Nat}
    (I : InvWith s L bs fl) (post : List Blk) :
    ∀ (pre : List Blk) (a : Nat), bs = pre ++ post → Tiling a post s.mem_brk →
      Contiguous s.mem a (post.map Blk.bp) s.mem_brk := by
  induction post with
  | nil =>
    intro pre a _ ht
    exact ht
  | cons b post ih =>
    intro pre a hbs ht
    have hb : b ∈ bs := by rw [hbs]; exact mem_mid _ _ _
    have gb := I.heap.geo.blk b hb
    have hnx := (I.read.2 b hb).2.2.1
    have hba : b.bp = a := ht.1
    refine ⟨hba, ?_, ?_⟩
    · rw [hnx]
      omega
    · rw [hnx, hba]
      exact ih (pre ++ [b]) (a + b.sz) (by rw [hbs, List.append_assoc]; rfl) ht.2

/-- Extra X12 (on claim C21).  In a state reached from a successful `mm_init` by a valid
call sequence with well-sized requests, `start` is 8-byte aligned and at least 8 (the
padding word and the prologue header are the two words below it), the prologue header
and footer are `PACK(8, 1)`, the epilogue header `PACK(0, 1)` is the last word of the
arena, and the walk over the arena finds blocks that follow one another from
`start + 8` up to the break, each inside the arena. -/
theorem arena_layout {s : State} {L : List (Nat × Nat)} (h : Reach s L) :
    ∃ W, 8 ≤ s.start ∧ s.start % 8 = 0 ∧
      GET s.mem (HDRP s.start) = PACK 8 1 ∧ GET s.mem (FTRP s.mem s.start) = PACK 8 1 ∧
      GET s.mem (HDRP s.mem_brk) = PACK 0 1 ∧ s.mem_brk ≤ s.mem_max_addr ∧
      (∃ N, ∀ fuel, N ≤ fuel → heapBlocks fuel s = some (s.start :: W)) ∧
      Contiguous s.mem (s.start + 8) W s.mem_brk ∧
      ∀ bp ∈ W, s.start + 8 ≤ bp ∧ NEXT_BLKP s.mem bp ≤ s.mem_brk := by
  obtain ⟨bs, fl, I⟩ := reach_inv h
  obtain ⟨⟨r1, r2, -, -⟩, rb⟩ := I.read
  refine ⟨bs.map Blk.bp, I.heap.geo.start_ge, I.heap.geo.start_al, r1, r2,
    I.heap.tags.epilogue, I.heap.geo.brk_le,
    ⟨bs.length + 2, I.coalesced.1⟩, contiguous_of_tiling I bs [] _ rfl I.heap.geo.tiling,
    fun bp hbp => ?_⟩
  obtain ⟨b, hb, rfl⟩ := List.mem_map.1 hbp
  have gb := I.heap.geo.blk b hb
  rw [(rb b hb).2.2.1]
  omega

/-- In a state reached by a valid call sequence with well-sized requests, every
block that the walk over the arena finds after the prologue has a size that is a
multiple of 8 and at least `MINIMUM`. -/
theorem block_sizes_good {s : State} {L : List (Nat × Nat)} (h : Reach s L) :
    ∃ W, (∃ N, ∀ fuel, N ≤ fuel → heapBlocks fuel s = some (s.start :: W)) ∧
      ∀ bp ∈ W, GET_SIZE s.mem (HDRP bp) % 8 = 0 ∧ MINIMUM ≤ GET_SIZE s.mem (HDRP bp) := by
  obtain ⟨bs, fl, I⟩ := reach_inv h
  refine ⟨bs.map Blk.bp, ⟨bs.length + 2, I.coalesced.1⟩, fun bp hbp => ?_⟩
  obtain ⟨b, hb, rfl⟩ := List.mem_map.1 hbp
  have gb := I.heap.geo.blk b hb
  rw [(I.heap.size_at b hb (I.no_raw b hb)).1]
  exact ⟨gb.2.2.1, gb.2.2.2.1⟩

/-! ## `find_fit` is first fit -/

/-- The nodes that a walk along the `next` links finds are non-null. -/
theorem nodesFrom_ne_zero (m : Mem) :
    ∀ (N bp : Nat) (fl : List Nat), nodesFrom m N bp = some fl → ∀ x ∈ fl, x ≠ 0 := by
  intro N
  induction N with
  | zero =>
    intro bp fl h
    exact Option.noConfusion h
  | succ N ih =>
    intro bp fl h x hx
    rw [nodesFrom] at h
    by_cases hb : bp = 0
    · rw [if_pos hb] at h
      rw [← Option.some.inj h] at hx
      cases hx
    · rw [if_neg hb] at h
      cases hrec : nodesFrom m N (getNext m bp) with
      | none =>
        rw [hrec] at h
        exact Option.noConfusion h
      | some tl =>
        rw [hrec] at h
        have : bp :: tl = fl := Option.some.inj h
        rw [← this] at hx
        rcases List.mem_cons.1 hx with e | e
        · rw [e]
          exact hb
        · exact ih _ tl hrec x e

/-- The scan of `find_fit` over a list that a walk along the `next` links finds:
it passes the nodes `xs` that are too small and stops at what follows them. -/
theorem find_fit_loop_walk (m : Mem) (asize : Nat) :
    ∀ (xs : List Nat) (N bp : Nat) (tl : List Nat), nodesFrom m N bp = some (xs ++ tl) →
      (∀ x ∈ xs, GET_SIZE m (HDRP x) < asize) → ∀ fuel,
      find_fit_loop m asize (xs.length + fuel) bp = find_fit_loop m asize fuel (tl.headD 0) ∧
      ∃ N1, nodesFrom m N1 (tl.headD 0) = some tl := by
  intro xs
  induction xs with
  | nil =>
    intro N bp tl h _ fuel
    have hbp : bp = tl.headD 0 := by
      cases N with
      | zero => exact Option.noConfusion h
      | succ N =>
        rw [nodesFrom] at h
        by_cases hb : bp = 0
        · rw [if_pos hb] at h
          have : [] = [] ++ tl := Option.some.inj h
          rw [List.nil_append] at this
          rw [← this, hb]
          rfl
        · rw [if_neg hb] at h
          cases hrec : nodesFrom m N (getNext m bp) with
          | none =>
            rw [hrec] at h
            exact Option.noConfusion h
          | some t1 =>
            rw [hrec] at h
            have : bp :: t1 = [] ++ tl := Option.some.inj h
            rw [List.nil_append] at this
            rw [← this]
            rfl
    rw [← hbp]
    exact ⟨by simp, N, h⟩
  | cons x xs ih =>
    intro N bp tl h hsm fuel
    cases N with
    | zero => exact Option.noConfusion h
    | succ N =>
      rw [nodesFrom] at h
      by_cases hb : bp = 0
      · rw [if_pos hb] at h
        exact List.noConfusion (Option.some.inj h)
      · rw [if_neg hb] at h
        cases hrec : nodesFrom m N (getNext m bp) with
        | none =>
          rw [hrec] at h
          exact Option.noConfusion h
        | some t1 =>
          rw [hrec] at h
          have e : bp :: t1 = x :: (xs ++ tl) := Option.some.inj h
          obtain ⟨e1, e2⟩ := List.cons.inj e
          rw [e2] at hrec
          have hsz := hsm x (List.mem_cons_self _ _)
          obtain ⟨r1, r2⟩ := ih N (getNext m bp) tl hrec
            (fun y hy => hsm y (List.mem_cons_of_mem _ hy)) fuel
          refine ⟨?_, r2⟩
          show find_fit_loop m asize ((xs.length + 1) + fuel) bp = _
          rw [show (xs.length + 1) + fuel = (xs.length + fuel) + 1 by omega, find_fit_loop,
            if_neg hb, if_neg (by rw [e1]; omega)]
          exact r1

/-- A list splits at its first element that satisfies a decidable property. -/
theorem split_at_first (p : Nat → Prop) [DecidablePred p] :
    ∀ (fl : List Nat), (∃ x ∈ fl, p x) →
      ∃ xs y ys, fl = xs ++ y :: ys ∧ (∀ x ∈ xs, ¬ p x) ∧ p y := by
  intro fl
  induction fl with
  | nil =>
    rintro ⟨x, hx, -⟩
    cases hx
  | cons a fl ih =>
    rintro ⟨x, hx, hpx⟩
    by_cases ha : p a
    · exact ⟨[], a, fl, rfl, fun x hx => absurd hx (List.not_mem_nil x), ha⟩
    · rcases List.mem_cons.1 hx with e | e
      · rw [e] at hpx
        exact absurd hpx ha
      · obtain ⟨xs, y, ys, e1, e2, e3⟩ := ih ⟨x, e, hpx⟩
        refine ⟨a :: xs, y, ys, by rw [e1]; rfl, fun z hz => ?_, e3⟩
        rcases List.mem_cons.1 hz with e4 | e4
        · rw [e4]
          exact ha
        · exact e2 z e4

/-- Claim C23.  In a state whose free list is well-formed (the walk from
`firstfree` along the `next` links reaches `NULL` and finds the nodes `fl`, each
with allocated flag 0), `find_fit(asize)`, given fuel for more nodes than the
list has, returns the first node of `fl` whose header size is at least `asize`,
and returns `NULL` exactly when no node has that size.  The scan only reads:
`find_fit` yields a pointer and no state. -/
theorem find_fit_first_fit (s : State) (fl : List Nat) (N : Nat)
    (hwalk : freeNodes N s = some fl) (hfree : ∀ x ∈ fl, GET_ALLOC s.mem (HDRP x) = 0)
    (asize fuel : Nat) (hf : fl.length < fuel) :
    (∀ xs y ys, fl = xs ++ y :: ys → (∀ x ∈ xs, GET_SIZE s.mem (HDRP x) < asize) →
      asize ≤ GET_SIZE s.mem (HDRP y) → find_fit fuel s asize = some y ∧ y ≠ 0) ∧
    (find_fit fuel s asize = some 0 ↔ ∀ x ∈ fl, GET_SIZE s.mem (HDRP x) < asize) ∧
    ∃ r, find_fit fuel s asize = some r ∧ (r = 0 ∨ r ∈ fl) := by
  have hne := nodesFrom_ne_zero s.mem N s.firstfree fl hwalk
  have first : ∀ xs y ys, fl = xs ++ y :: ys → (∀ x ∈ xs, GET_SIZE s.mem (HDRP x) < asize) →
      asize ≤ GET_SIZE s.mem (HDRP y) → find_fit fuel s asize = some y ∧ y ≠ 0 := by
    intro xs y ys hfl hsm hy
    have hyfl : y ∈ fl := by rw [hfl]; exact mem_mid _ _ _
    have hy0 := hne y hyfl
    refine ⟨?_, hy0⟩
    have hw : nodesFrom s.mem N s.firstfree = some (xs ++ y :: ys) := by rw [← hfl]; exact hwalk
    have hlen : xs.length < fuel := by
      rw [hfl, List.length_append, List.length_cons] at hf
      omega
    obtain ⟨k, rfl⟩ : ∃ k, fuel = xs.length + (k + 1) := ⟨fuel - xs.length - 1, by omega⟩
    unfold find_fit
    rw [(find_fit_loop_walk s.mem asize xs N s.firstfree (y :: ys) hw hsm (k + 1)).1]
    show find_fit_loop s.mem asize (k + 1) y = some y
    rw [find_fit_loop, if_neg hy0, if_pos ⟨hfree y hyfl, hy⟩]
  have none_fits : (∀ x ∈ fl, GET_SIZE s.mem (HDRP x) < asize) →
      find_fit fuel s asize = some 0 := by
    intro hsm
    have hw : nodesFrom s.mem N s.firstfree = some (fl ++ []) := by
      rw [List.append_nil]
      exact hwalk
    obtain ⟨k, rfl⟩ : ∃ k, fuel = fl.length + (k + 1) := ⟨fuel - fl.length - 1, by omega⟩
    unfold find_fit
    rw [(find_fit_loop_walk s.mem asize fl N s.firstfree [] hw hsm (k + 1)).1]
    show find_fit_loop s.mem asize (k + 1) 0 = some 0
    rw [find_fit_loop, if_pos rfl]
  refine ⟨first, ⟨fun h0 => ?_, none_fits⟩, ?_⟩
  · by_contra hc
    have hex : ∃ x ∈ fl, asize ≤ GET_SIZE s.mem (HDRP x) := by
      by_contra hn
      exact hc (fun x hx => by
        by_contra hlt
        exact hn ⟨x, hx, by omega⟩)
    obtain ⟨xs, y, ys, e1, e2, e3⟩ :=
      split_at_first (fun x => asize ≤ GET_SIZE s.mem (HDRP x)) fl hex
    obtain ⟨r1, r2⟩ := first xs y ys e1 (fun x hx => by have := e2 x hx; omega) e3
    rw [r1] at h0
    exact r2 (Option.some.inj h0)
  · by_cases hex : ∃ x ∈ fl, asize ≤ GET_SIZE s.mem (HDRP x)
    · obtain ⟨xs, y, ys, e1, e2, e3⟩ :=
        split_at_first (fun x => asize ≤ GET_SIZE s.mem (HDRP x)) fl hex
      obtain ⟨r1, -⟩ := first xs y ys e1 (fun x hx => by have := e2 x hx; omega) e3
      exact ⟨y, r1, Or.inr (by rw [e1]; exact mem_mid _ _ _)⟩
    · refine ⟨0, none_fits (fun x hx => ?_), Or.inl rfl⟩
      by_contra hlt
      exact hex ⟨x, hx, by omega⟩

/-! ## What `coalesce` reads of the two neighbours -/

theorem prevFree_eq_none {pre : List Blk} (h : prevFree pre = none) :
    ∀ q ∈ pre.getLast?, q.kind ≠ Kind.free := by
  intro q hq hqf
  unfold prevFree at h
  rw [Option.mem_def.1 hq] at h
  simp [Option.filter, hqf] at h

theorem nextFree_eq_none {post : List Blk} (h : nextFree post = none) :
    ∀ n ∈ post.head?, n.kind ≠ Kind.free := by
  intro n hn hnf
  unfold nextFree at h
  rw [Option.mem_def.1 hn] at h
  simp [Option.filter, hnf] at h

/-- The flag and the size that `coalesce` reads of the block before `b`. -/
theorem read_prev {s : State} {pre post : List Blk} {b : Blk} {fl : List Nat}
    (H : Heap s (pre ++ b :: post) fl) (rpre : ∀ c ∈ pre, c.kind ≠ Kind.raw) :
    (prevFree pre = none → prev_alloc s.mem b.bp = 1) ∧
    ∀ q, prevFree pre = some q → prev_alloc s.mem b.bp = 0 ∧ PREV_BLKP s.mem b.bp = q.bp ∧
      GET_SIZE s.mem (HDRP (PREV_BLKP s.mem b.bp)) = q.sz ∧ q.bp + q.sz = b.bp ∧ q ∈ pre ∧
      q.kind = Kind.free := by
  refine ⟨fun h => prev_alloc_used H rpre (prevFree_eq_none h), fun q hq => ?_⟩
  obtain ⟨e1, e2⟩ := prevFree_eq_some hq
  have hqm : q ∈ pre := by
    rw [e1]
    exact List.mem_append_right _ (List.mem_singleton_self _)
  have H1 : Heap s ((pre.dropLast ++ [q]) ++ b :: post) fl := by
    rw [← e1]
    exact H
  obtain ⟨p1, p2, p3, p4⟩ := prev_some H1 (rpre q hqm)
  refine ⟨?_, p2, p4, p1, hqm, e2⟩
  show GET_ALLOC s.mem (FTRP s.mem (PREV_BLKP s.mem b.bp)) = 0
  rw [p3, e2]
  rfl

/-- The flag and the size that `coalesce` reads of the block after `b`. -/
theorem read_next {s : State} {pre post : List Blk} {b : Blk} {fl : List Nat}
    (H : Heap s (pre ++ b :: post) fl) (hbr : b.kind ≠ Kind.raw)
    (rpost : ∀ c ∈ post, c.kind ≠ Kind.raw) :
    (nextFree post = none → next_alloc s.mem b.bp = 1) ∧
    ∀ n, nextFree post = some n → next_alloc s.mem b.bp = 0 ∧ NEXT_BLKP s.mem b.bp = n.bp ∧
      GET_SIZE s.mem (HDRP (NEXT_BLKP s.mem b.bp)) = n.sz ∧ b.bp + b.sz = n.bp ∧ n ∈ post ∧
      n.kind = Kind.free := by
  refine ⟨fun h => next_alloc_used H hbr rpost (nextFree_eq_none h), fun n hn => ?_⟩
  obtain ⟨e1, e2⟩ := nextFree_eq_some hn
  have hnm : n ∈ post := by
    rw [e1]
    exact List.mem_cons_self _ _
  have H1 : Heap s (pre ++ b :: n :: post.tail) fl := by
    rw [← e1]
    exact H
  obtain ⟨p1, p2, p3, p4, -⟩ := next_some H1 hbr (rpost n hnm)
  refine ⟨?_, p2, p4, p1, hnm, e2⟩
  show GET_ALLOC s.mem (HDRP (NEXT_BLKP s.mem b.bp)) = 0
  rw [p3, e2]
  rfl

theorem mergedPtr_eq (m : Mem) (bp : Nat) :
    (prev_alloc m bp = 1 → mergedPtr m bp = bp) ∧
    (prev_alloc m bp = 0 → mergedPtr m bp = PREV_BLKP m bp) := by
  unfold mergedPtr
  constructor
  · intro h
    rw [h, if_neg (by decide)]
  · intro h
    rw [h, if_pos rfl]

theorem mergedSize_eq (m : Mem) (bp : Nat) :
    (prev_alloc m bp = 1 → next_alloc m bp = 1 → mergedSize m bp = GET_SIZE m (HDRP bp)) ∧
    (prev_alloc m bp = 1 → next_alloc m bp = 0 →
      mergedSize m bp = GET_SIZE m (HDRP bp) + GET_SIZE m (HDRP (NEXT_BLKP m bp))) ∧
    (prev_alloc m bp = 0 → next_alloc m bp = 1 →
      mergedSize m bp = GET_SIZE m (HDRP (PREV_BLKP m bp)) + GET_SIZE m (HDRP bp)) ∧
    (prev_alloc m bp = 0 → next_alloc m bp = 0 →
      mergedSize m bp = GET_SIZE m (HDRP (PREV_BLKP m bp)) + GET_SIZE m (HDRP bp)
        + GET_SIZE m (HDRP (NEXT_BLKP m bp))) := by
  unfold mergedSize
  refine ⟨fun h1 h2 => ?_, fun h1 h2 => ?_, fun h1 h2 => ?_, fun h1 h2 => ?_⟩
  · rw [h1, h2]
    simp
  · rw [h1, h2]
    simp
  · rw [h1, h2]
    simp
    omega
  · rw [h1, h2]
    simp
    omega

/-- The merged block of `coBlocks`, by what `coalesce` reads of the neighbours. -/
theorem merged_block {s : State} {pre post : List Blk} {b : Blk} {fl : List Nat}
    (H : Heap s (pre ++ b :: post) fl) (hbr : b.kind ≠ Kind.raw)
    (rpre : ∀ c ∈ pre, c.kind ≠ Kind.raw) (rpost : ∀ c ∈ post, c.kind ≠ Kind.raw) :
    coPtr pre b = mergedPtr s.mem b.bp ∧ mergedPtr s.mem b.bp ≤ b.bp ∧
    b.bp + b.sz ≤ mergedPtr s.mem b.bp + mergedSize s.mem b.bp ∧
    (⟨mergedPtr s.mem b.bp, mergedSize s.mem b.bp, Kind.free⟩ : Blk) ∈ coBlocks pre b post := by
  obtain ⟨a1, a2⟩ := read_prev H rpre
  obtain ⟨c1, c2⟩ := read_next H hbr rpost
  have hS := (H.size_at b (mem_mid _ _ _) hbr).1
  obtain ⟨P1, P0⟩ := mergedPtr_eq s.mem b.bp
  obtain ⟨S11, S10, S01, S00⟩ := mergedSize_eq s.mem b.bp
  unfold coPtr
  cases hp : prevFree pre with
  | none =>
    have pa := a1 hp
    cases hn : nextFree post with
    | none =>
      have na := c1 hn
      rw [P1 pa, S11 pa na, coBlocks_nn b hp hn, hS]
      exact ⟨rfl, le_refl _, le_refl _, mem_mid _ _ _⟩
    | some n =>
      obtain ⟨na, n1, n2, -⟩ := c2 n hn
      rw [P1 pa, S10 pa na, coBlocks_ns b hp hn, hS, n2]
      exact ⟨rfl, le_refl _, by omega, mem_mid _ _ _⟩
  | some q =>
    obtain ⟨pa, q1, q2, q3, -⟩ := a2 q hp
    cases hn : nextFree post with
    | none =>
      have na := c1 hn
      rw [P0 pa, S01 pa na, coBlocks_sn b hp hn, hS, q2, q1]
      exact ⟨rfl, by omega, by omega, mem_mid _ _ _⟩
    | some n =>
      obtain ⟨na, n1, n2, -⟩ := c2 n hn
      rw [P0 pa, S00 pa na, coBlocks_ss b hp hn, hS, q2, q1, n2]
      exact ⟨rfl, by omega, by omega, mem_mid _ _ _⟩

/-! ## `coalesce` -/

/-- Claim C25.  For a block `b` whose header and footer have just been marked
free, in a heap that otherwise satisfies the invariant, `coalesce(b)` returns the
lowest address of the merged span: the block before `b` if its footer says free,
else `b`; and the block at the returned address has header and footer
`PACK(size, 0)`, where `size` is the size of `b` plus the sizes of exactly those
of the two neighbours whose tags say free. -/
theorem coalesce_merges {s : State} {L : List (Nat × Nat)} {pre post : List Blk} {b : Blk}
    {fl : List Nat} (h : PreCo s L pre b post fl) :
    (coalesce s b.bp).2 = mergedPtr s.mem b.bp ∧ (coalesce s b.bp).2 ≤ b.bp ∧
    b.bp + GET_SIZE s.mem (HDRP b.bp) ≤ (coalesce s b.bp).2 + mergedSize s.mem b.bp ∧
    GET (coalesce s b.bp).1.mem (HDRP (coalesce s b.bp).2) = PACK (mergedSize s.mem b.bp) 0 ∧
    GET (coalesce s b.bp).1.mem (FTRP (coalesce s b.bp).1.mem (coalesce s b.bp).2)
      = PACK (mergedSize s.mem b.bp) 0 := by
  have hbr : b.kind ≠ Kind.raw := by rw [h.bfree]; exact free_ne_raw
  have rpre : ∀ c ∈ pre, c.kind ≠ Kind.raw := fun c hc => h.no_raw c (List.mem_append_left _ hc)
  have rpost : ∀ c ∈ post, c.kind ≠ Kind.raw :=
    fun c hc => h.no_raw c (List.mem_append_right _ hc)
  obtain ⟨I1, P1⟩ := coalesce_exact h
  obtain ⟨m1, m2, m4, m3⟩ := merged_block h.heap hbr rpre rpost
  have hS := (h.heap.size_at b (mem_mid _ _ _) hbr).1
  obtain ⟨r, hr⟩ : ∃ r, r = coalesce s b.bp := ⟨_, rfl⟩
  rw [← hr] at I1 P1 ⊢
  have gM := I1.heap.geo.blk _ m3
  have rd := I1.read.2 _ m3
  have gM : _ ∧ _ ∧ mergedSize s.mem b.bp % 8 = 0 ∧ _ ∧ _ ∧ mergedSize s.mem b.bp < 4294967296 ∧ _ :=
    gM
  have rd : GET r.1.mem (HDRP (mergedPtr s.mem b.bp)) = mergedSize s.mem b.bp + 0 ∧
      GET r.1.mem (FTRP r.1.mem (mergedPtr s.mem b.bp)) = mergedSize s.mem b.bp + 0 ∧ _ := rd
  have hpk := PACK_eq (mergedSize s.mem b.bp) 0 gM.2.2.1 gM.2.2.2.2.2.1 (by decide)
  have hP : r.2 = mergedPtr s.mem b.bp := by rw [P1, m1]
  rw [hP, hpk, hS]
  exact ⟨rfl, m2, m4, rd.1, rd.2.1⟩

/-! ## `place` -/

/-- The walk along the free list in the invariant, for every sufficient fuel. -/
theorem InvWith.free_walk {s : State} {L : List (Nat × Nat)} {bs : List Blk} {fl : List Nat}
    (I : InvWith s L bs fl) : ∀ fuel, fl.length + 1 ≤ fuel → freeNodes fuel s = some fl := by
  intro fuel hf
  have := I.observe.2 (fuel - (fl.length + 1))
  rw [show fl.length + 1 + (fuel - (fl.length + 1)) = fuel by omega] at this
  exact this

theorem not_mem_placeList (X : Blk) (fl : List Nat) (asize : Nat) (hnd : fl.Nodup)
    (h : 0 < asize) : X.bp ∉ placeList X fl asize := by
  have he : X.bp ∉ fl.erase X.bp := fun hh => (List.Nodup.mem_erase_iff hnd).1 hh |>.1 rfl
  unfold placeList
  split_ifs
  · intro hh
    rcases List.mem_cons.1 hh with e | e
    · omega
    · exact he e
  · exact he

/-- Claim C24, amended.  For a free-list member `X` of size `csize` in a heap
that satisfies the invariant and every `asize` that is a multiple of 8 with
`MINIMUM ≤ asize ≤ csize`: after `place(X, asize)` the block at `X` is allocated
and absent from the free list, whose other members stay; if
`csize - asize ≥ MINIMUM` its size is `asize` and the block at `X + asize` has
header and footer `PACK(csize - asize, 0)` and is a member of the free list and a
block of the walk over the arena; otherwise its size is `csize` and the walk over
the arena finds the same blocks as before; the tags of the other blocks, of the
prologue and of the epilogue do not change. -/
theorem place_result {s : State} {L : List (Nat × Nat)} {pre post : List Blk} {X : Blk}
    {fl : List Nat} (I : InvWith s L (pre ++ X :: post) fl) (hXfl : X.bp ∈ fl) (asize : Nat)
    (h8 : asize % 8 = 0) (h24 : MINIMUM ≤ asize) (hle : asize ≤ GET_SIZE s.mem (HDRP X.bp)) :
    GET_ALLOC (place s X.bp asize).mem (HDRP X.bp) = 1 ∧
    (∃ N, ∀ fuel, N ≤ fuel →
      freeNodes fuel (place s X.bp asize) = some (placeList X fl asize)) ∧
    X.bp ∉ placeList X fl asize ∧
    (MINIMUM ≤ GET_SIZE s.mem (HDRP X.bp) - asize →
      GET_SIZE (place s X.bp asize).mem (HDRP X.bp) = asize ∧
      GET (place s X.bp asize).mem (HDRP (X.bp + asize))
        = PACK (GET_SIZE s.mem (HDRP X.bp) - asize) 0 ∧
      GET (place s X.bp asize).mem (FTRP (place s X.bp asize).mem (X.bp + asize))
        = PACK (GET_SIZE s.mem (HDRP X.bp) - asize) 0 ∧
      placeList X fl asize = (X.bp + asize) :: fl.erase X.bp ∧
      ∃ N, ∀ fuel, N ≤ fuel → heapBlocks fuel (place s X.bp asize)
        = some (s.start :: (pre.map Blk.bp ++ X.bp :: (X.bp + asize) :: post.map Blk.bp))) ∧
    (GET_SIZE s.mem (HDRP X.bp) - asize < MINIMUM →
      GET_SIZE (place s X.bp asize).mem (HDRP X.bp) = GET_SIZE s.mem (HDRP X.bp) ∧
      placeList X fl asize = fl.erase X.bp ∧
      ∃ N, ∀ fuel, N ≤ fuel → heapBlocks fuel (place s X.bp asize) = heapBlocks fuel s) ∧
    (∀ c ∈ pre ++ post,
      GET (place s X.bp asize).mem (HDRP c.bp) = GET s.mem (HDRP c.bp) ∧
      GET (place s X.bp asize).mem (FTRP (place s X.bp asize).mem c.bp)
        = GET s.mem (FTRP s.mem c.bp)) ∧
    GET (place s X.bp asize).mem (HDRP s.start) = GET s.mem (HDRP s.start) ∧
    GET (place s X.bp asize).mem s.start = GET s.mem s.start ∧
    (place s X.bp asize).mem_brk = s.mem_brk ∧
    GET (place s X.bp asize).mem (HDRP s.mem_brk) = GET s.mem (HDRP s.mem_brk) := by
  have hXm : X ∈ pre ++ X :: post := mem_mid _ _ _
  have hXk : X.kind = Kind.free := (I.members X hXm).2 hXfl
  have hS := (I.heap.size_at X hXm (I.no_raw X hXm)).1
  rw [hS] at hle ⊢
  have h24 : 24 ≤ asize := h24
  obtain ⟨I1, Sa, Sb, -⟩ := place_exact I hXk asize (asize - 8) h8 h24 hle (by omega)
  obtain ⟨s1, hs1⟩ : ∃ s1, s1 = place s X.bp asize := ⟨_, rfl⟩
  rw [← hs1] at I1 Sa Sb ⊢
  have others : ∀ c ∈ pre ++ post, GET s1.mem (HDRP c.bp) = GET s.mem (HDRP c.bp) ∧
      GET s1.mem (FTRP s1.mem c.bp) = GET s.mem (FTRP s.mem c.bp) := by
    intro c hc
    have hc0 : c ∈ pre ++ X :: post := by
      rcases List.mem_append.1 hc with e | e
      · exact List.mem_append_left _ e
      · exact List.mem_append_right _ (List.mem_cons_of_mem _ e)
    have hc1 := placeBlocks_keeps pre post X asize c (List.mem_append.1 hc)
    obtain ⟨x1, x2, -⟩ := I.read.2 c hc0
    obtain ⟨y1, y2, -⟩ := I1.read.2 c hc1
    exact ⟨by rw [x1, y1], by rw [x2, y2]⟩
  have pro1 : GET s1.mem (HDRP s.start) = GET s.mem (HDRP s.start) := by
    rw [I.read.1.1, ← Sa, I1.read.1.1]
  have pro2 : GET s1.mem s.start = GET s.mem s.start := by
    rw [I.heap.tags.prologue_f, ← Sa, I1.heap.tags.prologue_f]
  have epi : GET s1.mem (HDRP s.mem_brk) = GET s.mem (HDRP s.mem_brk) := by
    have e0 : GET s.mem (HDRP s.mem_brk) = 1 := I.heap.tags.epilogue
    have e1 : GET s1.mem (HDRP s1.mem_brk) = 1 := I1.heap.tags.epilogue
    rw [e0, ← Sb, e1]
  have fw : ∃ N, ∀ fuel, N ≤ fuel → freeNodes fuel s1 = some (placeList X fl asize) :=
    ⟨_, I1.free_walk⟩
  have hnot := not_mem_placeList X fl asize I.heap.flist.nodup (by omega)
  have hw0 := I.coalesced.1
  have hw1 := I1.coalesced.1
  by_cases hsp : asize + 24 ≤ X.sz
  · have eB := placeBlocks_split pre post X asize hsp
    have eL := placeList_split X fl asize hsp
    rw [eB] at I1 hw1
    have hU : (⟨X.bp, asize, Kind.used⟩ : Blk) ∈
        pre ++ ⟨X.bp, asize, Kind.used⟩ :: ⟨X.bp + asize, X.sz - asize, Kind.free⟩ :: post :=
      mem_mid _ _ _
    have hR : (⟨X.bp + asize, X.sz - asize, Kind.free⟩ : Blk) ∈
        pre ++ ⟨X.bp, asize, Kind.used⟩ :: ⟨X.bp + asize, X.sz - asize, Kind.free⟩ :: post :=
      List.mem_append_right _ (List.mem_cons_of_mem _ (List.mem_cons_self _ _))
    obtain ⟨-, -, -, u4, u5⟩ := I1.read.2 _ hU
    obtain ⟨v1, v2, -⟩ := I1.read.2 _ hR
    have gR := I1.heap.geo.blk _ hR
    have gR : _ ∧ _ ∧ (X.sz - asize) % 8 = 0 ∧ _ ∧ _ ∧ X.sz - asize < 4294967296 ∧ _ := gR
    have hpk := PACK_eq (X.sz - asize) 0 gR.2.2.1 gR.2.2.2.2.2.1 (by decide)
    refine ⟨u5, fw, hnot, fun _ => ⟨u4, ?_, ?_, eL,
      ⟨(pre ++ (⟨X.bp, asize, Kind.used⟩ : Blk) ::
        (⟨X.bp + asize, X.sz - asize, Kind.free⟩ : Blk) :: post).length + 2,
        fun fuel hf => ?_⟩⟩,
      fun hc => ?_, others, pro1, pro2, Sb, epi⟩
    · rw [hpk]
      exact v1
    · rw [hpk]
      exact v2
    · rw [hw1 fuel hf, Sa]
      simp
    · have : X.sz - asize < 24 := hc
      omega
  · have eB := placeBlocks_whole pre post X asize (by omega)
    have eL := placeList_whole X fl asize (by omega)
    rw [eB] at I1 hw1
    have hU : (⟨X.bp, X.sz, Kind.used⟩ : Blk) ∈ pre ++ ⟨X.bp, X.sz, Kind.used⟩ :: post :=
      mem_mid _ _ _
    obtain ⟨-, -, -, u4, u5⟩ := I1.read.2 _ hU
    refine ⟨u5, fw, hnot, fun hc => ?_, fun _ => ⟨u4, eL,
      ⟨(pre ++ X :: post).length + 2, fun fuel hf => ?_⟩⟩, others, pro1, pro2, Sb, epi⟩
    · have : 24 ≤ X.sz - asize := hc
      omega
    · rw [hw0 fuel hf, hw1 fuel (by simpa using hf), Sa]
      simp

/-! ## `insert_to_free` and `remove_from_free` on a well-formed list -/

theorem Heap.nodes_ne_zero {s : State} {bs : List Blk} {fl : List Nat} (h : Heap s bs fl) :
    ∀ z ∈ fl, z ≠ 0 := fun z hz => (IsBp.pos h.geo (h.flist.mem_blk z hz)).1

theorem Heap.walk_ge {s : State} {bs : List Blk} {fl : List Nat} (h : Heap s bs fl) :
    ∀ fuel, fl.length + 1 ≤ fuel → freeNodes fuel s = some fl := by
  intro fuel hf
  have := h.list_walk (fuel - (fl.length + 1))
  rw [show fl.length + 1 + (fuel - (fl.length + 1)) = fuel by omega] at this
  exact this

/-- Claim C26.  In a heap whose free list `fl` is well-formed, for a block `b`
that is marked free and is not a member, `insert_to_free(b)` makes `b` the head:
the `prev` link of `b` is `NULL` and its `next` link is the old head (`NULL` when
the list was empty), the `prev` link of the old head is `b`, the other links of
the members are as before, and the list is well-formed again with the members
`b :: fl`. -/
theorem insert_makes_head {s : State} {bs : List Blk} {fl : List Nat} (h : Heap s bs fl)
    (b : Blk) (hb : b ∈ bs) (hk : b.kind = Kind.free) (hx : b.bp ∉ fl) :
    (insert_to_free s b.bp).firstfree = b.bp ∧
    getPrev (insert_to_free s b.bp).mem b.bp = 0 ∧
    getNext (insert_to_free s b.bp).mem b.bp = s.firstfree ∧
    (s.firstfree = 0 ↔ fl = []) ∧
    (s.firstfree ≠ 0 → getPrev (insert_to_free s b.bp).mem s.firstfree = b.bp) ∧
    (∀ y ∈ fl, getNext (insert_to_free s b.bp).mem y = getNext s.mem y ∧
      (y ≠ s.firstfree → getPrev (insert_to_free s b.bp).mem y = getPrev s.mem y)) ∧
    (∃ N, ∀ fuel, N ≤ fuel → freeNodes fuel s = some fl ∧
      freeNodes fuel (insert_to_free s b.bp) = some (b.bp :: fl)) ∧
    FreeList (insert_to_free s b.bp).mem (insert_to_free s b.bp).firstfree bs (b.bp :: fl) := by
  obtain ⟨H1, -⟩ := insert_spec h b hb hk hx
  obtain ⟨s1, hs1⟩ : ∃ s1, s1 = insert_to_free s b.bp := ⟨_, rfl⟩
  rw [← hs1] at H1 ⊢
  have hd : s.firstfree = fl.headD 0 := h.flist.head
  have l1 := H1.flist.linked [] b.bp fl rfl
  have l1 : getPrev s1.mem b.bp = 0 ∧ getNext s1.mem b.bp = fl.headD 0 := l1
  have he : s.firstfree = 0 ↔ fl = [] := by
    rw [hd]
    exact headD_eq_zero fl h.nodes_ne_zero
  refine ⟨H1.flist.head, l1.1, by rw [hd]; exact l1.2, he, fun h0 => ?_, fun y hy => ?_,
    ⟨fl.length + 2, fun fuel hf => ⟨h.walk_ge fuel (by omega), H1.walk_ge fuel hf⟩⟩,
    H1.flist⟩
  · cases fl with
    | nil => exact absurd (he.2 rfl) h0
    | cons y ys =>
      have := (H1.flist.linked [b.bp] y ys rfl).1
      rw [hd]
      exact this
  · obtain ⟨xs, ys, hfl⟩ := List.append_of_mem hy
    have k0 := h.flist.linked xs y ys hfl
    have k1 := H1.flist.linked (b.bp :: xs) y ys (by rw [hfl]; rfl)
    refine ⟨by rw [k0.2, k1.2], fun hne => ?_⟩
    rw [k0.1, k1.1]
    cases xs with
    | nil =>
      rw [hfl] at hd
      exact absurd hd.symm hne
    | cons x xs => exact getLastD_append_cons [b.bp] xs x 0

/-- Claim C27.  In a heap whose free list `fl` is well-formed, for a member `b`
(whose size is not 0), after `remove_from_free(b)` the walk from `firstfree`
along the `next` links finds the old members without `b`, in their old order,
and the list is well-formed again, the `prev` link of its head being `NULL`;
this holds wherever in the list `b` was. -/
theorem remove_unlinks {s : State} {bs : List Blk} {fl : List Nat} (h : Heap s bs fl)
    (b : Blk) (hb : b ∈ bs) (hk : b.kind ≠ Kind.raw) (hx : b.bp ∈ fl) :
    GET_SIZE s.mem (HDRP b.bp) ≠ 0 ∧
    (∃ N, ∀ fuel, N ≤ fuel → freeNodes fuel s = some fl ∧
      freeNodes fuel (remove_from_free s b.bp) = some (fl.erase b.bp)) ∧
    (∀ xs ys, fl = xs ++ b.bp :: ys → fl.erase b.bp = xs ++ ys) ∧
    b.bp ∉ fl.erase b.bp ∧
    FreeList (remove_from_free s b.bp).mem (remove_from_free s b.bp).firstfree bs
      (fl.erase b.bp) ∧
    ((remove_from_free s b.bp).firstfree ≠ 0 →
      getPrev (remove_from_free s b.bp).mem (remove_from_free s b.bp).firstfree = 0) := by
  obtain ⟨H1, -⟩ := remove_spec h b hb hk hx
  obtain ⟨s1, hs1⟩ : ∃ s1, s1 = remove_from_free s b.bp := ⟨_, rfl⟩
  rw [← hs1] at H1 ⊢
  have gb := h.geo.blk b hb
  have hsz := (h.size_at b hb hk).1
  have hnd := h.flist.nodup
  refine ⟨by omega, ⟨fl.length + 1, fun fuel hf => ⟨h.walk_ge fuel hf, H1.walk_ge fuel ?_⟩⟩,
    fun xs ys hfl => ?_, fun hh => ((List.Nodup.mem_erase_iff hnd).1 hh).1 rfl, H1.flist,
    fun h0 => ?_⟩
  · have := List.length_erase_le b.bp fl
    omega
  · rw [hfl] at hnd ⊢
    have hnd2 := List.nodup_append.1 hnd
    exact erase_mid xs ys b.bp (fun hh => hnd2.2.2 hh (List.mem_cons_self _ _))
  · have hd := H1.flist.head
    cases he : fl.erase b.bp with
    | nil =>
      rw [he] at hd
      exact absurd hd h0
    | cons y ys =>
      have l := (H1.flist.linked [] y ys (by rw [he]; rfl)).1
      rw [he] at hd
      have hd : s1.firstfree = y := hd
      rw [hd]
      exact l

/-- Claim C28 on its failing inputs: `remove_from_free(b)` clears the links of `b`
only when `b` is an interior member.  When `b` is the head and has a successor,
its `next` link still points to the successor, and when `b` is the last member
and has a predecessor, its `prev` link still points to the predecessor; the links
are `NULL` only for a sole or an interior member. -/
theorem remove_keeps_links {s : State} {bs : List Blk} {fl : List Nat} (h : Heap s bs fl)
    (b : Blk) (hb : b ∈ bs) (hk : b.kind ≠ Kind.raw) (xs ys : List Nat)
    (hfl : fl = xs ++ b.bp :: ys) :
    getPrev (remove_from_free s b.bp).mem b.bp = (if ys = [] then xs.getLastD 0 else 0) ∧
    getNext (remove_from_free s b.bp).mem b.bp = (if xs = [] then ys.headD 0 else 0) ∧
    (xs = [] → ys ≠ [] → getNext (remove_from_free s b.bp).mem b.bp ≠ 0) ∧
    (xs ≠ [] → ys = [] → getPrev (remove_from_free s b.bp).mem b.bp ≠ 0) := by
  subst hfl
  have g := h.geo
  have hnd := h.flist.nodup
  have hnd2 := List.nodup_append.1 hnd
  have hxs : b.bp ∉ xs := fun hh => hnd2.2.2 hh (List.mem_cons_self _ _)
  have hys : b.bp ∉ ys := (List.nodup_cons.1 hnd2.2.1).1
  have hl := h.flist.linked xs b.bp ys rfl
  have hsz := (h.size_at b hb hk).1
  have gb := g.blk b hb
  have hne : ¬ GET_SIZE s.mem (HDRP b.bp) = 0 := by omega
  have hbp : ∀ z ∈ xs ++ b.bp :: ys, IsBp bs z := h.flist.mem_blk
  have h0 := h.nodes_ne_zero
  have h0x : ∀ z ∈ xs, z ≠ 0 := fun z hz => h0 z (List.mem_append_left _ hz)
  have h0y : ∀ z ∈ ys, z ≠ 0 := fun z hz =>
    h0 z (List.mem_append_right _ (List.mem_cons_of_mem _ hz))
  have hbb : IsBp bs b.bp := ⟨b, hb, rfl⟩
  have main : getPrev (remove_from_free s b.bp).mem b.bp = (if ys = [] then xs.getLastD 0 else 0) ∧
      getNext (remove_from_free s b.bp).mem b.bp = (if xs = [] then ys.headD 0 else 0) := by
    by_cases hxe : xs = []
    · by_cases hye : ys = []
      · subst hxe
        subst hye
        have hdef : remove_from_free s b.bp = { s with firstfree := 0 } := by
          unfold remove_from_free
          rw [if_neg hne, if_pos ⟨hl.2, hl.1⟩]
        rw [hdef, if_pos rfl, if_pos rfl]
        exact hl
      · subst hxe
        have hn0 : getNext s.mem b.bp ≠ 0 := by
          rw [hl.2]
          exact fun e => hye ((headD_eq_zero ys h0y).1 e)
        have hdef : remove_from_free s b.bp =
            { s with firstfree := ys.headD 0, mem := setPrev s.mem (ys.headD 0) 0 } := by
          unfold remove_from_free
          rw [if_neg hne, if_neg (fun hh => hn0 hh.1), if_pos ⟨hl.1, hn0⟩, hl.2]
        have hnb : IsBp bs (ys.headD 0) :=
          hbp _ (List.mem_append_right _ (List.mem_cons_of_mem _ (headD_mem ys 0 hye)))
        have hnne : b.bp ≠ ys.headD 0 := fun e => hys (e ▸ headD_mem ys 0 hye)
        obtain ⟨-, sp2, -⟩ := setPrev_spec (m := s.mem) g hnb 0 (by norm_num)
        rw [hdef, if_neg hye, if_pos rfl]
        show getPrev (setPrev s.mem (ys.headD 0) 0) b.bp = 0 ∧
          getNext (setPrev s.mem (ys.headD 0) 0) b.bp = ys.headD 0
        rw [(sp2 b.bp hbb).1, (sp2 b.bp hbb).2, if_neg hnne]
        exact hl
    · have hp0 : getPrev s.mem b.bp ≠ 0 := by
        rw [hl.1]
        exact fun e => hxe ((getLastD_eq_zero xs h0x).1 e)
      have hpb : IsBp bs (xs.getLastD 0) :=
        hbp _ (List.mem_append_left _ (getLastD_mem xs 0 hxe))
      have hpne : b.bp ≠ xs.getLastD 0 := fun e => hxs (e ▸ getLastD_mem xs 0 hxe)
      by_cases hye : ys = []
      · subst hye
        have hdef : remove_from_free s b.bp =
            { s with mem := setNext s.mem (xs.getLastD 0) 0 } := by
          unfold remove_from_free
          rw [if_neg hne, if_neg (fun hh => hp0 hh.2), if_neg (fun hh => hp0 hh.1),
            if_pos ⟨hp0, hl.2⟩, hl.1]
        obtain ⟨-, sp2, -⟩ := setNext_spec (m := s.mem) g hpb 0 (by norm_num)
        rw [hdef, if_pos rfl, if_neg hxe]
        show getPrev (setNext s.mem (xs.getLastD 0) 0) b.bp = xs.getLastD 0 ∧
          getNext (setNext s.mem (xs.getLastD 0) 0) b.bp = 0
        rw [(sp2 b.bp hbb).1, (sp2 b.bp hbb).2, if_neg hpne]
        exact hl
      · have hn0 : getNext s.mem b.bp ≠ 0 := by
          rw [hl.2]
          exact fun e => hye ((headD_eq_zero ys h0y).1 e)
        have hnb : IsBp bs (ys.headD 0) :=
          hbp _ (List.mem_append_right _ (List.mem_cons_of_mem _ (headD_mem ys 0 hye)))
        obtain ⟨a1, a2, a3⟩ := setNext_spec (m := s.mem) g hpb (ys.headD 0) (IsBp.pos g hnb).2
        have e1 : getNext (setNext s.mem (xs.getLastD 0) (ys.headD 0)) b.bp = ys.headD 0 := by
          rw [(a2 b.bp hbb).1, if_neg hpne, hl.2]
        have e2 : getPrev (setNext s.mem (xs.getLastD 0) (ys.headD 0)) b.bp = xs.getLastD 0 := by
          rw [(a2 b.bp hbb).2, hl.1]
        obtain ⟨c1, c2, c3⟩ := setPrev_spec
          (m := setPrev (setNext s.mem (xs.getLastD 0) (ys.headD 0)) (ys.headD 0) (xs.getLastD 0))
          g hbb 0 (by norm_num)
        obtain ⟨d1, d2, d3⟩ := setNext_spec
          (m := setPrev (setPrev (setNext s.mem (xs.getLastD 0) (ys.headD 0)) (ys.headD 0)
            (xs.getLastD 0)) b.bp 0) g hbb 0 (by norm_num)
        have hdef : remove_from_free s b.bp =
            { s with mem := setNext (setPrev (setPrev (setNext s.mem (xs.getLastD 0) (ys.headD 0))
              (ys.headD 0) (xs.getLastD 0)) b.bp 0) b.bp 0 } := by
          unfold remove_from_free
          rw [if_neg hne, if_neg (fun hh => hn0 hh.1), if_neg (fun hh => hp0 hh.1),
            if_neg (fun hh => hn0 hh.2), if_pos ⟨hp0, hn0⟩]
          simp only [hl.1, hl.2, e1, e2]
        rw [hdef, if_neg hye, if_neg hxe]
        show getPrev (setNext _ b.bp 0) b.bp = 0 ∧ getNext (setNext _ b.bp 0) b.bp = 0
        rw [(d2 b.bp hbb).1, (d2 b.bp hbb).2, if_pos rfl, (c2 b.bp hbb).1, if_pos rfl]
        exact ⟨rfl, rfl⟩
  refine ⟨main.1, main.2, fun hxe hye => ?_, fun hxe hye => ?_⟩
  · rw [main.2, if_pos hxe]
    exact fun e => hye ((headD_eq_zero ys h0y).1 e)
  · rw [main.1, if_pos hye]
    exact fun e => hxe ((getLastD_eq_zero xs h0x).1 e)

/-! ## The place of a freed block in the free list -/

theorem coList_nn {pre post : List Blk} (b : Blk) (fl : List Nat)
    (hp : prevFree pre = none) (hn : nextFree post = none) :
    coList pre b post fl = b.bp :: fl := by
  unfold coList
  rw [hp, hn]

theorem coList_sn {pre post : List Blk} (b : Blk) {q : Blk} (fl : List Nat)
    (hp : prevFree pre = some q) (hn : nextFree post = none) :
    coList pre b post fl = fl := by
  unfold coList
  rw [hp, hn]

theorem coList_ss {pre post : List Blk} (b : Blk) {q n : Blk} (fl : List Nat)
    (hp : prevFree pre = some q) (hn : nextFree post = some n) :
    coList pre b post fl = q.bp :: (fl.erase n.bp).erase q.bp := by
  unfold coList
  rw [hp, hn]

/-- Claim C29, amended.  In a reachable state, for a live pointer `p`: after
`mm_free(p)` the free block that contains `p` starts at the block before `p` if
that was free, else at `p`, and is a member of the free list.  It is the head of
the list when the block before `p` was allocated or the block after `p` was free
(three of the four cases of `coalesce`).  When the block before `p` was free and
the block after `p` allocated, the free list and its head are as before the call:
the merged block keeps the place that the block before `p` had. -/
theorem free_list_position {s : State} {L : List (Nat × Nat)} (h : Reach s L) (p m : Nat)
    (hp : (p, m) ∈ L) :
    mergedPtr s.mem p ≤ p ∧
    p + GET_SIZE s.mem (HDRP p)
      ≤ mergedPtr s.mem p + GET_SIZE (mm_free s p).mem (HDRP (mergedPtr s.mem p)) ∧
    GET_ALLOC (mm_free s p).mem (HDRP (mergedPtr s.mem p)) = 0 ∧
    (∃ F, (∃ N, ∀ fuel, N ≤ fuel → freeNodes fuel (mm_free s p) = some F) ∧
      mergedPtr s.mem p ∈ F) ∧
    (prev_alloc s.mem p = 1 ∨ next_alloc s.mem p = 0 →
      (mm_free s p).firstfree = mergedPtr s.mem p) ∧
    (prev_alloc s.mem p = 0 → next_alloc s.mem p = 1 →
      (mm_free s p).firstfree = s.firstfree ∧
      ∃ F, ∃ N, ∀ fuel, N ≤ fuel →
        freeNodes fuel s = some F ∧ freeNodes fuel (mm_free s p) = some F) := by
  obtain ⟨bs, fl, I⟩ := reach_inv h
  obtain ⟨pre, b, post, hbs, hbp, hbk, -⟩ := I.live_split hp
  rw [hbs] at I
  subst hbp
  have hbr : b.kind ≠ Kind.raw := by rw [hbk]; exact used_ne_raw
  have rpre : ∀ c ∈ pre, c.kind ≠ Kind.raw :=
    fun c hc => I.no_raw c (List.mem_append_left _ hc)
  have rpost : ∀ c ∈ post, c.kind ≠ Kind.raw :=
    fun c hc => I.no_raw c (List.mem_append_right _ (List.mem_cons_of_mem _ hc))
  have hS := (I.heap.size_at b (mem_mid _ _ _) hbr).1
  obtain ⟨I1, -⟩ := free_exact I m hp
  obtain ⟨m1, m2, m4, m3⟩ := merged_block I.heap hbr rpre rpost
  obtain ⟨a1, a2⟩ := read_prev I.heap rpre
  obtain ⟨c1, c2⟩ := read_next I.heap hbr rpost
  obtain ⟨s1, hs1⟩ : ∃ s1, s1 = mm_free s b.bp := ⟨_, rfl⟩
  rw [← hs1] at I1 ⊢
  obtain ⟨-, -, -, r4, r5⟩ := I1.read.2 _ m3
  have r4 : GET_SIZE s1.mem (HDRP (mergedPtr s.mem b.bp)) = mergedSize s.mem b.bp := r4
  have r5 : GET_ALLOC s1.mem (HDRP (mergedPtr s.mem b.bp)) = 0 := r5
  have hmem : mergedPtr s.mem b.bp ∈ coList pre b post fl := (I1.members _ m3).1 rfl
  have hd := I1.heap.flist.head
  have hd0 := I.heap.flist.head
  refine ⟨m2, by rw [r4, hS]; exact m4, r5, ⟨_, ⟨_, I1.free_walk⟩, hmem⟩, fun hc => ?_,
    fun hpa hna => ?_⟩
  · rw [hd, ← m1]
    unfold coPtr
    cases hpf : prevFree pre with
    | none =>
      cases hnf : nextFree post with
      | none => rw [coList_nn b fl hpf hnf]; rfl
      | some n => rw [coList_ns b fl hpf hnf]; rfl
    | some q =>
      cases hnf : nextFree post with
      | none =>
        have e1 := (a2 q hpf).1
        have e2 := c1 hnf
        rcases hc with e | e
        · rw [e1] at e
          exact absurd e (by decide)
        · rw [e2] at e
          exact absurd e (by decide)
      | some n => rw [coList_ss b fl hpf hnf]; rfl
  · have hpf : ∃ q, prevFree pre = some q := by
      cases hpf : prevFree pre with
      | none =>
        rw [a1 hpf] at hpa
        exact absurd hpa (by decide)
      | some q => exact ⟨q, rfl⟩
    obtain ⟨q, hpf⟩ := hpf
    have hnf : nextFree post = none := by
      cases hnf : nextFree post with
      | none => rfl
      | some n =>
        rw [(c2 n hnf).1] at hna
        exact absurd hna (by decide)
    rw [coList_sn b fl hpf hnf] at I1 hd
    refine ⟨by rw [hd, hd0], fl, fl.length + 1, fun fuel hf => ⟨I.free_walk fuel hf,
      I1.free_walk fuel hf⟩⟩

/-! ## The bytes that `extend_heap` asks for -/

/-- Claim C30, amended.  For every word count `w` without 32-bit overflow, the
number of bytes that `extend_heap(w)` passes to `mem_sbrk` is a multiple of 8, at
least `4 * w` and less than `4 * w + 8`; it is at least `MINIMUM` exactly when
`w` is at least 5, which holds at the two call sites: `mm_init` asks for 4096
bytes and `mm_malloc`, for a request of more than 8 and at most `2 ^ 31 - 16`
bytes, for at least the adjusted size. -/
theorem extend_size_rounds (w : Nat) (hw : (w + 1) * WSIZE < 2 ^ 32) :
    extend_heap_grows w = [extend_size w] ∧
    extend_size w % 8 = 0 ∧ 4 * w ≤ extend_size w ∧ extend_size w < 4 * w + 8 ∧
    (MINIMUM ≤ extend_size w ↔ 5 ≤ w) ∧
    extend_size (CHUNKSIZE / WSIZE) = 4096 ∧
    ∀ n, 8 < n → n ≤ 2 ^ 31 - 16 →
      MINIMUM ≤ extend_size (extendsize (adjust_size n) / WSIZE) ∧
      adjust_size n ≤ extend_size (extendsize (adjust_size n) / WSIZE) := by
  have hw4 : (w + 1) * 4 < 4294967296 := hw
  clear hw
  have e1 : (w + 1) * 4 % 2 ^ 32 = (w + 1) * 4 := Nat.mod_eq_of_lt hw4
  have e2 : w * 4 % 2 ^ 32 = w * 4 := Nat.mod_eq_of_lt (by omega)
  have key : extend_size w % 8 = 0 ∧ 4 * w ≤ extend_size w ∧ extend_size w < 4 * w + 8 := by
    unfold extend_size WSIZE
    by_cases ho : w % 2 ≠ 0
    · rw [if_pos ho, e1]
      omega
    · rw [if_neg ho, e2]
      omega
  refine ⟨rfl, key.1, key.2.1, key.2.2, ?_, extend_size_chunk, fun n h1 h2 => ?_⟩
  · unfold MINIMUM
    omega
  · obtain ⟨-, e2, e3⟩ := extend_bytes n h1 h2
    exact ⟨e2, e3⟩

/-! ## The description of a concrete reachable state -/

theorem blocksFrom_mono (m : Mem) :
    ∀ (N a : Nat) (W : List Nat), blocksFrom m N a = some W →
      ∀ k, blocksFrom m (N + k) a = some W := by
  intro N
  induction N with
  | zero =>
    intro a W h
    exact Option.noConfusion h
  | succ N ih =>
    intro a W h k
    rw [show N + 1 + k = (N + k) + 1 by omega, blocksFrom]
    rw [blocksFrom] at h
    by_cases hz : GET_SIZE m (HDRP a) = 0
    · rw [if_pos hz] at h ⊢
      exact h
    · rw [if_neg hz] at h ⊢
      cases hrec : blocksFrom m N (NEXT_BLKP m a) with
      | none =>
        rw [hrec] at h
        exact Option.noConfusion h
      | some tl =>
        rw [hrec] at h
        rw [ih _ tl hrec k]
        exact h

theorem nodesFrom_mono (m : Mem) :
    ∀ (N a : Nat) (F : List Nat), nodesFrom m N a = some F →
      ∀ k, nodesFrom m (N + k) a = some F := by
  intro N
  induction N with
  | zero =>
    intro a F h
    exact Option.noConfusion h
  | succ N ih =>
    intro a F h k
    rw [show N + 1 + k = (N + k) + 1 by omega, nodesFrom]
    rw [nodesFrom] at h
    by_cases hz : a = 0
    · rw [if_pos hz] at h ⊢
      exact h
    · rw [if_neg hz] at h ⊢
      cases hrec : nodesFrom m N (getNext m a) with
      | none =>
        rw [hrec] at h
        exact Option.noConfusion h
      | some tl =>
        rw [hrec] at h
        rw [ih _ tl hrec k]
        exact h

/-- The description of a state of the invariant is what the two walks find. -/
theorem InvWith.describe {s : State} {L : List (Nat × Nat)} {bs : List Blk} {fl : List Nat}
    (I : InvWith s L bs fl) (N : Nat) (W F : List Nat)
    (hW : heapBlocks N s = some (s.start :: W)) (hF : freeNodes N s = some F) :
    InvWith s L (W.map (blockAt s.mem)) F := by
  have w1 := blocksFrom_mono s.mem N s.start _ hW (bs.length + 2)
  have w2 := I.coalesced.1 (N + (bs.length + 2)) (by omega)
  have w2 : blocksFrom s.mem (N + (bs.length + 2)) s.start = _ := w2
  rw [w1] at w2
  have hmap : W = bs.map Blk.bp := (List.cons.inj (Option.some.inj w2)).2
  have f1 := nodesFrom_mono s.mem N s.firstfree _ hF (fl.length + 1)
  have f2 := I.free_walk (N + (fl.length + 1)) (by omega)
  have f2 : nodesFrom s.mem (N + (fl.length + 1)) s.firstfree = _ := f2
  rw [f1] at f2
  have hfl : F = fl := Option.some.inj f2
  have d : bs = (bs.map Blk.bp).map (blockAt s.mem) := by
    rw [List.map_map]
    conv_lhs => rw [← List.map_id bs]
    exact List.map_congr_left (fun b hb => (blockAt_eq I.heap b hb (I.no_raw b hb)).symm)
  rw [hmap, hfl, ← d]
  exact I

/-- The description of a concrete reachable state, from the two walks. -/
theorem reach_describe {s : State} {L : List (Nat × Nat)} (h : Reach s L) (N : Nat)
    (W F : List Nat) (hW : heapBlocks N s = some (s.start :: W))
    (hF : freeNodes N s = some F) : InvWith s L (W.map (blockAt s.mem)) F := by
  obtain ⟨bs, fl, I⟩ := reach_inv h
  exact I.describe N W F hW hF

/-- The state in which `mm_free` of a live pointer calls `coalesce`. -/
theorem preco_of_live {s : State} {L : List (Nat × Nat)} {pre post : List Blk} {b : Blk}
    {fl : List Nat} (h : InvWith s L (pre ++ b :: post) fl) (n : Nat)
    (hp : (b.bp, n) ∈ L) :
    PreCo (markFree s b.bp) (L.erase (b.bp, n)) pre ⟨b.bp, b.sz, Kind.free⟩ post fl := by
  have hb : b ∈ pre ++ b :: post := mem_mid _ _ _
  have g := h.heap.geo
  have hbk : b.kind = Kind.used := by
    obtain ⟨c, hc, hcp, hck, -⟩ := h.live.2 (b.bp, n) hp
    rw [← g.bp_inj c b hc hb hcp]
    exact hck
  have hbr : b.kind ≠ Kind.raw := h.no_raw b hb
  have hsize := (h.heap.size_at b hb hbr).1
  obtain ⟨H1, -⟩ := retag_spec h.heap Kind.free
  have hbnot : b.bp ∉ fl := fun hx => by
    have := (h.members b hb).2 hx
    rw [hbk] at this
    exact used_ne_free this
  have hm : markFree s b.bp = { s with mem := put_tags s.mem b.bp b.sz 0 } := by
    unfold markFree
    rw [hsize]
  rw [hm]
  exact PreCo.mk H1 (fun c hc => h.no_raw c (mem_around pre post b c hc)) rfl hbnot
    (fun c hc => h.members c (mem_around pre post b c hc)) h.no_adj.parts.1
    h.no_adj.parts.2 (h.live.erase_live g n hp)

/-! ## Concrete runs for the layout, the free list and the two primitives -/

theorem blockAt_free (m : Mem) (bp sz : Nat) (h1 : GET_SIZE m (HDRP bp) = sz)
    (h2 : GET_ALLOC m (HDRP bp) = 0) : blockAt m bp = ⟨bp, sz, Kind.free⟩ := by
  unfold blockAt
  rw [h1, h2, if_pos rfl]

theorem blockAt_used (m : Mem) (bp sz : Nat) (h1 : GET_SIZE m (HDRP bp) = sz)
    (h2 : GET_ALLOC m (HDRP bp) = 1) : blockAt m bp = ⟨bp, sz, Kind.used⟩ := by
  unfold blockAt
  rw [h1, h2, if_neg (by decide)]

/-- The description of the state after `mm_init()`. -/
theorem inv_demoInit :
    InvWith demoInit [] ([] ++ (⟨4112, 4096, Kind.free⟩ : Blk) :: []) [4112] := by
  have I := reach_describe reach_demoInit 8 [4112] [4112] (by decide) (by decide)
  simp only [List.map] at I
  rw [blockAt_free _ 4112 4096 (by decide) (by decide)] at I
  exact I

/-- The description of the state after `mm_init()` and `mm_malloc(100)`. -/
theorem inv_demoA :
    InvWith demoA.1 [(4112, 100)]
      ([] ++ (⟨4112, 112, Kind.used⟩ : Blk) :: [⟨4224, 3984, Kind.free⟩]) [4224] := by
  have I := reach_describe reach_demoA 8 [4112, 4224] [4224] (by decide) (by decide)
  simp only [List.map] at I
  rw [blockAt_used _ 4112 112 (by decide) (by decide),
    blockAt_free _ 4224 3984 (by decide) (by decide)] at I
  exact I

/-- The description of the state `backB`, whose free list has two members. -/
theorem inv_backB :
    InvWith backB [(4272, 40), (4160, 100)]
      [⟨4112, 48, Kind.free⟩, ⟨4160, 112, Kind.used⟩, ⟨4272, 48, Kind.used⟩,
        ⟨4320, 3888, Kind.free⟩] [4112, 4320] := by
  have I := reach_describe reach_backB 8 [4112, 4160, 4272, 4320] [4112, 4320] (by decide)
    (by decide)
  simp only [List.map] at I
  rw [blockAt_free _ 4112 48 (by decide) (by decide),
    blockAt_used _ 4160 112 (by decide) (by decide),
    blockAt_used _ 4272 48 (by decide) (by decide),
    blockAt_free _ 4320 3888 (by decide) (by decide)] at I
  exact I

/-- The state in which `mm_free(4112)` calls `coalesce` after `mm_init()` and
`mm_malloc(100)`. -/
theorem preco_demoA :
    PreCo (markFree demoA.1 4112) [] [] ⟨4112, 112, Kind.free⟩ [⟨4224, 3984, Kind.free⟩]
      [4224] :=
  preco_of_live inv_demoA 100 (List.mem_cons_self _ _)

theorem reach_colA : Reach colA [(4496, 40), (4272, 100), (4160, 100)] :=
  Reach.free rowE _ 4384 100 reach_rowE (by decide)

/-- Witness of `arena_layout`: the state after `mm_init()` and two allocations. -/
theorem arena_layout_witness :
    Reach demoB.1 [(4224, 200), (4112, 100)] ∧
    ∃ W, 8 ≤ demoB.1.start ∧ demoB.1.start % 8 = 0 ∧
      GET demoB.1.mem (HDRP demoB.1.start) = PACK 8 1 ∧
      GET demoB.1.mem (FTRP demoB.1.mem demoB.1.start) = PACK 8 1 ∧
      GET demoB.1.mem (HDRP demoB.1.mem_brk) = PACK 0 1 ∧
      demoB.1.mem_brk ≤ demoB.1.mem_max_addr ∧
      (∃ N, ∀ fuel, N ≤ fuel → heapBlocks fuel demoB.1 = some (demoB.1.start :: W)) ∧
      Contiguous demoB.1.mem (demoB.1.start + 8) W demoB.1.mem_brk ∧
      ∀ bp ∈ W, demoB.1.start + 8 ≤ bp ∧ NEXT_BLKP demoB.1.mem bp ≤ demoB.1.mem_brk :=
  ⟨reach_demoB, arena_layout reach_demoB⟩

/-- A request whose adjusted size wraps to 0: after `mm_init()`, `mm_malloc(2 ^ 32 - 8)`
returns 4112 and leaves the prologue footer `PACK(0, 1)`, because `place` writes the
footer of a block of size 0 in front of the block. -/
theorem huge_request_prologue_changed :
    Reach demoInit [] ∧ mm_malloc 8 demoInit hugeReq = some (hugeA.1, 4112) ∧
    hugeA.1.start = demoInit.start ∧
    GET demoInit.mem (FTRP demoInit.mem demoInit.start) = PACK 8 1 ∧
    GET hugeA.1.mem (FTRP hugeA.1.mem hugeA.1.start) = PACK 0 1 ∧ PACK 0 1 ≠ PACK 8 1 :=
  ⟨reach_demoInit, callMalloc_eq demoInit hugeReq 4112 (by decide) (by decide), by decide,
    by decide, by decide, by decide⟩

/-- Claim C22 on a failing input: on a backing store that starts 24 bytes below
`2 ^ 32`, after `x = mm_malloc(40)`, `y = mm_malloc(200)` and `mm_free(x)`,
`mm_malloc(8)` returns `x` in a block of 16 bytes, less than `MINIMUM`. -/
theorem small_request_short_block :
    (mm_init edgeStore).2 = 0 ∧ mm_malloc 8 edgeInit 40 = some (tagA.1, 4294967288) ∧
    mm_malloc 8 tagA.1 200 = some (tagB.1, 4294967336) ∧
    tagC = mm_free tagB.1 4294967288 ∧
    mm_malloc 8 tagC 8 = some (tagD.1, 4294967288) ∧
    heapBlocks 8 tagD.1
      = some [4294967280, 4294967288, 4294967304, 4294967336, 4294967544] ∧
    GET_SIZE tagD.1.mem (HDRP 4294967288) = 16 ∧
    GET_ALLOC tagD.1.mem (HDRP 4294967288) = 1 ∧ 16 < MINIMUM :=
  ⟨by decide, callMalloc_eq edgeInit 40 4294967288 (by decide) (by decide),
    callMalloc_eq tagA.1 200 4294967336 (by decide) (by decide), rfl,
    callMalloc_eq tagC 8 4294967288 (by decide) (by decide), by decide, by decide,
    by decide, by decide⟩

/-- Witness of `block_sizes_good`: the state after `mm_init()` and two allocations. -/
theorem block_sizes_good_witness :
    Reach demoB.1 [(4224, 200), (4112, 100)] ∧
    ∃ W, (∃ N, ∀ fuel, N ≤ fuel → heapBlocks fuel demoB.1 = some (demoB.1.start :: W)) ∧
      ∀ bp ∈ W, GET_SIZE demoB.1.mem (HDRP bp) % 8 = 0 ∧
        MINIMUM ≤ GET_SIZE demoB.1.mem (HDRP bp) :=
  ⟨reach_demoB, block_sizes_good reach_demoB⟩

/-- Witness of `find_fit_first_fit`: the free list 4112 (48 bytes), 4320 (3888
bytes) of `backB` and the adjusted size 112. -/
theorem find_fit_first_fit_witness :
    freeNodes 8 backB = some [4112, 4320] ∧
    (∀ x ∈ [4112, 4320], GET_ALLOC backB.mem (HDRP x) = 0) ∧
    find_fit 8 backB 112 = some 4320 ∧
    ((∀ xs y ys, [4112, 4320] = xs ++ y :: ys →
        (∀ x ∈ xs, GET_SIZE backB.mem (HDRP x) < 112) →
        112 ≤ GET_SIZE backB.mem (HDRP y) → find_fit 8 backB 112 = some y ∧ y ≠ 0) ∧
      (find_fit 8 backB 112 = some 0 ↔ ∀ x ∈ [4112, 4320], GET_SIZE backB.mem (HDRP x) < 112) ∧
      ∃ r, find_fit 8 backB 112 = some r ∧ (r = 0 ∨ r ∈ [4112, 4320])) :=
  ⟨by decide, by decide, by decide,
    find_fit_first_fit backB [4112, 4320] 8 (by decide) (by decide) 112 8 (by decide)⟩

/-- Witness of `place_result`: `place(4112, 112)` on the block of 4096 bytes after
`mm_init()`. -/
theorem place_result_witness :
    InvWith demoInit [] ([] ++ (⟨4112, 4096, Kind.free⟩ : Blk) :: []) [4112] ∧
    (GET_ALLOC (place demoInit 4112 112).mem (HDRP 4112) = 1 ∧
    (∃ N, ∀ fuel, N ≤ fuel →
      freeNodes fuel (place demoInit 4112 112)
        = some (placeList ⟨4112, 4096, Kind.free⟩ [4112] 112)) ∧
    4112 ∉ placeList ⟨4112, 4096, Kind.free⟩ [4112] 112 ∧
    (MINIMUM ≤ GET_SIZE demoInit.mem (HDRP 4112) - 112 →
      GET_SIZE (place demoInit 4112 112).mem (HDRP 4112) = 112 ∧
      GET (place demoInit 4112 112).mem (HDRP (4112 + 112))
        = PACK (GET_SIZE demoInit.mem (HDRP 4112) - 112) 0 ∧
      GET (place demoInit 4112 112).mem (FTRP (place demoInit 4112 112).mem (4112 + 112))
        = PACK (GET_SIZE demoInit.mem (HDRP 4112) - 112) 0 ∧
      placeList ⟨4112, 4096, Kind.free⟩ [4112] 112 = (4112 + 112) :: [4112].erase 4112 ∧
      ∃ N, ∀ fuel, N ≤ fuel → heapBlocks fuel (place demoInit 4112 112)
        = some (demoInit.start ::
          (([] : List Blk).map Blk.bp ++ 4112 :: (4112 + 112) :: ([] : List Blk).map Blk.bp))) ∧
    (GET_SIZE demoInit.mem (HDRP 4112) - 112 < MINIMUM →
      GET_SIZE (place demoInit 4112 112).mem (HDRP 4112) = GET_SIZE demoInit.mem (HDRP 4112) ∧
      placeList ⟨4112, 4096, Kind.free⟩ [4112] 112 = [4112].erase 4112 ∧
      ∃ N, ∀ fuel, N ≤ fuel →
        heapBlocks fuel (place demoInit 4112 112) = heapBlocks fuel demoInit) ∧
    (∀ c ∈ ([] : List Blk) ++ [],
      GET (place demoInit 4112 112).mem (HDRP c.bp) = GET demoInit.mem (HDRP c.bp) ∧
      GET (place demoInit 4112 112).mem (FTRP (place demoInit 4112 112).mem c.bp)
        = GET demoInit.mem (FTRP demoInit.mem c.bp)) ∧
    GET (place demoInit 4112 112).mem (HDRP demoInit.start)
      = GET demoInit.mem (HDRP demoInit.start) ∧
    GET (place demoInit 4112 112).mem demoInit.start = GET demoInit.mem demoInit.start ∧
    (place demoInit 4112 112).mem_brk = demoInit.mem_brk ∧
    GET (place demoInit 4112 112).mem (HDRP demoInit.mem_brk)
      = GET demoInit.mem (HDRP demoInit.mem_brk)) :=
  ⟨inv_demoInit,
    place_result inv_demoInit (List.mem_cons_self _ _) 112 (by decide) (by decide)
      (by decide)⟩

/-- After `mm_init()`, `place(4112, 0)` on the member 4112 of 4096 bytes: the
block is still free and still the head of the free list, and the prologue footer
at 4104, outside the block, has changed from `PACK(8, 1)` to `PACK(0, 1)`. -/
theorem place_zero_size :
    Reach demoInit [] ∧ freeNodes 8 demoInit = some [4112] ∧
    GET_SIZE demoInit.mem (HDRP 4112) = 4096 ∧ 0 % 8 = 0 ∧
    0 ≤ GET_SIZE demoInit.mem (HDRP 4112) ∧
    GET_ALLOC (place demoInit 4112 0).mem (HDRP 4112) = 0 ∧
    (place demoInit 4112 0).firstfree = 4112 ∧
    GET demoInit.mem 4104 = PACK 8 1 ∧ GET (place demoInit 4112 0).mem 4104 = PACK 0 1 ∧
    4104 < 4112 :=
  ⟨reach_demoInit, by decide, by decide, by decide, by decide, by decide, by decide,
    by decide, by decide, by decide⟩

/-- Witness of `coalesce_merges`: `coalesce(4112)` in `mm_free(4112)` after
`mm_init()` and `mm_malloc(100)`; the block after 4112 is free, the prologue
before it allocated. -/
theorem coalesce_merges_witness :
    PreCo (markFree demoA.1 4112) [] [] ⟨4112, 112, Kind.free⟩ [⟨4224, 3984, Kind.free⟩]
      [4224] ∧
    mergedPtr (markFree demoA.1 4112).mem 4112 = 4112 ∧
    mergedSize (markFree demoA.1 4112).mem 4112 = 4096 ∧
    ((coalesce (markFree demoA.1 4112) (⟨4112, 112, Kind.free⟩ : Blk).bp).2 = mergedPtr (markFree demoA.1 4112).mem (⟨4112, 112, Kind.free⟩ : Blk).bp ∧
    (coalesce (markFree demoA.1 4112) (⟨4112, 112, Kind.free⟩ : Blk).bp).2 ≤ (⟨4112, 112, Kind.free⟩ : Blk).bp ∧
    (⟨4112, 112, Kind.free⟩ : Blk).bp + GET_SIZE (markFree demoA.1 4112).mem (HDRP (⟨4112, 112, Kind.free⟩ : Blk).bp)
      ≤ (coalesce (markFree demoA.1 4112) (⟨4112, 112, Kind.free⟩ : Blk).bp).2 + mergedSize (markFree demoA.1 4112).mem (⟨4112, 112, Kind.free⟩ : Blk).bp ∧
    GET (coalesce (markFree demoA.1 4112) (⟨4112, 112, Kind.free⟩ : Blk).bp).1.mem (HDRP (coalesce (markFree demoA.1 4112) (⟨4112, 112, Kind.free⟩ : Blk).bp).2)
      = PACK (mergedSize (markFree demoA.1 4112).mem (⟨4112, 112, Kind.free⟩ : Blk).bp) 0 ∧
    GET (coalesce (markFree demoA.1 4112) (⟨4112, 112, Kind.free⟩ : Blk).bp).1.mem
        (FTRP (coalesce (markFree demoA.1 4112) (⟨4112, 112, Kind.free⟩ : Blk).bp).1.mem (coalesce (markFree demoA.1 4112) (⟨4112, 112, Kind.free⟩ : Blk).bp).2)
      = PACK (mergedSize (markFree demoA.1 4112).mem (⟨4112, 112, Kind.free⟩ : Blk).bp) 0) :=
  ⟨preco_demoA, by decide, by decide, coalesce_merges preco_demoA⟩

/-- Witness of `insert_makes_head`: the block at 4112, marked free and not a member,
is pushed in front of the member 4224. -/
theorem insert_makes_head_witness :
    Heap (markFree demoA.1 4112)
      ([] ++ (⟨4112, 112, Kind.free⟩ : Blk) :: [⟨4224, 3984, Kind.free⟩]) [4224] ∧
    ((insert_to_free (markFree demoA.1 4112) 4112).firstfree = 4112 ∧
    getPrev (insert_to_free (markFree demoA.1 4112) 4112).mem 4112 = 0 ∧
    getNext (insert_to_free (markFree demoA.1 4112) 4112).mem 4112
      = (markFree demoA.1 4112).firstfree ∧
    ((markFree demoA.1 4112).firstfree = 0 ↔ [4224] = []) ∧
    ((markFree demoA.1 4112).firstfree ≠ 0 →
      getPrev (insert_to_free (markFree demoA.1 4112) 4112).mem
        (markFree demoA.1 4112).firstfree = 4112) ∧
    (∀ y ∈ [4224],
      getNext (insert_to_free (markFree demoA.1 4112) 4112).mem y
        = getNext (markFree demoA.1 4112).mem y ∧
      (y ≠ (markFree demoA.1 4112).firstfree →
        getPrev (insert_to_free (markFree demoA.1 4112) 4112).mem y
          = getPrev (markFree demoA.1 4112).mem y)) ∧
    (∃ N, ∀ fuel, N ≤ fuel → freeNodes fuel (markFree demoA.1 4112) = some [4224] ∧
      freeNodes fuel (insert_to_free (markFree demoA.1 4112) 4112) = some (4112 :: [4224])) ∧
    FreeList (insert_to_free (markFree demoA.1 4112) 4112).mem
      (insert_to_free (markFree demoA.1 4112) 4112).firstfree
      ([] ++ (⟨4112, 112, Kind.free⟩ : Blk) :: [⟨4224, 3984, Kind.free⟩]) (4112 :: [4224])) :=
  ⟨preco_demoA.heap,
    insert_makes_head preco_demoA.heap ⟨4112, 112, Kind.free⟩ (mem_mid _ _ _) rfl
      preco_demoA.bnot⟩

/-- Witness of `remove_unlinks`: the head 4112 of the free list 4112, 4320 of
`backB` is removed. -/
theorem remove_unlinks_witness :
    Heap backB [⟨4112, 48, Kind.free⟩, ⟨4160, 112, Kind.used⟩, ⟨4272, 48, Kind.used⟩,
      ⟨4320, 3888, Kind.free⟩] [4112, 4320] ∧
    (GET_SIZE backB.mem (HDRP 4112) ≠ 0 ∧
    (∃ N, ∀ fuel, N ≤ fuel → freeNodes fuel backB = some [4112, 4320] ∧
      freeNodes fuel (remove_from_free backB 4112) = some ([4112, 4320].erase 4112)) ∧
    (∀ xs ys, [4112, 4320] = xs ++ 4112 :: ys → [4112, 4320].erase 4112 = xs ++ ys) ∧
    4112 ∉ [4112, 4320].erase 4112 ∧
    FreeList (remove_from_free backB 4112).mem (remove_from_free backB 4112).firstfree
      [⟨4112, 48, Kind.free⟩, ⟨4160, 112, Kind.used⟩, ⟨4272, 48, Kind.used⟩,
        ⟨4320, 3888, Kind.free⟩] ([4112, 4320].erase 4112) ∧
    ((remove_from_free backB 4112).firstfree ≠ 0 →
      getPrev (remove_from_free backB 4112).mem (remove_from_free backB 4112).firstfree = 0)) :=
  ⟨inv_backB.heap,
    remove_unlinks inv_backB.heap ⟨4112, 48, Kind.free⟩ (List.mem_cons_self _ _) free_ne_raw
      (List.mem_cons_self _ _)⟩

/-- Witness of `remove_keeps_links`: after `remove_from_free(4112)` on the free
list 4112, 4320 of `backB`, the `next` link of 4112 still is 4320. -/
theorem remove_keeps_links_witness :
    Heap backB [⟨4112, 48, Kind.free⟩, ⟨4160, 112, Kind.used⟩, ⟨4272, 48, Kind.used⟩,
      ⟨4320, 3888, Kind.free⟩] [4112, 4320] ∧
    getNext (remove_from_free backB 4112).mem 4112 = 4320 ∧
    getPrev (remove_from_free backB 4320).mem 4320 = 4112 ∧
    (getPrev (remove_from_free backB 4112).mem 4112
      = (if [4320] = [] then ([] : List Nat).getLastD 0 else 0) ∧
    getNext (remove_from_free backB 4112).mem 4112
      = (if ([] : List Nat) = [] then [4320].headD 0 else 0) ∧
    (([] : List Nat) = [] → [4320] ≠ [] →
      getNext (remove_from_free backB 4112).mem 4112 ≠ 0) ∧
    (([] : List Nat) ≠ [] → [4320] = [] →
      getPrev (remove_from_free backB 4112).mem 4112 ≠ 0)) :=
  ⟨inv_backB.heap, by decide, by decide,
    remove_keeps_links inv_backB.heap ⟨4112, 48, Kind.free⟩ (List.mem_cons_self _ _)
      free_ne_raw [] [4320] rfl⟩

/-- Witness of `free_list_position`: `mm_free(4112)` after `mm_init()` and two
allocations; both neighbours of 4112 are allocated. -/
theorem free_list_position_witness :
    Reach demoB.1 [(4224, 200), (4112, 100)] ∧
    (mergedPtr demoB.1.mem 4112 ≤ 4112 ∧
    4112 + GET_SIZE demoB.1.mem (HDRP 4112)
      ≤ mergedPtr demoB.1.mem 4112
        + GET_SIZE (mm_free demoB.1 4112).mem (HDRP (mergedPtr demoB.1.mem 4112)) ∧
    GET_ALLOC (mm_free demoB.1 4112).mem (HDRP (mergedPtr demoB.1.mem 4112)) = 0 ∧
    (∃ F, (∃ N, ∀ fuel, N ≤ fuel → freeNodes fuel (mm_free demoB.1 4112) = some F) ∧
      mergedPtr demoB.1.mem 4112 ∈ F) ∧
    (prev_alloc demoB.1.mem 4112 = 1 ∨ next_alloc demoB.1.mem 4112 = 0 →
      (mm_free demoB.1 4112).firstfree = mergedPtr demoB.1.mem 4112) ∧
    (prev_alloc demoB.1.mem 4112 = 0 → next_alloc demoB.1.mem 4112 = 1 →
      (mm_free demoB.1 4112).firstfree = demoB.1.firstfree ∧
      ∃ F, ∃ N, ∀ fuel, N ≤ fuel →
        freeNodes fuel demoB.1 = some F ∧ freeNodes fuel (mm_free demoB.1 4112) = some F)) :=
  ⟨reach_demoB, free_list_position reach_demoB 4112 100 (by decide)⟩

/-- The live block `a = 4160` between the free block at 4112 and an allocated
block, in a state whose free list is 4384, 4112, 4544: after `mm_free(a)` the
free block that contains `a` starts at 4112 and has 160 bytes, and the head of
the free list still is 4384. -/
theorem free_merge_keeps_place :
    Reach colA [(4496, 40), (4272, 100), (4160, 100)] ∧
    freeNodes 8 colA = some [4384, 4112, 4544] ∧
    prev_alloc colA.mem 4160 = 0 ∧ next_alloc colA.mem 4160 = 1 ∧
    colB = mm_free colA 4160 ∧
    heapBlocks 8 colB = some [4104, 4112, 4272, 4384, 4496, 4544] ∧
    GET_ALLOC colB.mem (HDRP 4112) = 0 ∧ GET_SIZE colB.mem (HDRP 4112) = 160 ∧
    4112 ≤ 4160 ∧ 4160 < 4112 + 160 ∧
    freeNodes 8 colB = some [4384, 4112, 4544] ∧ colB.firstfree = 4384 ∧ 4384 ≠ 4112 :=
  ⟨reach_colA, by decide, by decide, by decide, rfl, by decide, by decide, by decide,
    by decide, by decide, by decide, by decide, by decide⟩

/-- Witness of `extend_size_rounds`: the 1024 words that `mm_init` asks for. -/
theorem extend_size_rounds_witness :
    (1024 + 1) * WSIZE < 2 ^ 32 ∧ extend_size 1024 = 4096 ∧
    (extend_heap_grows 1024 = [extend_size 1024] ∧
    extend_size 1024 % 8 = 0 ∧ 4 * 1024 ≤ extend_size 1024 ∧
    extend_size 1024 < 4 * 1024 + 8 ∧
    (MINIMUM ≤ extend_size 1024 ↔ 5 ≤ 1024) ∧
    extend_size (CHUNKSIZE / WSIZE) = 4096 ∧
    ∀ n, 8 < n → n ≤ 2 ^ 31 - 16 →
      MINIMUM ≤ extend_size (extendsize (adjust_size n) / WSIZE) ∧
      adjust_size n ≤ extend_size (extendsize (adjust_size n) / WSIZE)) :=
  ⟨by decide, by decide, extend_size_rounds 1024 (by decide)⟩

/-- For 2 words `extend_heap` asks the backing store for 8 bytes, less than
`MINIMUM`; after `mm_init()` the call moves the break by these 8 bytes. -/
theorem extend_size_below_minimum :
    (2 + 1) * WSIZE < 2 ^ 32 ∧ extend_heap_grows 2 = [8] ∧ extend_size 2 = 8 ∧
    extend_size 2 < MINIMUM ∧
    (extend_heap demoInit 2).1.mem_brk = demoInit.mem_brk + 8 :=
  ⟨by decide, by decide, by decide, by decide, by decide⟩

/-! ## The tag word, bit by bit -/

/-- Clearing the low three bits of a 32-bit word with the mask `~0x7`. -/
theorem and_mask_eq (x : Nat) (hx : x < 2 ^ 32) : x &&& 4294967288 = x - x % 8 := by
  have hm : (4294967288 : Nat) = (2 ^ 29 - 1) <<< 3 := by decide
  have h1 : x &&& 4294967288 = (x >>> 3) <<< 3 := by
    rw [hm]
    apply Nat.eq_of_testBit_eq
    intro i
    simp only [Nat.testBit_and, Nat.testBit_shiftLeft, Nat.testBit_shiftRight,
      Nat.testBit_two_pow_sub_one]
    by_cases h3 : 3 ≤ i
    · by_cases h32 : i < 32
      · have : i - 3 < 29 := by omega
        simp [h3, this, show 3 + (i - 3) = i by omega]
      · have hlt : x < 2 ^ i :=
          lt_of_lt_of_le hx (Nat.pow_le_pow_right (by decide) (by omega))
        have : ¬ (i - 3 < 29) := by omega
        simp [h3, this, Nat.testBit_lt_two_pow hlt, show 3 + (i - 3) = i by omega]
    · simp [h3]
  rw [h1, Nat.shiftLeft_eq, Nat.shiftRight_eq_div_pow]
  norm_num
  omega

/-- The bits of a word with its low three bits cleared. -/
theorem testBit_clear3 (x i : Nat) :
    (x - x % 8).testBit i = (decide (3 ≤ i) && x.testBit i) := by
  have h1 : x - x % 8 = (x >>> 3) <<< 3 := by
    rw [Nat.shiftLeft_eq, Nat.shiftRight_eq_div_pow]
    norm_num
    omega
  rw [h1]
  simp only [Nat.testBit_shiftLeft, Nat.testBit_shiftRight]
  by_cases h3 : 3 ≤ i
  · simp [h3, show 3 + (i - 3) = i by omega]
  · simp [h3]

/-! ## The request to the backing store on a miss -/

/-- The adjusted size of any 32-bit request is a multiple of 8 below `2 ^ 32`; it
is below `2 ^ 31` for a request of at most `2 ^ 31 - 16` bytes and for a request
of more than `2 ^ 32 - 16` bytes, whose adjusted size wraps around. -/
theorem adjust_size_range (n : Nat) (h0 : 0 < n) (hn : n < 2 ^ 32) :
    adjust_size n % 8 = 0 ∧ adjust_size n < 2 ^ 32 ∧
      (adjust_size n < 2 ^ 31 ↔ n ≤ 2 ^ 31 - 16 ∨ 2 ^ 32 - 16 < n) := by
  simp only [adjust_size, DSIZE]
  norm_num at hn ⊢
  split_ifs with h1 h2 <;> omega

/-- The extension size for an adjusted size of at least `2 ^ 31`, which `MAX`
reads as a negative `int`. -/
theorem extendsize_negative (a : Nat) (h1 : 2 ^ 31 ≤ a) (h2 : a < 2 ^ 32) :
    extendsize a = 4096 := by
  have hm : a % 2 ^ 32 = a := Nat.mod_eq_of_lt h2
  have e1 : toInt32 a = (a : Int) - 2 ^ 32 := by
    unfold toInt32
    rw [hm, if_neg (by omega)]
  have hneg : ¬ ((a : Int) - 2 ^ 32 > ((4096 : Nat) : Int)) := by
    have : (a : Int) < 2 ^ 32 := by exact_mod_cast h2
    push_cast
    omega
  unfold extendsize MAX CHUNKSIZE
  rw [e1, if_neg hneg, Int.toNat_natCast]
  norm_num

/-- The requests of `mm_malloc` to the backing store when `find_fit` misses. -/
theorem grows_of_miss (fuel : Nat) (s : State) (n : Nat) (h0 : n ≠ 0)
    (hmiss : find_fit fuel s (adjust_size n) = some 0) :
    mm_malloc_grows fuel s n = some [extend_size (extendsize (adjust_size n) / WSIZE)] := by
  simp only [mm_malloc_grows]
  rw [if_neg h0, hmiss]
  simp [extend_heap_grows]

theorem insert_brk (s : State) (bp : Nat) : (insert_to_free s bp).mem_brk = s.mem_brk := by
  unfold insert_to_free
  split_ifs <;> rfl

theorem remove_brk (s : State) (bp : Nat) : (remove_from_free s bp).mem_brk = s.mem_brk := by
  unfold remove_from_free
  split_ifs <;> rfl

theorem coalesce_brk (s : State) (bp : Nat) : (coalesce s bp).1.mem_brk = s.mem_brk := by
  unfold coalesce
  dsimp only
  split_ifs
  · exact insert_brk _ _
  · rw [insert_brk]
    exact remove_brk _ _
  · rfl
  · show (insert_to_free _ _).mem_brk = _
    rw [insert_brk, remove_brk, remove_brk]

/-- The break after `extend_heap` when the backing store grows: it has moved by the
number of bytes that `extend_heap` asked for. -/
theorem extend_heap_brk (s : State) (words : Nat)
    (hfit : s.mem_brk + extend_size words ≤ s.mem_max_addr) :
    (extend_heap s words).1.mem_brk = s.mem_brk + extend_size words := by
  rw [extend_heap_ok s words hfit, coalesce_brk]

/-- Extra X13 (on claim C31).  For every request `n` with `0 < n < 2 ^ 32` for which
`find_fit` misses, `mm_malloc` makes one request to the backing store, for `b` bytes.
When the adjusted size `asize` (as an unsigned 32-bit value) is below `2 ^ 31`, which is
so for `n ≤ 2 ^ 31 - 16` and for the wrapped sizes of `n > 2 ^ 32 - 16`, `b` is
`max(asize, CHUNKSIZE)`, at least `asize`; when `asize` is `2 ^ 31` or more, `MAX` compares
it as a negative `int` and `b` is `CHUNKSIZE = 4096`, fewer than `asize`.  When the backing
store supplies the `b` bytes, the `extend_heap` call of `mm_malloc` moves the break by
exactly `b`; when it refuses, `mm_malloc` returns `NULL` in the state it was called in. -/
theorem miss_request_bytes (s : State) (fuel n : Nat) (h0 : 0 < n) (hn : n < 2 ^ 32)
    (hmiss : find_fit fuel s (adjust_size n) = some 0) :
    (adjust_size n < 2 ^ 31 ↔ n ≤ 2 ^ 31 - 16 ∨ 2 ^ 32 - 16 < n) ∧
    ∃ b, mm_malloc_grows fuel s n = some [b] ∧
      (adjust_size n < 2 ^ 31 → b = max (adjust_size n) CHUNKSIZE ∧ adjust_size n ≤ b) ∧
      (2 ^ 31 ≤ adjust_size n → b = CHUNKSIZE ∧ b < adjust_size n) ∧
      (s.mem_brk + b ≤ s.mem_max_addr →
        (extend_heap s (extendsize (adjust_size n) / WSIZE)).1.mem_brk = s.mem_brk + b) ∧
      (s.mem_max_addr < s.mem_brk + b → mm_malloc fuel s n = some (s, 0)) := by
  obtain ⟨a8, alt, aiff⟩ := adjust_size_range n h0 hn
  have hn0 : n ≠ 0 := by omega
  have hg := grows_of_miss fuel s n hn0 hmiss
  refine ⟨aiff, _, hg, fun hlt => ?_, fun hge => ⟨?_, ?_⟩, fun hfit => extend_heap_brk s _ hfit,
    fun hno => (malloc_miss_fail fuel s n hn0 hmiss (mem_sbrk_none _ _ hno)).1⟩
  · rw [extendsize_good _ hlt]
    have e : (if 4096 < adjust_size n then adjust_size n else 4096)
        = max (adjust_size n) CHUNKSIZE := by
      unfold CHUNKSIZE
      split_ifs with h <;> omega
    rw [e, extend_size_even]
    · exact ⟨rfl, le_max_left _ _⟩
    · unfold CHUNKSIZE
      rcases le_total (adjust_size n) 4096 with h | h
      · rw [max_eq_right h]
      · rw [max_eq_left h]
        exact a8
    · unfold CHUNKSIZE
      rcases le_total (adjust_size n) 4096 with h | h
      · rw [max_eq_right h]
        norm_num
      · rw [max_eq_left h]
        norm_num at hlt ⊢
        omega
  · rw [extendsize_negative _ hge alt]
    exact extend_size_chunk
  · have e4 : extend_size (4096 / WSIZE) = 4096 := extend_size_chunk
    rw [extendsize_negative _ hge alt, e4]
    norm_num at hge ⊢
    omega

/-! ## Encoding and decoding of a tag -/

/-- Claim C32.  For every 32-bit size that is a multiple of 8 and every flag in
`{0, 1}`, a word that holds `PACK(size, flag)` decodes to them: `GET_SIZE` is `size` and
`GET_ALLOC` is `flag`, also right after `PUT` stored the word; and for every word
value, `GET_SIZE` is the value with its low 3 bits cleared (the value and-ed with the
mask `~0x7`, bit `i` kept exactly for `i ≥ 3`) and `GET_ALLOC` is its lowest bit. -/
theorem tag_decodes (m : Mem) (p size flag : Nat) (hs : size < 2 ^ 32) (h8 : size % 8 = 0)
    (hf : flag ≤ 1) :
    GET (PUT m p (PACK size flag)) p = PACK size flag ∧
    GET_SIZE (PUT m p (PACK size flag)) p = size ∧
    GET_ALLOC (PUT m p (PACK size flag)) p = flag ∧
    (∀ q, GET m q = PACK size flag → GET_SIZE m q = size ∧ GET_ALLOC m q = flag) ∧
    ∀ q, GET m q < 2 ^ 32 ∧ GET_SIZE m q = GET m q &&& 4294967288 ∧
      (∀ i, (GET_SIZE m q).testBit i = (decide (3 ≤ i) && (GET m q).testBit i)) ∧
      GET_ALLOC m q = GET m q &&& 1 ∧ GET_ALLOC m q = ((GET m q).testBit 0).toNat := by
  have hs1 : size < 4294967296 := by norm_num at hs; exact hs
  have hP : PACK size flag = size + flag := PACK_eq size flag h8 hs1 hf
  have hG : GET (PUT m p (PACK size flag)) p = PACK size flag := by
    rw [GET_PUT_same, hP]
    exact Nat.mod_eq_of_lt (by omega)
  have hd := decode_tag (PUT m p (PACK size flag)) p size flag (by rw [hG, hP]) h8 hf
  refine ⟨hG, hd.1, hd.2, fun q hq => decode_tag m q size flag (by rw [hq, hP]) h8 hf,
    fun q => ⟨by norm_num; exact GET_lt m q, ?_, fun i => testBit_clear3 _ i, ?_, ?_⟩⟩
  · unfold GET_SIZE
    exact (and_mask_eq _ (by norm_num; exact GET_lt m q)).symm
  · unfold GET_ALLOC
    exact (Nat.and_one_is_mod _).symm
  · unfold GET_ALLOC
    rw [Nat.testBit_zero]
    rcases Nat.mod_two_eq_zero_or_one (GET m q) with h | h <;> rw [h] <;> rfl

/-! ## Stepping between neighbouring blocks -/

/-- Claim C33.  For a block `bp` of non-zero size whose footer word equals its header
word, `PREV_BLKP(NEXT_BLKP(bp)) = bp`, and `FTRP(bp) = bp + size - 8` is the word
immediately before `HDRP(NEXT_BLKP(bp))`; and for a block `bq` whose predecessor has
agreeing tags, that is the header of `PREV_BLKP(bq)` equals the footer word in front
of the header of `bq` (8 bytes below `bq`, where `PREV_BLKP` reads the size, which does
not reach below address 0), `NEXT_BLKP(PREV_BLKP(bq)) = bq`. -/
theorem neighbours_inverse (m : Mem) (bp bq : Nat) (hz : GET_SIZE m (HDRP bp) ≠ 0)
    (hag : GET m (FTRP m bp) = GET m (HDRP bp))
    (hle : GET_SIZE m (bq - DSIZE) ≤ bq)
    (hpred : GET m (HDRP (PREV_BLKP m bq)) = GET m (bq - DSIZE)) :
    PREV_BLKP m (NEXT_BLKP m bp) = bp ∧
    FTRP m bp = bp + GET_SIZE m (HDRP bp) - 8 ∧
    FTRP m bp + WSIZE = HDRP (NEXT_BLKP m bp) ∧
    bp < NEXT_BLKP m bp ∧
    NEXT_BLKP m (PREV_BLKP m bq) = bq := by
  have hsf : GET_SIZE m (FTRP m bp) = GET_SIZE m (HDRP bp) := by
    unfold GET_SIZE
    rw [hag]
  have hsp : GET_SIZE m (HDRP (PREV_BLKP m bq)) = GET_SIZE m (bq - DSIZE) := by
    unfold GET_SIZE
    rw [hpred]
  have h8 : GET_SIZE m (HDRP bp) % 8 = 0 := by
    unfold GET_SIZE
    omega
  unfold FTRP at hsf
  unfold HDRP at hsf hsp hz h8
  unfold PREV_BLKP at hsp
  unfold PREV_BLKP NEXT_BLKP FTRP HDRP
  refine ⟨?_, rfl, ?_, ?_, ?_⟩
  · simp only [WSIZE, DSIZE] at hsf ⊢
    rw [hsf]
    omega
  · simp only [WSIZE, DSIZE] at hz h8 ⊢
    omega
  · simp only [WSIZE, DSIZE] at hz h8 ⊢
    omega
  · simp only [WSIZE, DSIZE] at hsp hle ⊢
    rw [hsp]
    omega

/-! ## The free list between calls -/

/-- Extra X14 (on claim C34).  In every state reached from a successful `mm_init` by a
valid call sequence with well-sized requests (each 0 or more than 8 and at most
`2 ^ 31 - 16` bytes), the free list is a well-formed doubly linked list: the walk along
the `next` links from `firstfree` ends and finds a list `F` of non-null nodes in which no
node occurs twice; `firstfree` is null or has a null `prev` link; for every member `x`
with non-null `next` link `y`, `y` is a member and the `prev` link of `y` is `x`; and the
last member has a null `next` link. -/
theorem free_list_linked {s : State} {L : List (Nat × Nat)} (h : Reach s L) :
    ∃ F, (∃ N, ∀ fuel, N ≤ fuel → freeNodes fuel s = some F) ∧ F.Nodup ∧
      (∀ x ∈ F, x ≠ 0) ∧ s.firstfree = F.headD 0 ∧
      (s.firstfree = 0 ∨ getPrev s.mem s.firstfree = 0) ∧
      (∀ x ∈ F, getNext s.mem x ≠ 0 →
        getNext s.mem x ∈ F ∧ getPrev s.mem (getNext s.mem x) = x) ∧
      (∀ xs x, F = xs ++ [x] → getNext s.mem x = 0) ∧
      LinkedF (getPrev s.mem) (getNext s.mem) F := by
  obtain ⟨bs, fl, I⟩ := reach_inv h
  have fls := I.heap.flist
  refine ⟨fl, ⟨fl.length + 1, I.free_walk⟩, fls.nodup, I.heap.nodes_ne_zero, fls.head, ?_, ?_,
    ?_, fls.linked⟩
  · cases hfl : fl with
    | nil =>
      left
      rw [fls.head, hfl]
      rfl
    | cons x ys =>
      right
      have hh : s.firstfree = x := by
        rw [fls.head, hfl]
        rfl
      rw [hh]
      exact (fls.linked [] x ys (by rw [hfl]; rfl)).1
  · intro x hx hnx
    obtain ⟨xs, ys, hfl⟩ := List.append_of_mem hx
    have hN := (fls.linked xs x ys hfl).2
    cases ys with
    | nil => exact absurd hN hnx
    | cons y zs =>
      have hN : getNext s.mem x = y := hN
      rw [hN]
      refine ⟨by rw [hfl]; simp, ?_⟩
      have hfl2 : fl = (xs ++ [x]) ++ y :: zs := by
        rw [hfl]
        simp
      have hP := (fls.linked (xs ++ [x]) y zs hfl2).1
      rw [hP]
      simp
  · intro xs x hfl
    exact (fls.linked xs x [] hfl).2

/-! ## The scan of `find_fit` ends -/

/-- The block pointers of a tiling are distinct. -/
theorem tiling_nodup (bs : List Blk) :
    ∀ (a e : Nat), Tiling a bs e → (∀ b ∈ bs, 0 < b.sz) → (bs.map Blk.bp).Nodup := by
  induction bs with
  | nil =>
    intro a e _ _
    exact List.nodup_nil
  | cons b bs ih =>
    intro a e ht hs
    have ih1 := ih (a + b.sz) e ht.2 (fun c hc => hs c (List.mem_cons_of_mem _ hc))
    rw [List.map_cons, List.nodup_cons]
    refine ⟨fun hm => ?_, ih1⟩
    obtain ⟨c, hc, e1⟩ := List.mem_map.1 hm
    have h1 := (tiling_mem _ _ _ ht.2 c hc).1
    have h2 := ht.1
    have h3 := hs b (List.mem_cons_self _ _)
    omega

/-- In the invariant, the free list has as many nodes as the walk over the
arena finds blocks with allocated flag 0. -/
theorem InvWith.free_count {s : State} {L : List (Nat × Nat)} {bs : List Blk} {fl : List Nat}
    (I : InvWith s L bs fl) :
    (freeBlocks s.mem (s.start :: bs.map Blk.bp)).length = fl.length := by
  obtain ⟨⟨r1, -, -, -⟩, rb⟩ := I.read
  have hpro : GET_ALLOC s.mem (HDRP s.start) = 1 :=
    (decode_tag s.mem (HDRP s.start) 8 1 r1 rfl (le_refl 1)).2
  have e0 : freeBlocks s.mem (s.start :: bs.map Blk.bp) = freeBlocks s.mem (bs.map Blk.bp) := by
    unfold freeBlocks
    rw [List.filter_cons_of_neg]
    rw [hpro]
    decide
  rw [e0]
  have nd : (bs.map Blk.bp).Nodup :=
    tiling_nodup bs _ _ I.heap.geo.tiling (fun b hb => by
      have := (I.heap.geo.sizes b hb).2
      omega)
  have nd1 : (freeBlocks s.mem (bs.map Blk.bp)).Nodup := nd.filter _
  apply List.Perm.length_eq
  rw [List.perm_ext_iff_of_nodup nd1 I.heap.flist.nodup]
  intro x
  unfold freeBlocks
  rw [List.mem_filter, List.mem_map]
  constructor
  · rintro ⟨⟨b, hb, rfl⟩, hz⟩
    have hz : GET_ALLOC s.mem (HDRP b.bp) = 0 := of_decide_eq_true hz
    rw [(rb b hb).2.2.2.2] at hz
    exact (I.members b hb).1 (bit_zero_free b.kind (I.no_raw b hb) hz)
  · intro hx
    obtain ⟨b, hb, e⟩ := I.heap.flist.mem_blk x hx
    subst e
    have hk := (I.members b hb).2 hx
    refine ⟨⟨b, hb, rfl⟩, decide_eq_true ?_⟩
    rw [(rb b hb).2.2.2.2, hk]
    rfl

/-- The scan of `find_fit` over a list that a walk along the `next` links finds
ends, with `NULL` or a member, after examining no more nodes than the list has. -/
theorem find_fit_visits_walk (m : Mem) (asize : Nat) :
    ∀ (fl : List Nat) (N bp : Nat), nodesFrom m N bp = some fl → ∀ fuel, fl.length < fuel →
      ∃ r k, find_fit_loop m asize fuel bp = some r ∧
        find_fit_visits m asize fuel bp = some k ∧ k ≤ fl.length ∧ (r = 0 ∨ r ∈ fl) := by
  intro fl
  induction fl with
  | nil =>
    intro N bp hw fuel hf
    cases N with
    | zero => exact Option.noConfusion hw
    | succ N =>
      rw [nodesFrom] at hw
      have hbp : bp = 0 := by
        by_contra hne
        rw [if_neg hne] at hw
        cases hrec : nodesFrom m N (getNext m bp) with
        | none =>
          rw [hrec] at hw
          exact Option.noConfusion hw
        | some t1 =>
          rw [hrec] at hw
          exact List.noConfusion (Option.some.inj hw)
      obtain ⟨f, rfl⟩ : ∃ f, fuel = f + 1 := ⟨fuel - 1, by omega⟩
      refine ⟨0, 0, ?_, ?_, le_refl _, Or.inl rfl⟩
      · rw [find_fit_loop, if_pos hbp]
      · rw [find_fit_visits, if_pos hbp]
  | cons x l ih =>
    intro N bp hw fuel hf
    cases N with
    | zero => exact Option.noConfusion hw
    | succ N =>
      rw [nodesFrom] at hw
      by_cases hne : bp = 0
      · rw [if_pos hne] at hw
        exact List.noConfusion (Option.some.inj hw)
      · rw [if_neg hne] at hw
        cases hrec : nodesFrom m N (getNext m bp) with
        | none =>
          rw [hrec] at hw
          exact Option.noConfusion hw
        | some l1 =>
          rw [hrec] at hw
          have hcons : bp :: l1 = x :: l := Option.some.inj hw
          obtain ⟨e1, e2⟩ := List.cons.inj hcons
          subst e1 e2
          have hf1 : l1.length + 1 < fuel := hf
          obtain ⟨f, rfl⟩ : ∃ f, fuel = f + 1 := ⟨fuel - 1, by omega⟩
          by_cases hit : GET_ALLOC m (HDRP bp) = 0 ∧ GET_SIZE m (HDRP bp) ≥ asize
          · refine ⟨bp, 1, ?_, ?_, ?_, Or.inr (List.mem_cons_self _ _)⟩
            · rw [find_fit_loop, if_neg hne, if_pos hit]
            · rw [find_fit_visits, if_neg hne, if_pos hit]
            · show 1 ≤ l1.length + 1
              omega
          · obtain ⟨r, k, a1, a2, a3, a4⟩ := ih N _ hrec f (by omega)
            refine ⟨r, k + 1, ?_, ?_, ?_, a4.imp id (List.mem_cons_of_mem _)⟩
            · rw [find_fit_loop, if_neg hne, if_neg hit]
              exact a1
            · rw [find_fit_visits, if_neg hne, if_neg hit, a2]
              rfl
            · show k + 1 ≤ l1.length + 1
              omega

/-- Extra X15 (on claim C35).  In every state reached from a successful `mm_init` by a
valid call sequence with well-sized requests (each 0 or more than 8 and at most
`2 ^ 31 - 16` bytes), the walk over the arena ends and finds the blocks `V`, and for
every `asize` the scan of `find_fit(asize)` ends, with `NULL` or a block pointer, after
examining at most as many list nodes as `V` has blocks with allocated flag 0. -/
theorem find_fit_bounded {s : State} {L : List (Nat × Nat)} (h : Reach s L) :
    ∃ V, (∃ N, ∀ fuel, N ≤ fuel → heapBlocks fuel s = some V) ∧
      ∀ asize fuel, (freeBlocks s.mem V).length < fuel →
        ∃ r k, find_fit fuel s asize = some r ∧
          find_fit_visits s.mem asize fuel s.firstfree = some k ∧
          k ≤ (freeBlocks s.mem V).length := by
  obtain ⟨bs, fl, I⟩ := reach_inv h
  refine ⟨s.start :: bs.map Blk.bp, ⟨bs.length + 2, I.coalesced.1⟩, fun asize fuel hf => ?_⟩
  rw [I.free_count] at hf ⊢
  have hw : nodesFrom s.mem (fl.length + 1) s.firstfree = some fl :=
    I.free_walk (fl.length + 1) (le_refl _)
  obtain ⟨r, k, a1, a2, a3, -⟩ := find_fit_visits_walk s.mem asize fl _ _ hw fuel hf
  exact ⟨r, k, a1, a2, a3⟩

/-- A scan of `find_fit` that comes to a node which is its own successor and is
too small never ends. -/
theorem find_fit_loop_cycle (m : Mem) (asize p : Nat) (hp0 : p ≠ 0) (h : getNext m p = p)
    (hsz : GET_SIZE m (HDRP p) < asize) : ∀ fuel, find_fit_loop m asize fuel p = none := by
  intro fuel
  induction fuel with
  | zero => rfl
  | succ k ih =>
    rw [find_fit_loop, if_neg hp0, if_neg (by omega), h]
    exact ih

/-! ## `mm_malloc` followed by `mm_free` -/

/-- The block before a free block and the block after it are not free. -/
theorem InvWith.around_free {s : State} {L : List (Nat × Nat)} {pre post : List Blk} {X : Blk}
    {fl : List Nat} (I : InvWith s L (pre ++ X :: post) fl) (hX : X.kind = Kind.free) :
    prevFree pre = none ∧ nextFree post = none := by
  obtain ⟨-, -, h1, h2⟩ := (noAdj_mid_iff pre post X).1 I.no_adj
  exact ⟨prevFree_none (fun q hq hqf => h1 q hq ⟨hqf, hX⟩),
    nextFree_none (fun n hn hnf => h2 n hn ⟨hX, hnf⟩)⟩

/-- The rows of the blocks of a description, read from the tags. -/
theorem InvWith.rows {s : State} {L : List (Nat × Nat)} {bs : List Blk} {fl : List Nat}
    (I : InvWith s L bs fl) :
    layout s.mem (s.start :: bs.map Blk.bp) =
      (s.start, 8, 1, 9, 9) ::
        bs.map (fun b => (b.bp, b.sz, b.kind.bit, b.sz + b.kind.bit, b.sz + b.kind.bit)) := by
  obtain ⟨⟨r1, r2, -, -⟩, rb⟩ := I.read
  have hd := decode_tag s.mem (HDRP s.start) 8 1 r1 rfl (le_refl 1)
  unfold layout
  rw [List.map_cons, List.map_map]
  congr 1
  · unfold blockRow
    rw [hd.1, hd.2, r1, r2]
  · apply List.map_congr_left
    intro b hb
    obtain ⟨q1, q2, -, q4, q5⟩ := rb b hb
    show blockRow s.mem b.bp = _
    unfold blockRow
    rw [q1, q2, q4, q5]

/-- After an `mm_malloc` that found the free block `X` and the `mm_free` of the
pointer it returned, the description of the heap is as before, with `X` at the
head of the free list. -/
theorem place_free_exact {s : State} {L : List (Nat × Nat)} {pre post : List Blk} {X : Blk}
    {fl : List Nat} (I : InvWith s L (pre ++ X :: post) fl) (hX : X.kind = Kind.free)
    (n : Nat) (h1 : 8 < n) (h2 : n ≤ 2 ^ 31 - 16) (hle : adjust_size n ≤ X.sz) (s1 : State)
    (I1 : InvWith s1 ((X.bp, n) :: L) (placeBlocks pre X post (adjust_size n))
      (placeList X fl (adjust_size n))) :
    InvWith (mm_free s1 X.bp) L (pre ++ X :: post) (X.bp :: fl.erase X.bp) ∧
      (mm_free s1 X.bp).start = s1.start ∧ (mm_free s1 X.bp).mem_brk = s1.mem_brk := by
  obtain ⟨hpf, hnf⟩ := I.around_free hX
  have hL : ((X.bp, n) :: L).erase (X.bp, n) = L := List.erase_cons_head _ _
  by_cases hsp : adjust_size n + 24 ≤ X.sz
  · rw [placeBlocks_split _ _ _ _ hsp, placeList_split _ _ _ hsp] at I1
    obtain ⟨I2, S2, B2, -⟩ := free_exact I1 n (List.mem_cons_self _ _)
    rw [hL, coBlocks_ns _ hpf (nextFree_some rfl), coList_ns _ _ hpf (nextFree_some rfl)]
      at I2
    have e1 : (⟨X.bp, adjust_size n + (X.sz - adjust_size n), Kind.free⟩ : Blk) = X := by
      rw [show adjust_size n + (X.sz - adjust_size n) = X.sz by omega]
      exact blk_eta X Kind.free hX
    have I2 : InvWith (mm_free s1 X.bp) L
        (pre ++ (⟨X.bp, adjust_size n + (X.sz - adjust_size n), Kind.free⟩ : Blk) :: post)
        (X.bp :: ((X.bp + adjust_size n) :: fl.erase X.bp).erase (X.bp + adjust_size n)) := I2
    rw [e1, List.erase_cons_head] at I2
    exact ⟨I2, S2, B2⟩
  · rw [placeBlocks_whole _ _ _ _ (by omega), placeList_whole _ _ _ (by omega)] at I1
    obtain ⟨I2, S2, B2, -⟩ := free_exact I1 n (List.mem_cons_self _ _)
    rw [hL, coBlocks_nn _ hpf hnf, coList_nn _ _ hpf hnf] at I2
    have I2 : InvWith (mm_free s1 X.bp) L (pre ++ (⟨X.bp, X.sz, Kind.free⟩ : Blk) :: post)
        (X.bp :: fl.erase X.bp) := I2
    rw [blk_eta X Kind.free hX] at I2
    exact ⟨I2, S2, B2⟩

/-- Extra X16 (on claim C36).  In every state reached by a valid call sequence with
well-sized requests, for every `n` with `8 < n ≤ 2 ^ 31 - 16` that `mm_malloc` satisfies
without a request to the backing store, `p = mm_malloc(n)` returns a non-null pointer
and `mm_free(p)` right after it restores the block layout: the walk over the arena finds
the same blocks `V` as before the `mm_malloc`, each with the same address, size,
allocated flag, header word and footer word, `start` and the break are as before, and
the free list holds the same nodes as before, the block of `p` now at its head. -/
theorem malloc_free_restores {s : State} {L : List (Nat × Nat)} (h : Reach s L) (n : Nat)
    (h1 : 8 < n) (h2 : n ≤ 2 ^ 31 - 16) (fuel : Nat)
    (hg : mm_malloc_grows fuel s n = some []) :
    ∃ s1 p V F, mm_malloc fuel s n = some (s1, p) ∧ p ≠ 0 ∧
      (∃ N, ∀ k, N ≤ k → heapBlocks k s = some V ∧ heapBlocks k (mm_free s1 p) = some V) ∧
      layout (mm_free s1 p).mem V = layout s.mem V ∧
      (mm_free s1 p).start = s.start ∧ (mm_free s1 p).mem_brk = s.mem_brk ∧
      (∃ N, ∀ k, N ≤ k → freeNodes k s = some F ∧
        freeNodes k (mm_free s1 p) = some (p :: F.erase p)) ∧
      p ∈ F ∧ F.Nodup ∧ (p :: F.erase p).Perm F ∧ ∀ x, x ∈ p :: F.erase p ↔ x ∈ F := by
  obtain ⟨bs, fl, I⟩ := reach_inv h
  have hn0 : n ≠ 0 := by omega
  obtain ⟨bp, hff, hbp⟩ : ∃ bp, find_fit fuel s (adjust_size n) = some bp ∧ bp ≠ 0 := by
    simp only [mm_malloc_grows] at hg
    rw [if_neg hn0] at hg
    cases hff : find_fit fuel s (adjust_size n) with
    | none =>
      rw [hff] at hg
      exact Option.noConfusion hg
    | some bp =>
      rw [hff] at hg
      by_cases hb : bp = 0
      · simp [hb, extend_heap_grows] at hg
      · exact ⟨bp, rfl, hb⟩
  rcases (find_fit_spec I (adjust_size n) fuel).2 bp hff with e | ⟨X, hXm, hXb, hXk, hXs⟩
  · exact absurd e hbp
  obtain ⟨pre, post, hbs⟩ := List.append_of_mem hXm
  subst hXb
  rw [hbs] at I
  obtain ⟨hm, -, I1, S1, B1, -⟩ := malloc_hit I n h1 h2 fuel hff
  obtain ⟨I2, S2, B2⟩ := place_free_exact I hXk n h1 h2 hXs _ I1
  obtain ⟨s2, hs2⟩ : ∃ s2, s2 = mm_free (place s X.bp (adjust_size n)) X.bp := ⟨_, rfl⟩
  rw [← hs2] at I2 S2 B2
  have hXfl : X.bp ∈ fl := (I.members X (mem_mid _ _ _)).1 hXk
  have hperm : (X.bp :: fl.erase X.bp).Perm fl := (List.perm_cons_erase hXfl).symm
  refine ⟨_, X.bp, s.start :: (pre ++ X :: post).map Blk.bp, fl, hm, hbp, ?_, ?_, ?_, ?_, ?_,
    hXfl, I.heap.flist.nodup, ?_, ?_⟩
  · refine ⟨(pre ++ X :: post).length + 2, fun k hk => ⟨I.coalesced.1 k hk, ?_⟩⟩
    rw [← hs2]
    have := I2.coalesced.1 k hk
    rw [S2, S1] at this
    exact this
  · rw [← hs2]
    have r2 := I2.rows
    rw [S2, S1] at r2
    rw [r2, I.rows]
  · rw [← hs2, S2, S1]
  · rw [← hs2, B2, B1]
  · refine ⟨fl.length + 1, fun k hk => ⟨I.free_walk k hk, ?_⟩⟩
    rw [← hs2]
    refine I2.free_walk k ?_
    have : (X.bp :: fl.erase X.bp).length = fl.length := hperm.length_eq
    omega
  · exact hperm
  · exact fun x => hperm.mem_iff

/-! ## Stepping between the blocks of the arena -/

/-- In a state reached by a valid call sequence with well-sized requests, stepping
over the walk of the arena is invertible: for every block `bp` that the walk finds,
the prologue included, `PREV_BLKP(NEXT_BLKP(bp)) = bp` and the footer of `bp` is the
word immediately before the header of `NEXT_BLKP(bp)`; and for every block `bp` after
the prologue, `NEXT_BLKP(PREV_BLKP(bp)) = bp`. -/
theorem walk_steps_inverse {s : State} {L : List (Nat × Nat)} (h : Reach s L) :
    ∃ W, (∃ N, ∀ fuel, N ≤ fuel → heapBlocks fuel s = some (s.start :: W)) ∧
      (∀ bp ∈ s.start :: W, PREV_BLKP s.mem (NEXT_BLKP s.mem bp) = bp ∧
        FTRP s.mem bp + WSIZE = HDRP (NEXT_BLKP s.mem bp)) ∧
      ∀ bp ∈ W, NEXT_BLKP s.mem (PREV_BLKP s.mem bp) = bp := by
  obtain ⟨bs, fl, I⟩ := reach_inv h
  obtain ⟨⟨r1, r2, r3, -⟩, rb⟩ := I.read
  have hs8 := I.heap.geo.start_ge
  have hpf : GET_SIZE s.mem s.start = 8 :=
    (decode_tag s.mem s.start 8 1 I.heap.tags.prologue_f rfl (le_refl 1)).1
  have hph : GET_SIZE s.mem (HDRP s.start) = 8 :=
    (decode_tag s.mem (HDRP s.start) 8 1 r1 rfl (le_refl 1)).1
  refine ⟨bs.map Blk.bp, ⟨bs.length + 2, I.coalesced.1⟩, fun bp hbp => ?_, fun bp hbp => ?_⟩
  · rcases List.mem_cons.1 hbp with e | e
    · subst e
      refine ⟨?_, ?_⟩
      · rw [r3]
        unfold PREV_BLKP DSIZE
        rw [show s.start + 8 - 8 = s.start by omega, hpf]
        omega
      · rw [r3]
        unfold FTRP
        rw [hph]
        unfold HDRP DSIZE WSIZE
        omega
    · obtain ⟨b, hb, rfl⟩ := List.mem_map.1 e
      obtain ⟨-, -, q3, q4, -⟩ := rb b hb
      have gb := I.heap.geo.blk b hb
      have sf := (I.heap.size_at b hb (I.no_raw b hb)).2.2.1
      refine ⟨?_, ?_⟩
      · rw [q3]
        unfold PREV_BLKP DSIZE
        rw [sf]
        omega
      · rw [q3]
        unfold FTRP
        rw [q4]
        unfold HDRP DSIZE WSIZE
        omega
  · obtain ⟨b, hb, rfl⟩ := List.mem_map.1 hbp
    obtain ⟨pre, post, hbs⟩ := List.append_of_mem hb
    have H := I.heap
    rw [hbs] at H
    rcases List.eq_nil_or_concat pre with e | ⟨pre1, q, e⟩
    · rw [e, List.nil_append] at H
      have hbp1 : b.bp = s.start + 8 := H.geo.tiling.1
      have e1 : PREV_BLKP s.mem b.bp = s.start := by
        unfold PREV_BLKP DSIZE
        rw [hbp1, show s.start + 8 - 8 = s.start by omega, hpf]
        omega
      rw [e1, r3, hbp1]
    · rw [List.concat_eq_append] at e
      rw [e] at H
      have hqm : q ∈ bs := by
        rw [hbs, e]
        exact List.mem_append_left _ (List.mem_append_right _ (List.mem_singleton_self _))
      obtain ⟨p1, p2, -, -⟩ := prev_some H (I.no_raw q hqm)
      rw [p2, (rb q hqm).2.2.1, p1]

/-! ## Runs for the requests to the backing store, the tags and the free list -/

/-- Witness of `miss_request_bytes`: `mm_malloc(5000)` right after `mm_init()`, where
the one free block of 4096 bytes is too small. -/
theorem miss_request_bytes_witness :
    0 < 5000 ∧ 5000 < 2 ^ 32 ∧ find_fit 8 demoInit (adjust_size 5000) = some 0 ∧
    ((adjust_size 5000 < 2 ^ 31 ↔ 5000 ≤ 2 ^ 31 - 16 ∨ 2 ^ 32 - 16 < 5000) ∧
      ∃ b, mm_malloc_grows 8 demoInit 5000 = some [b] ∧
        (adjust_size 5000 < 2 ^ 31 → b = max (adjust_size 5000) CHUNKSIZE ∧
          adjust_size 5000 ≤ b) ∧
        (2 ^ 31 ≤ adjust_size 5000 → b = CHUNKSIZE ∧ b < adjust_size 5000) ∧
        (demoInit.mem_brk + b ≤ demoInit.mem_max_addr →
          (extend_heap demoInit (extendsize (adjust_size 5000) / WSIZE)).1.mem_brk
            = demoInit.mem_brk + b) ∧
        (demoInit.mem_max_addr < demoInit.mem_brk + b →
          mm_malloc 8 demoInit 5000 = some (demoInit, 0))) :=
  ⟨by decide, by decide, by decide,
    miss_request_bytes demoInit 8 5000 (by decide) (by decide) (by decide)⟩

/-- Claim C31 on a failing input: after `mm_init()`, `mm_malloc(2 ^ 31)` computes the
adjusted size `2 ^ 31 + 8` and finds no fit in the free list; `MAX` reads the adjusted
size as a negative `int`, so the extension size is 4096, and the `extend_heap` call of
`mm_malloc` asks the backing store for 4096 bytes and moves the break by 4096 bytes,
fewer than the adjusted size.  On a backing store with no room left the request for
4096 bytes is refused and the call returns `NULL`. -/
theorem half_request_grows_chunk :
    (mm_init demoStore).2 = 0 ∧ 0 < halfReq ∧ halfReq < 2 ^ 32 ∧
    adjust_size halfReq = 2147483656 ∧ toInt32 (adjust_size halfReq) = -2147483640 ∧
    extendsize (adjust_size halfReq) = 4096 ∧
    find_fit 8 demoInit (adjust_size halfReq) = some 0 ∧
    mm_malloc_grows 8 demoInit halfReq = some [4096] ∧
    (extend_heap demoInit (extendsize (adjust_size halfReq) / WSIZE)).2 ≠ 0 ∧
    (extend_heap demoInit (extendsize (adjust_size halfReq) / WSIZE)).1.mem_brk
      = demoInit.mem_brk + 4096 ∧
    4096 < adjust_size halfReq ∧ max (adjust_size halfReq) 4096 ≠ 4096 ∧
    (mm_init tightStore).2 = 0 ∧
    find_fit 8 tightInit (adjust_size halfReq) = some 0 ∧
    mm_malloc_grows 8 tightInit halfReq = some [4096] ∧
    (mm_malloc 8 tightInit halfReq).map Prod.snd = some 0 :=
  ⟨by decide, by decide, by decide, (by decide), by decide, by decide, by decide,
    (by decide), by decide, by decide, by decide, (by decide), by decide, by decide,
    by decide, (by decide)⟩

/-- Witness of `tag_decodes`: the tag `PACK(112, 1)` stored at address 4108. -/
theorem tag_decodes_witness :
    112 < 2 ^ 32 ∧ 112 % 8 = 0 ∧ 1 ≤ 1 ∧
    (GET (PUT demoInit.mem 4108 (PACK 112 1)) 4108 = PACK 112 1 ∧
      GET_SIZE (PUT demoInit.mem 4108 (PACK 112 1)) 4108 = 112 ∧
      GET_ALLOC (PUT demoInit.mem 4108 (PACK 112 1)) 4108 = 1 ∧
      (∀ q, GET demoInit.mem q = PACK 112 1 →
        GET_SIZE demoInit.mem q = 112 ∧ GET_ALLOC demoInit.mem q = 1) ∧
      ∀ q, GET demoInit.mem q < 2 ^ 32 ∧
        GET_SIZE demoInit.mem q = GET demoInit.mem q &&& 4294967288 ∧
        (∀ i, (GET_SIZE demoInit.mem q).testBit i
          = (decide (3 ≤ i) && (GET demoInit.mem q).testBit i)) ∧
        GET_ALLOC demoInit.mem q = GET demoInit.mem q &&& 1 ∧
        GET_ALLOC demoInit.mem q = ((GET demoInit.mem q).testBit 0).toNat) :=
  ⟨by decide, by decide, by decide,
    tag_decodes demoInit.mem 4108 112 1 (by decide) (by decide) (by decide)⟩

/-- Witness of `neighbours_inverse`: after `mm_init()` and `mm_malloc(100)`, the
allocated block at 4112 (112 bytes) and the free block at 4224 behind it. -/
theorem neighbours_inverse_witness :
    GET_SIZE demoA.1.mem (HDRP 4112) ≠ 0 ∧
    GET demoA.1.mem (FTRP demoA.1.mem 4112) = GET demoA.1.mem (HDRP 4112) ∧
    GET_SIZE demoA.1.mem (4224 - DSIZE) ≤ 4224 ∧
    GET demoA.1.mem (HDRP (PREV_BLKP demoA.1.mem 4224)) = GET demoA.1.mem (4224 - DSIZE) ∧
    (PREV_BLKP demoA.1.mem (NEXT_BLKP demoA.1.mem 4112) = 4112 ∧
      FTRP demoA.1.mem 4112 = 4112 + GET_SIZE demoA.1.mem (HDRP 4112) - 8 ∧
      FTRP demoA.1.mem 4112 + WSIZE = HDRP (NEXT_BLKP demoA.1.mem 4112) ∧
      4112 < NEXT_BLKP demoA.1.mem 4112 ∧
      NEXT_BLKP demoA.1.mem (PREV_BLKP demoA.1.mem 4224) = 4224) :=
  ⟨by decide, by decide, by decide, by decide,
    neighbours_inverse demoA.1.mem 4112 4224 (by decide) (by decide) (by decide) (by decide)⟩

/-- Witness of `walk_steps_inverse`: the state after `mm_init()` and two
allocations. -/
theorem walk_steps_inverse_witness :
    Reach demoB.1 [(4224, 200), (4112, 100)] ∧
    ∃ W, (∃ N, ∀ fuel, N ≤ fuel → heapBlocks fuel demoB.1 = some (demoB.1.start :: W)) ∧
      (∀ bp ∈ demoB.1.start :: W,
        PREV_BLKP demoB.1.mem (NEXT_BLKP demoB.1.mem bp) = bp ∧
        FTRP demoB.1.mem bp + WSIZE = HDRP (NEXT_BLKP demoB.1.mem bp)) ∧
      ∀ bp ∈ W, NEXT_BLKP demoB.1.mem (PREV_BLKP demoB.1.mem bp) = bp :=
  ⟨reach_demoB, walk_steps_inverse reach_demoB⟩

/-- Witness of `free_list_linked`: the state `backB`, whose free list is 4112, 4320. -/
theorem free_list_linked_witness :
    Reach backB [(4272, 40), (4160, 100)] ∧
    ∃ F, (∃ N, ∀ fuel, N ≤ fuel → freeNodes fuel backB = some F) ∧ F.Nodup ∧
      (∀ x ∈ F, x ≠ 0) ∧ backB.firstfree = F.headD 0 ∧
      (backB.firstfree = 0 ∨ getPrev backB.mem backB.firstfree = 0) ∧
      (∀ x ∈ F, getNext backB.mem x ≠ 0 →
        getNext backB.mem x ∈ F ∧ getPrev backB.mem (getNext backB.mem x) = x) ∧
      (∀ xs x, F = xs ++ [x] → getNext backB.mem x = 0) ∧
      LinkedF (getPrev backB.mem) (getNext backB.mem) F :=
  ⟨reach_backB, free_list_linked reach_backB⟩

/-- A request whose adjusted size wraps to 0: after `mm_init()`, `mm_malloc(2 ^ 32 - 8)`
returns 4112 and leaves a free list that is a cycle: `firstfree` is 4112, its `prev` link is 4112 and not null, its `next`
link is 4112 again, and the walk along the `next` links never reaches `NULL`. -/
theorem huge_request_list_cyclic :
    Reach demoInit [] ∧ mm_malloc 8 demoInit hugeReq = some (hugeA.1, 4112) ∧
    hugeA.1.firstfree = 4112 ∧ getPrev hugeA.1.mem hugeA.1.firstfree = 4112 ∧
    getNext hugeA.1.mem 4112 = 4112 ∧ ∀ fuel, freeNodes fuel hugeA.1 = none :=
  ⟨reach_demoInit, callMalloc_eq demoInit hugeReq 4112 (by decide) (by decide), by decide,
    by decide, by decide, nodesFrom_loop hugeA.1.mem 4112 (by decide) (by decide)⟩

/-- Witness of `find_fit_bounded`: the state `backB`, with two free blocks. -/
theorem find_fit_bounded_witness :
    Reach backB [(4272, 40), (4160, 100)] ∧
    ∃ V, (∃ N, ∀ fuel, N ≤ fuel → heapBlocks fuel backB = some V) ∧
      ∀ asize fuel, (freeBlocks backB.mem V).length < fuel →
        ∃ r k, find_fit fuel backB asize = some r ∧
          find_fit_visits backB.mem asize fuel backB.firstfree = some k ∧
          k ≤ (freeBlocks backB.mem V).length :=
  ⟨reach_backB, find_fit_bounded reach_backB⟩

/-- A request whose adjusted size wraps to 0: after `mm_init()` and
`mm_malloc(2 ^ 32 - 8)`, which returns 4112, the scan of `find_fit(4104)` never ends: the one list node, of 4096 bytes, is its own successor.
So the call `mm_malloc(4090)`, whose adjusted size is 4104, does not return. -/
theorem huge_request_scan_endless :
    Reach demoInit [] ∧ mm_malloc 8 demoInit hugeReq = some (hugeA.1, 4112) ∧
    heapBlocks 8 hugeA.1 = some [4104, 4112] ∧
    freeBlocks hugeA.1.mem [4104, 4112] = [4112] ∧
    (∀ fuel, find_fit fuel hugeA.1 4104 = none) ∧
    (∀ fuel, find_fit_visits hugeA.1.mem 4104 fuel hugeA.1.firstfree ≠ some 0 ∧
      find_fit_visits hugeA.1.mem 4104 fuel hugeA.1.firstfree ≠ some 1) ∧
    adjust_size 4090 = 4104 ∧ ∀ fuel, mm_malloc fuel hugeA.1 4090 = none := by
  have hloop : ∀ fuel, find_fit fuel hugeA.1 4104 = none :=
    find_fit_loop_cycle hugeA.1.mem 4104 4112 (by decide) (by decide) (by decide)
  have hv : ∀ fuel, find_fit_visits hugeA.1.mem 4104 fuel 4112 = none := by
    intro fuel
    induction fuel with
    | zero => rfl
    | succ k ih =>
      rw [find_fit_visits, if_neg (by decide), if_neg (by decide),
        show getNext hugeA.1.mem 4112 = 4112 by decide, ih]
      rfl
  have hff : hugeA.1.firstfree = 4112 := by decide
  refine ⟨reach_demoInit, callMalloc_eq demoInit hugeReq 4112 (by decide) (by decide),
    by decide, by decide, hloop, fun fuel => ?_, by decide, fun fuel => ?_⟩
  · rw [hff, hv fuel]
    exact ⟨fun e => Option.noConfusion e, fun e => Option.noConfusion e⟩
  · simp only [mm_malloc]
    rw [if_neg (by decide), show adjust_size 4090 = 4104 by decide, hloop fuel]

/-- Witness of `malloc_free_restores`: `mm_malloc(100)` right after `mm_init()`,
followed by `mm_free` of the pointer it returns. -/
theorem malloc_free_restores_witness :
    Reach demoInit [] ∧ 8 < 100 ∧ 100 ≤ 2 ^ 31 - 16 ∧
    mm_malloc_grows 8 demoInit 100 = some [] ∧
    ∃ s1 p V F, mm_malloc 8 demoInit 100 = some (s1, p) ∧ p ≠ 0 ∧
      (∃ N, ∀ k, N ≤ k → heapBlocks k demoInit = some V ∧
        heapBlocks k (mm_free s1 p) = some V) ∧
      layout (mm_free s1 p).mem V = layout demoInit.mem V ∧
      (mm_free s1 p).start = demoInit.start ∧ (mm_free s1 p).mem_brk = demoInit.mem_brk ∧
      (∃ N, ∀ k, N ≤ k → freeNodes k demoInit = some F ∧
        freeNodes k (mm_free s1 p) = some (p :: F.erase p)) ∧
      p ∈ F ∧ F.Nodup ∧ (p :: F.erase p).Perm F ∧ ∀ x, x ∈ p :: F.erase p ↔ x ∈ F :=
  ⟨reach_demoInit, by decide, by decide, by decide,
    malloc_free_restores reach_demoInit 100 (by decide) (by decide) 8 (by decide)⟩

/-- Claim C36 on a failing input: after `mm_init()`, `p = mm_malloc(2 ^ 32 - 8)` returns
4112 without a request to the backing store, and `mm_free(p)` right after it does not
restore the block layout:
the prologue footer is `PACK(0, 1)` instead of `PACK(8, 1)`, and the block at 4112 has
size 8192 in header and footer instead of 4096, which is more than the arena holds. -/
theorem huge_request_not_restored :
    Reach demoInit [] ∧ 0 < hugeReq ∧ mm_malloc 8 demoInit hugeReq = some (hugeA.1, 4112) ∧
    mm_malloc_grows 8 demoInit hugeReq = some [] ∧ hugeF = mm_free hugeA.1 4112 ∧
    heapBlocks 8 demoInit = some [4104, 4112] ∧
    layout demoInit.mem [4104, 4112] = [(4104, 8, 1, 9, 9), (4112, 4096, 0, 4096, 4096)] ∧
    layout hugeF.mem [4104, 4112] = [(4104, 8, 1, 9, 1), (4112, 8192, 0, 8192, 8192)] ∧
    hugeF.start = 4104 ∧ hugeF.mem_brk = 8208 ∧ 8208 < 4112 + 8192 :=
  ⟨reach_demoInit, by decide, callMalloc_eq demoInit hugeReq 4112 (by decide) (by decide),
    by decide, rfl, by decide, by decide, by decide, by decide, by decide, by decide⟩

/-! ## Runs with a request of at most 8 bytes: the calls

The runs start on `edgeStore`, the backing store that starts 24 bytes below `2 ^ 32`.
Up to the request of 1 byte every request is well-sized, so the state in which that
request is made is reached by a valid call sequence with well-sized requests. -/

theorem reach_edgeInit : Reach edgeInit [] :=
  Reach.init edgeStore fresh_edgeStore (by decide)

theorem slipA_call : mm_malloc 8 edgeInit 100 = some (slipA.1, 4294967288) :=
  callMalloc_eq edgeInit 100 4294967288 (by decide) (by decide)

theorem slipB_call : mm_malloc 8 slipA.1 100 = some (slipB.1, 4294967400) :=
  callMalloc_eq slipA.1 100 4294967400 (by decide) (by decide)

theorem slipC_call : mm_malloc 8 slipB.1 100 = some (slipC.1, 4294967512) :=
  callMalloc_eq slipB.1 100 4294967512 (by decide) (by decide)

theorem slipE_call : mm_malloc 8 slipD 1 = some (slipE.1, 4294967400) :=
  callMalloc_eq slipD 1 4294967400 (by decide) (by decide)

theorem reach_slipA : Reach slipA.1 [(4294967288, 100)] :=
  Reach.malloc edgeInit [] 8 100 slipA.1 4294967288 reach_edgeInit good_100 slipA_call
    (by decide)

/-- The state `slipD`, in which `mm_malloc(1)` is called, is reached by a valid call
sequence with well-sized requests; the allocations `c` and `x` are live. -/
theorem reach_slipD : Reach slipD [(4294967512, 100), (4294967288, 100)] :=
  Reach.free slipC.1 _ 4294967400 100
    (Reach.malloc slipB.1 _ 8 100 slipC.1 4294967512
      (Reach.malloc slipA.1 _ 8 100 slipB.1 4294967400 reach_slipA good_100 slipB_call
        (by decide))
      good_100 slipC_call (by decide))
    (by decide)

theorem padB_call : mm_malloc 8 padA 100 = some (padB.1, 4294967400) :=
  callMalloc_eq padA 100 4294967400 (by decide) (by decide)

theorem padC_call : mm_malloc 8 padB.1 100 = some (padC.1, 4294967512) :=
  callMalloc_eq padB.1 100 4294967512 (by decide) (by decide)

theorem padE_call : mm_malloc 8 padD 1 = some (padE.1, 4294967400) :=
  callMalloc_eq padD 1 4294967400 (by decide) (by decide)

/-- The state `padD`, in which `mm_malloc(1)` is called, is reached by a valid call
sequence with well-sized requests; the allocations `c` and `x` are live. -/
theorem reach_padD : Reach padD [(4294967512, 100), (4294967288, 100)] :=
  Reach.free padC.1 _ 4294967400 100
    (Reach.malloc padB.1 _ 8 100 padC.1 4294967512
      (Reach.malloc padA _ 8 100 padB.1 4294967400
        (Reach.store slipA.1 _ 4294967288 100 25 77 reach_slipA (List.mem_cons_self _ _)
          (by decide))
        good_100 padB_call (by decide))
      good_100 padC_call (by decide))
    (by decide)

theorem good_24 : GoodReq 24 := Or.inr (by decide)

theorem sixA_call : mm_malloc 8 edgeInit 24 = some (sixA.1, 4294967288) :=
  callMalloc_eq edgeInit 24 4294967288 (by decide) (by decide)

theorem sixB_call : mm_malloc 8 sixA.1 24 = some (sixB.1, 4294967320) :=
  callMalloc_eq sixA.1 24 4294967320 (by decide) (by decide)

theorem sixD_call : mm_malloc 8 sixC 100 = some (sixD.1, 4294967352) :=
  callMalloc_eq sixC 100 4294967352 (by decide) (by decide)

theorem sixE_call : mm_malloc 8 sixD.1 100 = some (sixE.1, 4294967464) :=
  callMalloc_eq sixD.1 100 4294967464 (by decide) (by decide)

theorem sixG_call : mm_malloc 8 sixF 1 = some (sixG.1, 4294967352) :=
  callMalloc_eq sixF 1 4294967352 (by decide) (by decide)

/-- The state `sixF`, in which `mm_malloc(1)` is called, is reached by a valid call
sequence with well-sized requests; the allocations `e` and `b` are live. -/
theorem reach_sixF : Reach sixF [(4294967464, 100), (4294967320, 24)] :=
  Reach.free sixE.1 _ 4294967352 100
    (Reach.malloc sixD.1 _ 8 100 sixE.1 4294967464
      (Reach.malloc sixC _ 8 100 sixD.1 4294967352
        (Reach.free sixB.1 _ 4294967288 24
          (Reach.malloc sixA.1 _ 8 24 sixB.1 4294967320
            (Reach.malloc edgeInit [] 8 24 sixA.1 4294967288 reach_edgeInit good_24 sixA_call
              (by decide))
            good_24 sixB_call (by decide))
          (by decide))
        good_100 sixD_call (by decide))
      good_100 sixE_call (by decide))
    (by decide)

/-- A walk along the `next` links between two nodes that point at each other never
reaches `NULL`. -/
theorem nodesFrom_cycle (m : Mem) (p q : Nat) (hp : p ≠ 0) (hq : q ≠ 0)
    (h1 : getNext m p = q) (h2 : getNext m q = p) :
    ∀ fuel, nodesFrom m fuel p = none ∧ nodesFrom m fuel q = none := by
  intro fuel
  induction fuel with
  | zero => exact ⟨rfl, rfl⟩
  | succ k ih =>
    constructor
    · rw [nodesFrom, if_neg hp, h1, ih.2]
      rfl
    · rw [nodesFrom, if_neg hq, h2, ih.1]
      rfl

/-- A scan of `find_fit` between two nodes that point at each other and are both
rejected never ends. -/
theorem find_fit_loop_cycle2 (m : Mem) (asize p q : Nat) (hp : p ≠ 0) (hq : q ≠ 0)
    (h1 : getNext m p = q) (h2 : getNext m q = p)
    (sp : ¬ (GET_ALLOC m (HDRP p) = 0 ∧ GET_SIZE m (HDRP p) ≥ asize))
    (sq : ¬ (GET_ALLOC m (HDRP q) = 0 ∧ GET_SIZE m (HDRP q) ≥ asize)) :
    ∀ fuel, find_fit_loop m asize fuel p = none ∧ find_fit_loop m asize fuel q = none := by
  intro fuel
  induction fuel with
  | zero => exact ⟨rfl, rfl⟩
  | succ k ih =>
    constructor
    · rw [find_fit_loop, if_neg hp, if_neg sp, h1]
      exact ih.2
    · rw [find_fit_loop, if_neg hq, if_neg sq, h2]
      exact ih.1

/-! ## Runs with a request of at most 8 bytes: what they leave behind

In each run the request of 1 byte gets the adjusted size 16.  `place` splits a block of
16 bytes off the free block `v` it was given; the footer of that block lies on the low
word of the `next` link of `v`, so `remove_from_free(v)` reads the link as
`2 ^ 32 + 17 = 4294967313`, makes that address the head of the list and stores a `prev`
link there, 25 bytes into the first block of the arena. -/

/-- Claim C3 on a failing input: on a backing store that starts 24 bytes below `2 ^ 32`,
after `x = mm_malloc(100)`, the store of the byte 77 by the caller at `x + 25`,
`b = mm_malloc(100)`, `c = mm_malloc(100)` and `mm_free(b)`, the byte at `x + 25` is still
77; the call `mm_malloc(1)` then changes it to 120: a `prev` link is stored in the payload
of the live allocation `x`. -/
theorem small_request_payload_written :
    (mm_init edgeStore).2 = 0 ∧ mm_malloc 8 edgeInit 100 = some (slipA.1, 4294967288) ∧
    padA = callStore slipA.1 (4294967288 + 25) 77 ∧ 25 < 100 ∧
    mm_malloc 8 padA 100 = some (padB.1, 4294967400) ∧
    mm_malloc 8 padB.1 100 = some (padC.1, 4294967512) ∧
    padD = mm_free padC.1 4294967400 ∧
    Reach padD [(4294967512, 100), (4294967288, 100)] ∧
    padD.mem (4294967288 + 25) = 77 ∧
    mm_malloc 8 padD 1 = some (padE.1, 4294967400) ∧
    padE.1.mem (4294967288 + 25) = 120 ∧
    getPrev padE.1.mem (4294967288 + 25) = 4294967416 :=
  ⟨by decide, slipA_call, rfl, by decide, padB_call, padC_call, rfl, reach_padD, by decide,
    padE_call, by decide, by decide⟩

/-- Claim C5 on a failing input: on a backing store that starts 24 bytes below `2 ^ 32`,
after `x = mm_malloc(100)`, `b = mm_malloc(100)`, `c = mm_malloc(100)`, `mm_free(b)` and
`mm_malloc(1)`, the walk over the arena finds the block at 4294967624 with allocated
flag 0, but the walk from `firstfree` along the `next` links finds only 4294967416 and
4294967313 before it reaches `NULL`; and 4294967313 is no block of the arena but the
address `x + 25` inside the live allocation `x`. -/
theorem small_request_block_unlisted :
    (mm_init edgeStore).2 = 0 ∧ mm_malloc 8 edgeInit 100 = some (slipA.1, 4294967288) ∧
    mm_malloc 8 slipA.1 100 = some (slipB.1, 4294967400) ∧
    mm_malloc 8 slipB.1 100 = some (slipC.1, 4294967512) ∧
    slipD = mm_free slipC.1 4294967400 ∧
    Reach slipD [(4294967512, 100), (4294967288, 100)] ∧
    mm_malloc 8 slipD 1 = some (slipE.1, 4294967400) ∧
    heapBlocks 8 slipE.1 = some [4294967280, 4294967288, 4294967400, 4294967416,
      4294967512, 4294967624] ∧
    freeNodes 8 slipE.1 = some [4294967416, 4294967313] ∧
    GET_ALLOC slipE.1.mem (HDRP 4294967624) = 0 ∧
    GET_SIZE slipE.1.mem (HDRP 4294967624) = 3760 ∧
    4294967624 ∉ [4294967416, 4294967313] ∧
    4294967313 ∉ [4294967280, 4294967288, 4294967400, 4294967416, 4294967512, 4294967624] ∧
    4294967288 < 4294967313 ∧ 4294967313 < 4294967288 + 100 :=
  ⟨by decide, slipA_call, slipB_call, slipC_call, rfl, reach_slipD, slipE_call, by decide,
    by decide, by decide, by decide, by decide, by decide, by decide, by decide⟩

/-- Claim C6 on a failing input: on a backing store that starts 24 bytes below `2 ^ 32`,
after `a = mm_malloc(24)`, `b = mm_malloc(24)`, `mm_free(a)`, `c = mm_malloc(100)`,
`e = mm_malloc(100)`, `mm_free(c)` and `mm_malloc(1)`, the walk over the arena finds the
blocks `a`, `b` and 4294967576 one after the other, all three with allocated flag 0.  The
header of the live allocation `b` was 33 before the last call and is 256 after it: the
`prev` link stored at 4294967313 covers it. -/
theorem small_request_adjacent_free :
    (mm_init edgeStore).2 = 0 ∧ mm_malloc 8 edgeInit 24 = some (sixA.1, 4294967288) ∧
    mm_malloc 8 sixA.1 24 = some (sixB.1, 4294967320) ∧
    sixC = mm_free sixB.1 4294967288 ∧
    mm_malloc 8 sixC 100 = some (sixD.1, 4294967352) ∧
    mm_malloc 8 sixD.1 100 = some (sixE.1, 4294967464) ∧
    sixF = mm_free sixE.1 4294967352 ∧
    Reach sixF [(4294967464, 100), (4294967320, 24)] ∧
    GET sixF.mem (HDRP 4294967320) = 33 ∧
    mm_malloc 8 sixF 1 = some (sixG.1, 4294967352) ∧
    heapBlocks 8 sixG.1 = some [4294967280, 4294967288, 4294967320, 4294967576] ∧
    GET_ALLOC sixG.1.mem (HDRP 4294967288) = 0 ∧
    NEXT_BLKP sixG.1.mem 4294967288 = 4294967320 ∧
    GET sixG.1.mem (HDRP 4294967320) = 256 ∧
    GET_ALLOC sixG.1.mem (HDRP 4294967320) = 0 ∧
    NEXT_BLKP sixG.1.mem 4294967320 = 4294967576 ∧
    GET_ALLOC sixG.1.mem (HDRP 4294967576) = 0 :=
  ⟨by decide, sixA_call, sixB_call, rfl, sixD_call, sixE_call, rfl, reach_sixF, by decide,
    sixG_call, by decide, by decide, by decide, by decide, by decide, by decide, by decide⟩

/-- Claim C21 on a failing input: on a backing store that starts 24 bytes below `2 ^ 32`,
after `x = mm_malloc(100)`, `b = mm_malloc(100)`, `c = mm_malloc(100)`, `mm_free(b)`,
`d = mm_malloc(1)` and `e = mm_malloc(5000)`, the blocks no longer tile the arena: the
block of 16 bytes at `d` has header 17 and footer 0, the header word of the block behind
it, at 4294967416, is 0 where it was 96, and the walk over the arena stops there, 8976
bytes below the break, without reaching the live allocations `c` and `e` or the
epilogue. -/
theorem small_request_walk_stops :
    (mm_init edgeStore).2 = 0 ∧ mm_malloc 8 edgeInit 100 = some (slipA.1, 4294967288) ∧
    mm_malloc 8 slipA.1 100 = some (slipB.1, 4294967400) ∧
    mm_malloc 8 slipB.1 100 = some (slipC.1, 4294967512) ∧
    slipD = mm_free slipC.1 4294967400 ∧
    Reach slipD [(4294967512, 100), (4294967288, 100)] ∧
    mm_malloc 8 slipD 1 = some (slipE.1, 4294967400) ∧
    GET slipE.1.mem (HDRP 4294967416) = 96 ∧
    mm_malloc 8 slipE.1 5000 = some (slipF.1, 4294967624) ∧
    heapBlocks 8 slipF.1 = some [4294967280, 4294967288, 4294967400] ∧
    GET slipF.1.mem (HDRP 4294967400) = 17 ∧
    GET slipF.1.mem (FTRP slipF.1.mem 4294967400) = 0 ∧
    NEXT_BLKP slipF.1.mem 4294967400 = 4294967416 ∧
    GET slipF.1.mem (HDRP 4294967416) = 0 ∧ PACK 0 1 ≠ 0 ∧
    NEXT_BLKP slipF.1.mem 4294967416 = 4294967416 ∧
    slipF.1.mem_brk = 4294976392 ∧ 4294967416 + 8976 = 4294976392 :=
  ⟨by decide, slipA_call, slipB_call, slipC_call, rfl, reach_slipD, slipE_call, by decide,
    callMalloc_eq slipE.1 5000 4294967624 (by decide) (by decide), by decide, by decide,
    by decide, by decide, by decide, by decide, by decide, by decide, by decide⟩

/-- Claim C34 on a failing input: on a backing store that starts 24 bytes below `2 ^ 32`,
after `x = mm_malloc(100)`, `b = mm_malloc(100)`, `c = mm_malloc(100)`, `mm_free(b)` and
`mm_malloc(1)`, the head 4294967416 of the free list has the `next` link 4294967313, the
address `x + 25` inside the live allocation `x`, so the `next` and `prev` links of that
list node are bytes 33 to 40 and 25 to 32 of the caller.  Once the caller has stored the
bytes 120 and 1 at `x + 33` and `x + 37`, the `next` link of 4294967313 is the head
4294967416, whose `prev` link is null: the `next` chain is a cycle and the walk along it
never reaches `NULL`. -/
theorem small_request_list_cyclic :
    (mm_init edgeStore).2 = 0 ∧ mm_malloc 8 edgeInit 100 = some (slipA.1, 4294967288) ∧
    mm_malloc 8 slipA.1 100 = some (slipB.1, 4294967400) ∧
    mm_malloc 8 slipB.1 100 = some (slipC.1, 4294967512) ∧
    slipD = mm_free slipC.1 4294967400 ∧
    Reach slipD [(4294967512, 100), (4294967288, 100)] ∧
    mm_malloc 8 slipD 1 = some (slipE.1, 4294967400) ∧
    slipE.1.firstfree = 4294967416 ∧ getNext slipE.1.mem 4294967416 = 4294967313 ∧
    4294967313 = 4294967288 + 25 ∧
    loopA = callStore (callStore slipE.1 (4294967288 + 33) 120) (4294967288 + 37) 1 ∧
    37 < 100 ∧ loopA.firstfree = 4294967416 ∧
    getNext loopA.mem 4294967416 = 4294967313 ∧
    getNext loopA.mem 4294967313 = 4294967416 ∧
    getPrev loopA.mem 4294967416 = 0 ∧ 4294967313 ≠ 0 ∧
    ∀ fuel, freeNodes fuel loopA = none := by
  have hc := nodesFrom_cycle loopA.mem 4294967416 4294967313 (by decide) (by decide)
    (by decide) (by decide)
  have hff : loopA.firstfree = 4294967416 := by decide
  refine ⟨by decide, slipA_call, slipB_call, slipC_call, rfl, reach_slipD, slipE_call,
    by decide, by decide, by decide, rfl, by decide, hff, by decide, by decide, by decide,
    by decide, fun fuel => ?_⟩
  unfold freeNodes
  rw [hff]
  exact (hc fuel).1

/-- Claim C35 on a failing input: on a backing store that starts 24 bytes below `2 ^ 32`,
after `x = mm_malloc(100)`, `b = mm_malloc(100)`, `c = mm_malloc(100)`, `mm_free(b)`,
`mm_malloc(1)` and the store of the bytes 120 and 1 by the caller at `x + 33` and `x + 37`
of its live allocation `x`, the arena has two blocks with allocated flag 0, and the scan
of `find_fit(112)` goes from the head 4294967416 (96 bytes) to 4294967313 (the address
`x + 25`, whose header word reads 0) and back to the head without end; so
`mm_malloc(100)`, whose adjusted size is 112, does not return. -/
theorem small_request_scan_endless :
    (mm_init edgeStore).2 = 0 ∧ mm_malloc 8 edgeInit 100 = some (slipA.1, 4294967288) ∧
    mm_malloc 8 slipA.1 100 = some (slipB.1, 4294967400) ∧
    mm_malloc 8 slipB.1 100 = some (slipC.1, 4294967512) ∧
    slipD = mm_free slipC.1 4294967400 ∧
    Reach slipD [(4294967512, 100), (4294967288, 100)] ∧
    mm_malloc 8 slipD 1 = some (slipE.1, 4294967400) ∧
    loopA = callStore (callStore slipE.1 (4294967288 + 33) 120) (4294967288 + 37) 1 ∧
    37 < 100 ∧
    heapBlocks 8 loopA = some [4294967280, 4294967288, 4294967400, 4294967416,
      4294967512, 4294967624] ∧
    freeBlocks loopA.mem [4294967280, 4294967288, 4294967400, 4294967416, 4294967512,
      4294967624] = [4294967416, 4294967624] ∧
    GET_SIZE loopA.mem (HDRP 4294967416) = 96 ∧ GET loopA.mem (HDRP 4294967313) = 0 ∧
    getNext loopA.mem 4294967416 = 4294967313 ∧
    getNext loopA.mem 4294967313 = 4294967416 ∧
    adjust_size 100 = 112 ∧
    (∀ fuel, find_fit fuel loopA 112 = none) ∧
    ∀ fuel, mm_malloc fuel loopA 100 = none := by
  have hc := find_fit_loop_cycle2 loopA.mem 112 4294967416 4294967313 (by decide) (by decide)
    (by decide) (by decide) (by decide) (by decide)
  have hff : loopA.firstfree = 4294967416 := by decide
  have hloop : ∀ fuel, find_fit fuel loopA 112 = none := by
    intro fuel
    unfold find_fit
    rw [hff]
    exact (hc fuel).1
  refine ⟨by decide, slipA_call, slipB_call, slipC_call, rfl, reach_slipD, slipE_call, rfl,
    by decide, by decide, by decide, by decide, by decide, by decide, by decide, by decide,
    hloop, fun fuel => ?_⟩
  simp only [mm_malloc]
  rw [if_neg (by decide), show adjust_size 100 = 112 by decide, hloop fuel]

end MallocLab
